import Mathlib

/-!
# Klondike Solitaire for Pebble: rules engine, cursor automaton and persistence

A shallow embedding of `src/solitaire.c`.

* The C globals become the fields of `State`; every C function becomes a Lean
  function on `State` (a function that both returns a value and writes globals
  returns a pair).
* `int` is `Int`.  `x >> 2` on an `int` is the arithmetic shift, i.e. floor
  division by 4, which is `x / 4` on `Int`; C `%` truncates towards zero and is
  `Int.tmod`.
* A C array is a total map from the index to the stored value.  An access outside
  the declared bounds is undefined behaviour in C and has no meaning here; the
  invariants proved below bound every index that the reachable states use.
* `while (true)` and `do .. while` loops take a fuel argument and yield `none`
  when it runs out; counted `for` loops iterate a fixed number of times.
* Rendering, menus and the vibration alert are not modelled.
-/

namespace Solitaire

/-! ## State -/

/-- The globals of `solitaire.c` that the game logic reads or writes. -/
structure State where
  score : Int
  seed : Int
  deck : Int → Int
  stock_count : Int
  talon : Int
  talon_showing : Int
  flips : Int
  stock : Int → Int
  foundation : Int → Int
  tableau : Int → Int → Int
  hidden_count : Int → Int
  tableau_count : Int → Int
  mode : Int
  selection : Int
  source : Int
  win : Bool
  draw_setting : Int
  fliplimit_setting : Int
  score_setting : Int

/-- Array store `a[i] = v`. -/
def setAt (a : Int → Int) (i v : Int) : Int → Int :=
  fun j => if j = i then v else a j

/-- Array store `a[i][j] = v` on a two-dimensional array. -/
def setAt2 (a : Int → Int → Int) (i j v : Int) : Int → Int → Int :=
  fun p => if p = i then setAt (a p) j v else a p

/-- Counted loop `for (i = a; i < a + n; ++i) body`, for a body that does not
write the loop bounds. -/
def forRange {σ : Type} (body : Int → σ → σ) : Nat → Int → σ → σ
  | 0, _, s => s
  | n + 1, i, s => forRange body n (i + 1) (body i s)

/-- All globals zero, as C initialises statics before `init` runs. -/
def zeroState : State where
  score := 0
  seed := 0
  deck := fun _ => 0
  stock_count := 0
  talon := 0
  talon_showing := 0
  flips := 0
  stock := fun _ => 0
  foundation := fun _ => 0
  tableau := fun _ _ => 0
  hidden_count := fun _ => 0
  tableau_count := fun _ => 0
  mode := 0
  selection := 0
  source := 0
  win := false
  draw_setting := 0
  fliplimit_setting := 0
  score_setting := 0

/-! ## Game logic -/

/-- `get_source_card` (lines 105-121); 7 is `PILE_TALON`, 8 is `PILE_FOUNDATIONS`. -/
def get_source_card (s : State) : Int :=
  if s.source < 0 ∨ s.source ≥ 8 then -1
  else if s.source = 7 then
    if s.stock_count < s.talon_showing + 1 then -1
    else s.stock (s.talon + s.talon_showing)
  else if s.tableau_count s.source = 0 then -1
  else s.tableau s.source (s.tableau_count s.source - 1)

/-- `tableau_flip_top_card` (lines 123-129). -/
def tableau_flip_top_card (s : State) : State :=
  if s.hidden_count s.source > 0 ∧ s.tableau_count s.source = s.hidden_count s.source then
    { s with hidden_count := setAt s.hidden_count s.source (s.hidden_count s.source - 1) }
  else s

/-- Body of the compaction loop of `remove_source_card`: `stock[i] = stock[i + 1]`. -/
def shift_stock (i : Int) (s : State) : State :=
  { s with stock := setAt s.stock i (s.stock (i + 1)) }

/-- `remove_source_card` (lines 131-153). -/
def remove_source_card (s : State) : State :=
  if s.source = 7 then
    let s1 := { s with stock_count := s.stock_count - 1 }
    let s2 := forRange shift_stock (s1.stock_count - (s1.talon + s1.talon_showing)).toNat
      (s1.talon + s1.talon_showing) s1
    if s2.talon > 0 then
      if s2.talon_showing > 0 then { s2 with talon_showing := s2.talon_showing - 1 }
      else { s2 with talon := s2.talon - 1 }
    else s2
  else
    tableau_flip_top_card
      { s with tableau_count := setAt s.tableau_count s.source (s.tableau_count s.source - 1) }

/-- `tableau_rules_met` (lines 155-181); the destination is pile `selection`. -/
def tableau_rules_met (s : State) (src_rank src_suit : Int) (king_allowed_on_empty : Bool) :
    Bool :=
  if s.tableau_count s.selection > 0 then
    let dest_card := s.tableau s.selection (s.tableau_count s.selection - 1)
    let dest_rank := dest_card / 4
    if src_rank = dest_rank - 1 then
      let dest_suit := Int.tmod dest_card 4
      if src_suit / 2 ≠ dest_suit / 2 then true else false
    else false
  else
    if src_rank = 12 ∧ king_allowed_on_empty = true then true else false

/-- `multiple_cards_are_showing` (lines 183-186). -/
def multiple_cards_are_showing (s : State) (i : Int) : Bool :=
  decide (s.tableau_count i > 0) && decide (s.tableau_count i ≠ s.hidden_count i + 1)

/-- `can_move_single_card_to_tableau` (lines 188-208). -/
def can_move_single_card_to_tableau (s : State) : Bool :=
  if s.selection = s.source then false
  else
    let src_card := get_source_card s
    if src_card < 0 then false
    else tableau_rules_met s (src_card / 4) (Int.tmod src_card 4) true

/-- `can_move_pile_to_tableau` (lines 210-226); 6 is `PILE_TABLEAU_RIGHT`. -/
def can_move_pile_to_tableau (s : State) : Bool :=
  if s.selection = s.source ∨ s.source > 6 ∨ multiple_cards_are_showing s s.source = false then
    false
  else
    let src_card := s.tableau s.source (s.hidden_count s.source)
    tableau_rules_met s (src_card / 4) (Int.tmod src_card 4)
      (decide (s.hidden_count s.source > 0))

/-- `can_move_to_tableau` (lines 228-231). -/
def can_move_to_tableau (s : State) : Bool :=
  can_move_single_card_to_tableau s || can_move_pile_to_tableau s

/-- Body of the copy loop of `move_to_tableau`:
`tableau[selection][tableau_count[selection]] = tableau[source][i]; ++tableau_count[selection]`. -/
def copy_card (i : Int) (s : State) : State :=
  { s with
    tableau := setAt2 s.tableau s.selection (s.tableau_count s.selection) (s.tableau s.source i)
    tableau_count := setAt s.tableau_count s.selection (s.tableau_count s.selection + 1) }

/-- `move_to_tableau` (lines 233-252).  The pile loop runs from `hidden_count[source]`
up to `tableau_count[source]`; on that branch `selection ≠ source`, so its body never
writes `tableau_count[source]` and the bound is the one read at loop entry. -/
def move_to_tableau (s : State) : State :=
  if can_move_single_card_to_tableau s then
    let s1 := { s with
      tableau := setAt2 s.tableau s.selection (s.tableau_count s.selection) (get_source_card s) }
    let s2 := { s1 with
      tableau_count := setAt s1.tableau_count s1.selection (s1.tableau_count s1.selection + 1) }
    remove_source_card s2
  else if can_move_pile_to_tableau s then
    let s1 := forRange copy_card (s.tableau_count s.source - s.hidden_count s.source).toNat
      (s.hidden_count s.source) s
    let s2 := { s1 with
      tableau_count := setAt s1.tableau_count s1.source (s1.hidden_count s1.source) }
    tableau_flip_top_card s2
  else s

/-- The scan of `can_move_to_foundations` over the slots `i`, `i + 1`, ... (`n` of
them left): `continue` moves to the next slot, `break` returns the slot. -/
def foundation_scan (s : State) (src_rank src_suit : Int) : Nat → Int → Int
  | 0, i => i
  | n + 1, i =>
    let dest_card := s.foundation i
    if dest_card = -1 then
      if src_rank ≠ 0 then foundation_scan s src_rank src_suit n (i + 1) else i
    else
      let dest_suit := Int.tmod dest_card 4
      if src_suit ≠ dest_suit then foundation_scan s src_rank src_suit n (i + 1)
      else
        let dest_rank := dest_card / 4
        if src_rank = dest_rank + 1 then i
        else foundation_scan s src_rank src_suit n (i + 1)

/-- `can_move_to_foundations` (lines 254-300); 4 is `PILE_FOUNDATION_RIGHT + 1`. -/
def can_move_to_foundations (s : State) : Int :=
  let src_card := get_source_card s
  if src_card < 0 then 4
  else foundation_scan s (src_card / 4) (Int.tmod src_card 4) 4 0

/-- The win scan of `move_to_foundation`: the first slot below 48, or past the last
slot when there is none. -/
def win_scan (s : State) : Nat → Int → Int
  | 0, i => i
  | n + 1, i => if s.foundation i < 48 then i else win_scan s n (i + 1)

/-- `move_to_foundation` (lines 302-332); the vibration is not modelled. -/
def move_to_foundation (s : State) : Bool × State :=
  let i := can_move_to_foundations s
  if i ≤ 3 then
    let s1 := { s with foundation := setAt s.foundation i (get_source_card s) }
    let s2 := remove_source_card s1
    let s3 := { s2 with score := s2.score + 5 }
    let j := win_scan s3 4 0
    if j > 3 then (true, { s3 with win := true }) else (true, s3)
  else (false, s)

/-- One pass of the `for` loop of `automatically_move_to_foundations` over the piles
`i`, `i + 1`, ... (`n` of them left), threading the `success` flag. -/
def sweep_pass : Nat → Int → Bool × State → Bool × State
  | 0, _, r => r
  | n + 1, i, r =>
    if r.2.tableau_count i > 0 then
      let m := move_to_foundation { r.2 with source := i }
      sweep_pass n (i + 1) (if m.1 then (true, m.2) else (r.1, m.2))
    else sweep_pass n (i + 1) r

/-- `automatically_move_to_foundations` (lines 334-349): passes repeat while one of
them moved a card. -/
def automatically_move_to_foundations : Nat → State → Option State
  | 0, _ => none
  | fuel + 1, s =>
    let r := sweep_pass 7 0 (false, s)
    if r.1 then automatically_move_to_foundations fuel r.2 else some r.2

/-- `deal_card_from_stock` (lines 351-372). -/
def deal_card_from_stock (s : State) : State :=
  if s.stock_count > s.talon_showing + 1 then
    let s1 :=
      if s.talon + s.talon_showing + 1 = s.stock_count then
        if s.fliplimit_setting = 0 ∨ (s.fliplimit_setting = 2 ∧ s.flips < 1)
            ∨ (s.fliplimit_setting = 3 ∧ s.flips < 3) then
          { s with talon := 0, flips := s.flips + 1 }
        else s
      else { s with talon := s.talon + (s.talon_showing + 1) }
    if s1.draw_setting ≠ 0 then
      let s2 := { s1 with talon_showing := s1.stock_count - s1.talon - 1 }
      if s2.talon_showing > 2 then { s2 with talon_showing := 2 } else s2
    else s1
  else s

/-! ## Pile selection -/

/-- The search loop of `source_pile_is_valid` over `selection`, `selection + 1`, ...
(`n` values left); every exit restores `selection`. -/
def source_scan (saved_selection : Int) : Nat → State → Bool × State
  | 0, s => (false, { s with selection := saved_selection })
  | n + 1, s =>
    if can_move_to_tableau s then (true, { s with selection := saved_selection })
    else source_scan saved_selection n { s with selection := s.selection + 1 }

/-- `source_pile_is_valid` (lines 377-403); it writes `source`. -/
def source_pile_is_valid (s : State) : Bool × State :=
  let saved_selection := s.selection
  if s.selection = 7 then (true, s)
  else
    let s1 := { s with source := s.selection }
    if can_move_to_foundations s1 ≤ 3 then (true, s1)
    else source_scan saved_selection 7 { s1 with selection := 0 }

/-- The loop of `select_talon` over the piles `i`, `i + 1`, ... (`n` of them left);
falling out of it selects the talon. -/
def talon_scan : Nat → Int → State → State
  | 0, _, s => { s with selection := 7 }
  | n + 1, i, s =>
    let r := source_pile_is_valid { s with selection := i }
    if r.1 then r.2 else talon_scan n (i + 1) r.2

/-- `select_talon` (lines 405-428). -/
def select_talon (s : State) : State :=
  if s.win then s
  else
    let s1 := { s with mode := 0 }
    if s1.stock_count < 1 then talon_scan 7 0 s1 else { s1 with selection := 7 }

/-- `destination_pile_is_valid` (lines 430-439). -/
def destination_pile_is_valid (s : State) : Bool :=
  if s.selection = 8 then decide (can_move_to_foundations s ≤ 3)
  else can_move_to_tableau s

/-- The `while (true)` loop of `select_next_valid_pile` in source mode. -/
def next_source : Nat → State → Option State
  | 0, _ => none
  | fuel + 1, s =>
    let s1 := { s with selection := s.selection + 1 }
    let s2 := if s1.selection ≥ 8 then { s1 with selection := 0 } else s1
    let r := source_pile_is_valid s2
    if r.1 then
      if r.2.selection = 7 then some (select_talon r.2) else some r.2
    else next_source fuel r.2

/-- The `while (true)` loop of `select_next_valid_pile` in destination mode, with the
local `wrapped`. -/
def next_destination : Nat → Int → State → Option State
  | 0, _, _ => none
  | fuel + 1, wrapped, s =>
    let s1 := { s with selection := s.selection + 1 }
    let s2 := if s1.selection = 7 then { s1 with selection := 8 } else s1
    let s3 := if s2.selection > 8 then { s2 with selection := 0 } else s2
    if wrapped = s3.selection then some (select_talon { s3 with mode := 0 })
    else
      let wrapped1 := if wrapped = -1 then s3.selection else wrapped
      if destination_pile_is_valid s3 then some s3
      else next_destination fuel wrapped1 s3

/-- `select_next_valid_pile` (lines 441-490). -/
def select_next_valid_pile (fuel : Nat) (s : State) : Option State :=
  if s.mode = 0 then next_source fuel s else next_destination fuel (-1) s

/-- `select_valid_pile` (lines 492-503). -/
def select_valid_pile (fuel : Nat) (s : State) : Option State :=
  if s.mode = 0 then
    let r := source_pile_is_valid s
    if r.1 then some r.2 else select_next_valid_pile fuel r.2
  else
    if destination_pile_is_valid s then some s else select_next_valid_pile fuel s

/-! ## Game controls -/

/-- `up_click_handler` (lines 508-518). -/
def up_click_handler (fuel : Nat) (s : State) : Option State :=
  if s.win then some s else select_next_valid_pile fuel s

/-- `select_click_handler` (lines 521-546). -/
def select_click_handler (fuel : Nat) (s : State) : Option State :=
  if s.win then some s
  else if s.mode = 0 then
    let r := source_pile_is_valid s
    if r.1 then
      select_valid_pile fuel { r.2 with mode := 1, source := r.2.selection, selection := 8 }
    else some r.2
  else if s.selection = 8 then
    some (select_talon { (move_to_foundation s).2 with mode := 0 })
  else
    select_valid_pile fuel { move_to_tableau s with mode := 0 }

/-- `down_click_handler` (lines 548-559). -/
def down_click_handler (s : State) : State :=
  if s.win then s
  else select_talon (if s.mode = 0 then deal_card_from_stock s else s)

/-- `long_down_click_handler` (lines 561-571). -/
def long_down_click_handler (fuel : Nat) (s : State) : Option State :=
  if s.win then some s
  else
    match automatically_move_to_foundations fuel s with
    | none => none
    | some s1 => select_valid_pile fuel { s1 with mode := 0 }

/-! ## Game initialisation -/

/-- `rnd` (lines 751-760).  The product is masked to 31 bits, so the new seed is the
exact value reduced modulo `2^31`; `seed >> 26` is division by `2^26`. -/
def rnd : Nat → Int → State → Option (Int × State)
  | 0, _, _ => none
  | fuel + 1, max, s =>
    let s1 := { s with seed := (s.seed * 214013 + 2531011) % 2147483648 }
    let v := s1.seed / 67108864
    if v > max then rnd fuel max s1 else some (v, s1)

/-- The Fisher-Yates loop of `shuffle_and_deal`, for `i` from `n` down to 1. -/
def shuffle_loop (fuel : Nat) : Nat → State → Option State
  | 0, s => some s
  | n + 1, s =>
    match rnd fuel ((n : Int) + 1) s with
    | none => none
    | some (j, s1) =>
      let k := s1.deck j
      let d1 := setAt s1.deck j (s1.deck ((n : Int) + 1))
      shuffle_loop fuel n { s1 with deck := setAt d1 ((n : Int) + 1) k }

/-- Inner deal loop `for (j = ..; j <= i; ++j, ++k) tableau[i][j] = deck[k]`, with `n`
iterations left; it returns the final `k`. -/
def deal_cells (i : Int) : Nat → Int → Int → State → Int × State
  | 0, _, k, s => (k, s)
  | n + 1, j, k, s =>
    deal_cells i n (j + 1) (k + 1) { s with tableau := setAt2 s.tableau i j (s.deck k) }

/-- Outer deal loop over the piles `i`, `i + 1`, ... (`n` of them left): fill pile `i`
with `i + 1` cards, then set its counts. -/
def deal_piles : Nat → Int → Int → State → State
  | 0, _, _, s => s
  | n + 1, i, k, s =>
    let r := deal_cells i (i + 1).toNat 0 k s
    deal_piles n (i + 1) r.1 { r.2 with
      hidden_count := setAt r.2.hidden_count i i
      tableau_count := setAt r.2.tableau_count i (i + 1) }

/-- `shuffle_and_deal` (lines 762-802); `now` is the value of `time(NULL)`. -/
def shuffle_and_deal (fuel : Nat) (now : Int) (s : State) : Option State :=
  let s1 := { s with seed := now }
  let s2 := forRange (fun i (t : State) => { t with deck := setAt t.deck i i }) 52 0 s1
  match shuffle_loop fuel 51 s2 with
  | none => none
  | some s3 =>
    let s4 := forRange (fun i (t : State) => { t with stock := setAt t.stock i (t.deck i) }) 24 0 s3
    let s5 := { s4 with
      stock_count := 24
      talon := 0
      talon_showing := if s4.draw_setting ≠ 0 then 2 else 0 }
    let s6 := forRange (fun i (t : State) => { t with foundation := setAt t.foundation i (-1) })
      4 0 s5
    let s7 := deal_piles 7 0 24 s6
    some (select_talon { s7 with win := false, score := s7.score - 52, flips := 0 })

/-! ## Serialization -/

/-- Conversion of an `int` to `unsigned char`. -/
def toByte (x : Int) : Int := x % 256

/-- Inner loop of `save_state`: `for (j = ..; j < tableau_count[i]; ++j, ++b)
state[b] = tableau[i][j]`, with `n` iterations left; it returns the final `b`. -/
def save_cards (s : State) (i : Int) : Nat → Int → Int → (Int → Int) → Int × (Int → Int)
  | 0, _, b, st => (b, st)
  | n + 1, j, b, st => save_cards s i n (j + 1) (b + 1) (setAt st b (toByte (s.tableau i j)))

/-- Pile loop of `save_state` over the piles `i`, `i + 1`, ... (`n` of them left). -/
def save_piles (s : State) : Nat → Int → Int → (Int → Int) → (Int → Int)
  | 0, _, _, st => st
  | n + 1, i, b, st =>
    let st1 := setAt st (6 + i) (toByte (s.tableau_count i))
    let st2 := setAt st1 (13 + i) (toByte (s.hidden_count i))
    let r := save_cards s i (s.tableau_count i).toNat 0 b st2
    save_piles s n (i + 1) r.1 r.2

/-- The local `state[82]` of `save_state` (lines 820-851) when it is handed to
`persist_write_data`; `junk` is the content of the uninitialised local.  `memcpy` of
the 32-bit `score` stores its four bytes, least significant first. -/
def save_buffer (junk : Int → Int) (s : State) : Int → Int :=
  let st0 := setAt junk 0 (toByte s.stock_count)
  let st1 := forRange (fun i st => setAt st (20 + i) (toByte (s.stock i)))
    s.stock_count.toNat 0 st0
  let st2 := setAt st1 1 (toByte s.talon)
  let st3 := forRange (fun i st => setAt st (2 + i) (toByte (s.foundation i))) 4 0 st2
  let st4 := save_piles s 7 0 (20 + s.stock_count) st3
  let st5 := setAt st4 72 (if s.win then 1 else 0)
  let st6 := setAt st5 73 (toByte s.draw_setting)
  let st7 := setAt st6 74 (toByte s.fliplimit_setting)
  let st8 := setAt st7 75 (toByte s.score_setting)
  let st9 := setAt st8 76 (toByte s.flips)
  let st10 := setAt st9 77 (toByte s.talon_showing)
  let st11 := setAt st10 78 (toByte s.score)
  let st12 := setAt st11 79 (toByte (s.score / 256))
  let st13 := setAt st12 80 (toByte (s.score / 65536))
  setAt st13 81 (toByte (s.score / 16777216))

/-- `save_state`: the 82 bytes written to the persistent store. -/
def save_state (junk : Int → Int) (s : State) : List Int :=
  (List.range 82).map (fun (i : Nat) => save_buffer junk s (i : Int))

/-- The platform call `persist_read_data(key, buffer, size)`: it copies at most `size`
stored bytes into the buffer and returns their number, or a negative status when the
key holds nothing. -/
def persist_read_data (stored : Option (List Int)) (buffer : Int → Int) (size : Nat) :
    Int × (Int → Int) :=
  match stored with
  | none => (-1, buffer)
  | some bytes =>
    ((min bytes.length size : Nat),
      fun i => if 0 ≤ i ∧ i < (min bytes.length size : Nat) then bytes.getD i.toNat 0
        else buffer i)

/-- Inner loop of `load_state`: `tableau[i][j] = state[b]`, with `n` iterations left. -/
def load_cards (st : Int → Int) (i : Int) : Nat → Int → Int → State → Int × State
  | 0, _, b, s => (b, s)
  | n + 1, j, b, s =>
    load_cards st i n (j + 1) (b + 1) { s with tableau := setAt2 s.tableau i j (st b) }

/-- Pile loop of `load_state` over the piles `i`, `i + 1`, ... (`n` of them left). -/
def load_piles (st : Int → Int) : Nat → Int → Int → State → State
  | 0, _, _, s => s
  | n + 1, i, b, s =>
    let s1 := { s with tableau_count := setAt s.tableau_count i (st (6 + i)) }
    let s2 := { s1 with hidden_count := setAt s1.hidden_count i (st (13 + i)) }
    let r := load_cards st i (s2.tableau_count i).toNat 0 b s2
    load_piles st n (i + 1) r.1 r.2

/-- The 32-bit `int` whose four bytes, least significant first, are given. -/
def int_of_bytes (b0 b1 b2 b3 : Int) : Int :=
  let u := b0 + 256 * b1 + 65536 * b2 + 16777216 * b3
  if u ≥ 2147483648 then u - 4294967296 else u

/-- Foundation loop body of `load_state`: 255 is read back as the empty marker. -/
def load_foundation (st : Int → Int) (i : Int) (s : State) : State :=
  let s1 := { s with foundation := setAt s.foundation i (st (2 + i)) }
  if s1.foundation i = 255 then { s1 with foundation := setAt s1.foundation i (-1) } else s1

/-- `load_state` (lines 853-893); `stored` is what the persistent store holds under
key 0 and `junk` the content of the uninitialised local buffer. -/
def load_state (stored : Option (List Int)) (junk : Int → Int) (s : State) : Bool × State :=
  let r := persist_read_data stored junk 82
  let st := r.2
  if r.1 ≠ 82 then (false, s)
  else
    let s1 := { s with
      win := decide (st 72 ≠ 0)
      draw_setting := st 73
      fliplimit_setting := st 74
      score_setting := st 75
      flips := st 76
      talon_showing := st 77
      score := int_of_bytes (st 78) (st 79) (st 80) (st 81) }
    let s2 := { s1 with stock_count := st 0 }
    let s3 := forRange (fun i (t : State) => { t with stock := setAt t.stock i (st (20 + i)) })
      s2.stock_count.toNat 0 s2
    let s4 := { s3 with talon := st 1 }
    let s5 := forRange (load_foundation st) 4 0 s4
    let s6 := load_piles st 7 0 (20 + s5.stock_count) s5
    (true, select_talon s6)

/-! ## Menus and app initialisation -/

/-- `game_menu_select_callback` (lines 929-943): item 1 is "Re-deal". -/
def game_menu_select_callback (fuel : Nat) (now : Int) (index : Int) (s : State) :
    Option State :=
  if index = 1 then shuffle_and_deal fuel now s else some s

/-- `settings_menu_select_callback` (lines 945-974): draw mode, flip limit, score
visibility. -/
def settings_menu_select_callback (index : Int) (s : State) : State :=
  if index = 0 then
    if s.draw_setting = 0 then
      let s1 := { s with draw_setting := 1 }
      let s2 := { s1 with talon_showing := s1.stock_count - s1.talon - 1 }
      if s2.talon_showing > 2 then { s2 with talon_showing := 2 } else s2
    else { s with draw_setting := 0, talon_showing := 0 }
  else if index = 1 then
    { s with fliplimit_setting := Int.tmod (s.fliplimit_setting + 1) 4 }
  else if index = 2 then
    { s with score_setting := Int.tmod (s.score_setting + 1) 2 }
  else s

/-- `tools_menu_select_callback` (lines 976-995): item 0 is "Reset Score". -/
def tools_menu_select_callback (index : Int) (s : State) : State :=
  if index = 0 then { s with score := 0 } else s

/-- `init` (lines 1063-1076), without the window set-up. -/
def init (fuel : Nat) (now : Int) (stored : Option (List Int)) (junk : Int → Int)
    (s : State) : Option State :=
  let r := load_state stored junk s
  if r.1 then some r.2 else shuffle_and_deal fuel now { r.2 with score := 0 }

/-! ## Specification vocabulary -/

/-- Rank of a card: 0 is the Ace, 12 the King. -/
def rank_of (card : Int) : Int := card / 4

/-- Suit of a card: 0 spade, 1 club, 2 heart, 3 diamond. -/
def suit_of (card : Int) : Int := card % 4

/-- Colour of a suit: 0 for the black suits, 1 for the red ones. -/
def colour_of (suit : Int) : Int := suit / 2

/-- Tableau legality as the specification words it: a card of rank `r` and suit `su`
may land on pile `d` when (a) `d` is non-empty and its top card has rank `r + 1` and
the opposite colour, or (b) `d` is empty, `r` is the King and kings are allowed on an
empty pile. -/
def tableau_legal (s : State) (d r su : Int) (king_allowed_on_empty : Bool) : Prop :=
  (0 < s.tableau_count d
      ∧ rank_of (s.tableau d (s.tableau_count d - 1)) = r + 1
      ∧ colour_of (suit_of (s.tableau d (s.tableau_count d - 1))) ≠ colour_of su)
    ∨ (s.tableau_count d = 0 ∧ r = 12 ∧ king_allowed_on_empty = true)

/-- Every card stored in the live part of pile `d` is one of the 52 cards. -/
def pile_cards_valid (s : State) (d : Int) : Prop :=
  ∀ j, 0 ≤ j → j < s.tableau_count d → 0 ≤ s.tableau d j ∧ s.tableau d j ≤ 51

/-- The tableau invariant of the data model on pile `p`: the counts are ordered and a
non-empty pile shows at least one card. -/
def pile_counts_ok (s : State) (p : Int) : Prop :=
  0 ≤ s.hidden_count p ∧ s.hidden_count p ≤ s.tableau_count p
    ∧ (0 < s.tableau_count p → s.hidden_count p < s.tableau_count p)

/-- Foundation slots hold the empty marker `-1` or a card. -/
def foundations_ok (s : State) : Prop :=
  ∀ i, 0 ≤ i → i ≤ 3 → -1 ≤ s.foundation i

/-- Slot `i` accepts card `c`: it is empty and `c` is an Ace, or it holds the card of
the same suit one rank below `c`. -/
def slot_qualifies (s : State) (c i : Int) : Prop :=
  (s.foundation i = -1 ∧ rank_of c = 0)
    ∨ (0 ≤ s.foundation i ∧ suit_of (s.foundation i) = suit_of c
        ∧ rank_of (s.foundation i) + 1 = rank_of c)

/-- A state whose pile 2 shows the Ace of Spades on top, with empty foundations. -/
def aceState : State :=
  { zeroState with
    foundation := fun _ => -1
    tableau_count := fun p => if p = 2 then 1 else 0
    source := 2
    selection := 8
    mode := 1 }

/-- A state with a black Six alone on pile 0 and, on pile 2, one hidden card under the
run red Five, black Four; the cursor moves pile 2 onto pile 0. -/
def runState : State :=
  { zeroState with
    foundation := fun _ => -1
    tableau_count := fun p => if p = 0 then 1 else if p = 2 then 3 else 0
    hidden_count := fun p => if p = 2 then 1 else 0
    tableau := fun p j =>
      if p = 0 then 20 else if p = 2 then (if j = 0 then 7 else if j = 1 then 18 else 13) else 0
    source := 2
    selection := 0
    mode := 1 }

/-- The first `n` entries of an array, as a list. -/
def live_cards (a : Int → Int) (n : Int) : List Int :=
  (List.range n.toNat).map (fun (k : Nat) => a (k : Int))

/-- The live stock cards `stock[0..stock_count-1]`. -/
def stock_cards (s : State) : List Int := live_cards s.stock s.stock_count

/-- The live cards of tableau pile `p`, bottom to top. -/
def pile_cards (s : State) (p : Int) : List Int :=
  live_cards (s.tableau p) (s.tableau_count p)

/-- The live cards of the seven tableau piles. -/
def tableau_cards (s : State) : List Int :=
  pile_cards s 0 ++ pile_cards s 1 ++ pile_cards s 2 ++ pile_cards s 3 ++ pile_cards s 4
    ++ pile_cards s 5 ++ pile_cards s 6

/-- The cards that a foundation with stored top `c` stands for: `c`, `c - 4`, ...,
down to the Ace of the suit; none for the empty marker. -/
def foundation_cards (c : Int) : List Int :=
  (List.range (c / 4 + 1).toNat).map (fun (k : Nat) => c - 4 * (k : Int))

/-- The cards of the four foundations. -/
def foundations_cards (s : State) : List Int :=
  foundation_cards (s.foundation 0) ++ foundation_cards (s.foundation 1)
    ++ foundation_cards (s.foundation 2) ++ foundation_cards (s.foundation 3)

/-- Every card held by the stock, the tableau and the foundations. -/
def all_cards (s : State) : List Int :=
  stock_cards s ++ tableau_cards s ++ foundations_cards s

/-- The stock/talon invariant of the data model: the talon window
`[talon, talon + talon_showing]` lies inside the live stock. -/
def talon_window_ok (s : State) : Prop :=
  0 ≤ s.talon ∧ 0 ≤ s.talon_showing ∧ s.talon + s.talon_showing < s.stock_count
    ∧ s.stock_count ≤ 24

/-- A state with three stock cards, all in the draw-three talon window at the start
of the stock, and the talon as source. -/
def windowState : State :=
  { zeroState with
    foundation := fun _ => -1
    stock_count := 3
    stock := fun k => if k = 0 then 10 else if k = 1 then 21 else if k = 2 then 0 else 33
    talon := 0
    talon_showing := 2
    draw_setting := 1
    source := 7
    selection := 8
    mode := 1 }

/-- State `t` differs from `s` at most in the cursor fields `mode`, `selection` and
`source`. -/
def same_board (s t : State) : Prop :=
  ∃ m sel src, t = { s with mode := m, selection := sel, source := src }

/-- One successful foundation move on the four stored tops: a single slot goes from
empty to an Ace, or from a card to the card four above it (same suit, next rank). -/
def foundation_step (f g : Int → Int) : Prop :=
  ∃ i c, 0 ≤ i ∧ i ≤ 3 ∧ g = setAt f i c
    ∧ ((f i = -1 ∧ 0 ≤ c ∧ rank_of c = 0) ∨ (0 ≤ f i ∧ c = f i + 4))

/-- Every foundation top is a King (card value at least 48). -/
def all_kings (f : Int → Int) : Prop := ∀ i, 0 ≤ i → i ≤ 3 → 48 ≤ f i

/-- The pile that the source-mode loop of `select_next_valid_pile` tries after `x`:
the next index, wrapping from 7 to 0. -/
def next_source_index (x : Int) : Int := if x + 1 ≥ 8 then 0 else x + 1

/-- The pile that the destination-mode loop of `select_next_valid_pile` tries after
`x`: the next index, skipping 7 and wrapping from 8 to 0. -/
def next_destination_index (x : Int) : Int :=
  if (if x + 1 = 7 then 8 else x + 1) > 8 then 0 else (if x + 1 = 7 then 8 else x + 1)

/-- Total number of live cards of the `n` tableau piles `i`, `i + 1`, ... -/
def counts_sum (s : State) : Nat → Int → Int
  | 0, _ => 0
  | n + 1, i => s.tableau_count i + counts_sum s n (i + 1)

/-- Offset in the persisted buffer at which the cards of tableau pile `p` start: after
the 20 header bytes, the stock cards and the cards of the piles before `p`. -/
def pile_offset (s : State) (p : Nat) : Int := 20 + s.stock_count + counts_sum s p 0

/-- The value fits the signed 32-bit `int`. -/
def fits_int32 (x : Int) : Prop := -2147483648 ≤ x ∧ x < 2147483648

/-! ## Invariants and reachability -/

/-- The stock and talon fields are in range: the talon window lies inside the live
stock, except in the corner left by a talon removal at the start of the stock, where
`talon = 0` and the window is at least as long as the stock. -/
def stock_ok (s : State) : Prop :=
  0 ≤ s.stock_count ∧ s.stock_count ≤ 24 ∧ 0 ≤ s.talon
    ∧ 0 ≤ s.talon_showing ∧ s.talon_showing ≤ 2
    ∧ (s.talon + s.talon_showing < s.stock_count
        ∨ (s.talon = 0 ∧ s.stock_count ≤ s.talon_showing))
    ∧ (s.draw_setting = 0 → s.talon_showing = 0)

/-- The face-up cards of pile `p` form a run: each card has rank one below, and the
colour opposite to, the card beneath it. -/
def run_ok (s : State) (p : Int) : Prop :=
  ∀ j, s.hidden_count p ≤ j → j + 1 < s.tableau_count p →
    rank_of (s.tableau p (j + 1)) + 1 = rank_of (s.tableau p j)
      ∧ colour_of (suit_of (s.tableau p (j + 1))) ≠ colour_of (suit_of (s.tableau p j))

/-- Pile `p` satisfies the tableau invariant, hides at most six cards and shows a
run. -/
def pile_ok (s : State) (p : Int) : Prop :=
  pile_counts_ok s p ∧ s.hidden_count p ≤ 6 ∧ run_ok s p

/-- Card conservation: every card value 0..51 occurs exactly once among the stock, the
tableau and the foundations, and no other value occurs. -/
def conserved (s : State) : Prop :=
  ∀ c, (all_cards s).count c = if 0 ≤ c ∧ c ≤ 51 then 1 else 0

/-- The invariant of the cards on the board. -/
def board_ok (s : State) : Prop :=
  stock_ok s ∧ (∀ p, 0 ≤ p → p ≤ 6 → pile_ok s p) ∧ foundations_ok s ∧ conserved s
    ∧ 0 ≤ s.flips

/-- The cursor is in range for its mode: a pile or the talon in source mode; in
destination mode a pile or the foundations, with the captured source a pile or the
talon. -/
def cursor_ok (s : State) : Prop :=
  (s.mode = 0 ∧ 0 ≤ s.selection ∧ s.selection ≤ 7)
    ∨ (s.mode = 1 ∧ 0 ≤ s.source ∧ s.source ≤ 7
        ∧ ((0 ≤ s.selection ∧ s.selection ≤ 6) ∨ s.selection = 8))

/-- The invariant of the game: the board invariant, and a cursor in range while the
game is not won. -/
def game_ok (s : State) : Prop := board_ok s ∧ (s.win = false → cursor_ok s)

/-- States reachable from a deal by the four commands. -/
inductive Reachable : State → Prop
  | deal (fuel : Nat) (now : Int) (s0 s : State) :
      shuffle_and_deal fuel now s0 = some s → Reachable s
  | up (fuel : Nat) (s t : State) :
      Reachable s → up_click_handler fuel s = some t → Reachable t
  | select (fuel : Nat) (s t : State) :
      Reachable s → select_click_handler fuel s = some t → Reachable t
  | down (s : State) : Reachable s → Reachable (down_click_handler s)
  | long_down (fuel : Nat) (s t : State) :
      Reachable s → long_down_click_handler fuel s = some t → Reachable t

/-- States reachable from a deal by the four commands and the settings mutators, the
draw-mode toggle being applied to a non-empty stock or towards draw-one. -/
inductive ReachableWithSettings : State → Prop
  | deal (fuel : Nat) (now : Int) (s0 s : State) :
      shuffle_and_deal fuel now s0 = some s → ReachableWithSettings s
  | up (fuel : Nat) (s t : State) :
      ReachableWithSettings s → up_click_handler fuel s = some t → ReachableWithSettings t
  | select (fuel : Nat) (s t : State) :
      ReachableWithSettings s → select_click_handler fuel s = some t →
        ReachableWithSettings t
  | down (s : State) : ReachableWithSettings s → ReachableWithSettings (down_click_handler s)
  | long_down (fuel : Nat) (s t : State) :
      ReachableWithSettings s → long_down_click_handler fuel s = some t →
        ReachableWithSettings t
  | draw_toggle (s : State) :
      ReachableWithSettings s → (0 < s.stock_count ∨ s.draw_setting ≠ 0) →
        ReachableWithSettings (settings_menu_select_callback 0 s)
  | flip_limit (s : State) :
      ReachableWithSettings s → ReachableWithSettings (settings_menu_select_callback 1 s)
  | score_visibility (s : State) :
      ReachableWithSettings s → ReachableWithSettings (settings_menu_select_callback 2 s)
  | score_reset (s : State) :
      ReachableWithSettings s → ReachableWithSettings (tools_menu_select_callback 0 s)

/-- The down command issued `n` times in a row. -/
def press_down : Nat → State → State
  | 0, s => s
  | n + 1, s => press_down n (down_click_handler s)

/-- The board invariant in the middle of a single-card move, when the moved card `x`
has been placed on its destination and not yet removed from its source: `x` is counted
once more than conservation allows. -/
def board_plus (s : State) (x : Int) : Prop :=
  stock_ok s ∧ (∀ p, 0 ≤ p → p ≤ 6 → pile_ok s p) ∧ foundations_ok s
    ∧ (∀ c, (all_cards s).count c
        = (if 0 ≤ c ∧ c ≤ 51 then 1 else 0) + (if x = c then 1 else 0))
    ∧ 0 ≤ s.flips

/-- Number of cards dealt to the `m` piles `i`, `i + 1`, ..., pile `p` receiving
`p + 1` cards. -/
def dealt_before : Nat → Int → Int
  | 0, _ => 0
  | m + 1, i => (i + 1) + dealt_before m (i + 1)

/-- The game dealt at time 0 from the all-zero globals. -/
def dealState : State := (shuffle_and_deal 100 0 zeroState).getD zeroState

/-- One step of the generator of `rnd`: the new seed computed from the old one. -/
def lcg_next (x : Int) : Int := (x * 214013 + 2531011) % 2147483648

/-- The dealt game after 6144 presses of the down button (256 passes through the
24-card stock in draw-one mode without flip limit). -/
def flipState : State := press_down 6144 dealState

/-- The dealt game switched to draw-three mode by the settings menu. -/
def drawThreeState : State := settings_menu_select_callback 0 dealState

/-- A draw-three state whose talon window is the last block of the 24-card stock, with
the flip limit set to "zero". -/
def lastBlockState : State :=
  { zeroState with
    stock_count := 24
    talon := 21
    talon_showing := 2
    draw_setting := 1
    fliplimit_setting := 1 }

/-- The flip limit allows a re-deal: no limit, or "one" / "three" with fewer flips. -/
def flip_allowed (s : State) : Prop :=
  s.fliplimit_setting = 0 ∨ (s.fliplimit_setting = 2 ∧ s.flips < 1)
    ∨ (s.fliplimit_setting = 3 ∧ s.flips < 3)

instance (s : State) : Decidable (flip_allowed s) := by
  unfold flip_allowed
  infer_instance

/-- The `n` destinations that the destination-mode loop of `select_next_valid_pile`
tries after `x`, in order. -/
def destination_walk : Nat → Int → List Int
  | 0, _ => []
  | n + 1, x => next_destination_index x :: destination_walk n (next_destination_index x)

/-- The first pile of the list that is a valid destination for the source of `s`. -/
def first_valid_destination (s : State) (l : List Int) : Option Int :=
  l.find? (fun d => destination_pile_is_valid { s with selection := d })

/-- Where the destination-mode loop ends: on the destination found, or, when there is
none, in source mode through `select_talon`, the selection being then at `w`. -/
def destination_result (s : State) (w : Int) : Option Int → State
  | some d => { s with selection := d }
  | none => select_talon { s with selection := w, mode := 0 }

/-- The cursor is a valid source-mode cursor: the talon or a pile that
`source_pile_is_valid` accepts. -/
def source_valid (s : State) : Prop :=
  s.mode = 0 ∧ 0 ≤ s.selection ∧ s.selection ≤ 7 ∧ (source_pile_is_valid s).1 = true

/-- The cursor is valid for its mode: a valid source in source mode; in destination
mode a pile or the foundations that `destination_pile_is_valid` accepts, with the
captured source a pile or the talon. -/
def cursor_valid (s : State) : Prop :=
  source_valid s
    ∨ (s.mode = 1 ∧ 0 ≤ s.source ∧ s.source ≤ 7
        ∧ ((0 ≤ s.selection ∧ s.selection ≤ 6) ∨ s.selection = 8)
        ∧ destination_pile_is_valid s = true)

/-- A state in destination mode with the Two of Hearts alone on pile 0 and the Ace of
Spades alone on pile 2; the cursor moves the Ace from pile 2 onto pile 0. -/
def twoState : State :=
  { zeroState with
    foundation := fun _ => -1
    tableau_count := fun p => if p = 0 then 1 else if p = 2 then 1 else 0
    tableau := fun p _ => if p = 0 then 6 else 0
    source := 2
    selection := 0
    mode := 1 }

/-- The state in which the select command calls `select_valid_pile` after that move:
the Ace has landed on pile 0 and the mode is back to source. -/
def landedState : State := { move_to_tableau twoState with mode := 0 }

/-- A finished game in draw-one mode: the four Kings are on the foundations, the stock
and the seven piles are empty. -/
def emptyStockState : State :=
  { zeroState with
    foundation := fun i => 48 + i
    win := true }

/-! ## Basic facts about the array and loop primitives -/

@[simp] theorem setAt_same (a : Int → Int) (i v : Int) : setAt a i v i = v := by
  simp [setAt]

theorem setAt_other (a : Int → Int) (i v j : Int) (h : j ≠ i) : setAt a i v j = a j := by
  simp [setAt, h]

theorem setAt_apply (a : Int → Int) (i v j : Int) :
    setAt a i v j = if j = i then v else a j := rfl

theorem setAt2_apply (a : Int → Int → Int) (i j v p q : Int) :
    setAt2 a i j v p q = if p = i ∧ q = j then v else a p q := by
  unfold setAt2 setAt
  by_cases hp : p = i <;> by_cases hq : q = j <;> simp [hp, hq]

theorem tmod_four_of_nonneg (c : Int) (h : 0 ≤ c) : Int.tmod c 4 = c % 4 :=
  Int.tmod_eq_emod h (by decide)

theorem tmod_two_of_nonneg (c : Int) (h : 0 ≤ c) : Int.tmod c 2 = c % 2 :=
  Int.tmod_eq_emod h (by decide)

/-! ## Tableau legality (C4, C5) -/

theorem tableau_rules_met_iff (s : State) (r su : Int) (k : Bool)
    (hcount : 0 ≤ s.tableau_count s.selection)
    (htop : 0 < s.tableau_count s.selection →
      0 ≤ s.tableau s.selection (s.tableau_count s.selection - 1)) :
    tableau_rules_met s r su k = true ↔ tableau_legal s s.selection r su k := by
  unfold tableau_rules_met tableau_legal rank_of colour_of suit_of
  by_cases hpos : s.tableau_count s.selection > 0
  · have h0 := htop hpos
    have hne : s.tableau_count s.selection ≠ 0 := by omega
    simp only [hpos, if_true, tmod_four_of_nonneg _ h0]
    by_cases hr : r = s.tableau s.selection (s.tableau_count s.selection - 1) / 4 - 1
    · by_cases hc : su / 2 = s.tableau s.selection (s.tableau_count s.selection - 1) % 4 / 2
      · simp [hr, hc, hne]
      · have hc2 : ¬ s.tableau s.selection (s.tableau_count s.selection - 1) % 4 / 2 = su / 2 :=
          fun h => hc h.symm
        simp [hr, hc, hc2, hpos]
    · have hr2 : ¬ s.tableau s.selection (s.tableau_count s.selection - 1) / 4 = r + 1 := by
        omega
      simp [hr, hr2, hne]
  · have hz : s.tableau_count s.selection = 0 := by omega
    simp [hz]

/-- C4. Tableau legality: for a source card of rank `r` and suit `su` and a destination
pile `selection` whose cards are in 0..51, `tableau_rules_met` holds exactly when (a) the
pile is non-empty and its top card has rank `r + 1` and the opposite colour, or (b) the
pile is empty, `r` is the King and kings are allowed on empty piles; a King is never
legal on a non-empty pile; and `can_move_single_card_to_tableau` holds exactly when
source and selection differ, a source card exists and (a) or (b) holds for it with the
flag true. -/
theorem tableau_legality (s : State) (r su : Int) (k : Bool)
    (hcount : 0 ≤ s.tableau_count s.selection)
    (hcards : pile_cards_valid s s.selection) :
    (tableau_rules_met s r su k = true ↔ tableau_legal s s.selection r su k)
      ∧ (r = 12 → 0 < s.tableau_count s.selection → tableau_rules_met s r su k = false)
      ∧ (can_move_single_card_to_tableau s = true
          ↔ s.source ≠ s.selection ∧ 0 ≤ get_source_card s
            ∧ tableau_legal s s.selection (rank_of (get_source_card s))
                (suit_of (get_source_card s)) true) := by
  have htop : 0 < s.tableau_count s.selection →
      0 ≤ s.tableau s.selection (s.tableau_count s.selection - 1) :=
    fun h => (hcards _ (by omega) (by omega)).1
  refine ⟨tableau_rules_met_iff s _ _ k hcount htop, ?_, ?_⟩
  · intro hr hpos
    have h1 := hcards (s.tableau_count s.selection - 1) (by omega) (by omega)
    cases hb : tableau_rules_met s r su k
    · rfl
    · exfalso
      have h2 := (tableau_rules_met_iff s _ _ k hcount htop).1 hb
      unfold tableau_legal rank_of at h2
      omega
  · unfold can_move_single_card_to_tableau
    by_cases hs : s.selection = s.source
    · simp [hs]
    · by_cases hg : get_source_card s < 0
      · have : ¬ 0 ≤ get_source_card s := by omega
        simp [hs, hg, this]
      · have hg0 : 0 ≤ get_source_card s := by omega
        have hs2 : s.source ≠ s.selection := fun h => hs h.symm
        simp only [hs, hg, if_false, tmod_four_of_nonneg _ hg0]
        rw [show get_source_card s / 4 = rank_of (get_source_card s) from rfl,
          show get_source_card s % 4 = suit_of (get_source_card s) from rfl,
          tableau_rules_met_iff s _ _ true hcount htop]
        simp [hs2, hg0]

theorem runState_cards_valid (p : Int) : pile_cards_valid runState p := by
  intro j _ _
  simp only [runState]
  split_ifs <;> omega

theorem tableau_legality_witness :
    (tableau_rules_met runState 4 2 true = true ↔ tableau_legal runState runState.selection 4 2 true)
      ∧ ((4 : Int) = 12 → 0 < runState.tableau_count runState.selection →
          tableau_rules_met runState 4 2 true = false)
      ∧ (can_move_single_card_to_tableau runState = true
          ↔ runState.source ≠ runState.selection ∧ 0 ≤ get_source_card runState
            ∧ tableau_legal runState runState.selection (rank_of (get_source_card runState))
                (suit_of (get_source_card runState)) true) :=
  tableau_legality runState 4 2 true (by decide) (runState_cards_valid _)

/-- C5. Full-pile legality: in a state satisfying the tableau invariant, with the
source index non-negative and `selection` a tableau pile, `can_move_pile_to_tableau`
holds exactly when source and selection differ, the source is a tableau pile, it shows
more than one face-up card, and its bottom face-up card satisfies tableau legality on
pile `selection`, an empty pile being allowed only when the source pile has hidden
cards. -/
theorem full_pile_legality (s : State)
    (hsrc : 0 ≤ s.source) (hsel : 0 ≤ s.selection ∧ s.selection ≤ 6)
    (hinv : ∀ p, 0 ≤ p → p ≤ 6 → pile_counts_ok s p)
    (hvalid : ∀ p, 0 ≤ p → p ≤ 6 → pile_cards_valid s p) :
    can_move_pile_to_tableau s = true
      ↔ s.source ≠ s.selection ∧ (0 ≤ s.source ∧ s.source ≤ 6)
        ∧ s.tableau_count s.source - s.hidden_count s.source > 1
        ∧ tableau_legal s s.selection
            (rank_of (s.tableau s.source (s.hidden_count s.source)))
            (suit_of (s.tableau s.source (s.hidden_count s.source)))
            (decide (s.hidden_count s.source > 0)) := by
  have hdest := hvalid s.selection hsel.1 hsel.2
  have hcount : 0 ≤ s.tableau_count s.selection := by
    have := hinv s.selection hsel.1 hsel.2
    unfold pile_counts_ok at this
    omega
  have htop : 0 < s.tableau_count s.selection →
      0 ≤ s.tableau s.selection (s.tableau_count s.selection - 1) :=
    fun h => (hdest _ (by omega) (by omega)).1
  unfold can_move_pile_to_tableau multiple_cards_are_showing
  by_cases hs : s.selection = s.source
  · simp [hs]
  · have hs2 : s.source ≠ s.selection := fun h => hs h.symm
    by_cases h6 : s.source > 6
    · have : ¬ s.source ≤ 6 := by omega
      simp [hs, h6, this]
    · have hle : s.source ≤ 6 := by omega
      obtain ⟨hh0, hhc, hhlt⟩ := hinv s.source hsrc hle
      by_cases hm : s.tableau_count s.source > 0 ∧ s.tableau_count s.source ≠ s.hidden_count s.source + 1
      · have hb0 : 0 ≤ s.tableau s.source (s.hidden_count s.source) :=
          (hvalid s.source hsrc hle _ hh0 (hhlt hm.1)).1
        have hgt : s.tableau_count s.source - s.hidden_count s.source > 1 := by
          have := hhlt hm.1
          omega
        have hcond : ¬ (s.selection = s.source ∨ s.source > 6 ∨
            (decide (s.tableau_count s.source > 0) &&
              decide (s.tableau_count s.source ≠ s.hidden_count s.source + 1)) = false) := by
          simp [hs, h6, hm.1, hm.2]
        rw [if_neg hcond]
        simp only [tmod_four_of_nonneg _ hb0]
        rw [show s.tableau s.source (s.hidden_count s.source) / 4
              = rank_of (s.tableau s.source (s.hidden_count s.source)) from rfl,
          show s.tableau s.source (s.hidden_count s.source) % 4
              = suit_of (s.tableau s.source (s.hidden_count s.source)) from rfl,
          tableau_rules_met_iff s _ _ _ hcount htop]
        simp [hs2, hsrc, hle, hgt]
      · have hngt : ¬ s.tableau_count s.source - s.hidden_count s.source > 1 := by
          intro hgt
          apply hm
          constructor <;> omega
        have hcond : (s.selection = s.source ∨ s.source > 6 ∨
            (decide (s.tableau_count s.source > 0) &&
              decide (s.tableau_count s.source ≠ s.hidden_count s.source + 1)) = false) := by
          right; right
          by_cases h1 : s.tableau_count s.source > 0
          · have h2 : ¬ s.tableau_count s.source ≠ s.hidden_count s.source + 1 :=
              fun h => hm ⟨h1, h⟩
            simp [h1, h2]
          · simp [h1]
        rw [if_pos hcond]
        simp [hngt]

theorem runState_counts_ok (p : Int) : pile_counts_ok runState p := by
  unfold pile_counts_ok
  simp only [runState]
  split_ifs <;> omega

theorem full_pile_legality_witness :
    can_move_pile_to_tableau runState = true
      ↔ runState.source ≠ runState.selection ∧ (0 ≤ runState.source ∧ runState.source ≤ 6)
        ∧ runState.tableau_count runState.source - runState.hidden_count runState.source > 1
        ∧ tableau_legal runState runState.selection
            (rank_of (runState.tableau runState.source (runState.hidden_count runState.source)))
            (suit_of (runState.tableau runState.source (runState.hidden_count runState.source)))
            (decide (runState.hidden_count runState.source > 0)) :=
  full_pile_legality runState (by decide) (by decide) (fun p _ _ => runState_counts_ok p)
    (fun p _ _ => runState_cards_valid p)

/-! ## Foundation legality (C6) -/

/-- The slot test that `foundation_scan` performs, in the source's own terms. -/
theorem foundation_scan_spec (s : State) (r su : Int) (n : Nat) (i : Int) :
    let q := fun j : Int => (s.foundation j = -1 ∧ r = 0)
      ∨ (s.foundation j ≠ -1 ∧ su = Int.tmod (s.foundation j) 4 ∧ r = s.foundation j / 4 + 1)
    i ≤ foundation_scan s r su n i ∧ foundation_scan s r su n i ≤ i + n
      ∧ (foundation_scan s r su n i < i + n → q (foundation_scan s r su n i))
      ∧ ∀ j, i ≤ j → j < foundation_scan s r su n i → ¬ q j := by
  intro q
  induction n generalizing i with
  | zero =>
    simp only [foundation_scan]
    refine ⟨le_refl _, by simp, fun h => absurd h (by simp), fun j h1 h2 => by omega⟩
  | succ n ih =>
    obtain ⟨a1, a2, a3, a4⟩ := ih (i + 1)
    have hstep : ∀ j, i ≤ j → j < foundation_scan s r su n (i + 1) → ¬ q i → ¬ q j := by
      intro j h1 h2 hqi
      by_cases hji : j = i
      · rw [hji]; exact hqi
      · exact a4 j (by omega) h2
    simp only [foundation_scan]
    by_cases h1 : s.foundation i = -1
    · by_cases h2 : r = 0
      · simp only [h1, h2, if_true, ne_eq, not_true_eq_false, if_false]
        refine ⟨le_refl _, by push_cast; omega, fun _ => Or.inl ⟨h1, h2⟩, fun j h3 h4 => by omega⟩
      · have hq : ¬ q i := by
          rintro (⟨_, h⟩ | ⟨h, _⟩)
          · exact h2 h
          · exact h h1
        simp only [h1, h2, if_true, ne_eq, not_false_eq_true]
        refine ⟨by omega, by push_cast; omega, fun h => a3 (by push_cast at h; omega), ?_⟩
        intro j h3 h4
        exact hstep j h3 h4 hq
    · by_cases h2 : su = Int.tmod (s.foundation i) 4
      · by_cases h3 : r = s.foundation i / 4 + 1
        · simp only [h1, if_false, ne_eq, ← h2, not_true_eq_false, ← h3, if_true]
          refine ⟨le_refl _, by push_cast; omega, fun _ => Or.inr ⟨h1, h2, h3⟩,
            fun j h3 h4 => by omega⟩
        · have hq : ¬ q i := by
            rintro (⟨h, _⟩ | ⟨_, _, h⟩)
            · exact h1 h
            · exact h3 h
          simp only [h1, if_false, ne_eq, ← h2, not_true_eq_false, h3]
          refine ⟨by omega, by push_cast; omega, fun h => a3 (by push_cast at h; omega), ?_⟩
          intro j h4 h5
          exact hstep j h4 h5 hq
      · have hq : ¬ q i := by
          rintro (⟨h, _⟩ | ⟨_, h, _⟩)
          · exact h1 h
          · exact h2 h
        simp only [h1, if_false, ne_eq, h2, not_false_eq_true, if_true]
        refine ⟨by omega, by push_cast; omega, fun h => a3 (by push_cast at h; omega), ?_⟩
        intro j h4 h5
        exact hstep j h4 h5 hq

theorem slot_qualifies_iff (s : State) (c i : Int) (hc : 0 ≤ c) (hf : -1 ≤ s.foundation i) :
    ((s.foundation i = -1 ∧ c / 4 = 0)
      ∨ (s.foundation i ≠ -1 ∧ Int.tmod c 4 = Int.tmod (s.foundation i) 4
          ∧ c / 4 = s.foundation i / 4 + 1))
    ↔ slot_qualifies s c i := by
  unfold slot_qualifies rank_of suit_of
  rw [tmod_four_of_nonneg c hc]
  by_cases h1 : s.foundation i = -1
  · simp [h1]
  · have h0 : 0 ≤ s.foundation i := by omega
    rw [tmod_four_of_nonneg _ h0]
    constructor
    · rintro (⟨h, _⟩ | ⟨_, h2, h3⟩)
      · exact absurd h h1
      · exact Or.inr ⟨h0, h2.symm, h3.symm⟩
    · rintro (⟨h, _⟩ | ⟨_, h2, h3⟩)
      · exact absurd h h1
      · exact Or.inr ⟨h1, h2.symm, h3.symm⟩

/-- A slot returned by `can_move_to_foundations` accepts the source card. -/
theorem can_move_to_foundations_qualifies (s : State) (hf : foundations_ok s)
    (h : can_move_to_foundations s ≤ 3) :
    0 ≤ can_move_to_foundations s ∧ 0 ≤ get_source_card s
      ∧ slot_qualifies s (get_source_card s) (can_move_to_foundations s) := by
  have hc : ¬ get_source_card s < 0 := by
    intro hc
    unfold can_move_to_foundations at h
    simp [hc] at h
  have hc0 : 0 ≤ get_source_card s := by omega
  have hscan : can_move_to_foundations s
      = foundation_scan s (get_source_card s / 4) (Int.tmod (get_source_card s) 4) 4 0 := by
    unfold can_move_to_foundations
    simp [hc]
  obtain ⟨b1, _, b3, _⟩ := foundation_scan_spec s (get_source_card s / 4)
    (Int.tmod (get_source_card s) 4) 4 0
  rw [← hscan] at b1 b3
  exact ⟨b1, hc0, (slot_qualifies_iff s _ _ hc0 (hf _ b1 h)).1 (b3 (by push_cast; omega))⟩

/-- C6. Foundation legality: with every foundation slot holding `-1` or a card,
`can_move_to_foundations` returns a value in 0..4; a value `i ≤ 3` is the smallest
slot that is empty while the source card is an Ace, or that holds the card of the same
suit one rank below the source card; the value is 4 exactly when there is no source
card or no slot qualifies.  With the Ace of Spades as source card and four empty
foundations the result is slot 0. -/
theorem foundation_legality (s : State) (hf : foundations_ok s) :
    (0 ≤ can_move_to_foundations s ∧ can_move_to_foundations s ≤ 4)
      ∧ (can_move_to_foundations s ≤ 3 →
          0 ≤ get_source_card s
          ∧ slot_qualifies s (get_source_card s) (can_move_to_foundations s)
          ∧ ∀ j, 0 ≤ j → j < can_move_to_foundations s →
              ¬ slot_qualifies s (get_source_card s) j)
      ∧ (can_move_to_foundations s = 4
          ↔ get_source_card s < 0
            ∨ ∀ j, 0 ≤ j → j ≤ 3 → ¬ slot_qualifies s (get_source_card s) j)
      ∧ (get_source_card s = 0 → (∀ j, 0 ≤ j → j ≤ 3 → s.foundation j = -1) →
          can_move_to_foundations s = 0) := by
  by_cases hc : get_source_card s < 0
  · have h4 : can_move_to_foundations s = 4 := by
      unfold can_move_to_foundations
      simp [hc]
    rw [h4]
    refine ⟨by decide, fun h => absurd h (by decide), ?_, fun h => by omega⟩
    simp [hc]
  · have hc0 : 0 ≤ get_source_card s := by omega
    have hscan : can_move_to_foundations s
        = foundation_scan s (get_source_card s / 4) (Int.tmod (get_source_card s) 4) 4 0 := by
      unfold can_move_to_foundations
      simp [hc]
    obtain ⟨b1, b2, b3, b4⟩ := foundation_scan_spec s (get_source_card s / 4)
      (Int.tmod (get_source_card s) 4) 4 0
    rw [← hscan] at b1 b2 b3 b4
    have hq : ∀ j, 0 ≤ j → j ≤ 3 →
        (((s.foundation j = -1 ∧ get_source_card s / 4 = 0)
          ∨ (s.foundation j ≠ -1 ∧ Int.tmod (get_source_card s) 4 = Int.tmod (s.foundation j) 4
              ∧ get_source_card s / 4 = s.foundation j / 4 + 1))
        ↔ slot_qualifies s (get_source_card s) j) :=
      fun j h0 h3 => slot_qualifies_iff s _ j hc0 (hf j h0 h3)
    refine ⟨⟨b1, by simpa using b2⟩, ?_, ?_, ?_⟩
    · intro h3
      refine ⟨hc0, (hq _ b1 h3).1 (b3 (by push_cast; omega)), ?_⟩
      intro j h0 hlt hqual
      exact b4 j h0 hlt ((hq j h0 (by omega)).2 hqual)
    · constructor
      · intro h4
        right
        intro j h0 hj hqual
        exact b4 j h0 (by omega) ((hq j h0 hj).2 hqual)
      · rintro (h | h)
        · exact absurd h hc
        · by_contra hne
          have h3 : can_move_to_foundations s ≤ 3 := by
            have : can_move_to_foundations s ≤ 4 := by simpa using b2
            omega
          exact h _ b1 h3 ((hq _ b1 h3).1 (b3 (by push_cast; omega)))
    · intro hace hempty
      by_contra hne
      have hpos : 0 < can_move_to_foundations s := by omega
      apply b4 0 (le_refl _) hpos
      left
      exact ⟨hempty 0 (le_refl _) (by decide), by rw [hace]; decide⟩

theorem foundation_legality_witness :
    (0 ≤ can_move_to_foundations aceState ∧ can_move_to_foundations aceState ≤ 4)
      ∧ (can_move_to_foundations aceState ≤ 3 →
          0 ≤ get_source_card aceState
          ∧ slot_qualifies aceState (get_source_card aceState) (can_move_to_foundations aceState)
          ∧ ∀ j, 0 ≤ j → j < can_move_to_foundations aceState →
              ¬ slot_qualifies aceState (get_source_card aceState) j)
      ∧ (can_move_to_foundations aceState = 4
          ↔ get_source_card aceState < 0
            ∨ ∀ j, 0 ≤ j → j ≤ 3 → ¬ slot_qualifies aceState (get_source_card aceState) j)
      ∧ (get_source_card aceState = 0 → (∀ j, 0 ≤ j → j ≤ 3 → aceState.foundation j = -1) →
          can_move_to_foundations aceState = 0) :=
  foundation_legality aceState (fun i _ _ => by simp [aceState])

/-! ## Lists of live cards -/

theorem live_cards_of_nonpos (a : Int → Int) (n : Int) (h : n ≤ 0) : live_cards a n = [] := by
  unfold live_cards
  have : n.toNat = 0 := by omega
  simp [this]

theorem live_cards_length (a : Int → Int) (n : Int) : (live_cards a n).length = n.toNat := by
  simp [live_cards]

theorem live_cards_succ (a : Int → Int) (n : Int) (h : 0 ≤ n) :
    live_cards a (n + 1) = live_cards a n ++ [a n] := by
  unfold live_cards
  have h1 : (n + 1).toNat = n.toNat + 1 := by omega
  have h2 : ((n.toNat : Nat) : Int) = n := by omega
  rw [h1, List.range_succ, List.map_append]
  simp [h2]

theorem live_cards_congr (a b : Int → Int) (n : Int)
    (h : ∀ k, 0 ≤ k → k < n → a k = b k) : live_cards a n = live_cards b n := by
  unfold live_cards
  apply List.map_congr_left
  intro k hk
  rw [List.mem_range] at hk
  exact h k (by omega) (by omega)

theorem mem_live_cards (a : Int → Int) (n c : Int) :
    c ∈ live_cards a n ↔ ∃ k, 0 ≤ k ∧ k < n ∧ a k = c := by
  unfold live_cards
  simp only [List.mem_map, List.mem_range]
  constructor
  · rintro ⟨k, hk, rfl⟩
    exact ⟨k, by omega, by omega, rfl⟩
  · rintro ⟨k, h0, h1, rfl⟩
    refine ⟨k.toNat, by omega, ?_⟩
    congr 1
    omega

/-- Removing the entry at index `p` and closing the gap removes exactly that entry
from the list of live cards. -/
theorem live_cards_erase (a b : Int → Int) (m : Nat) (p : Int) (hp0 : 0 ≤ p)
    (hp : p < (m : Int) + 1)
    (h1 : ∀ k, 0 ≤ k → k < p → b k = a k)
    (h2 : ∀ k, p ≤ k → k < (m : Int) → b k = a (k + 1)) :
    ∃ A B, live_cards a ((m : Int) + 1) = A ++ a p :: B ∧ live_cards b (m : Int) = A ++ B
      ∧ (A.length : Int) = p := by
  induction m with
  | zero =>
    have hp' : p = 0 := by omega
    subst hp'
    refine ⟨[], [], ?_, ?_, by simp⟩
    · simp [live_cards, List.range_succ]
    · simp [live_cards]
  | succ m ih =>
    by_cases hlast : p = (m : Int) + 1
    · refine ⟨live_cards a ((m : Int) + 1), [], ?_, ?_, ?_⟩
      · have := live_cards_succ a ((m : Int) + 1) (by omega)
        rw [hlast]
        push_cast
        simpa using this
      · push_cast
        simp only [List.append_nil]
        apply live_cards_congr
        intro k hk0 hk1
        exact h1 k hk0 (by omega)
      · rw [live_cards_length]
        omega
    · obtain ⟨A, B, e1, e2, e3⟩ := ih (by push_cast at hp; omega)
        (fun k hk0 hk1 => h2 k hk0 (by push_cast; omega))
      refine ⟨A, B ++ [a ((m : Int) + 1)], ?_, ?_, e3⟩
      · have := live_cards_succ a ((m : Int) + 1) (by omega)
        push_cast
        rw [this, e1]
        simp
      · have := live_cards_succ b (m : Int) (by omega)
        push_cast
        rw [this, e2, h2 (m : Int) (by push_cast at hp; omega) (by push_cast; omega)]
        simp

/-! ## `remove_source_card` -/

theorem forRange_shift_stock (n : Nat) (p : Int) (s : State) :
    forRange shift_stock n p s
      = { s with stock := fun k => if p ≤ k ∧ k < p + n then s.stock (k + 1) else s.stock k } := by
  induction n generalizing p s with
  | zero =>
    simp only [forRange]
    have : (fun k => if p ≤ k ∧ k < p + ((0 : Nat) : Int) then s.stock (k + 1) else s.stock k)
        = s.stock := by
      funext k
      have : ¬ (p ≤ k ∧ k < p + ((0 : Nat) : Int)) := by push_cast; omega
      simp [this]
    rw [this]
  | succ n ih =>
    simp only [forRange]
    rw [ih]
    simp only [shift_stock]
    congr 1
    funext k
    simp only [setAt_apply]
    push_cast
    by_cases hk : k = p
    · subst hk
      have c1 : ¬ (k + 1 ≤ k ∧ k < k + 1 + (n : Int)) := by omega
      have c2 : (k ≤ k ∧ k < k + ((n : Int) + 1)) := by omega
      simp [c1, c2]
    · by_cases hr : p + 1 ≤ k ∧ k < p + 1 + (n : Int)
      · have c2 : (p ≤ k ∧ k < p + ((n : Int) + 1)) := by omega
        have c3 : k + 1 ≠ p := by omega
        simp [hr, c2, c3]
      · have c2 : ¬ (p ≤ k ∧ k < p + ((n : Int) + 1)) := by omega
        simp [hr, c2, hk]

theorem remove_source_card_talon (s : State) (h : s.source = 7) :
    remove_source_card s
      = { s with
          stock_count := s.stock_count - 1
          stock := fun k =>
            if s.talon + s.talon_showing ≤ k ∧ k < s.stock_count - 1 then s.stock (k + 1)
            else s.stock k
          talon := if s.talon > 0 ∧ ¬ s.talon_showing > 0 then s.talon - 1 else s.talon
          talon_showing :=
            if s.talon > 0 ∧ s.talon_showing > 0 then s.talon_showing - 1
            else s.talon_showing } := by
  unfold remove_source_card
  simp only [h, if_true, forRange_shift_stock]
  have hfun : (fun k => if s.talon + s.talon_showing ≤ k ∧
        k < s.talon + s.talon_showing
          + ((s.stock_count - 1 - (s.talon + s.talon_showing)).toNat : Int)
      then s.stock (k + 1) else s.stock k)
      = (fun k => if s.talon + s.talon_showing ≤ k ∧ k < s.stock_count - 1 then s.stock (k + 1)
          else s.stock k) := by
    funext k
    by_cases hk : s.talon + s.talon_showing ≤ k ∧ k < s.stock_count - 1
    · have : s.talon + s.talon_showing ≤ k ∧ k < s.talon + s.talon_showing
          + ((s.stock_count - 1 - (s.talon + s.talon_showing)).toNat : Int) := by omega
      rw [if_pos hk, if_pos this]
    · have : ¬ (s.talon + s.talon_showing ≤ k ∧ k < s.talon + s.talon_showing
          + ((s.stock_count - 1 - (s.talon + s.talon_showing)).toNat : Int)) := by omega
      rw [if_neg hk, if_neg this]
  rw [hfun]
  by_cases ht : s.talon > 0
  · by_cases hs : s.talon_showing > 0
    · simp [ht, hs]
    · simp [ht, hs]
  · simp [ht]

theorem remove_source_card_pile (s : State) (h : s.source ≠ 7) :
    remove_source_card s
      = { s with
          tableau_count := setAt s.tableau_count s.source (s.tableau_count s.source - 1)
          hidden_count :=
            if s.hidden_count s.source > 0 ∧ s.tableau_count s.source - 1 = s.hidden_count s.source
            then setAt s.hidden_count s.source (s.hidden_count s.source - 1)
            else s.hidden_count } := by
  unfold remove_source_card tableau_flip_top_card
  simp only [h, if_false, setAt_same]
  by_cases hc : s.hidden_count s.source > 0 ∧ s.tableau_count s.source - 1 = s.hidden_count s.source
  · simp [hc]
  · simp [hc]

/-! ## Foundation move execution (C7) -/

theorem get_source_card_nonneg (s : State) (h : 0 ≤ get_source_card s) :
    (s.source = 7 ∧ s.talon_showing + 1 ≤ s.stock_count
        ∧ get_source_card s = s.stock (s.talon + s.talon_showing))
      ∨ (0 ≤ s.source ∧ s.source ≤ 6 ∧ s.tableau_count s.source ≠ 0
        ∧ get_source_card s = s.tableau s.source (s.tableau_count s.source - 1)) := by
  unfold get_source_card at h ⊢
  by_cases h1 : s.source < 0 ∨ s.source ≥ 8
  · rw [if_pos h1] at h
    omega
  · rw [if_neg h1] at h ⊢
    by_cases h2 : s.source = 7
    · rw [if_pos h2] at h ⊢
      by_cases h3 : s.stock_count < s.talon_showing + 1
      · rw [if_pos h3] at h
        omega
      · rw [if_neg h3]
        exact Or.inl ⟨h2, by omega, rfl⟩
    · rw [if_neg h2] at h ⊢
      by_cases h3 : s.tableau_count s.source = 0
      · rw [if_pos h3] at h
        omega
      · rw [if_neg h3]
        exact Or.inr ⟨by omega, by omega, h3, rfl⟩

theorem can_move_to_foundations_le (s : State) (h : can_move_to_foundations s ≤ 3) :
    0 ≤ get_source_card s := by
  by_contra hc
  unfold can_move_to_foundations at h
  have : get_source_card s < 0 := by omega
  simp [this] at h

theorem can_move_to_foundations_nonneg (s : State) : 0 ≤ can_move_to_foundations s := by
  unfold can_move_to_foundations
  by_cases hc : get_source_card s < 0
  · simp [hc]
  · simp only [hc, if_false]
    exact (foundation_scan_spec s _ _ 4 0).1

theorem move_to_foundation_fail (s : State) (h : ¬ can_move_to_foundations s ≤ 3) :
    move_to_foundation s = (false, s) := by
  unfold move_to_foundation
  simp [h]

theorem move_to_foundation_success (s : State) (h : can_move_to_foundations s ≤ 3) :
    ∃ w : Bool, move_to_foundation s
      = (true, { remove_source_card
          { s with foundation := setAt s.foundation (can_move_to_foundations s) (get_source_card s) }
            with
          score := (remove_source_card
            { s with foundation :=
                setAt s.foundation (can_move_to_foundations s) (get_source_card s) }).score + 5
          win := w }) := by
  unfold move_to_foundation
  simp only [h, if_true]
  split_ifs
  · exact ⟨true, rfl⟩
  · exact ⟨_, rfl⟩

/-- C7. Foundation move execution: when `can_move_to_foundations` returns a slot
`i ≤ 3` (the talon window lying inside the stock when the talon is the source, the
source pile count being non-negative otherwise), `move_to_foundation` returns true,
stores the source card in slot `i`, leaves the other slots unchanged, adds exactly 5 to
the score, and removes exactly the source card from the source: from the stock at the
talon position, or from the top of the source pile; nothing else loses a card. -/
theorem foundation_move_execution (s : State)
    (h3 : can_move_to_foundations s ≤ 3)
    (htal : s.source = 7 → 0 ≤ s.talon + s.talon_showing
      ∧ s.talon + s.talon_showing < s.stock_count)
    (hpile : s.source ≠ 7 → 0 ≤ s.tableau_count s.source) :
    (move_to_foundation s).1 = true
      ∧ (move_to_foundation s).2.foundation (can_move_to_foundations s) = get_source_card s
      ∧ (∀ j, j ≠ can_move_to_foundations s →
          (move_to_foundation s).2.foundation j = s.foundation j)
      ∧ (move_to_foundation s).2.score = s.score + 5
      ∧ (s.source = 7 →
          (∃ A B, stock_cards s = A ++ get_source_card s :: B
            ∧ stock_cards (move_to_foundation s).2 = A ++ B
            ∧ (A.length : Int) = s.talon + s.talon_showing)
          ∧ ∀ p, pile_cards (move_to_foundation s).2 p = pile_cards s p)
      ∧ (s.source ≠ 7 →
          pile_cards s s.source
            = pile_cards (move_to_foundation s).2 s.source ++ [get_source_card s]
          ∧ (∀ p, p ≠ s.source → pile_cards (move_to_foundation s).2 p = pile_cards s p)
          ∧ stock_cards (move_to_foundation s).2 = stock_cards s) := by
  obtain ⟨w, hw⟩ := move_to_foundation_success s h3
  have hc0 := can_move_to_foundations_le s h3
  rw [hw]
  by_cases h7 : s.source = 7
  · have hrem := remove_source_card_talon
      { s with foundation := setAt s.foundation (can_move_to_foundations s) (get_source_card s) }
      h7
    rw [hrem]
    refine ⟨rfl, by simp, fun j hj => by simp [setAt_other _ _ _ _ hj], rfl, ?_,
      fun h => absurd h7 h⟩
    intro _
    refine ⟨?_, fun p => rfl⟩
    obtain ⟨hp0, hp1⟩ := htal h7
    have hcard : get_source_card s = s.stock (s.talon + s.talon_showing) := by
      rcases get_source_card_nonneg s hc0 with ⟨_, _, h⟩ | ⟨_, h, _⟩
      · exact h
      · omega
    have hm : ((s.stock_count - 1).toNat : Int) = s.stock_count - 1 := by omega
    obtain ⟨A, B, e1, e2, e3⟩ := live_cards_erase s.stock
      (fun k => if s.talon + s.talon_showing ≤ k ∧ k < s.stock_count - 1 then s.stock (k + 1)
        else s.stock k)
      (s.stock_count - 1).toNat (s.talon + s.talon_showing) hp0 (by omega)
      (fun k hk0 hk1 => by
        have : ¬ (s.talon + s.talon_showing ≤ k ∧ k < s.stock_count - 1) := by omega
        simp only [this, if_false])
      (fun k hk0 hk1 => by
        have : s.talon + s.talon_showing ≤ k ∧ k < s.stock_count - 1 := by omega
        simp only [this, and_self, if_true])
    rw [hm] at e1 e2
    refine ⟨A, B, ?_, ?_, e3⟩
    · rw [hcard]
      unfold stock_cards
      rw [← e1]
      congr 1
      omega
    · exact e2
  · have hrem := remove_source_card_pile
      { s with foundation := setAt s.foundation (can_move_to_foundations s) (get_source_card s) }
      h7
    rw [hrem]
    refine ⟨rfl, by simp, fun j hj => by simp [setAt_other _ _ _ _ hj], rfl,
      fun h => absurd h h7, ?_⟩
    intro _
    have hcnt := hpile h7
    rcases get_source_card_nonneg s hc0 with ⟨h, _⟩ | ⟨hs0, hs6, hne, hcard⟩
    · exact absurd h h7
    · refine ⟨?_, ?_, rfl⟩
      · unfold pile_cards
        simp only [setAt_same]
        rw [hcard]
        have := live_cards_succ (s.tableau s.source) (s.tableau_count s.source - 1) (by omega)
        simpa using this
      · intro p hp
        unfold pile_cards
        simp only [setAt_other _ _ _ _ hp]

theorem foundation_move_execution_witness :
    (move_to_foundation aceState).1 = true
      ∧ (move_to_foundation aceState).2.foundation (can_move_to_foundations aceState)
          = get_source_card aceState
      ∧ (∀ j, j ≠ can_move_to_foundations aceState →
          (move_to_foundation aceState).2.foundation j = aceState.foundation j)
      ∧ (move_to_foundation aceState).2.score = aceState.score + 5
      ∧ (aceState.source = 7 →
          (∃ A B, stock_cards aceState = A ++ get_source_card aceState :: B
            ∧ stock_cards (move_to_foundation aceState).2 = A ++ B
            ∧ (A.length : Int) = aceState.talon + aceState.talon_showing)
          ∧ ∀ p, pile_cards (move_to_foundation aceState).2 p = pile_cards aceState p)
      ∧ (aceState.source ≠ 7 →
          pile_cards aceState aceState.source
            = pile_cards (move_to_foundation aceState).2 aceState.source
                ++ [get_source_card aceState]
          ∧ (∀ p, p ≠ aceState.source →
              pile_cards (move_to_foundation aceState).2 p = pile_cards aceState p)
          ∧ stock_cards (move_to_foundation aceState).2 = stock_cards aceState) :=
  foundation_move_execution aceState (by decide) (fun h => absurd h (by decide))
    (fun _ => by decide)

/-! ## Talon removal at the start of the stock (C10) -/

/-- C10 (code defect). With three stock cards, all of them in the talon window
(`talon = 0`, `talon_showing = 2`, `stock_count = 3`, so the data-model invariant
holds) and the talon as source, `remove_source_card` leaves `talon_showing = 2` with
only two live stock cards: the window no longer lies inside the stock although the
stock is non-empty, `get_source_card` reports no card, and a stock draw changes
nothing. -/
theorem talon_removal_breaks_window :
    talon_window_ok windowState ∧ windowState.source = 7
      ∧ (remove_source_card windowState).stock_count = 2
      ∧ (remove_source_card windowState).talon = 0
      ∧ (remove_source_card windowState).talon_showing = 2
      ∧ ¬ talon_window_ok (remove_source_card windowState)
      ∧ get_source_card (remove_source_card windowState) = -1
      ∧ deal_card_from_stock (remove_source_card windowState)
          = remove_source_card windowState := by
  refine ⟨by unfold talon_window_ok; decide, by decide, by decide, by decide, by decide,
    by unfold talon_window_ok; decide, by decide, ?_⟩
  unfold deal_card_from_stock
  have h : ¬ (remove_source_card windowState).stock_count
      > (remove_source_card windowState).talon_showing + 1 := by decide
  rw [if_neg h]

/-- Outside that corner the window invariant survives a talon removal: it holds again
whenever the talon cursor is past the start of the stock, or shows a single card, or
more cards remain than the window shows. -/
theorem talon_removal_keeps_window (s : State) (h : talon_window_ok s) (h7 : s.source = 7)
    (hcase : 0 < s.talon ∨ s.talon_showing = 0 ∨ s.talon_showing + 1 < s.stock_count)
    (hne : 0 < (remove_source_card s).stock_count) :
    talon_window_ok (remove_source_card s) := by
  rw [remove_source_card_talon s h7] at hne ⊢
  unfold talon_window_ok at h ⊢
  simp only at hne ⊢
  obtain ⟨a, b, c, d⟩ := h
  by_cases ht : s.talon > 0
  · by_cases hs : s.talon_showing > 0
    · simp only [ht, hs, and_self, if_true, not_true_eq_false, and_false, if_false]
      omega
    · simp only [ht, hs, and_false, if_false, not_false_eq_true, and_self, if_true]
      omega
  · simp only [ht, false_and, if_false]
    omega

/-! ## What the cursor functions leave alone -/

theorem same_board_refl (s : State) : same_board s s := ⟨s.mode, s.selection, s.source, rfl⟩

theorem same_board_trans {s t u : State} (h1 : same_board s t) (h2 : same_board t u) :
    same_board s u := by
  obtain ⟨m1, sel1, src1, rfl⟩ := h1
  obtain ⟨m2, sel2, src2, rfl⟩ := h2
  exact ⟨m2, sel2, src2, rfl⟩

theorem same_board_mode (s : State) (m : Int) : same_board s { s with mode := m } :=
  ⟨m, s.selection, s.source, rfl⟩

theorem same_board_selection (s : State) (x : Int) : same_board s { s with selection := x } :=
  ⟨s.mode, x, s.source, rfl⟩

theorem same_board_source (s : State) (x : Int) : same_board s { s with source := x } :=
  ⟨s.mode, s.selection, x, rfl⟩

theorem source_scan_state (saved : Int) (n : Nat) (s : State) :
    (source_scan saved n s).2 = { s with selection := saved } := by
  induction n generalizing s with
  | zero => rfl
  | succ n ih =>
    simp only [source_scan]
    split_ifs
    · rfl
    · rw [ih]

theorem source_pile_is_valid_state (s : State) :
    (source_pile_is_valid s).2 = if s.selection = 7 then s else { s with source := s.selection } := by
  unfold source_pile_is_valid
  by_cases h7 : s.selection = 7
  · simp [h7]
  · simp only [h7, if_false]
    split_ifs
    · rfl
    · rw [source_scan_state]

theorem source_pile_is_valid_board (s : State) : same_board s (source_pile_is_valid s).2 := by
  rw [source_pile_is_valid_state]
  split_ifs
  · exact same_board_refl s
  · exact same_board_source s _

theorem source_pile_is_valid_selection (s : State) :
    (source_pile_is_valid s).2.selection = s.selection := by
  rw [source_pile_is_valid_state]
  split_ifs <;> rfl

theorem source_pile_is_valid_mode (s : State) :
    (source_pile_is_valid s).2.mode = s.mode := by
  rw [source_pile_is_valid_state]
  split_ifs <;> rfl

theorem talon_scan_board (n : Nat) (i : Int) (s : State) : same_board s (talon_scan n i s) := by
  induction n generalizing i s with
  | zero => exact same_board_selection s 7
  | succ n ih =>
    simp only [talon_scan]
    have h1 : same_board s (source_pile_is_valid { s with selection := i }).2 :=
      same_board_trans (same_board_selection s i) (source_pile_is_valid_board _)
    split_ifs
    · exact h1
    · exact same_board_trans h1 (ih _ _)

theorem select_talon_eq (s : State) :
    select_talon s = if s.win then s
      else if s.stock_count < 1 then talon_scan 7 0 { s with mode := 0 }
      else { s with mode := 0, selection := 7 } := rfl

theorem select_talon_board (s : State) : same_board s (select_talon s) := by
  rw [select_talon_eq]
  split_ifs
  · exact same_board_refl s
  · exact same_board_trans (same_board_mode s 0) (talon_scan_board _ _ _)
  · exact ⟨0, 7, s.source, rfl⟩

theorem next_source_eq (fuel : Nat) (s : State) :
    next_source (fuel + 1) s
      = if (source_pile_is_valid { s with selection := next_source_index s.selection }).1 then
          (if (source_pile_is_valid
                { s with selection := next_source_index s.selection }).2.selection = 7
            then some (select_talon (source_pile_is_valid
                { s with selection := next_source_index s.selection }).2)
            else some (source_pile_is_valid
                { s with selection := next_source_index s.selection }).2)
        else next_source fuel (source_pile_is_valid
            { s with selection := next_source_index s.selection }).2 := by
  simp only [next_source, next_source_index]
  by_cases h : s.selection + 1 ≥ 8 <;> simp only [h, if_true, if_false]

theorem next_source_board (fuel : Nat) (s t : State) (h : next_source fuel s = some t) :
    same_board s t := by
  induction fuel generalizing s with
  | zero => simp [next_source] at h
  | succ n ih =>
    rw [next_source_eq] at h
    have h2 : same_board s (source_pile_is_valid
        { s with selection := next_source_index s.selection }).2 :=
      same_board_trans (same_board_selection s _) (source_pile_is_valid_board _)
    split_ifs at h
    · simp only [Option.some.injEq] at h
      rw [← h]
      exact same_board_trans h2 (select_talon_board _)
    · simp only [Option.some.injEq] at h
      rw [← h]
      exact h2
    · exact same_board_trans h2 (ih _ h)

theorem next_destination_eq (fuel : Nat) (w : Int) (s : State) :
    next_destination (fuel + 1) w s
      = if w = next_destination_index s.selection then
          some (select_talon { s with selection := next_destination_index s.selection, mode := 0 })
        else if destination_pile_is_valid
            { s with selection := next_destination_index s.selection } then
          some { s with selection := next_destination_index s.selection }
        else next_destination fuel (if w = -1 then next_destination_index s.selection else w)
          { s with selection := next_destination_index s.selection } := by
  simp only [next_destination, next_destination_index]
  by_cases h1 : s.selection + 1 = 7
  · simp only [h1, if_true]
    rfl
  · simp only [h1, if_false]
    by_cases h2 : s.selection + 1 > 8
    · simp only [h2, if_true]
    · simp only [h2, if_false]

theorem next_destination_board (fuel : Nat) (w : Int) (s t : State)
    (h : next_destination fuel w s = some t) : same_board s t := by
  induction fuel generalizing s w with
  | zero => simp [next_destination] at h
  | succ n ih =>
    rw [next_destination_eq] at h
    split_ifs at h
    · simp only [Option.some.injEq] at h
      rw [← h]
      exact same_board_trans ⟨0, _, s.source, rfl⟩ (select_talon_board _)
    · simp only [Option.some.injEq] at h
      rw [← h]
      exact same_board_selection s _
    · exact same_board_trans (same_board_selection s _) (ih _ _ h)
    · exact same_board_trans (same_board_selection s _) (ih _ _ h)

theorem select_next_valid_pile_board (fuel : Nat) (s t : State)
    (h : select_next_valid_pile fuel s = some t) : same_board s t := by
  unfold select_next_valid_pile at h
  split_ifs at h
  · exact next_source_board fuel s t h
  · exact next_destination_board fuel _ s t h

theorem select_valid_pile_eq (fuel : Nat) (s : State) :
    select_valid_pile fuel s
      = if s.mode = 0 then
          (if (source_pile_is_valid s).1 then some (source_pile_is_valid s).2
            else select_next_valid_pile fuel (source_pile_is_valid s).2)
        else if destination_pile_is_valid s then some s
        else select_next_valid_pile fuel s := rfl

theorem select_valid_pile_board (fuel : Nat) (s t : State)
    (h : select_valid_pile fuel s = some t) : same_board s t := by
  rw [select_valid_pile_eq] at h
  split_ifs at h
  · simp only [Option.some.injEq] at h
    rw [← h]
    exact source_pile_is_valid_board s
  · exact same_board_trans (source_pile_is_valid_board s) (select_next_valid_pile_board _ _ _ h)
  · simp only [Option.some.injEq] at h
    rw [← h]
    exact same_board_refl s
  · exact select_next_valid_pile_board _ _ _ h

/-! ## What the moves leave alone -/

theorem forRange_copy_card_frame (n : Nat) (i : Int) (s : State) :
    ∃ tb tc, forRange copy_card n i s = { s with tableau := tb, tableau_count := tc } := by
  induction n generalizing i s with
  | zero => exact ⟨s.tableau, s.tableau_count, rfl⟩
  | succ n ih =>
    simp only [forRange]
    obtain ⟨tb, tc, h⟩ := ih (i + 1) (copy_card i s)
    rw [h]
    exact ⟨tb, tc, rfl⟩

theorem tableau_flip_top_card_frame (s : State) :
    ∃ hc, tableau_flip_top_card s = { s with hidden_count := hc } := by
  unfold tableau_flip_top_card
  split_ifs
  · exact ⟨_, rfl⟩
  · exact ⟨s.hidden_count, rfl⟩

theorem remove_source_card_frame (s : State) :
    ∃ sc st tl ts hc tc, remove_source_card s
      = { s with stock_count := sc, stock := st, talon := tl, talon_showing := ts,
                 hidden_count := hc, tableau_count := tc } := by
  by_cases h7 : s.source = 7
  · rw [remove_source_card_talon s h7]
    exact ⟨_, _, _, _, s.hidden_count, s.tableau_count, rfl⟩
  · rw [remove_source_card_pile s h7]
    exact ⟨s.stock_count, s.stock, s.talon, s.talon_showing, _, _, rfl⟩

theorem move_to_tableau_eq (s : State) :
    move_to_tableau s
      = if can_move_single_card_to_tableau s then
          remove_source_card { s with
            tableau := setAt2 s.tableau s.selection (s.tableau_count s.selection)
              (get_source_card s)
            tableau_count := setAt s.tableau_count s.selection
              (s.tableau_count s.selection + 1) }
        else if can_move_pile_to_tableau s then
          tableau_flip_top_card
            { forRange copy_card (s.tableau_count s.source - s.hidden_count s.source).toNat
                (s.hidden_count s.source) s with
              tableau_count := setAt
                (forRange copy_card (s.tableau_count s.source - s.hidden_count s.source).toNat
                  (s.hidden_count s.source) s).tableau_count
                (forRange copy_card (s.tableau_count s.source - s.hidden_count s.source).toNat
                  (s.hidden_count s.source) s).source
                ((forRange copy_card (s.tableau_count s.source - s.hidden_count s.source).toNat
                  (s.hidden_count s.source) s).hidden_count
                  (forRange copy_card (s.tableau_count s.source - s.hidden_count s.source).toNat
                    (s.hidden_count s.source) s).source) }
        else s := rfl

theorem move_to_tableau_frame (s : State) :
    ∃ sc st tl ts tb hc tc, move_to_tableau s
      = { s with stock_count := sc, stock := st, talon := tl, talon_showing := ts,
                 tableau := tb, hidden_count := hc, tableau_count := tc } := by
  rw [move_to_tableau_eq]
  split_ifs
  · obtain ⟨sc, st, tl, ts, hc, tc, h⟩ := remove_source_card_frame { s with
      tableau := setAt2 s.tableau s.selection (s.tableau_count s.selection) (get_source_card s)
      tableau_count := setAt s.tableau_count s.selection (s.tableau_count s.selection + 1) }
    rw [h]
    exact ⟨sc, st, tl, ts, _, hc, tc, rfl⟩
  · obtain ⟨tb, tc, h⟩ := forRange_copy_card_frame
      (s.tableau_count s.source - s.hidden_count s.source).toNat (s.hidden_count s.source) s
    rw [h]
    obtain ⟨hc, h2⟩ := tableau_flip_top_card_frame
      { s with tableau := tb, tableau_count := setAt tc s.source (s.hidden_count s.source) }
    simp only at h2 ⊢
    rw [h2]
    exact ⟨s.stock_count, s.stock, s.talon, s.talon_showing, tb, hc, _, rfl⟩
  · exact ⟨s.stock_count, s.stock, s.talon, s.talon_showing, s.tableau, s.hidden_count,
      s.tableau_count, rfl⟩

theorem deal_card_from_stock_frame (s : State) :
    ∃ tl fl ts, deal_card_from_stock s = { s with talon := tl, flips := fl, talon_showing := ts } := by
  unfold deal_card_from_stock
  simp only
  split_ifs
  all_goals exact ⟨_, _, _, rfl⟩

theorem move_to_foundation_frame (s : State) :
    ∃ fd sc st tl ts hc tc scr w, (move_to_foundation s).2
      = { s with foundation := fd, stock_count := sc, stock := st, talon := tl,
                 talon_showing := ts, hidden_count := hc, tableau_count := tc, score := scr,
                 win := w } := by
  by_cases h : can_move_to_foundations s ≤ 3
  · obtain ⟨w, hw⟩ := move_to_foundation_success s h
    rw [hw]
    obtain ⟨sc, st, tl, ts, hc, tc, h2⟩ := remove_source_card_frame
      { s with foundation := setAt s.foundation (can_move_to_foundations s) (get_source_card s) }
    rw [h2]
    exact ⟨_, sc, st, tl, ts, hc, tc, _, w, rfl⟩
  · rw [move_to_foundation_fail s h]
    exact ⟨s.foundation, s.stock_count, s.stock, s.talon, s.talon_showing, s.hidden_count,
      s.tableau_count, s.score, s.win, rfl⟩

/-! ## Foundation monotonicity (C8) -/

theorem move_to_foundation_foundation (s : State) (h : can_move_to_foundations s ≤ 3) :
    (move_to_foundation s).2.foundation
      = setAt s.foundation (can_move_to_foundations s) (get_source_card s) := by
  obtain ⟨w, hw⟩ := move_to_foundation_success s h
  rw [hw]
  obtain ⟨sc, st, tl, ts, hc, tc, h2⟩ := remove_source_card_frame
    { s with foundation := setAt s.foundation (can_move_to_foundations s) (get_source_card s) }
  rw [h2]

theorem move_to_foundation_flag (s : State) :
    (move_to_foundation s).1 = decide (can_move_to_foundations s ≤ 3) := by
  by_cases h : can_move_to_foundations s ≤ 3
  · obtain ⟨w, hw⟩ := move_to_foundation_success s h
    rw [hw]
    simp [h]
  · rw [move_to_foundation_fail s h]
    simp [h]

theorem move_to_foundation_step (s : State) (hf : foundations_ok s)
    (h : can_move_to_foundations s ≤ 3) :
    foundation_step s.foundation (move_to_foundation s).2.foundation := by
  rw [move_to_foundation_foundation s h]
  obtain ⟨h0, hc0, hqual⟩ := can_move_to_foundations_qualifies s hf h
  refine ⟨can_move_to_foundations s, get_source_card s, h0, h, rfl, ?_⟩
  rcases hqual with ⟨a, b⟩ | ⟨a, b, c⟩
  · exact Or.inl ⟨a, hc0, b⟩
  · right
    refine ⟨a, ?_⟩
    unfold suit_of at b
    unfold rank_of at c
    omega

theorem foundation_step_ok (f g : Int → Int) (h : foundation_step f g)
    (hf : ∀ i, 0 ≤ i → i ≤ 3 → -1 ≤ f i) :
    (∀ i, 0 ≤ i → i ≤ 3 → -1 ≤ g i)
      ∧ ∀ i, 0 ≤ i → i ≤ 3 → f i ≤ g i ∧ (f i ≠ -1 → g i ≠ -1) := by
  obtain ⟨k, c, hk0, hk3, rfl, hcase⟩ := h
  have hc : 0 ≤ c ∧ f k ≤ c := by
    rcases hcase with ⟨a, b, _⟩ | ⟨a, b⟩ <;> omega
  constructor
  · intro i h0 h3
    by_cases hik : i = k
    · rw [hik, setAt_same]; omega
    · rw [setAt_other _ _ _ _ hik]; exact hf i h0 h3
  · intro i h0 h3
    by_cases hik : i = k
    · rw [hik, setAt_same]
      exact ⟨hc.2, fun _ => by omega⟩
    · rw [setAt_other _ _ _ _ hik]
      exact ⟨le_refl _, fun h => h⟩

theorem foundation_chain_monotone (f g : Int → Int)
    (h : Relation.ReflTransGen foundation_step f g)
    (hf : ∀ i, 0 ≤ i → i ≤ 3 → -1 ≤ f i) :
    (∀ i, 0 ≤ i → i ≤ 3 → -1 ≤ g i)
      ∧ ∀ i, 0 ≤ i → i ≤ 3 → f i ≤ g i ∧ (f i ≠ -1 → g i ≠ -1) := by
  induction h with
  | refl => exact ⟨hf, fun i _ _ => ⟨le_refl _, fun h => h⟩⟩
  | tail _ hstep ih =>
    obtain ⟨ih1, ih2⟩ := ih
    obtain ⟨s1, s2⟩ := foundation_step_ok _ _ hstep ih1
    refine ⟨s1, fun i h0 h3 => ?_⟩
    obtain ⟨a1, a2⟩ := ih2 i h0 h3
    obtain ⟨b1, b2⟩ := s2 i h0 h3
    exact ⟨le_trans a1 b1, fun h => b2 (a2 h)⟩

theorem move_to_foundation_chain (s : State) (hf : foundations_ok s) :
    Relation.ReflTransGen foundation_step s.foundation (move_to_foundation s).2.foundation := by
  by_cases h : can_move_to_foundations s ≤ 3
  · exact Relation.ReflTransGen.single (move_to_foundation_step s hf h)
  · rw [move_to_foundation_fail s h]

theorem sweep_pass_eq (n : Nat) (i : Int) (r : Bool × State) :
    sweep_pass (n + 1) i r
      = if r.2.tableau_count i > 0 then
          (if (move_to_foundation { r.2 with source := i }).1 then
            sweep_pass n (i + 1) (true, (move_to_foundation { r.2 with source := i }).2)
          else sweep_pass n (i + 1) (r.1, (move_to_foundation { r.2 with source := i }).2))
        else sweep_pass n (i + 1) r := by
  simp only [sweep_pass]
  split_ifs <;> rfl

theorem sweep_pass_chain (n : Nat) (i : Int) (r : Bool × State) (hf : foundations_ok r.2) :
    Relation.ReflTransGen foundation_step r.2.foundation (sweep_pass n i r).2.foundation := by
  induction n generalizing i r with
  | zero => exact Relation.ReflTransGen.refl
  | succ n ih =>
    rw [sweep_pass_eq]
    have hc := move_to_foundation_chain { r.2 with source := i } hf
    have hf2 : foundations_ok (move_to_foundation { r.2 with source := i }).2 :=
      (foundation_chain_monotone _ _ hc hf).1
    split_ifs with h1 h2
    · exact Relation.ReflTransGen.trans hc (ih (i + 1) (true, _) hf2)
    · exact Relation.ReflTransGen.trans hc (ih (i + 1) (r.1, _) hf2)
    · exact ih _ _ hf

theorem auto_move_chain (fuel : Nat) (s t : State) (hf : foundations_ok s)
    (h : automatically_move_to_foundations fuel s = some t) :
    Relation.ReflTransGen foundation_step s.foundation t.foundation := by
  induction fuel generalizing s with
  | zero => simp [automatically_move_to_foundations] at h
  | succ n ih =>
    simp only [automatically_move_to_foundations] at h
    have hc := sweep_pass_chain 7 0 (false, s) hf
    split_ifs at h
    · exact Relation.ReflTransGen.trans hc (ih _ (foundation_chain_monotone _ _ hc hf).1 h)
    · simp only [Option.some.injEq] at h
      rw [← h]
      exact hc

theorem same_board_foundation {s t : State} (h : same_board s t) : t.foundation = s.foundation := by
  obtain ⟨m, sel, src, rfl⟩ := h
  rfl

theorem select_click_handler_eq (fuel : Nat) (s : State) :
    select_click_handler fuel s
      = if s.win then some s
        else if s.mode = 0 then
          (if (source_pile_is_valid s).1 then
            select_valid_pile fuel { (source_pile_is_valid s).2 with
              mode := 1, source := (source_pile_is_valid s).2.selection, selection := 8 }
          else some (source_pile_is_valid s).2)
        else if s.selection = 8 then
          some (select_talon { (move_to_foundation s).2 with mode := 0 })
        else select_valid_pile fuel { move_to_tableau s with mode := 0 } := rfl

theorem long_down_click_handler_some (fuel : Nat) (s t : State) (hw : s.win = false)
    (h : long_down_click_handler fuel s = some t) :
    ∃ s1, automatically_move_to_foundations fuel s = some s1
      ∧ select_valid_pile fuel { s1 with mode := 0 } = some t := by
  unfold long_down_click_handler at h
  simp only [hw] at h
  cases hauto : automatically_move_to_foundations fuel s with
  | none => simp [hauto] at h
  | some s1 =>
    rw [hauto] at h
    exact ⟨s1, rfl, by simpa using h⟩

/-- C8. Foundation monotonicity: with every foundation slot holding `-1` or a card,
`move_to_tableau` and `deal_card_from_stock` leave the four foundations unchanged; a
failed `move_to_foundation` leaves them unchanged and a successful one performs one
foundation step (a single slot goes from `-1` to an Ace or from card `c` to `c + 4`);
the automatic sweep performs a chain of such steps; the up and down commands leave
the foundations unchanged, the select command leaves them unchanged or performs one
step, the long-down command performs a chain of steps; and along any chain of steps no
slot decreases and no occupied slot becomes empty. -/
theorem foundation_monotonicity (s : State) (hf : foundations_ok s) :
    (move_to_tableau s).foundation = s.foundation
      ∧ (deal_card_from_stock s).foundation = s.foundation
      ∧ ((move_to_foundation s).1 = false → (move_to_foundation s).2.foundation = s.foundation)
      ∧ ((move_to_foundation s).1 = true →
          foundation_step s.foundation (move_to_foundation s).2.foundation)
      ∧ (∀ fuel t, automatically_move_to_foundations fuel s = some t →
          Relation.ReflTransGen foundation_step s.foundation t.foundation)
      ∧ (∀ fuel t, up_click_handler fuel s = some t → t.foundation = s.foundation)
      ∧ (∀ fuel t, select_click_handler fuel s = some t →
          t.foundation = s.foundation ∨ foundation_step s.foundation t.foundation)
      ∧ (down_click_handler s).foundation = s.foundation
      ∧ (∀ fuel t, long_down_click_handler fuel s = some t →
          Relation.ReflTransGen foundation_step s.foundation t.foundation)
      ∧ (∀ g, Relation.ReflTransGen foundation_step s.foundation g →
          ∀ i, 0 ≤ i → i ≤ 3 → s.foundation i ≤ g i ∧ (s.foundation i ≠ -1 → g i ≠ -1)) := by
  have hmt : (move_to_tableau s).foundation = s.foundation := by
    obtain ⟨sc, st, tl, ts, tb, hc, tc, h⟩ := move_to_tableau_frame s
    rw [h]
  have hdeal : (deal_card_from_stock s).foundation = s.foundation := by
    obtain ⟨tl, fl, ts, h⟩ := deal_card_from_stock_frame s
    rw [h]
  refine ⟨hmt, hdeal, ?_, ?_, fun fuel t h => auto_move_chain fuel s t hf h, ?_, ?_, ?_, ?_, ?_⟩
  · intro h
    rw [move_to_foundation_flag] at h
    rw [move_to_foundation_fail s (by simpa using h)]
  · intro h
    rw [move_to_foundation_flag] at h
    exact move_to_foundation_step s hf (by simpa using h)
  · intro fuel t h
    unfold up_click_handler at h
    split_ifs at h
    · simp only [Option.some.injEq] at h
      rw [← h]
    · exact same_board_foundation (select_next_valid_pile_board _ _ _ h)
  · intro fuel t h
    rw [select_click_handler_eq] at h
    split_ifs at h with h1 h2 h3 h4
    · simp only [Option.some.injEq] at h
      left; rw [← h]
    · left
      have hb := select_valid_pile_board _ _ _ h
      rw [same_board_foundation hb]
      exact same_board_foundation
        (same_board_trans (source_pile_is_valid_board s) ⟨1, 8, _, rfl⟩)
    · simp only [Option.some.injEq] at h
      left
      rw [← h]
      exact same_board_foundation (source_pile_is_valid_board s)
    · simp only [Option.some.injEq] at h
      have hb : (select_talon { (move_to_foundation s).2 with mode := 0 }).foundation
          = (move_to_foundation s).2.foundation :=
        same_board_foundation (select_talon_board _)
      rw [← h, hb]
      by_cases hc : can_move_to_foundations s ≤ 3
      · exact Or.inr (move_to_foundation_step s hf hc)
      · left; rw [move_to_foundation_fail s hc]
    · left
      have hb := select_valid_pile_board _ _ _ h
      rw [same_board_foundation hb]
      exact hmt
  · unfold down_click_handler
    split_ifs
    · rfl
    · rw [same_board_foundation (select_talon_board _)]
      exact hdeal
    · rw [same_board_foundation (select_talon_board _)]
  · intro fuel t h
    by_cases hw : s.win = true
    · unfold long_down_click_handler at h
      simp only [hw, if_true, Option.some.injEq] at h
      rw [← h]
    · obtain ⟨s1, ha, hv⟩ := long_down_click_handler_some fuel s t (by simpa using hw) h
      have hb := select_valid_pile_board _ _ _ hv
      rw [same_board_foundation hb]
      exact auto_move_chain fuel s s1 hf ha
  · intro g hg
    exact (foundation_chain_monotone _ _ hg hf).2

theorem foundation_monotonicity_witness :
    (move_to_tableau aceState).foundation = aceState.foundation
      ∧ (deal_card_from_stock aceState).foundation = aceState.foundation
      ∧ ((move_to_foundation aceState).1 = false →
          (move_to_foundation aceState).2.foundation = aceState.foundation)
      ∧ ((move_to_foundation aceState).1 = true →
          foundation_step aceState.foundation (move_to_foundation aceState).2.foundation)
      ∧ (∀ fuel t, automatically_move_to_foundations fuel aceState = some t →
          Relation.ReflTransGen foundation_step aceState.foundation t.foundation)
      ∧ (∀ fuel t, up_click_handler fuel aceState = some t → t.foundation = aceState.foundation)
      ∧ (∀ fuel t, select_click_handler fuel aceState = some t →
          t.foundation = aceState.foundation ∨ foundation_step aceState.foundation t.foundation)
      ∧ (down_click_handler aceState).foundation = aceState.foundation
      ∧ (∀ fuel t, long_down_click_handler fuel aceState = some t →
          Relation.ReflTransGen foundation_step aceState.foundation t.foundation)
      ∧ (∀ g, Relation.ReflTransGen foundation_step aceState.foundation g →
          ∀ i, 0 ≤ i → i ≤ 3 →
            aceState.foundation i ≤ g i ∧ (aceState.foundation i ≠ -1 → g i ≠ -1)) :=
  foundation_monotonicity aceState (fun i _ _ => by simp [aceState])

/-! ## Win condition (C9) -/

theorem win_scan_spec (s : State) (n : Nat) (i : Int) :
    i ≤ win_scan s n i ∧ win_scan s n i ≤ i + n
      ∧ (win_scan s n i = i + n ↔ ∀ j, i ≤ j → j < i + n → 48 ≤ s.foundation j) := by
  induction n generalizing i with
  | zero =>
    simp only [win_scan]
    refine ⟨le_refl _, by simp, ?_⟩
    constructor
    · intro _ j h1 h2
      push_cast at h2
      omega
    · intro _
      simp
  | succ n ih =>
    obtain ⟨a1, a2, a3⟩ := ih (i + 1)
    simp only [win_scan]
    by_cases h : s.foundation i < 48
    · simp only [h, if_true]
      refine ⟨le_refl _, by push_cast; omega, ?_⟩
      constructor
      · intro h2
        push_cast at h2
        omega
      · intro h2
        have := h2 i (le_refl _) (by push_cast; omega)
        omega
    · simp only [h, if_false]
      refine ⟨by omega, by push_cast; omega, ?_⟩
      constructor
      · intro h2 j h3 h4
        by_cases hji : j = i
        · rw [hji]; omega
        · exact a3.1 (by push_cast at h2; omega) j (by omega) (by push_cast at h4; omega)
      · intro h2
        have := a3.2 (fun j h3 h4 => h2 j (by omega) (by push_cast; omega))
        push_cast
        omega

theorem win_scan_all_kings (s : State) : win_scan s 4 0 > 3 ↔ all_kings s.foundation := by
  obtain ⟨a1, a2, a3⟩ := win_scan_spec s 4 0
  unfold all_kings
  constructor
  · intro h j h0 h3
    exact a3.1 (by push_cast at a2 ⊢; omega) j h0 (by push_cast; omega)
  · intro h
    have := a3.2 (fun j h0 h3 => h j h0 (by push_cast at h3; omega))
    push_cast at this
    omega

theorem win_scan_congr (s t : State) (h : s.foundation = t.foundation) (n : Nat) (i : Int) :
    win_scan s n i = win_scan t n i := by
  induction n generalizing i with
  | zero => rfl
  | succ n ih => simp only [win_scan, h, ih]

theorem move_to_foundation_success_eq (s : State) (h : can_move_to_foundations s ≤ 3) :
    ∃ s2 s3 : State,
      s2 = remove_source_card { s with
        foundation := setAt s.foundation (can_move_to_foundations s) (get_source_card s) }
      ∧ s3 = { s2 with score := s2.score + 5 }
      ∧ move_to_foundation s
        = if win_scan s3 4 0 > 3 then (true, { s3 with win := true }) else (true, s3) := by
  refine ⟨_, _, rfl, rfl, ?_⟩
  unfold move_to_foundation
  simp only [h, if_true]

theorem move_to_foundation_win (s : State) :
    (move_to_foundation s).2.win = true
      ↔ s.win = true
        ∨ ((move_to_foundation s).1 = true ∧ all_kings (move_to_foundation s).2.foundation) := by
  by_cases h : can_move_to_foundations s ≤ 3
  · have hflag : (move_to_foundation s).1 = true := by
      rw [move_to_foundation_flag]; simpa using h
    rw [hflag]
    obtain ⟨s2, s3, h2, h3, heq⟩ := move_to_foundation_success_eq s h
    obtain ⟨sc, st, tl, ts, hc, tc, hrem⟩ := remove_source_card_frame
      { s with foundation := setAt s.foundation (can_move_to_foundations s) (get_source_card s) }
    rw [hrem] at h2
    have hw3 : s3.win = s.win := by rw [h3, h2]
    rw [heq]
    by_cases hk : win_scan s3 4 0 > 3
    · have hk2 : win_scan { s3 with win := true } 4 0 > 3 := by
        rw [win_scan_congr { s3 with win := true } s3 rfl]
        exact hk
      simp only [hk, if_true, true_and, true_iff]
      exact Or.inr ((win_scan_all_kings _).1 hk2)
    · simp only [hk, if_false, true_and, hw3]
      constructor
      · exact fun h => Or.inl h
      · rintro (h | h)
        · exact h
        · exact absurd ((win_scan_all_kings _).2 h) hk
  · rw [move_to_foundation_fail s h]
    simp

theorem all_kings_step (f g : Int → Int) (h : foundation_step f g) (hk : all_kings f) :
    all_kings g := by
  obtain ⟨k, c, hk0, hk3, rfl, hcase⟩ := h
  intro i h0 h3
  by_cases hik : i = k
  · rw [hik, setAt_same]
    have := hk k hk0 hk3
    rcases hcase with ⟨a, _, _⟩ | ⟨_, b⟩ <;> omega
  · rw [setAt_other _ _ _ _ hik]
    exact hk i h0 h3

/-- The relation between "some foundation move has succeeded so far" (`m`) and the
state that every prefix of a sweep maintains. -/
theorem move_to_foundation_win_link (m : Bool) (s : State)
    (h1 : m = true → s.win = true ∨ ¬ all_kings s.foundation)
    (h2 : s.win = true → m = true ∧ all_kings s.foundation) :
    ((m || (move_to_foundation s).1) = true →
        (move_to_foundation s).2.win = true ∨ ¬ all_kings (move_to_foundation s).2.foundation)
      ∧ ((move_to_foundation s).2.win = true →
        (m || (move_to_foundation s).1) = true ∧ all_kings (move_to_foundation s).2.foundation) := by
  have hwin := move_to_foundation_win s
  by_cases hc : can_move_to_foundations s ≤ 3
  · have hflag : (move_to_foundation s).1 = true := by
      rw [move_to_foundation_flag]; simpa using hc
    rw [hflag] at hwin ⊢
    simp only [Bool.or_true, true_and, forall_const] at hwin ⊢
    constructor
    · by_cases hk : all_kings (move_to_foundation s).2.foundation
      · exact Or.inl (hwin.2 (Or.inr hk))
      · exact Or.inr hk
    · intro hw
      rcases hwin.1 hw with h | h
      · have hks := (h2 h).2
        have hfok : foundations_ok s := fun i h0 h3 => by
          have := hks i h0 h3
          omega
        exact all_kings_step _ _ (move_to_foundation_step s hfok hc) hks
      · exact h
  · rw [move_to_foundation_fail s hc]
    simpa using And.intro h1 h2

theorem sweep_pass_win_link (n : Nat) (i : Int) (m : Bool) (r : Bool × State)
    (h1 : (m || r.1) = true → r.2.win = true ∨ ¬ all_kings r.2.foundation)
    (h2 : r.2.win = true → (m || r.1) = true ∧ all_kings r.2.foundation) :
    ((m || (sweep_pass n i r).1) = true →
        (sweep_pass n i r).2.win = true ∨ ¬ all_kings (sweep_pass n i r).2.foundation)
      ∧ ((sweep_pass n i r).2.win = true →
        (m || (sweep_pass n i r).1) = true ∧ all_kings (sweep_pass n i r).2.foundation) := by
  induction n generalizing i r with
  | zero => exact ⟨h1, h2⟩
  | succ n ih =>
    rw [sweep_pass_eq]
    have hl := move_to_foundation_win_link (m || r.1) { r.2 with source := i } h1 h2
    split_ifs with c1 c2
    · rw [c2] at hl
      exact ih (i + 1) (true, _) (by simpa using hl.1) (by simpa using hl.2)
    · have c3 : (move_to_foundation { r.2 with source := i }).1 = false := by simpa using c2
      rw [c3] at hl
      exact ih (i + 1) (r.1, _) (by simpa using hl.1) (by simpa using hl.2)
    · exact ih (i + 1) r h1 h2

theorem auto_move_win_link (fuel : Nat) (m : Bool) (s t : State)
    (h : automatically_move_to_foundations fuel s = some t)
    (h1 : m = true → s.win = true ∨ ¬ all_kings s.foundation)
    (h2 : s.win = true → m = true ∧ all_kings s.foundation) :
    ((m || (sweep_pass 7 0 (false, s)).1) = true → t.win = true ∨ ¬ all_kings t.foundation)
      ∧ (t.win = true → (m || (sweep_pass 7 0 (false, s)).1) = true ∧ all_kings t.foundation) := by
  induction fuel generalizing m s with
  | zero => simp [automatically_move_to_foundations] at h
  | succ n ih =>
    simp only [automatically_move_to_foundations] at h
    have hp := sweep_pass_win_link 7 0 m (false, s) (by simpa using h1) (by simpa using h2)
    split_ifs at h with hb
    · rw [hb] at hp ⊢
      have := ih true _ h (by simpa using hp.1) (by simpa using hp.2)
      simpa using this
    · simp only [Option.some.injEq] at h
      rw [← h]
      exact hp

theorem same_board_win {s t : State} (h : same_board s t) : t.win = s.win := by
  obtain ⟨m, sel, src, rfl⟩ := h
  rfl

theorem up_click_handler_playing (fuel : Nat) (s : State) (hw : s.win = false) :
    up_click_handler fuel s = select_next_valid_pile fuel s := by
  unfold up_click_handler
  simp [hw]

theorem down_click_handler_playing (s : State) (hw : s.win = false) :
    down_click_handler s = select_talon (if s.mode = 0 then deal_card_from_stock s else s) := by
  unfold down_click_handler
  simp [hw]

theorem select_click_handler_playing (fuel : Nat) (s : State) (hw : s.win = false) :
    select_click_handler fuel s
      = if s.mode = 0 then
          (if (source_pile_is_valid s).1 then
            select_valid_pile fuel { (source_pile_is_valid s).2 with
              mode := 1, source := (source_pile_is_valid s).2.selection, selection := 8 }
          else some (source_pile_is_valid s).2)
        else if s.selection = 8 then
          some (select_talon { (move_to_foundation s).2 with mode := 0 })
        else select_valid_pile fuel { move_to_tableau s with mode := 0 } := by
  rw [select_click_handler_eq]
  simp [hw]

/-- C9. Win condition: starting from a state with `win = false`, the up and down
commands leave `win` false; after the select command `win` is true exactly when the
command ran `move_to_foundation` (destination mode, selection 8), that move succeeded
and all four foundation tops are then at least 48; after the long-down command `win`
is true exactly when a foundation move of the sweep succeeded (the success flag of its
first pass is set) and all four foundation tops are then at least 48;
`move_to_foundation` itself sets `win` exactly when it succeeds with all tops at least
48; and `move_to_tableau`, `deal_card_from_stock`, `remove_source_card`,
`select_talon` and the settings mutators leave `win` false. -/
theorem win_condition (s : State) (hw : s.win = false) :
    (∀ fuel t, up_click_handler fuel s = some t → t.win = false)
      ∧ (down_click_handler s).win = false
      ∧ (∀ fuel t, select_click_handler fuel s = some t →
          (t.win = true ↔ s.mode ≠ 0 ∧ s.selection = 8 ∧ (move_to_foundation s).1 = true
            ∧ all_kings t.foundation))
      ∧ (∀ fuel t, long_down_click_handler fuel s = some t →
          (t.win = true ↔ (sweep_pass 7 0 (false, s)).1 = true ∧ all_kings t.foundation))
      ∧ ((move_to_foundation s).2.win = true
          ↔ (move_to_foundation s).1 = true ∧ all_kings (move_to_foundation s).2.foundation)
      ∧ (move_to_tableau s).win = false
      ∧ (deal_card_from_stock s).win = false
      ∧ (remove_source_card s).win = false
      ∧ (select_talon s).win = false
      ∧ (∀ k, (settings_menu_select_callback k s).win = false)
      ∧ (∀ k, (tools_menu_select_callback k s).win = false) := by
  have hmt : (move_to_tableau s).win = false := by
    obtain ⟨sc, st, tl, ts, tb, hc, tc, h⟩ := move_to_tableau_frame s
    rw [h]; exact hw
  have hdeal : (deal_card_from_stock s).win = false := by
    obtain ⟨tl, fl, ts, h⟩ := deal_card_from_stock_frame s
    rw [h]; exact hw
  have hmf : (move_to_foundation s).2.win = true
      ↔ (move_to_foundation s).1 = true ∧ all_kings (move_to_foundation s).2.foundation := by
    rw [move_to_foundation_win, hw]
    simp
  refine ⟨?_, ?_, ?_, ?_, hmf, hmt, hdeal, ?_, ?_, ?_, ?_⟩
  · intro fuel t h
    rw [up_click_handler_playing fuel s hw] at h
    rw [same_board_win (select_next_valid_pile_board _ _ _ h)]
    exact hw
  · rw [down_click_handler_playing s hw, same_board_win (select_talon_board _)]
    split_ifs
    · exact hdeal
    · exact hw
  · intro fuel t h
    rw [select_click_handler_playing fuel s hw] at h
    have hsv : (source_pile_is_valid s).2.win = false := by
      rw [same_board_win (source_pile_is_valid_board s)]; exact hw
    split_ifs at h with h2 h3 h4
    · have hb := select_valid_pile_board _ _ _ h
      have : t.win = false := by
        rw [same_board_win hb]; exact hsv
      simp [this, h2]
    · simp only [Option.some.injEq] at h
      have : t.win = false := by rw [← h]; exact hsv
      simp [this, h2]
    · simp only [Option.some.injEq] at h
      have hb : same_board (move_to_foundation s).2 t := by
        rw [← h]
        exact same_board_trans (same_board_mode (move_to_foundation s).2 0)
          (select_talon_board { (move_to_foundation s).2 with mode := 0 })
      rw [same_board_win hb, same_board_foundation hb, hmf]
      simp [h2, h4]
    · have hb := select_valid_pile_board _ _ _ h
      have : t.win = false := by
        rw [same_board_win hb]; exact hmt
      simp [this, h4]
  · intro fuel t h
    obtain ⟨s1, ha, hv⟩ := long_down_click_handler_some fuel s t hw h
    have hb : same_board s1 t :=
      same_board_trans (same_board_mode _ 0) (select_valid_pile_board _ _ _ hv)
    rw [same_board_win hb, same_board_foundation hb]
    have hl := auto_move_win_link fuel false s s1 ha (by simp) (by simp [hw])
    simp only [Bool.false_or] at hl
    constructor
    · exact hl.2
    · rintro ⟨a, b⟩
      rcases hl.1 a with h | h
      · exact h
      · exact absurd b h
  · obtain ⟨sc, st, tl, ts, hc, tc, h⟩ := remove_source_card_frame s
    rw [h]; exact hw
  · rw [same_board_win (select_talon_board s)]; exact hw
  · intro k
    unfold settings_menu_select_callback
    simp only
    split_ifs <;> exact hw
  · intro k
    unfold tools_menu_select_callback
    split_ifs <;> exact hw

theorem win_condition_witness :
    (∀ fuel t, up_click_handler fuel aceState = some t → t.win = false)
      ∧ (down_click_handler aceState).win = false
      ∧ (∀ fuel t, select_click_handler fuel aceState = some t →
          (t.win = true ↔ aceState.mode ≠ 0 ∧ aceState.selection = 8
            ∧ (move_to_foundation aceState).1 = true ∧ all_kings t.foundation))
      ∧ (∀ fuel t, long_down_click_handler fuel aceState = some t →
          (t.win = true
            ↔ (sweep_pass 7 0 (false, aceState)).1 = true ∧ all_kings t.foundation))
      ∧ ((move_to_foundation aceState).2.win = true
          ↔ (move_to_foundation aceState).1 = true
            ∧ all_kings (move_to_foundation aceState).2.foundation)
      ∧ (move_to_tableau aceState).win = false
      ∧ (deal_card_from_stock aceState).win = false
      ∧ (remove_source_card aceState).win = false
      ∧ (select_talon aceState).win = false
      ∧ (∀ k, (settings_menu_select_callback k aceState).win = false)
      ∧ (∀ k, (tools_menu_select_callback k aceState).win = false) :=
  win_condition aceState rfl

/-! ## Persisted byte layout (C3) -/

theorem toByte_of_range (x : Int) (h0 : 0 ≤ x) (h1 : x < 256) : toByte x = x := by
  unfold toByte
  omega

theorem toByte_range (x : Int) : 0 ≤ toByte x ∧ toByte x < 256 := by
  unfold toByte
  omega

theorem forRange_setAt (a : Int) (f : Int → Int) (n : Nat) (i0 : Int) (st : Int → Int) :
    forRange (fun i st => setAt st (a + i) (f i)) n i0 st
      = fun k => if a + i0 ≤ k ∧ k < a + i0 + n then f (k - a) else st k := by
  induction n generalizing i0 st with
  | zero =>
    funext k
    have : ¬ (a + i0 ≤ k ∧ k < a + i0 + ((0 : Nat) : Int)) := by push_cast; omega
    simp only [forRange, this, if_false]
  | succ n ih =>
    simp only [forRange]
    rw [ih]
    funext k
    by_cases h1 : a + (i0 + 1) ≤ k ∧ k < a + (i0 + 1) + (n : Int)
    · have h2 : a + i0 ≤ k ∧ k < a + i0 + ((n + 1 : Nat) : Int) := by push_cast; omega
      rw [if_pos h1, if_pos h2]
    · rw [if_neg h1, setAt_apply]
      by_cases h3 : k = a + i0
      · have h2 : a + i0 ≤ k ∧ k < a + i0 + ((n + 1 : Nat) : Int) := by push_cast; omega
        rw [if_pos h3, if_pos h2, h3]
        congr 1
        omega
      · have h2 : ¬ (a + i0 ≤ k ∧ k < a + i0 + ((n + 1 : Nat) : Int)) := by push_cast; omega
        rw [if_neg h3, if_neg h2]

theorem save_cards_spec (s : State) (i : Int) (n : Nat) (j b : Int) (st : Int → Int) :
    save_cards s i n j b st
      = (b + n, fun k => if b ≤ k ∧ k < b + n then toByte (s.tableau i (j + (k - b))) else st k) := by
  induction n generalizing j b st with
  | zero =>
    simp only [save_cards]
    congr 1
    · simp
    · funext k
      have : ¬ (b ≤ k ∧ k < b + ((0 : Nat) : Int)) := by push_cast; omega
      rw [if_neg this]
  | succ n ih =>
    simp only [save_cards]
    rw [ih]
    congr 1
    · push_cast; omega
    · funext k
      by_cases h1 : b + 1 ≤ k ∧ k < b + 1 + (n : Int)
      · have h2 : b ≤ k ∧ k < b + ((n + 1 : Nat) : Int) := by push_cast; omega
        rw [if_pos h1, if_pos h2]
        congr 2
        omega
      · rw [if_neg h1, setAt_apply]
        by_cases h3 : k = b
        · have h2 : b ≤ k ∧ k < b + ((n + 1 : Nat) : Int) := by push_cast; omega
          rw [if_pos h3, if_pos h2, h3]
          congr 2
          omega
        · have h2 : ¬ (b ≤ k ∧ k < b + ((n + 1 : Nat) : Int)) := by push_cast; omega
          rw [if_neg h3, if_neg h2]

theorem counts_sum_nonneg (s : State) (n : Nat) (i : Int)
    (h : ∀ q, i ≤ q → q < i + n → 0 ≤ s.tableau_count q) : 0 ≤ counts_sum s n i := by
  induction n generalizing i with
  | zero => simp [counts_sum]
  | succ n ih =>
    simp only [counts_sum]
    have h1 := h i (le_refl _) (by push_cast; omega)
    have h2 := ih (i + 1) (fun q hq1 hq2 => h q (by omega) (by push_cast; omega))
    omega

theorem counts_sum_succ (s : State) (n : Nat) (i : Int) :
    counts_sum s (n + 1) i = counts_sum s n i + s.tableau_count (i + n) := by
  induction n generalizing i with
  | zero => simp [counts_sum]
  | succ n ih =>
    rw [counts_sum, ih (i + 1), counts_sum]
    have : i + 1 + (n : Int) = i + ((n + 1 : Nat) : Int) := by push_cast; omega
    rw [this]
    omega

theorem save_piles_spec (s : State) (n : Nat) (i b : Int) (st : Int → Int)
    (hb : 20 ≤ b) (hi : 0 ≤ i) (hn : i + n ≤ 7)
    (hc : ∀ q, i ≤ q → q < i + n → 0 ≤ s.tableau_count q) :
    (∀ k, (k < 6 + i ∨ (6 + i + n ≤ k ∧ k < 13 + i) ∨ (13 + i + n ≤ k ∧ k < b)
          ∨ b + counts_sum s n i ≤ k) → save_piles s n i b st k = st k)
      ∧ (∀ q, i ≤ q → q < i + n →
          save_piles s n i b st (6 + q) = toByte (s.tableau_count q)
          ∧ save_piles s n i b st (13 + q) = toByte (s.hidden_count q))
      ∧ (∀ m : Nat, m < n → ∀ j, 0 ≤ j → j < s.tableau_count (i + m) →
          save_piles s n i b st (b + counts_sum s m i + j) = toByte (s.tableau (i + m) j)) := by
  induction n generalizing i b st with
  | zero =>
    refine ⟨fun k _ => rfl, fun q h1 h2 => ?_, fun m hm => absurd hm (by omega)⟩
    push_cast at h2
    omega
  | succ n ih =>
    have hci : 0 ≤ s.tableau_count i := hc i (le_refl _) (by push_cast; omega)
    have hcn : ((s.tableau_count i).toNat : Int) = s.tableau_count i := by omega
    have hrest : ∀ q, i + 1 ≤ q → q < i + 1 + n → 0 ≤ s.tableau_count q :=
      fun q h1 h2 => hc q (by omega) (by push_cast; omega)
    have hsum := counts_sum_nonneg s n (i + 1) hrest
    simp only [save_piles, save_cards_spec, hcn]
    obtain ⟨f1, f2, f3⟩ := ih (i + 1) (b + s.tableau_count i)
      (fun k => if b ≤ k ∧ k < b + s.tableau_count i then toByte (s.tableau i (0 + (k - b)))
        else setAt (setAt st (6 + i) (toByte (s.tableau_count i))) (13 + i)
          (toByte (s.hidden_count i)) k)
      (by omega) (by omega) (by push_cast at hn; omega) hrest
    push_cast at hn
    refine ⟨?_, ?_, ?_⟩
    · intro k hk
      simp only [counts_sum] at hk
      rw [f1 k (by push_cast at hk; omega)]
      have h1 : ¬ (b ≤ k ∧ k < b + s.tableau_count i) := by push_cast at hk; omega
      rw [if_neg h1, setAt_other _ _ _ _ (by push_cast at hk; omega),
        setAt_other _ _ _ _ (by push_cast at hk; omega)]
    · intro q h1 h2
      push_cast at h2
      by_cases hq : q = i
      · subst hq
        rw [f1 (6 + q) (by omega), f1 (13 + q) (by omega)]
        have h3 : ¬ (b ≤ 6 + q ∧ 6 + q < b + s.tableau_count q) := by omega
        have h4 : ¬ (b ≤ 13 + q ∧ 13 + q < b + s.tableau_count q) := by omega
        rw [if_neg h3, if_neg h4, setAt_same, setAt_other _ _ _ _ (by omega), setAt_same]
        exact ⟨rfl, rfl⟩
      · exact f2 q (by omega) (by omega)
    · intro m hm j hj0 hj1
      cases m with
      | zero =>
        simp only [counts_sum, Nat.cast_zero, add_zero] at hj1 ⊢
        rw [f1 (b + j) (by omega)]
        have h3 : b ≤ b + j ∧ b + j < b + s.tableau_count i := by omega
        rw [if_pos h3]
        congr 2
        omega
      | succ m =>
        have := f3 m (by omega) j hj0 (by
          have e : i + 1 + (m : Int) = i + ((m + 1 : Nat) : Int) := by push_cast; omega
          rw [e]; exact hj1)
        simp only [counts_sum]
        have e : i + 1 + (m : Int) = i + ((m + 1 : Nat) : Int) := by push_cast; omega
        rw [e] at this
        rw [← this]
        congr 1
        omega

/-- The buffer of `save_state`, split into the header and stock part `st3`, the pile
loop and the ten trailing stores. -/
theorem save_buffer_unfold (junk : Int → Int) (s : State) (h0 : 0 ≤ s.stock_count) :
    ∃ st3 : Int → Int,
      (∀ k, st3 k =
        if 2 ≤ k ∧ k < 6 then toByte (s.foundation (k - 2))
        else if k = 1 then toByte s.talon
        else if 20 ≤ k ∧ k < 20 + s.stock_count then toByte (s.stock (k - 20))
        else if k = 0 then toByte s.stock_count
        else junk k)
      ∧ save_buffer junk s
        = setAt (setAt (setAt (setAt (setAt (setAt (setAt (setAt (setAt (setAt
            (save_piles s 7 0 (20 + s.stock_count) st3)
            72 (if s.win then 1 else 0)) 73 (toByte s.draw_setting))
            74 (toByte s.fliplimit_setting)) 75 (toByte s.score_setting))
            76 (toByte s.flips)) 77 (toByte s.talon_showing))
            78 (toByte s.score)) 79 (toByte (s.score / 256)))
            80 (toByte (s.score / 65536))) 81 (toByte (s.score / 16777216)) := by
  refine ⟨_, ?_, rfl⟩
  intro k
  have hn : ((s.stock_count.toNat : Nat) : Int) = s.stock_count := by omega
  simp only [forRange_setAt, setAt_apply, hn]
  by_cases c1 : 2 ≤ k ∧ k < 6
  · have c1' : 2 + 0 ≤ k ∧ k < 2 + 0 + ((4 : Nat) : Int) := by push_cast; omega
    rw [if_pos c1, if_pos c1']
  · have c1' : ¬ (2 + 0 ≤ k ∧ k < 2 + 0 + ((4 : Nat) : Int)) := by push_cast; omega
    rw [if_neg c1, if_neg c1']
    by_cases c2 : k = 1
    · rw [if_pos c2, if_pos c2]
    · rw [if_neg c2, if_neg c2]
      by_cases c3 : 20 ≤ k ∧ k < 20 + s.stock_count
      · have c3' : 20 + 0 ≤ k ∧ k < 20 + 0 + s.stock_count := by omega
        rw [if_pos c3, if_pos c3']
      · have c3' : ¬ (20 + 0 ≤ k ∧ k < 20 + 0 + s.stock_count) := by omega
        rw [if_neg c3, if_neg c3']

/-- The layout of the buffer written by `save_state`. -/
theorem save_buffer_layout (junk : Int → Int) (s : State)
    (h0 : 0 ≤ s.stock_count)
    (hc : ∀ p, 0 ≤ p → p ≤ 6 → 0 ≤ s.tableau_count p)
    (hsum : s.stock_count + counts_sum s 7 0 ≤ 52) :
    (save_state junk s).length = 82
      ∧ (∀ k : Nat, k < 82 → (save_state junk s)[k]? = some (save_buffer junk s k))
      ∧ save_buffer junk s 0 = s.stock_count
      ∧ save_buffer junk s 1 = toByte s.talon
      ∧ (∀ i, 0 ≤ i → i ≤ 3 → save_buffer junk s (2 + i) = toByte (s.foundation i))
      ∧ toByte (-1) = 255
      ∧ (∀ i, 0 ≤ i → i ≤ 6 → save_buffer junk s (6 + i) = s.tableau_count i)
      ∧ (∀ i, 0 ≤ i → i ≤ 6 → save_buffer junk s (13 + i) = toByte (s.hidden_count i))
      ∧ (∀ i, 0 ≤ i → i < s.stock_count → save_buffer junk s (20 + i) = toByte (s.stock i))
      ∧ (∀ p : Nat, p < 7 → ∀ j, 0 ≤ j → j < s.tableau_count p →
          save_buffer junk s (pile_offset s p + j) = toByte (s.tableau p j))
      ∧ pile_offset s 7 ≤ 72
      ∧ save_buffer junk s 72 = (if s.win then 1 else 0)
      ∧ save_buffer junk s 73 = toByte s.draw_setting
      ∧ save_buffer junk s 74 = toByte s.fliplimit_setting
      ∧ save_buffer junk s 75 = toByte s.score_setting
      ∧ save_buffer junk s 76 = toByte s.flips
      ∧ save_buffer junk s 77 = toByte s.talon_showing
      ∧ save_buffer junk s 78 = s.score % 256
      ∧ save_buffer junk s 79 = s.score / 256 % 256
      ∧ save_buffer junk s 80 = s.score / 65536 % 256
      ∧ save_buffer junk s 81 = s.score / 16777216 % 256
      ∧ (∀ x, 0 ≤ x → x < 256 → toByte x = x) := by
  obtain ⟨st3, h3, hbuf⟩ := save_buffer_unfold junk s h0
  obtain ⟨f1, f2, f3⟩ := save_piles_spec s 7 0 (20 + s.stock_count) st3 (by omega) (le_refl _)
    (by norm_num) (fun q h1 h2 => hc q h1 (by push_cast at h2; omega))
  have hend : pile_offset s 7 ≤ 72 := by unfold pile_offset; omega
  -- below offset 72 the buffer is what the pile loop left
  have hlow : ∀ k, k < 72 → save_buffer junk s k = save_piles s 7 0 (20 + s.stock_count) st3 k := by
    intro k hk
    rw [hbuf]
    simp only [setAt_apply]
    have e : ∀ c : Int, 72 ≤ c → ¬ k = c := fun c hc => by omega
    rw [if_neg (e 81 (by decide)), if_neg (e 80 (by decide)), if_neg (e 79 (by decide)),
      if_neg (e 78 (by decide)), if_neg (e 77 (by decide)), if_neg (e 76 (by decide)),
      if_neg (e 75 (by decide)), if_neg (e 74 (by decide)), if_neg (e 73 (by decide)),
      if_neg (e 72 (by decide))]
  have hsc_byte : toByte s.stock_count = s.stock_count := by
    have := counts_sum_nonneg s 7 0 (fun q h1 h2 => hc q h1 (by push_cast at h2; omega))
    exact toByte_of_range _ h0 (by omega)
  have hcount_le : ∀ i, 0 ≤ i → i ≤ 6 → s.tableau_count i ≤ 52 := by
    intro i hi0 hi6
    have e0 := hc 0 (by decide) (by decide)
    have e1 := hc 1 (by decide) (by decide)
    have e2 := hc 2 (by decide) (by decide)
    have e3 := hc 3 (by decide) (by decide)
    have e4 := hc 4 (by decide) (by decide)
    have e5 := hc 5 (by decide) (by decide)
    have e6 := hc 6 (by decide) (by decide)
    simp only [counts_sum] at hsum
    norm_num at hsum
    have : i = 0 ∨ i = 1 ∨ i = 2 ∨ i = 3 ∨ i = 4 ∨ i = 5 ∨ i = 6 := by omega
    rcases this with h | h | h | h | h | h | h <;> subst h <;> omega
  refine ⟨by simp [save_state], ?_, ?_, ?_, ?_, by decide, ?_, ?_, ?_, ?_, hend,
    ?_, ?_, ?_, ?_, ?_, ?_, ?_, ?_, ?_, ?_, toByte_of_range⟩
  · intro k hk
    simp [save_state, hk]
  · rw [hlow 0 (by decide), f1 0 (by omega), h3]
    simp [hsc_byte]
  · rw [hlow 1 (by decide), f1 1 (by omega), h3]
    simp
  · intro i hi0 hi3
    rw [hlow _ (by omega), f1 _ (by omega), h3]
    have : 2 ≤ 2 + i ∧ 2 + i < 6 := by omega
    rw [if_pos this]
    congr 2
    omega
  · intro i hi0 hi6
    rw [hlow _ (by omega), (f2 i hi0 (by push_cast; omega)).1]
    exact toByte_of_range _ (hc i hi0 hi6) (by have := hcount_le i hi0 hi6; omega)
  · intro i hi0 hi6
    rw [hlow _ (by omega), (f2 i hi0 (by push_cast; omega)).2]
  · intro i hi0 hi1
    have := counts_sum_nonneg s 7 0 (fun q h1 h2 => hc q h1 (by push_cast at h2; omega))
    rw [hlow _ (by omega), f1 _ (by omega), h3]
    have c1 : ¬ (2 ≤ 20 + i ∧ 20 + i < 6) := by omega
    have c2 : ¬ (20 + i = 1) := by omega
    have c3 : 20 ≤ 20 + i ∧ 20 + i < 20 + s.stock_count := by omega
    rw [if_neg c1, if_neg c2, if_pos c3]
    congr 2
    omega
  · intro p hp j hj0 hj1
    have hpc : 0 ≤ s.tableau_count p := hc p (by omega) (by omega)
    have hsplit : counts_sum s 7 0 = counts_sum s (p + 1) 0 + counts_sum s (7 - (p + 1)) (p + 1) := by
      have : p = 0 ∨ p = 1 ∨ p = 2 ∨ p = 3 ∨ p = 4 ∨ p = 5 ∨ p = 6 := by omega
      rcases this with h | h | h | h | h | h | h <;> subst h <;> simp [counts_sum] <;> ring
    have hrest := counts_sum_nonneg s (7 - (p + 1)) (p + 1)
      (fun q h1 h2 => hc q (by omega) (by
        have : ((7 - (p + 1) : Nat) : Int) = 6 - p := by omega
        omega))
    have hpre := counts_sum_nonneg s p 0
      (fun q h1 h2 => hc q (by omega) (by omega))
    have hsucc := counts_sum_succ s p 0
    have hlt : pile_offset s p + j < 72 := by
      unfold pile_offset
      simp only [zero_add] at hsucc
      omega
    rw [hlow _ hlt]
    have := f3 p hp j hj0 (by simpa using hj1)
    unfold pile_offset
    simp only [zero_add] at this
    exact this
  all_goals
    rw [hbuf]
    simp [setAt_apply, toByte]

/-! ## Counting cards -/

theorem count_singleton_int (x c : Int) : List.count c [x] = if x = c then 1 else 0 := by
  rw [List.count_singleton]
  by_cases h : x = c
  · simp [h]
  · simp [h]

theorem count_live_succ (a : Int → Int) (n : Int) (h : 0 ≤ n) (c : Int) :
    (live_cards a (n + 1)).count c = (live_cards a n).count c + (if a n = c then 1 else 0) := by
  rw [live_cards_succ a n h, List.count_append, count_singleton_int]

/-- Overwriting one live entry exchanges one card for another. -/
theorem count_live_setAt (a : Int → Int) (i v : Int) (n : Nat) (hi0 : 0 ≤ i) (hi : i < n)
    (c : Int) :
    (live_cards (setAt a i v) n).count c + (if a i = c then 1 else 0)
      = (live_cards a n).count c + (if v = c then 1 else 0) := by
  induction n with
  | zero => push_cast at hi; omega
  | succ n ih =>
    push_cast
    rw [count_live_succ _ _ (by omega), count_live_succ _ _ (by omega)]
    by_cases hlast : i = (n : Int)
    · have hcongr : live_cards (setAt a i v) n = live_cards a n := by
        apply live_cards_congr
        intro k _ hk
        exact setAt_other _ _ _ _ (by omega)
      rw [hcongr, ← hlast, setAt_same]
      omega
    · have := ih (by push_cast at hi; omega)
      rw [setAt_other _ _ _ _ (fun h => hlast h.symm)]
      omega

theorem live_cards_add (a : Int → Int) (n : Int) (m : Nat) (hn : 0 ≤ n) :
    live_cards a (n + m) = live_cards a n ++ live_cards (fun k => a (n + k)) m := by
  induction m with
  | zero => simp [live_cards_of_nonpos _ 0 (le_refl _)]
  | succ m ih =>
    push_cast
    rw [← add_assoc, live_cards_succ _ _ (by omega), ih, live_cards_succ _ _ (by omega)]
    simp

theorem count_all_cards (s : State) (c : Int) :
    (all_cards s).count c
      = (stock_cards s).count c + (tableau_cards s).count c + (foundations_cards s).count c := by
  unfold all_cards
  rw [List.count_append, List.count_append]

/-- When only pile `p` changes, the count over the tableau changes by the change of
that pile. -/
theorem count_tableau_update (s t : State) (p : Int) (hp0 : 0 ≤ p) (hp6 : p ≤ 6)
    (h : ∀ q, 0 ≤ q → q ≤ 6 → q ≠ p → pile_cards t q = pile_cards s q) (c : Int) :
    (tableau_cards t).count c + (pile_cards s p).count c
      = (tableau_cards s).count c + (pile_cards t p).count c := by
  unfold tableau_cards
  simp only [List.count_append]
  have hcases : p = 0 ∨ p = 1 ∨ p = 2 ∨ p = 3 ∨ p = 4 ∨ p = 5 ∨ p = 6 := by omega
  have e : ∀ q, 0 ≤ q → q ≤ 6 → q ≠ p → (pile_cards t q).count c = (pile_cards s q).count c :=
    fun q h0 h6 hne => by rw [h q h0 h6 hne]
  rcases hcases with h | h | h | h | h | h | h <;> subst h
  · rw [e 1 (by decide) (by decide) (by decide), e 2 (by decide) (by decide) (by decide),
      e 3 (by decide) (by decide) (by decide), e 4 (by decide) (by decide) (by decide),
      e 5 (by decide) (by decide) (by decide), e 6 (by decide) (by decide) (by decide)]
    omega
  · rw [e 0 (by decide) (by decide) (by decide), e 2 (by decide) (by decide) (by decide),
      e 3 (by decide) (by decide) (by decide), e 4 (by decide) (by decide) (by decide),
      e 5 (by decide) (by decide) (by decide), e 6 (by decide) (by decide) (by decide)]
    omega
  · rw [e 0 (by decide) (by decide) (by decide), e 1 (by decide) (by decide) (by decide),
      e 3 (by decide) (by decide) (by decide), e 4 (by decide) (by decide) (by decide),
      e 5 (by decide) (by decide) (by decide), e 6 (by decide) (by decide) (by decide)]
    omega
  · rw [e 0 (by decide) (by decide) (by decide), e 1 (by decide) (by decide) (by decide),
      e 2 (by decide) (by decide) (by decide), e 4 (by decide) (by decide) (by decide),
      e 5 (by decide) (by decide) (by decide), e 6 (by decide) (by decide) (by decide)]
    omega
  · rw [e 0 (by decide) (by decide) (by decide), e 1 (by decide) (by decide) (by decide),
      e 2 (by decide) (by decide) (by decide), e 3 (by decide) (by decide) (by decide),
      e 5 (by decide) (by decide) (by decide), e 6 (by decide) (by decide) (by decide)]
    omega
  · rw [e 0 (by decide) (by decide) (by decide), e 1 (by decide) (by decide) (by decide),
      e 2 (by decide) (by decide) (by decide), e 3 (by decide) (by decide) (by decide),
      e 4 (by decide) (by decide) (by decide), e 6 (by decide) (by decide) (by decide)]
    omega
  · rw [e 0 (by decide) (by decide) (by decide), e 1 (by decide) (by decide) (by decide),
      e 2 (by decide) (by decide) (by decide), e 3 (by decide) (by decide) (by decide),
      e 4 (by decide) (by decide) (by decide), e 5 (by decide) (by decide) (by decide)]
    omega

theorem foundation_cards_empty : foundation_cards (-1) = [] := by
  decide

theorem foundation_cards_ace (c : Int) (hr : rank_of c = 0) :
    foundation_cards c = [c] := by
  unfold rank_of at hr
  unfold foundation_cards
  rw [hr]
  simp [List.range_succ]

theorem foundation_cards_next (c : Int) (h0 : 0 ≤ c) :
    foundation_cards (c + 4) = (c + 4) :: foundation_cards c := by
  unfold foundation_cards
  have h1 : ((c + 4) / 4 + 1).toNat = (c / 4 + 1).toNat + 1 := by omega
  rw [h1, List.range_succ_eq_map]
  simp only [List.map_cons, List.map_map, Nat.cast_zero, mul_zero, sub_zero]
  congr 1
  apply List.map_congr_left
  intro k _
  simp only [Function.comp, Nat.succ_eq_add_one]
  push_cast
  ring

/-- When only slot `i` changes, the count over the foundations changes by the change
of that slot. -/
theorem count_foundations_update (s t : State) (i : Int) (hi0 : 0 ≤ i) (hi3 : i ≤ 3)
    (h : ∀ q, 0 ≤ q → q ≤ 3 → q ≠ i → t.foundation q = s.foundation q) (c : Int) :
    (foundations_cards t).count c + (foundation_cards (s.foundation i)).count c
      = (foundations_cards s).count c + (foundation_cards (t.foundation i)).count c := by
  unfold foundations_cards
  simp only [List.count_append]
  have hcases : i = 0 ∨ i = 1 ∨ i = 2 ∨ i = 3 := by omega
  rcases hcases with h1 | h1 | h1 | h1 <;> subst h1
  · rw [h 1 (by decide) (by decide) (by decide), h 2 (by decide) (by decide) (by decide),
      h 3 (by decide) (by decide) (by decide)]
    omega
  · rw [h 0 (by decide) (by decide) (by decide), h 2 (by decide) (by decide) (by decide),
      h 3 (by decide) (by decide) (by decide)]
    omega
  · rw [h 0 (by decide) (by decide) (by decide), h 1 (by decide) (by decide) (by decide),
      h 3 (by decide) (by decide) (by decide)]
    omega
  · rw [h 0 (by decide) (by decide) (by decide), h 1 (by decide) (by decide) (by decide),
      h 2 (by decide) (by decide) (by decide)]
    omega

/-! ## The effect of each elementary update on the card counts -/

theorem pile_cards_push (s t : State) (d x : Int) (hcnt : 0 ≤ s.tableau_count d)
    (h1 : t.tableau = setAt2 s.tableau d (s.tableau_count d) x)
    (h2 : t.tableau_count d = s.tableau_count d + 1) :
    pile_cards t d = pile_cards s d ++ [x] := by
  unfold pile_cards
  rw [h2, live_cards_succ _ _ hcnt, h1]
  have e1 : setAt2 s.tableau d (s.tableau_count d) x d (s.tableau_count d) = x := by
    rw [setAt2_apply]; simp
  rw [e1]
  congr 1
  apply live_cards_congr
  intro k _ hk
  rw [setAt2_apply]
  have : ¬ (d = d ∧ k = s.tableau_count d) := by omega
  rw [if_neg this]

theorem pile_cards_other (s t : State) (d q : Int) (j x : Int) (hq : q ≠ d)
    (h1 : t.tableau = setAt2 s.tableau d j x)
    (h2 : t.tableau_count q = s.tableau_count q) :
    pile_cards t q = pile_cards s q := by
  unfold pile_cards
  rw [h2, h1]
  apply live_cards_congr
  intro k _ _
  rw [setAt2_apply]
  have : ¬ (q = d ∧ k = j) := fun h => hq h.1
  rw [if_neg this]

theorem pile_cards_pop (s t : State) (p : Int) (hcnt : 0 < s.tableau_count p)
    (h1 : t.tableau = s.tableau)
    (h2 : t.tableau_count p = s.tableau_count p - 1) :
    pile_cards s p = pile_cards t p ++ [s.tableau p (s.tableau_count p - 1)] := by
  unfold pile_cards
  rw [h2, h1]
  have := live_cards_succ (s.tableau p) (s.tableau_count p - 1) (by omega)
  simpa using this

theorem count_tableau_push (s t : State) (d x : Int) (hd0 : 0 ≤ d) (hd6 : d ≤ 6)
    (hcnt : 0 ≤ s.tableau_count d)
    (h1 : t.tableau = setAt2 s.tableau d (s.tableau_count d) x)
    (h2 : t.tableau_count = setAt s.tableau_count d (s.tableau_count d + 1)) (c : Int) :
    (tableau_cards t).count c = (tableau_cards s).count c + (if x = c then 1 else 0) := by
  have hu := count_tableau_update s t d hd0 hd6
    (fun q _ _ hq => pile_cards_other s t d q _ x hq h1 (by rw [h2, setAt_other _ _ _ _ hq])) c
  rw [pile_cards_push s t d x hcnt h1 (by rw [h2, setAt_same]), List.count_append,
    count_singleton_int] at hu
  omega

theorem count_tableau_pop (s t : State) (p : Int) (hp0 : 0 ≤ p) (hp6 : p ≤ 6)
    (hcnt : 0 < s.tableau_count p)
    (h1 : t.tableau = s.tableau)
    (h2 : t.tableau_count = setAt s.tableau_count p (s.tableau_count p - 1)) (c : Int) :
    (tableau_cards t).count c + (if s.tableau p (s.tableau_count p - 1) = c then 1 else 0)
      = (tableau_cards s).count c := by
  have hu := count_tableau_update s t p hp0 hp6
    (fun q _ _ hq => by
      unfold pile_cards
      rw [h1, h2, setAt_other _ _ _ _ hq]) c
  rw [pile_cards_pop s t p hcnt h1 (by rw [h2, setAt_same]), List.count_append,
    count_singleton_int] at hu
  omega

theorem count_stock_pop (s t : State) (p : Int) (hp0 : 0 ≤ p) (hp : p < s.stock_count)
    (h1 : t.stock_count = s.stock_count - 1)
    (h2 : t.stock = fun k => if p ≤ k ∧ k < s.stock_count - 1 then s.stock (k + 1) else s.stock k)
    (c : Int) :
    (stock_cards t).count c + (if s.stock p = c then 1 else 0) = (stock_cards s).count c := by
  have hm : ((s.stock_count - 1).toNat : Int) = s.stock_count - 1 := by omega
  obtain ⟨A, B, e1, e2, _⟩ := live_cards_erase s.stock t.stock (s.stock_count - 1).toNat p hp0
    (by omega)
    (fun k hk0 hk1 => by
      rw [h2]
      have : ¬ (p ≤ k ∧ k < s.stock_count - 1) := by omega
      simp only [this, if_false])
    (fun k hk0 hk1 => by
      rw [h2]
      have : p ≤ k ∧ k < s.stock_count - 1 := by omega
      simp only [this, and_self, if_true])
  rw [hm] at e1 e2
  unfold stock_cards
  rw [h1, e2]
  have e3 : live_cards s.stock s.stock_count = A ++ s.stock p :: B := by
    rw [← e1]
    congr 1
    omega
  rw [e3]
  simp only [List.count_append, List.count_cons]
  by_cases hc : s.stock p = c
  · simp [hc]
    omega
  · simp [hc]

theorem count_foundations_place (s t : State) (i x : Int) (hi0 : 0 ≤ i) (hi3 : i ≤ 3)
    (h1 : t.foundation = setAt s.foundation i x)
    (hcase : (s.foundation i = -1 ∧ 0 ≤ x ∧ rank_of x = 0)
      ∨ (0 ≤ s.foundation i ∧ x = s.foundation i + 4)) (c : Int) :
    (foundations_cards t).count c = (foundations_cards s).count c + (if x = c then 1 else 0) := by
  have hu := count_foundations_update s t i hi0 hi3
    (fun q _ _ hq => by rw [h1, setAt_other _ _ _ _ hq]) c
  rw [h1, setAt_same] at hu
  rcases hcase with ⟨a, _, b⟩ | ⟨a, b⟩
  · rw [a, foundation_cards_empty, foundation_cards_ace x b, count_singleton_int] at hu
    simp only [List.count_nil] at hu
    omega
  · rw [b, foundation_cards_next _ a, List.count_cons] at hu
    rw [b]
    by_cases hc : s.foundation i + 4 = c
    · simp [hc] at hu ⊢
      omega
    · simp [hc] at hu ⊢
      omega

/-! ## Consequences of the board invariant -/

theorem card_range_of_conserved (s : State) (h : conserved s) (c : Int) (hc : c ∈ all_cards s) :
    0 ≤ c ∧ c ≤ 51 := by
  have h1 := h c
  have h2 : 0 < (all_cards s).count c := List.count_pos_iff.2 hc
  by_contra hn
  rw [if_neg hn] at h1
  omega

theorem pile_cards_sublist (s : State) (p : Int) (hp0 : 0 ≤ p) (hp6 : p ≤ 6) (c : Int)
    (hc : c ∈ pile_cards s p) : c ∈ all_cards s := by
  unfold all_cards tableau_cards
  have hcases : p = 0 ∨ p = 1 ∨ p = 2 ∨ p = 3 ∨ p = 4 ∨ p = 5 ∨ p = 6 := by omega
  rcases hcases with h | h | h | h | h | h | h <;> subst h <;> simp [hc]

theorem pile_cards_valid_of_conserved (s : State) (h : conserved s) (p : Int)
    (hp0 : 0 ≤ p) (hp6 : p ≤ 6) : pile_cards_valid s p := by
  intro j hj0 hj1
  apply card_range_of_conserved s h
  apply pile_cards_sublist s p hp0 hp6
  unfold pile_cards
  rw [mem_live_cards]
  exact ⟨j, hj0, hj1, rfl⟩

theorem stock_card_range (s : State) (h : conserved s) (k : Int) (hk0 : 0 ≤ k)
    (hk : k < s.stock_count) : 0 ≤ s.stock k ∧ s.stock k ≤ 51 := by
  apply card_range_of_conserved s h
  unfold all_cards stock_cards
  have : s.stock k ∈ live_cards s.stock s.stock_count := by
    rw [mem_live_cards]
    exact ⟨k, hk0, hk, rfl⟩
  simp [this]

/-! ## Elementary updates preserve the pile invariant -/

theorem pile_ok_frame (s t : State) (q : Int)
    (h1 : t.tableau q = s.tableau q) (h2 : t.tableau_count q = s.tableau_count q)
    (h3 : t.hidden_count q = s.hidden_count q) (h : pile_ok s q) : pile_ok t q := by
  unfold pile_ok pile_counts_ok run_ok at h ⊢
  rw [h1, h2, h3]
  exact h

theorem pile_ok_push (s t : State) (d x : Int)
    (h1 : t.tableau d = setAt (s.tableau d) (s.tableau_count d) x)
    (h2 : t.tableau_count d = s.tableau_count d + 1)
    (h3 : t.hidden_count d = s.hidden_count d)
    (hj : 0 < s.tableau_count d →
      rank_of x + 1 = rank_of (s.tableau d (s.tableau_count d - 1))
        ∧ colour_of (suit_of x) ≠ colour_of (suit_of (s.tableau d (s.tableau_count d - 1))))
    (h : pile_ok s d) : pile_ok t d := by
  unfold pile_ok pile_counts_ok run_ok at h ⊢
  obtain ⟨⟨a1, a2, a3⟩, a4, a5⟩ := h
  rw [h1, h2, h3]
  refine ⟨⟨a1, by omega, fun _ => by omega⟩, a4, ?_⟩
  intro j hj0 hj1
  by_cases hlast : j + 1 = s.tableau_count d
  · have e1 : setAt (s.tableau d) (s.tableau_count d) x (j + 1) = x := by
      rw [hlast, setAt_same]
    have e2 : setAt (s.tableau d) (s.tableau_count d) x j = s.tableau d (s.tableau_count d - 1) := by
      rw [setAt_other _ _ _ _ (by omega)]
      congr 1
      omega
    rw [e1, e2]
    exact hj (by omega)
  · rw [setAt_other _ _ _ _ hlast, setAt_other _ _ _ _ (by omega)]
    exact a5 j hj0 (by omega)

theorem pile_ok_pop (s t : State) (p : Int)
    (h1 : t.tableau p = s.tableau p)
    (h2 : t.tableau_count p = s.tableau_count p - 1)
    (h3 : t.hidden_count p
      = if s.hidden_count p > 0 ∧ s.tableau_count p - 1 = s.hidden_count p
        then s.hidden_count p - 1 else s.hidden_count p)
    (hpos : 0 < s.tableau_count p)
    (h : pile_ok s p) : pile_ok t p := by
  unfold pile_ok pile_counts_ok run_ok at h ⊢
  obtain ⟨⟨a1, a2, a3⟩, a4, a5⟩ := h
  have a3' := a3 hpos
  rw [h1, h2, h3]
  by_cases hf : s.hidden_count p > 0 ∧ s.tableau_count p - 1 = s.hidden_count p
  · rw [if_pos hf]
    refine ⟨⟨by omega, by omega, fun _ => by omega⟩, by omega, ?_⟩
    intro j hj0 hj1
    omega
  · rw [if_neg hf]
    refine ⟨⟨a1, by omega, fun _ => by omega⟩, a4, ?_⟩
    intro j hj0 hj1
    exact a5 j hj0 (by omega)

theorem stock_ok_pop (s t : State) (h : stock_ok s) (hcard : s.talon_showing + 1 ≤ s.stock_count)
    (h1 : t.stock_count = s.stock_count - 1)
    (h2 : t.talon = if s.talon > 0 ∧ ¬ s.talon_showing > 0 then s.talon - 1 else s.talon)
    (h3 : t.talon_showing
      = if s.talon > 0 ∧ s.talon_showing > 0 then s.talon_showing - 1 else s.talon_showing)
    (h4 : t.draw_setting = s.draw_setting) : stock_ok t := by
  unfold stock_ok at h ⊢
  obtain ⟨a1, a2, a3, a4, a5, a6, a7⟩ := h
  rw [h1, h2, h3, h4]
  by_cases ht : s.talon > 0
  · by_cases hs : s.talon_showing > 0
    · simp only [ht, hs, not_true_eq_false, and_false, if_false, and_self, if_true]
      refine ⟨by omega, by omega, by omega, by omega, by omega, by omega, fun hd => ?_⟩
      have := a7 hd
      omega
    · simp only [ht, hs, not_false_eq_true, and_self, if_true, and_false, if_false]
      refine ⟨by omega, by omega, by omega, by omega, by omega, by omega, a7⟩
  · simp only [ht, false_and, if_false]
    refine ⟨by omega, by omega, by omega, by omega, by omega, by omega, a7⟩

/-- In a state satisfying the stock invariant, a talon that reports a card has its
window inside the live stock. -/
theorem talon_position_ok (s : State) (h : stock_ok s)
    (hcard : s.talon_showing + 1 ≤ s.stock_count) :
    0 ≤ s.talon + s.talon_showing ∧ s.talon + s.talon_showing < s.stock_count := by
  unfold stock_ok at h
  omega

/-! ## Single-card moves preserve the board invariant -/

theorem tableau_cards_congr (s t : State) (h1 : t.tableau = s.tableau)
    (h2 : t.tableau_count = s.tableau_count) : tableau_cards t = tableau_cards s := by
  unfold tableau_cards pile_cards
  rw [h1, h2]

theorem stock_cards_congr (s t : State) (h1 : t.stock = s.stock)
    (h2 : t.stock_count = s.stock_count) : stock_cards t = stock_cards s := by
  unfold stock_cards
  rw [h1, h2]

theorem foundations_cards_congr (s t : State) (h1 : t.foundation = s.foundation) :
    foundations_cards t = foundations_cards s := by
  unfold foundations_cards
  rw [h1]

theorem conserved_take_talon (s t : State) (x p : Int)
    (hplus : ∀ c, (all_cards s).count c
      = (if 0 ≤ c ∧ c ≤ 51 then 1 else 0) + (if x = c then 1 else 0))
    (hp0 : 0 ≤ p) (hp1 : p < s.stock_count) (hval : s.stock p = x)
    (h1 : t.stock_count = s.stock_count - 1)
    (h2 : t.stock = fun k => if p ≤ k ∧ k < s.stock_count - 1 then s.stock (k + 1) else s.stock k)
    (h3 : t.tableau = s.tableau) (h4 : t.tableau_count = s.tableau_count)
    (h5 : t.foundation = s.foundation) : conserved t := by
  intro c
  have e0 := hplus c
  have e1 := count_stock_pop s t p hp0 hp1 h1 h2 c
  rw [count_all_cards] at e0 ⊢
  rw [hval] at e1
  rw [tableau_cards_congr s t h3 h4, foundations_cards_congr s t h5]
  omega

theorem conserved_take_pile (s t : State) (x p : Int)
    (hplus : ∀ c, (all_cards s).count c
      = (if 0 ≤ c ∧ c ≤ 51 then 1 else 0) + (if x = c then 1 else 0))
    (hp0 : 0 ≤ p) (hp6 : p ≤ 6) (hpos : 0 < s.tableau_count p)
    (hval : s.tableau p (s.tableau_count p - 1) = x)
    (h1 : t.tableau = s.tableau)
    (h2 : t.tableau_count = setAt s.tableau_count p (s.tableau_count p - 1))
    (h3 : t.stock = s.stock) (h4 : t.stock_count = s.stock_count)
    (h5 : t.foundation = s.foundation) : conserved t := by
  intro c
  have e0 := hplus c
  have e1 := count_tableau_pop s t p hp0 hp6 hpos h1 h2 c
  rw [count_all_cards] at e0 ⊢
  rw [hval] at e1
  rw [stock_cards_congr s t h3 h4, foundations_cards_congr s t h5]
  omega

/-- Removing the source card completes a single-card move. -/
theorem remove_source_card_board (s : State) (x : Int) (h : board_plus s x)
    (hx : get_source_card s = x) (hx0 : 0 ≤ x) : board_ok (remove_source_card s) := by
  obtain ⟨hst, hpiles, hf, hcons, hfl⟩ := h
  rw [← hx] at hx0
  rcases get_source_card_nonneg s hx0 with ⟨h7, hcard, hval⟩ | ⟨hs0, hs6, hne, hval⟩
  · rw [remove_source_card_talon s h7]
    obtain ⟨hp0, hp1⟩ := talon_position_ok s hst hcard
    exact ⟨stock_ok_pop s _ hst hcard rfl rfl rfl rfl,
      fun p hp0 hp6 => pile_ok_frame s _ p rfl rfl rfl (hpiles p hp0 hp6), hf,
      conserved_take_talon s _ x _ hcons hp0 hp1 (by rw [← hval, hx]) rfl rfl rfl rfl rfl, hfl⟩
  · have h7 : s.source ≠ 7 := by omega
    rw [remove_source_card_pile s h7]
    have hpos : 0 < s.tableau_count s.source := by
      have := (hpiles s.source hs0 hs6).1
      unfold pile_counts_ok at this
      omega
    refine ⟨hst, ?_, hf,
      conserved_take_pile s _ x s.source hcons hs0 hs6 hpos (by rw [← hval, hx])
        rfl rfl rfl rfl rfl, hfl⟩
    intro p hp0 hp6
    by_cases hp : p = s.source
    · subst hp
      refine pile_ok_pop s _ _ rfl (by simp) ?_ hpos (hpiles _ hp0 hp6)
      by_cases hfl2 : s.hidden_count s.source > 0
          ∧ s.tableau_count s.source - 1 = s.hidden_count s.source
      · simp [hfl2]
      · simp [hfl2]
    · refine pile_ok_frame s _ p rfl (by simp [setAt_other _ _ _ _ hp]) ?_ (hpiles p hp0 hp6)
      by_cases hfl2 : s.hidden_count s.source > 0
          ∧ s.tableau_count s.source - 1 = s.hidden_count s.source
      · simp [hfl2, setAt_other _ _ _ _ hp]
      · simp [hfl2]

/-- Placing a qualifying card on a foundation slot starts a single-card move. -/
theorem place_on_foundation (s : State) (i c : Int) (h : board_ok s)
    (hi0 : 0 ≤ i) (hi3 : i ≤ 3)
    (hcase : (s.foundation i = -1 ∧ 0 ≤ c ∧ rank_of c = 0)
      ∨ (0 ≤ s.foundation i ∧ c = s.foundation i + 4)) :
    board_plus { s with foundation := setAt s.foundation i c } c := by
  obtain ⟨hst, hpiles, hf, hcons, hfl⟩ := h
  refine ⟨hst, hpiles, ?_, ?_, hfl⟩
  · intro q hq0 hq3
    show -1 ≤ setAt s.foundation i c q
    by_cases hq : q = i
    · rw [hq, setAt_same]
      rcases hcase with ⟨_, a, _⟩ | ⟨a, b⟩ <;> omega
    · rw [setAt_other _ _ _ _ hq]
      exact hf q hq0 hq3
  · intro c'
    have e0 := hcons c'
    have e1 := count_foundations_place s { s with foundation := setAt s.foundation i c } i c
      hi0 hi3 rfl hcase c'
    rw [count_all_cards] at e0 ⊢
    rw [stock_cards_congr s { s with foundation := setAt s.foundation i c } rfl rfl,
      tableau_cards_congr s { s with foundation := setAt s.foundation i c } rfl rfl, e1]
    omega

/-- Placing a card that continues the run on a tableau pile starts a single-card
move. -/
theorem place_on_pile (s : State) (d c : Int) (h : board_ok s) (hd0 : 0 ≤ d) (hd6 : d ≤ 6)
    (hj : 0 < s.tableau_count d →
      rank_of c + 1 = rank_of (s.tableau d (s.tableau_count d - 1))
        ∧ colour_of (suit_of c) ≠ colour_of (suit_of (s.tableau d (s.tableau_count d - 1)))) :
    board_plus { s with
      tableau := setAt2 s.tableau d (s.tableau_count d) c
      tableau_count := setAt s.tableau_count d (s.tableau_count d + 1) } c := by
  obtain ⟨hst, hpiles, hf, hcons, hfl⟩ := h
  have hcnt : 0 ≤ s.tableau_count d := by
    have := (hpiles d hd0 hd6).1
    unfold pile_counts_ok at this
    omega
  refine ⟨hst, ?_, hf, ?_, hfl⟩
  · intro p hp0 hp6
    by_cases hp : p = d
    · subst hp
      refine pile_ok_push s _ p c ?_ (by simp) rfl hj (hpiles p hp0 hp6)
      show setAt2 s.tableau p (s.tableau_count p) c p = _
      simp [setAt2]
    · refine pile_ok_frame s _ p ?_ (by simp [setAt_other _ _ _ _ hp]) rfl (hpiles p hp0 hp6)
      show setAt2 s.tableau d (s.tableau_count d) c p = _
      simp [setAt2, hp]
  · intro c'
    have e0 := hcons c'
    have e1 := count_tableau_push s { s with
        tableau := setAt2 s.tableau d (s.tableau_count d) c
        tableau_count := setAt s.tableau_count d (s.tableau_count d + 1) } d c hd0 hd6 hcnt
      rfl rfl c'
    rw [count_all_cards] at e0 ⊢
    rw [stock_cards_congr s { s with
        tableau := setAt2 s.tableau d (s.tableau_count d) c
        tableau_count := setAt s.tableau_count d (s.tableau_count d + 1) } rfl rfl,
      foundations_cards_congr s { s with
        tableau := setAt2 s.tableau d (s.tableau_count d) c
        tableau_count := setAt s.tableau_count d (s.tableau_count d + 1) } rfl, e1]
    omega

theorem board_ok_congr (s t : State)
    (h1 : t.stock_count = s.stock_count) (h2 : t.talon = s.talon)
    (h3 : t.talon_showing = s.talon_showing) (h4 : t.stock = s.stock)
    (h5 : t.foundation = s.foundation) (h6 : t.tableau = s.tableau)
    (h7 : t.hidden_count = s.hidden_count) (h8 : t.tableau_count = s.tableau_count)
    (h9 : t.draw_setting = s.draw_setting) (h10 : t.flips = s.flips)
    (h : board_ok s) : board_ok t := by
  obtain ⟨hst, hpiles, hf, hcons, hfl⟩ := h
  refine ⟨?_, ?_, ?_, ?_, by rw [h10]; exact hfl⟩
  · unfold stock_ok at hst ⊢
    rw [h1, h2, h3, h9]
    exact hst
  · intro p hp0 hp6
    exact pile_ok_frame s t p (by rw [h6]) (by rw [h8]) (by rw [h7]) (hpiles p hp0 hp6)
  · unfold foundations_ok at hf ⊢
    rw [h5]
    exact hf
  · intro c
    have := hcons c
    rw [count_all_cards] at this ⊢
    rw [stock_cards_congr s t h4 h1, tableau_cards_congr s t h6 h8,
      foundations_cards_congr s t h5]
    exact this

theorem same_board_board_ok {s t : State} (h : same_board s t) (hb : board_ok s) :
    board_ok t := by
  obtain ⟨m, sel, src, rfl⟩ := h
  exact board_ok_congr s _ rfl rfl rfl rfl rfl rfl rfl rfl rfl rfl hb

/-- `move_to_foundation` preserves the board invariant. -/
theorem move_to_foundation_board (s : State) (h : board_ok s) :
    board_ok (move_to_foundation s).2 := by
  by_cases hc : can_move_to_foundations s ≤ 3
  · obtain ⟨w, hw⟩ := move_to_foundation_success s hc
    obtain ⟨hi0, hc0, hqual⟩ := can_move_to_foundations_qualifies s h.2.2.1 hc
    have hcase : (s.foundation (can_move_to_foundations s) = -1 ∧ 0 ≤ get_source_card s
          ∧ rank_of (get_source_card s) = 0)
        ∨ (0 ≤ s.foundation (can_move_to_foundations s)
          ∧ get_source_card s = s.foundation (can_move_to_foundations s) + 4) := by
      rcases hqual with ⟨a, b⟩ | ⟨a, b, c⟩
      · exact Or.inl ⟨a, hc0, b⟩
      · right
        refine ⟨a, ?_⟩
        unfold suit_of at b
        unfold rank_of at c
        omega
    have hplus := place_on_foundation s _ _ h hi0 hc hcase
    have hrem := remove_source_card_board _ _ hplus rfl hc0
    rw [hw]
    exact board_ok_congr _ _ rfl rfl rfl rfl rfl rfl rfl rfl rfl rfl hrem
  · rw [move_to_foundation_fail s hc]
    exact h

/-! ## Tableau moves preserve the board invariant -/

theorem can_move_single_spec (s : State) (h : can_move_single_card_to_tableau s = true) :
    s.selection ≠ s.source ∧ 0 ≤ get_source_card s
      ∧ tableau_rules_met s (get_source_card s / 4) (Int.tmod (get_source_card s) 4) true
          = true := by
  unfold can_move_single_card_to_tableau at h
  by_cases h1 : s.selection = s.source
  · simp [h1] at h
  · by_cases h2 : get_source_card s < 0
    · simp [h1, h2] at h
    · simp only [h1, h2, if_false] at h
      exact ⟨h1, by omega, h⟩

theorem can_move_pile_spec (s : State) (h : can_move_pile_to_tableau s = true) :
    s.selection ≠ s.source ∧ s.source ≤ 6 ∧ 0 < s.tableau_count s.source
      ∧ s.tableau_count s.source ≠ s.hidden_count s.source + 1
      ∧ tableau_rules_met s (s.tableau s.source (s.hidden_count s.source) / 4)
          (Int.tmod (s.tableau s.source (s.hidden_count s.source)) 4)
          (decide (s.hidden_count s.source > 0)) = true := by
  unfold can_move_pile_to_tableau multiple_cards_are_showing at h
  by_cases h1 : s.selection = s.source
  · simp [h1] at h
  · by_cases h2 : s.source > 6
    · simp [h1, h2] at h
    · by_cases h3 : s.tableau_count s.source > 0
      · by_cases h4 : s.tableau_count s.source ≠ s.hidden_count s.source + 1
        · simp only [h1, h2, h3, h4, decide_True, Bool.and_self, Bool.true_eq_false, or_self,
            if_false, ne_eq, not_false_eq_true] at h
          exact ⟨h1, by omega, h3, h4, h⟩
        · simp [h1, h2, h3, h4] at h
      · simp [h1, h2, h3] at h

/-- The junction condition that `tableau_rules_met` guarantees for the card placed on
a non-empty pile. -/
theorem rules_met_junction (s : State) (c : Int) (k : Bool) (hb : board_ok s)
    (hd0 : 0 ≤ s.selection) (hd6 : s.selection ≤ 6) (hc0 : 0 ≤ c)
    (h : tableau_rules_met s (c / 4) (Int.tmod c 4) k = true) :
    0 < s.tableau_count s.selection →
      rank_of c + 1 = rank_of (s.tableau s.selection (s.tableau_count s.selection - 1))
        ∧ colour_of (suit_of c)
          ≠ colour_of (suit_of (s.tableau s.selection (s.tableau_count s.selection - 1))) := by
  intro hpos
  have hcnt : 0 ≤ s.tableau_count s.selection := by omega
  have hvalid := pile_cards_valid_of_conserved s hb.2.2.2.1 s.selection hd0 hd6
  have htop : 0 < s.tableau_count s.selection →
      0 ≤ s.tableau s.selection (s.tableau_count s.selection - 1) :=
    fun h => (hvalid _ (by omega) (by omega)).1
  rw [tmod_four_of_nonneg c hc0] at h
  have hl := (tableau_rules_met_iff s _ _ k hcnt htop).1 h
  unfold tableau_legal at hl
  rcases hl with ⟨_, a, b⟩ | ⟨a, _⟩
  · unfold rank_of at a ⊢
    unfold suit_of at b ⊢
    exact ⟨by omega, fun e => b e.symm⟩
  · omega

theorem get_source_card_after_place (s : State) (c : Int) (hne : s.selection ≠ s.source) :
    get_source_card { s with
      tableau := setAt2 s.tableau s.selection (s.tableau_count s.selection) c
      tableau_count := setAt s.tableau_count s.selection (s.tableau_count s.selection + 1) }
      = get_source_card s := by
  unfold get_source_card
  have hne2 : s.source ≠ s.selection := fun h => hne h.symm
  simp only [setAt_other _ _ _ _ hne2, setAt2_apply]
  have : ¬ (s.source = s.selection ∧ s.tableau_count s.source - 1 = s.tableau_count s.selection) :=
    fun h => hne2 h.1
  rw [if_neg this]

theorem forRange_copy_card (n : Nat) (i : Int) (s : State) (hne : s.selection ≠ s.source) :
    forRange copy_card n i s
      = { s with
          tableau := fun p q =>
            if p = s.selection ∧ s.tableau_count s.selection ≤ q
                ∧ q < s.tableau_count s.selection + n
            then s.tableau s.source (i + (q - s.tableau_count s.selection))
            else s.tableau p q
          tableau_count := setAt s.tableau_count s.selection (s.tableau_count s.selection + n) } := by
  induction n generalizing i s with
  | zero =>
    simp only [forRange]
    have e1 : (fun p q => if p = s.selection ∧ s.tableau_count s.selection ≤ q
          ∧ q < s.tableau_count s.selection + ((0 : Nat) : Int)
        then s.tableau s.source (i + (q - s.tableau_count s.selection)) else s.tableau p q)
        = s.tableau := by
      funext p q
      have : ¬ (p = s.selection ∧ s.tableau_count s.selection ≤ q
          ∧ q < s.tableau_count s.selection + ((0 : Nat) : Int)) := by push_cast; omega
      rw [if_neg this]
    have e2 : setAt s.tableau_count s.selection (s.tableau_count s.selection + ((0 : Nat) : Int))
        = s.tableau_count := by
      funext p
      rw [setAt_apply]
      by_cases hp : p = s.selection
      · rw [if_pos hp, hp]; simp
      · rw [if_neg hp]
    rw [e1, e2]
  | succ n ih =>
    simp only [forRange]
    rw [ih (i + 1) (copy_card i s) hne]
    simp only [copy_card, setAt_same]
    have hne2 : s.source ≠ s.selection := fun h => hne h.symm
    congr 1
    · funext p q
      rw [setAt2_apply, setAt2_apply]
      have hsrc : ¬ (s.source = s.selection
          ∧ i + 1 + (q - (s.tableau_count s.selection + 1)) = s.tableau_count s.selection) :=
        fun h => hne2 h.1
      rw [if_neg hsrc]
      by_cases hp : p = s.selection
      · by_cases h1 : s.tableau_count s.selection + 1 ≤ q
            ∧ q < s.tableau_count s.selection + 1 + (n : Int)
        · have c1 : p = s.selection ∧ s.tableau_count s.selection + 1 ≤ q
              ∧ q < s.tableau_count s.selection + 1 + (n : Int) := ⟨hp, h1⟩
          have c2 : p = s.selection ∧ s.tableau_count s.selection ≤ q
              ∧ q < s.tableau_count s.selection + ((n + 1 : Nat) : Int) :=
            ⟨hp, by omega, by push_cast; omega⟩
          rw [if_pos c1, if_pos c2]
          congr 1
          omega
        · have c1 : ¬ (p = s.selection ∧ s.tableau_count s.selection + 1 ≤ q
              ∧ q < s.tableau_count s.selection + 1 + (n : Int)) := fun h => h1 h.2
          rw [if_neg c1]
          by_cases h2 : q = s.tableau_count s.selection
          · have c2 : p = s.selection ∧ s.tableau_count s.selection ≤ q
                ∧ q < s.tableau_count s.selection + ((n + 1 : Nat) : Int) :=
              ⟨hp, by omega, by push_cast; omega⟩
            rw [if_pos ⟨hp, h2⟩, if_pos c2]
            congr 1
            omega
          · have c2 : ¬ (p = s.selection ∧ s.tableau_count s.selection ≤ q
                ∧ q < s.tableau_count s.selection + ((n + 1 : Nat) : Int)) := by
              push_cast; omega
            have c3 : ¬ (p = s.selection ∧ q = s.tableau_count s.selection) := fun h => h2 h.2
            rw [if_neg c3, if_neg c2]
      · have c1 : ¬ (p = s.selection ∧ s.tableau_count s.selection + 1 ≤ q
            ∧ q < s.tableau_count s.selection + 1 + (n : Int)) := fun h => hp h.1
        have c2 : ¬ (p = s.selection ∧ s.tableau_count s.selection ≤ q
            ∧ q < s.tableau_count s.selection + ((n + 1 : Nat) : Int)) := fun h => hp h.1
        have c3 : ¬ (p = s.selection ∧ q = s.tableau_count s.selection) := fun h => hp h.1
        rw [if_neg c1, if_neg c2, if_neg c3]
    · funext p
      by_cases hp : p = s.selection
      · rw [hp, setAt_same, setAt_same]
        push_cast
        omega
      · rw [setAt_other _ _ _ _ hp, setAt_other _ _ _ _ hp, setAt_other _ _ _ _ hp]

/-- Moving the face-up run of pile `p` onto pile `d` preserves the board invariant. -/
theorem run_move_board (s t : State) (d p : Int) (n : Nat) (hb : board_ok s)
    (hd0 : 0 ≤ d) (hd6 : d ≤ 6) (hp0 : 0 ≤ p) (hp6 : p ≤ 6) (hne : d ≠ p)
    (hn : (n : Int) = s.tableau_count p - s.hidden_count p)
    (hj : 0 < s.tableau_count d →
      rank_of (s.tableau p (s.hidden_count p)) + 1
          = rank_of (s.tableau d (s.tableau_count d - 1))
        ∧ colour_of (suit_of (s.tableau p (s.hidden_count p)))
          ≠ colour_of (suit_of (s.tableau d (s.tableau_count d - 1))))
    (h1 : t.tableau = fun a q =>
      if a = d ∧ s.tableau_count d ≤ q ∧ q < s.tableau_count d + n
      then s.tableau p (s.hidden_count p + (q - s.tableau_count d)) else s.tableau a q)
    (h2 : t.tableau_count
      = setAt (setAt s.tableau_count d (s.tableau_count d + n)) p (s.hidden_count p))
    (h3 : t.hidden_count
      = if s.hidden_count p > 0 then setAt s.hidden_count p (s.hidden_count p - 1)
        else s.hidden_count)
    (h4 : t.stock_count = s.stock_count) (h5 : t.talon = s.talon)
    (h6 : t.talon_showing = s.talon_showing) (h7 : t.stock = s.stock)
    (h8 : t.foundation = s.foundation) (h9 : t.draw_setting = s.draw_setting)
    (h10 : t.flips = s.flips) : board_ok t := by
  obtain ⟨hst, hpiles, hf, hcons, hfl⟩ := hb
  have hpd := hpiles d hd0 hd6
  have hpp := hpiles p hp0 hp6
  obtain ⟨⟨d1, d2, d3⟩, d4, d5⟩ := hpd
  obtain ⟨⟨p1, p2, p3⟩, p4, p5⟩ := hpp
  have hrow : ∀ a, a ≠ d → t.tableau a = s.tableau a := by
    intro a ha
    rw [h1]
    funext q
    have : ¬ (a = d ∧ s.tableau_count d ≤ q ∧ q < s.tableau_count d + n) := fun h => ha h.1
    simp only [this, if_false]
  have hlow : ∀ q, q < s.tableau_count d → t.tableau d q = s.tableau d q := by
    intro q hq
    have : ¬ (d = d ∧ s.tableau_count d ≤ q ∧ q < s.tableau_count d + n) := by omega
    rw [congrFun (congrFun h1 d) q]
    exact if_neg this
  have hhigh : ∀ q, s.tableau_count d ≤ q → q < s.tableau_count d + n →
      t.tableau d q = s.tableau p (s.hidden_count p + (q - s.tableau_count d)) := by
    intro q hq1 hq2
    have : d = d ∧ s.tableau_count d ≤ q ∧ q < s.tableau_count d + n := ⟨rfl, hq1, hq2⟩
    rw [congrFun (congrFun h1 d) q]
    exact if_pos this
  have hcd : t.tableau_count d = s.tableau_count d + n := by
    rw [h2, setAt_other _ _ _ _ hne, setAt_same]
  have hcp : t.tableau_count p = s.hidden_count p := by
    rw [h2, setAt_same]
  have hco : ∀ a, a ≠ d → a ≠ p → t.tableau_count a = s.tableau_count a := by
    intro a ha1 ha2
    rw [h2, setAt_other _ _ _ _ ha2, setAt_other _ _ _ _ ha1]
  have hhid : ∀ a, a ≠ p → t.hidden_count a = s.hidden_count a := by
    intro a ha
    rw [h3]
    split_ifs
    · rw [setAt_other _ _ _ _ ha]
    · rfl
  have hhp : t.hidden_count p
      = if s.hidden_count p > 0 then s.hidden_count p - 1 else s.hidden_count p := by
    rw [h3]
    split_ifs
    · rw [setAt_same]
    · rfl
  refine ⟨?_, ?_, ?_, ?_, by rw [h10]; exact hfl⟩
  · unfold stock_ok at hst ⊢
    rw [h4, h5, h6, h9]
    exact hst
  · intro a ha0 ha6
    by_cases had : a = d
    · rw [had]
      unfold pile_ok pile_counts_ok run_ok
      rw [hcd, hhid d hne]
      refine ⟨⟨d1, by omega, fun _ => by omega⟩, d4, ?_⟩
      intro j hj0 hj1
      by_cases hjlow : j + 1 < s.tableau_count d
      · rw [hlow _ hjlow, hlow j (by omega)]
        exact d5 j hj0 hjlow
      · rw [hhigh (j + 1) (by omega) hj1]
        by_cases hjun : j + 1 = s.tableau_count d
        · rw [hlow j (by omega)]
          have e1 : s.hidden_count p + (j + 1 - s.tableau_count d) = s.hidden_count p := by
            omega
          have e2 : j = s.tableau_count d - 1 := by omega
          rw [e1, e2]
          exact hj (by omega)
        · rw [hhigh j (by omega) (by omega)]
          have e1 : s.hidden_count p + (j + 1 - s.tableau_count d)
              = s.hidden_count p + (j - s.tableau_count d) + 1 := by omega
          rw [e1]
          exact p5 _ (by omega) (by omega)
    · by_cases hap : a = p
      · rw [hap]
        unfold pile_ok pile_counts_ok run_ok
        rw [hcp, hhp]
        by_cases hh : s.hidden_count p > 0
        · rw [if_pos hh]
          refine ⟨⟨by omega, by omega, fun _ => by omega⟩, by omega, ?_⟩
          intro j hj0 hj1
          omega
        · rw [if_neg hh]
          refine ⟨⟨p1, le_refl _, fun h => absurd h (by omega)⟩, p4, ?_⟩
          intro j hj0 hj1
          omega
      · exact pile_ok_frame s t a (hrow a had) (hco a had hap) (hhid a hap) (hpiles a ha0 ha6)
  · unfold foundations_ok at hf ⊢
    rw [h8]
    exact hf
  · -- the run leaves pile `p` and arrives on pile `d`
    have hlen : (s.tableau_count p) = s.hidden_count p + n := by omega
    have hsplit : pile_cards s p
        = live_cards (s.tableau p) (s.hidden_count p)
          ++ live_cards (fun k => s.tableau p (s.hidden_count p + k)) n := by
      unfold pile_cards
      rw [hlen]
      exact live_cards_add _ _ _ p1
    have htp : pile_cards t p = live_cards (s.tableau p) (s.hidden_count p) := by
      unfold pile_cards
      rw [hcp, hrow p (fun h => hne h.symm)]
    have htd : pile_cards t d = pile_cards s d
        ++ live_cards (fun k => s.tableau p (s.hidden_count p + k)) n := by
      unfold pile_cards
      rw [hcd, live_cards_add _ _ _ (by omega)]
      congr 1
      · apply live_cards_congr
        intro k hk0 hk1
        exact hlow k hk1
      · apply live_cards_congr
        intro k hk0 hk1
        rw [hhigh _ (by omega) (by omega)]
        congr 1
        omega
    have hother : ∀ q, 0 ≤ q → q ≤ 6 → q ≠ d → q ≠ p → pile_cards t q = pile_cards s q := by
      intro q _ _ hq1 hq2
      unfold pile_cards
      rw [hrow q hq1, hco q hq1 hq2]
    intro c
    have e0 := hcons c
    rw [count_all_cards] at e0 ⊢
    rw [stock_cards_congr s t h7 h4, foundations_cards_congr s t h8]
    have key : (tableau_cards t).count c = (tableau_cards s).count c := by
      have hsum : ∀ q, 0 ≤ q → q ≤ 6 →
          (pile_cards t q).count c + (if q = p then
              (live_cards (fun k => s.tableau p (s.hidden_count p + k)) n).count c else 0)
            = (pile_cards s q).count c + (if q = d then
              (live_cards (fun k => s.tableau p (s.hidden_count p + k)) n).count c else 0) := by
        intro q hq0 hq6
        by_cases hqd : q = d
        · have hqp : q ≠ p := fun h => hne (hqd.symm.trans h)
          rw [if_neg hqp, if_pos hqd, hqd, htd, List.count_append]
          omega
        · by_cases hqp : q = p
          · rw [if_pos hqp, if_neg hqd, hqp, htp, hsplit, List.count_append]
            omega
          · rw [if_neg hqp, if_neg hqd, hother q hq0 hq6 hqd hqp]
      have s0 := hsum 0 (by decide) (by decide)
      have s1 := hsum 1 (by decide) (by decide)
      have s2 := hsum 2 (by decide) (by decide)
      have s3 := hsum 3 (by decide) (by decide)
      have s4 := hsum 4 (by decide) (by decide)
      have s5 := hsum 5 (by decide) (by decide)
      have s6 := hsum 6 (by decide) (by decide)
      unfold tableau_cards
      simp only [List.count_append]
      generalize (live_cards (fun k => s.tableau p (s.hidden_count p + k)) n).count c = L
        at s0 s1 s2 s3 s4 s5 s6
      have hd' : d = 0 ∨ d = 1 ∨ d = 2 ∨ d = 3 ∨ d = 4 ∨ d = 5 ∨ d = 6 := by omega
      have hp' : p = 0 ∨ p = 1 ∨ p = 2 ∨ p = 3 ∨ p = 4 ∨ p = 5 ∨ p = 6 := by omega
      clear hsum hother htd htp hsplit h1 h2 h3 hrow hlow hhigh hco hhid hhp hj d5 p5 hpiles
      rcases hd' with h | h | h | h | h | h | h <;>
        rcases hp' with h' | h' | h' | h' | h' | h' | h' <;>
          first
            | exact absurd (h.trans h'.symm) hne
            | (rw [h, h'] at s0 s1 s2 s3 s4 s5 s6
               norm_num at s0 s1 s2 s3 s4 s5 s6
               omega)
    omega

/-! ## `move_to_tableau` and `deal_card_from_stock` preserve the board invariant -/

/-- The state after the full-pile branch of `move_to_tableau`. -/
theorem move_run_eq (s : State) (hne : s.selection ≠ s.source) (n : Nat) :
    tableau_flip_top_card
        { forRange copy_card n (s.hidden_count s.source) s with
          tableau_count := setAt
            (forRange copy_card n (s.hidden_count s.source) s).tableau_count
            (forRange copy_card n (s.hidden_count s.source) s).source
            ((forRange copy_card n (s.hidden_count s.source) s).hidden_count
              (forRange copy_card n (s.hidden_count s.source) s).source) }
      = { s with
          tableau := fun a q =>
            if a = s.selection ∧ s.tableau_count s.selection ≤ q
                ∧ q < s.tableau_count s.selection + n
            then s.tableau s.source (s.hidden_count s.source + (q - s.tableau_count s.selection))
            else s.tableau a q
          tableau_count := setAt
            (setAt s.tableau_count s.selection (s.tableau_count s.selection + n))
            s.source (s.hidden_count s.source)
          hidden_count :=
            if s.hidden_count s.source > 0
            then setAt s.hidden_count s.source (s.hidden_count s.source - 1)
            else s.hidden_count } := by
  rw [forRange_copy_card n _ s hne]
  unfold tableau_flip_top_card
  simp only [setAt_same]
  by_cases hh : s.hidden_count s.source > 0
  · simp [hh]
  · simp [hh]

/-- `move_to_tableau` preserves the board invariant when the destination is a tableau
pile and the source index is not negative. -/
theorem move_to_tableau_board (s : State) (hb : board_ok s)
    (hd0 : 0 ≤ s.selection) (hd6 : s.selection ≤ 6) (hsrc : 0 ≤ s.source) :
    board_ok (move_to_tableau s) := by
  rw [move_to_tableau_eq]
  split_ifs with h1 h2
  · obtain ⟨hne, hc0, hrules⟩ := can_move_single_spec s h1
    have hj := rules_met_junction s _ true hb hd0 hd6 hc0 hrules
    have hplus := place_on_pile s s.selection (get_source_card s) hb hd0 hd6 hj
    exact remove_source_card_board _ _ hplus (get_source_card_after_place s _ hne) hc0
  · obtain ⟨hne, hs6, hpos, hmulti, hrules⟩ := can_move_pile_spec s h2
    obtain ⟨⟨p1, p2, p3⟩, _, _⟩ := hb.2.1 s.source hsrc hs6
    have hlt := p3 hpos
    have hb0 : 0 ≤ s.tableau s.source (s.hidden_count s.source) :=
      (pile_cards_valid_of_conserved s hb.2.2.2.1 s.source hsrc hs6 _ p1 hlt).1
    have hj := rules_met_junction s _ _ hb hd0 hd6 hb0 hrules
    rw [move_run_eq s hne]
    exact run_move_board s _ s.selection s.source _ hb hd0 hd6 hsrc hs6 hne (by omega) hj
      rfl rfl rfl rfl rfl rfl rfl rfl rfl rfl
  · exact hb

/-- The talon cursor after a stock draw that passed the outer guard. -/
theorem deal_card_from_stock_eq (s : State) :
    deal_card_from_stock s
      = if s.stock_count > s.talon_showing + 1 then
          { s with
            talon :=
              if s.talon + s.talon_showing + 1 = s.stock_count then
                (if s.fliplimit_setting = 0 ∨ (s.fliplimit_setting = 2 ∧ s.flips < 1)
                    ∨ (s.fliplimit_setting = 3 ∧ s.flips < 3) then 0 else s.talon)
              else s.talon + (s.talon_showing + 1)
            flips :=
              if s.talon + s.talon_showing + 1 = s.stock_count
                  ∧ (s.fliplimit_setting = 0 ∨ (s.fliplimit_setting = 2 ∧ s.flips < 1)
                    ∨ (s.fliplimit_setting = 3 ∧ s.flips < 3)) then s.flips + 1
              else s.flips
            talon_showing :=
              if s.draw_setting ≠ 0 then
                (if s.stock_count
                    - (if s.talon + s.talon_showing + 1 = s.stock_count then
                        (if s.fliplimit_setting = 0 ∨ (s.fliplimit_setting = 2 ∧ s.flips < 1)
                            ∨ (s.fliplimit_setting = 3 ∧ s.flips < 3) then 0 else s.talon)
                      else s.talon + (s.talon_showing + 1)) - 1 > 2 then 2
                else s.stock_count
                    - (if s.talon + s.talon_showing + 1 = s.stock_count then
                        (if s.fliplimit_setting = 0 ∨ (s.fliplimit_setting = 2 ∧ s.flips < 1)
                            ∨ (s.fliplimit_setting = 3 ∧ s.flips < 3) then 0 else s.talon)
                      else s.talon + (s.talon_showing + 1)) - 1)
              else s.talon_showing }
        else s := by
  unfold deal_card_from_stock
  by_cases c1 : s.stock_count > s.talon_showing + 1
  · by_cases c2 : s.talon + s.talon_showing + 1 = s.stock_count
    · by_cases c3 : s.fliplimit_setting = 0 ∨ (s.fliplimit_setting = 2 ∧ s.flips < 1)
          ∨ (s.fliplimit_setting = 3 ∧ s.flips < 3)
      · by_cases c4 : s.draw_setting ≠ 0
        · simp only [c1, c2, c3, c4, if_true, and_self, ne_eq, not_false_eq_true]
          split_ifs <;> rfl
        · simp only [c1, c2, c3, c4, if_true, and_self, if_false]
      · by_cases c4 : s.draw_setting ≠ 0
        · simp only [c1, c2, c3, c4, if_true, if_false, and_false, ne_eq, not_false_eq_true]
          split_ifs <;> rfl
        · simp only [c1, c2, c3, c4, if_true, if_false, and_false]
    · by_cases c4 : s.draw_setting ≠ 0
      · simp only [c1, c2, c4, if_true, if_false, false_and, ne_eq, not_false_eq_true]
        split_ifs <;> rfl
      · simp only [c1, c2, c4, if_true, if_false, false_and]
  · simp only [c1, if_false]

theorem deal_card_from_stock_spec (s : State) :
    ∃ tl fl ts, deal_card_from_stock s = { s with talon := tl, flips := fl, talon_showing := ts }
      ∧ (stock_ok s → stock_ok { s with talon := tl, flips := fl, talon_showing := ts })
      ∧ (0 ≤ s.flips → 0 ≤ fl) := by
  rw [deal_card_from_stock_eq]
  by_cases c1 : s.stock_count > s.talon_showing + 1
  · rw [if_pos c1]
    refine ⟨_, _, _, rfl, ?_, ?_⟩
    · intro hst
      unfold stock_ok at hst ⊢
      obtain ⟨a1, a2, a3, a4, a5, a6, a7⟩ := hst
      simp only
      by_cases c4 : s.draw_setting = 0
      · have a8 := a7 c4
        simp only [c4, ne_eq, not_true_eq_false, if_false]
        refine ⟨a1, a2, ?_, a4, a5, ?_, fun _ => a8⟩
        · split_ifs <;> omega
        · split_ifs <;> omega
      · simp only [ne_eq, c4, not_false_eq_true, if_true]
        refine ⟨a1, a2, ?_, ?_, ?_, ?_, fun h => absurd h (by simp)⟩
        · split_ifs <;> omega
        · split_ifs <;> omega
        · split_ifs <;> omega
        · split_ifs <;> omega
    · intro h
      split_ifs <;> omega
  · rw [if_neg c1]
    exact ⟨s.talon, s.flips, s.talon_showing, rfl, fun h => h, fun h => h⟩

/-- `deal_card_from_stock` preserves the board invariant. -/
theorem deal_card_from_stock_board (s : State) (hb : board_ok s) :
    board_ok (deal_card_from_stock s) := by
  obtain ⟨tl, fl, ts, heq, hst2, hfl2⟩ := deal_card_from_stock_spec s
  obtain ⟨hst, hpiles, hf, hcons, hfl⟩ := hb
  rw [heq]
  refine ⟨hst2 hst, ?_, hf, ?_, hfl2 hfl⟩
  · intro p hp0 hp6
    exact pile_ok_frame s _ p rfl rfl rfl (hpiles p hp0 hp6)
  · intro c
    have := hcons c
    rw [count_all_cards] at this ⊢
    rw [stock_cards_congr s { s with talon := tl, flips := fl, talon_showing := ts } rfl rfl,
      tableau_cards_congr s { s with talon := tl, flips := fl, talon_showing := ts } rfl rfl,
      foundations_cards_congr s { s with talon := tl, flips := fl, talon_showing := ts } rfl]
    exact this

/-! ## The automatic sweep and the settings preserve the board invariant -/

theorem sweep_pass_board (n : Nat) (i : Int) (r : Bool × State) (hb : board_ok r.2) :
    board_ok (sweep_pass n i r).2 := by
  induction n generalizing i r with
  | zero => exact hb
  | succ n ih =>
    rw [sweep_pass_eq]
    have hm : board_ok (move_to_foundation { r.2 with source := i }).2 :=
      move_to_foundation_board _ (same_board_board_ok (same_board_source r.2 i) hb)
    split_ifs
    · exact ih (i + 1) (true, _) hm
    · exact ih (i + 1) (r.1, _) hm
    · exact ih (i + 1) r hb

theorem auto_move_board (fuel : Nat) (s t : State) (hb : board_ok s)
    (h : automatically_move_to_foundations fuel s = some t) : board_ok t := by
  induction fuel generalizing s with
  | zero => simp [automatically_move_to_foundations] at h
  | succ n ih =>
    simp only [automatically_move_to_foundations] at h
    have hp := sweep_pass_board 7 0 (false, s) hb
    split_ifs at h
    · exact ih _ hp h
    · simp only [Option.some.injEq] at h
      rw [← h]
      exact hp

/-- The sweep writes `source` and leaves the other cursor fields alone. -/
theorem move_to_foundation_cursor (s : State) :
    (move_to_foundation s).2.mode = s.mode ∧ (move_to_foundation s).2.selection = s.selection
      ∧ (move_to_foundation s).2.source = s.source := by
  obtain ⟨fd, sc, st, tl, ts, hc, tc, scr, w, h⟩ := move_to_foundation_frame s
  rw [h]
  exact ⟨rfl, rfl, rfl⟩

theorem sweep_pass_cursor (n : Nat) (i : Int) (r : Bool × State) :
    (sweep_pass n i r).2.mode = r.2.mode ∧ (sweep_pass n i r).2.selection = r.2.selection := by
  induction n generalizing i r with
  | zero => exact ⟨rfl, rfl⟩
  | succ n ih =>
    rw [sweep_pass_eq]
    have hm := move_to_foundation_cursor { r.2 with source := i }
    split_ifs
    · obtain ⟨a, b⟩ := ih (i + 1) (true, (move_to_foundation { r.2 with source := i }).2)
      exact ⟨a.trans hm.1, b.trans hm.2.1⟩
    · obtain ⟨a, b⟩ := ih (i + 1) (r.1, (move_to_foundation { r.2 with source := i }).2)
      exact ⟨a.trans hm.1, b.trans hm.2.1⟩
    · exact ih (i + 1) r

theorem auto_move_cursor (fuel : Nat) (s t : State)
    (h : automatically_move_to_foundations fuel s = some t) :
    t.mode = s.mode ∧ t.selection = s.selection := by
  induction fuel generalizing s with
  | zero => simp [automatically_move_to_foundations] at h
  | succ n ih =>
    simp only [automatically_move_to_foundations] at h
    have hp := sweep_pass_cursor 7 0 (false, s)
    split_ifs at h
    · obtain ⟨a, b⟩ := ih _ h
      exact ⟨a.trans hp.1, b.trans hp.2⟩
    · simp only [Option.some.injEq] at h
      rw [← h]
      exact hp

theorem settings_draw_toggle_board (s : State) (hb : board_ok s)
    (hguard : 0 < s.stock_count ∨ s.draw_setting ≠ 0) :
    board_ok (settings_menu_select_callback 0 s) := by
  obtain ⟨hst, hpiles, hf, hcons, hfl⟩ := hb
  have hkeep : ∀ ds ts, stock_ok { s with draw_setting := ds, talon_showing := ts } →
      board_ok { s with draw_setting := ds, talon_showing := ts } := by
    intro ds ts hs
    refine ⟨hs, fun p hp0 hp6 => pile_ok_frame s _ p rfl rfl rfl (hpiles p hp0 hp6), hf, ?_, hfl⟩
    intro c
    have := hcons c
    rw [count_all_cards] at this ⊢
    rw [stock_cards_congr s { s with draw_setting := ds, talon_showing := ts } rfl rfl,
      tableau_cards_congr s { s with draw_setting := ds, talon_showing := ts } rfl rfl,
      foundations_cards_congr s { s with draw_setting := ds, talon_showing := ts } rfl]
    exact this
  unfold stock_ok at hst
  obtain ⟨a1, a2, a3, a4, a5, a6, a7⟩ := hst
  unfold settings_menu_select_callback
  simp only [if_true]
  by_cases hd : s.draw_setting = 0
  · have a8 := a7 hd
    have hpos : 0 < s.stock_count := by
      rcases hguard with h | h
      · exact h
      · exact absurd hd h
    simp only [hd, if_true]
    by_cases hbig : s.stock_count - s.talon - 1 > 2
    · rw [if_pos hbig]
      apply hkeep
      unfold stock_ok
      simp only
      refine ⟨a1, a2, a3, by omega, by omega, by omega, fun h => absurd h (by decide)⟩
    · rw [if_neg hbig]
      apply hkeep
      unfold stock_ok
      simp only
      refine ⟨a1, a2, a3, by omega, by omega, by omega, fun h => absurd h (by decide)⟩
  · simp only [hd, if_false]
    apply hkeep
    unfold stock_ok
    simp only
    refine ⟨a1, a2, a3, by omega, by omega, by omega, fun _ => trivial⟩

theorem settings_other_board (s : State) (k : Int) (hk : k ≠ 0) (hb : board_ok s) :
    board_ok (settings_menu_select_callback k s) := by
  unfold settings_menu_select_callback
  simp only [hk, if_false]
  split_ifs
  · exact board_ok_congr s _ rfl rfl rfl rfl rfl rfl rfl rfl rfl rfl hb
  · exact board_ok_congr s _ rfl rfl rfl rfl rfl rfl rfl rfl rfl rfl hb
  · exact hb

theorem tools_board (s : State) (k : Int) (hb : board_ok s) :
    board_ok (tools_menu_select_callback k s) := by
  unfold tools_menu_select_callback
  split_ifs
  · exact board_ok_congr s _ rfl rfl rfl rfl rfl rfl rfl rfl rfl rfl hb
  · exact hb

/-! ## The cursor stays in range -/

theorem same_board_fields {s t : State} (h : same_board s t) :
    t.win = s.win ∧ t.stock_count = s.stock_count := by
  obtain ⟨m, sel, src, rfl⟩ := h
  exact ⟨rfl, rfl⟩

theorem source_pile_is_valid_source (s : State) :
    (source_pile_is_valid s).2.source = if s.selection = 7 then s.source else s.selection := by
  rw [source_pile_is_valid_state]
  split_ifs <;> rfl

theorem talon_scan_range (n : Nat) (i : Int) (s : State) (hi : 0 ≤ i) (hn : i + n ≤ 7) :
    (talon_scan n i s).mode = s.mode
      ∧ 0 ≤ (talon_scan n i s).selection ∧ (talon_scan n i s).selection ≤ 7 := by
  induction n generalizing i s with
  | zero =>
    refine ⟨rfl, ?_, ?_⟩
    · show (0 : Int) ≤ 7
      decide
    · show (7 : Int) ≤ 7
      decide
  | succ n ih =>
    simp only [talon_scan]
    have hsel : (source_pile_is_valid { s with selection := i }).2.selection = i :=
      source_pile_is_valid_selection { s with selection := i }
    have hmode : (source_pile_is_valid { s with selection := i }).2.mode = s.mode :=
      source_pile_is_valid_mode { s with selection := i }
    push_cast at hn
    split_ifs
    · rw [hsel, hmode]
      exact ⟨rfl, hi, by omega⟩
    · obtain ⟨a, b, c⟩ := ih (i + 1) (source_pile_is_valid { s with selection := i }).2
        (by omega) (by omega)
      exact ⟨a.trans hmode, b, c⟩

theorem select_talon_range (s : State) (hw : s.win = false) :
    (select_talon s).mode = 0
      ∧ 0 ≤ (select_talon s).selection ∧ (select_talon s).selection ≤ 7 := by
  rw [select_talon_eq, if_neg (by simp [hw])]
  split_ifs
  · exact talon_scan_range 7 0 { s with mode := 0 } (le_refl _) (by norm_num)
  · refine ⟨rfl, ?_, ?_⟩
    · show (0 : Int) ≤ 7
      decide
    · show (7 : Int) ≤ 7
      decide

theorem select_talon_cursor (s : State) (hw : s.win = false) : cursor_ok (select_talon s) :=
  Or.inl (select_talon_range s hw)

theorem next_source_index_range (x : Int) (h : -1 ≤ x) :
    0 ≤ next_source_index x ∧ next_source_index x ≤ 7 := by
  unfold next_source_index
  split_ifs <;> omega

theorem next_destination_index_range (x : Int) (h : -1 ≤ x) :
    (0 ≤ next_destination_index x ∧ next_destination_index x ≤ 6)
      ∨ next_destination_index x = 8 := by
  unfold next_destination_index
  split_ifs <;> omega

theorem next_source_cursor (fuel : Nat) (s t : State) (h : next_source fuel s = some t)
    (hw : s.win = false) (hm : s.mode = 0) (hsel : -1 ≤ s.selection) : cursor_ok t := by
  induction fuel generalizing s with
  | zero => simp [next_source] at h
  | succ n ih =>
    rw [next_source_eq] at h
    have hidx := next_source_index_range s.selection hsel
    have hb : same_board s
        (source_pile_is_valid { s with selection := next_source_index s.selection }).2 :=
      same_board_trans (same_board_selection s _) (source_pile_is_valid_board _)
    have hw2 := (same_board_fields hb).1.trans hw
    have hsel2 : (source_pile_is_valid
        { s with selection := next_source_index s.selection }).2.selection
        = next_source_index s.selection :=
      source_pile_is_valid_selection { s with selection := next_source_index s.selection }
    have hmode2 : (source_pile_is_valid
        { s with selection := next_source_index s.selection }).2.mode = s.mode :=
      source_pile_is_valid_mode { s with selection := next_source_index s.selection }
    split_ifs at h
    · simp only [Option.some.injEq] at h
      rw [← h]
      exact select_talon_cursor _ hw2
    · simp only [Option.some.injEq] at h
      rw [← h]
      left
      rw [hsel2, hmode2]
      exact ⟨hm, hidx.1, hidx.2⟩
    · refine ih _ h hw2 (hmode2.trans hm) ?_
      rw [hsel2]
      omega

theorem next_destination_cursor (fuel : Nat) (w : Int) (s t : State)
    (h : next_destination fuel w s = some t)
    (hw : s.win = false) (hm : s.mode = 1) (hs0 : 0 ≤ s.source) (hs7 : s.source ≤ 7)
    (hsel : -1 ≤ s.selection) : cursor_ok t := by
  induction fuel generalizing s w with
  | zero => simp [next_destination] at h
  | succ n ih =>
    rw [next_destination_eq] at h
    have hidx := next_destination_index_range s.selection hsel
    split_ifs at h
    · simp only [Option.some.injEq] at h
      rw [← h]
      exact select_talon_cursor _ hw
    · simp only [Option.some.injEq] at h
      rw [← h]
      right
      exact ⟨hm, hs0, hs7, hidx⟩
    · refine ih _ _ h hw hm hs0 hs7 ?_
      show -1 ≤ next_destination_index s.selection
      omega
    · refine ih _ _ h hw hm hs0 hs7 ?_
      show -1 ≤ next_destination_index s.selection
      omega

theorem select_next_valid_pile_cursor (fuel : Nat) (s t : State)
    (h : select_next_valid_pile fuel s = some t) (hw : s.win = false)
    (hc : (s.mode = 0 ∧ -1 ≤ s.selection)
      ∨ (s.mode = 1 ∧ 0 ≤ s.source ∧ s.source ≤ 7 ∧ -1 ≤ s.selection)) : cursor_ok t := by
  unfold select_next_valid_pile at h
  rcases hc with ⟨hm, hsel⟩ | ⟨hm, hs0, hs7, hsel⟩
  · rw [if_pos hm] at h
    exact next_source_cursor fuel s t h hw hm hsel
  · rw [if_neg (by omega)] at h
    exact next_destination_cursor fuel _ s t h hw hm hs0 hs7 hsel

/-- With the foundations as source no tableau move is legal. -/
theorem can_move_to_tableau_of_no_pile (s : State) (h : 8 ≤ s.source) :
    can_move_to_tableau s = false := by
  unfold can_move_to_tableau can_move_single_card_to_tableau can_move_pile_to_tableau
    get_source_card
  have h1 : s.source < 0 ∨ s.source ≥ 8 := Or.inr h
  have h2 : s.source > 6 := by omega
  simp [h1, h2]

theorem source_scan_of_no_pile (saved : Int) (n : Nat) (s : State) (h : 8 ≤ s.source) :
    (source_scan saved n s).1 = false := by
  induction n generalizing s with
  | zero => rfl
  | succ n ih =>
    simp only [source_scan]
    rw [can_move_to_tableau_of_no_pile s h]
    simp only [Bool.false_eq_true, if_false]
    exact ih _ h

/-- The foundations are never a valid source. -/
theorem source_pile_is_valid_eight (s : State) (h : s.selection = 8) :
    (source_pile_is_valid s).1 = false := by
  unfold source_pile_is_valid
  have h7 : ¬ s.selection = 7 := by omega
  have hcan : can_move_to_foundations { s with source := s.selection } = 4 := by
    unfold can_move_to_foundations get_source_card
    have : s.selection < 0 ∨ s.selection ≥ 8 := by omega
    simp [this]
  simp only [h7, if_false, hcan]
  have : ¬ ((4 : Int) ≤ 3) := by decide
  rw [if_neg this]
  exact source_scan_of_no_pile _ _ _ (by show 8 ≤ s.selection; omega)

theorem select_valid_pile_cursor (fuel : Nat) (s t : State)
    (h : select_valid_pile fuel s = some t) (hw : s.win = false)
    (hc : (s.mode = 0 ∧ 0 ≤ s.selection ∧ s.selection ≤ 8)
      ∨ (s.mode = 1 ∧ 0 ≤ s.source ∧ s.source ≤ 7
          ∧ ((0 ≤ s.selection ∧ s.selection ≤ 6) ∨ s.selection = 8))) : cursor_ok t := by
  rw [select_valid_pile_eq] at h
  rcases hc with ⟨hm, hs0, hs8⟩ | ⟨hm, hs0, hs7, hsel⟩
  · rw [if_pos hm] at h
    have hsel2 := source_pile_is_valid_selection s
    have hmode2 := source_pile_is_valid_mode s
    have hw2 := (same_board_fields (source_pile_is_valid_board s)).1.trans hw
    split_ifs at h with hv
    · simp only [Option.some.injEq] at h
      rw [← h]
      left
      rw [hsel2, hmode2]
      refine ⟨hm, hs0, ?_⟩
      by_contra hgt
      have h8 : s.selection = 8 := by omega
      rw [source_pile_is_valid_eight s h8] at hv
      exact absurd hv (by decide)
    · exact select_next_valid_pile_cursor fuel _ t h hw2
        (Or.inl ⟨hmode2.trans hm, by rw [hsel2]; omega⟩)
  · rw [if_neg (by omega)] at h
    split_ifs at h
    · simp only [Option.some.injEq] at h
      rw [← h]
      exact Or.inr ⟨hm, hs0, hs7, hsel⟩
    · exact select_next_valid_pile_cursor fuel s t h hw
        (Or.inr ⟨hm, hs0, hs7, by omega⟩)

/-! ## The four commands preserve the game invariant -/

theorem up_game_ok (fuel : Nat) (s t : State) (hg : game_ok s)
    (h : up_click_handler fuel s = some t) : game_ok t := by
  by_cases hw : s.win = true
  · unfold up_click_handler at h
    simp only [hw, if_true, Option.some.injEq] at h
    rw [← h]
    exact hg
  · have hw' : s.win = false := by simpa using hw
    rw [up_click_handler_playing fuel s hw'] at h
    have hb := select_next_valid_pile_board _ _ _ h
    refine ⟨same_board_board_ok hb hg.1, fun _ => ?_⟩
    apply select_next_valid_pile_cursor fuel s t h hw'
    rcases hg.2 hw' with ⟨a, b, _⟩ | ⟨a, b, c, d⟩
    · exact Or.inl ⟨a, by omega⟩
    · exact Or.inr ⟨a, b, c, by omega⟩

theorem down_game_ok (s : State) (hg : game_ok s) : game_ok (down_click_handler s) := by
  by_cases hw : s.win = true
  · unfold down_click_handler
    simp only [hw, if_true]
    exact hg
  · have hw' : s.win = false := by simpa using hw
    rw [down_click_handler_playing s hw']
    have hb2 : board_ok (if s.mode = 0 then deal_card_from_stock s else s) := by
      split_ifs
      · exact deal_card_from_stock_board s hg.1
      · exact hg.1
    have hw2 : (if s.mode = 0 then deal_card_from_stock s else s).win = false := by
      split_ifs
      · obtain ⟨tl, fl, ts, h⟩ := deal_card_from_stock_frame s
        rw [h]
        exact hw'
      · exact hw'
    exact ⟨same_board_board_ok (select_talon_board _) hb2, fun _ => select_talon_cursor _ hw2⟩

theorem move_to_tableau_cursor (s : State) :
    (move_to_tableau s).mode = s.mode ∧ (move_to_tableau s).selection = s.selection
      ∧ (move_to_tableau s).source = s.source ∧ (move_to_tableau s).win = s.win := by
  obtain ⟨sc, st, tl, ts, tb, hc, tc, h⟩ := move_to_tableau_frame s
  rw [h]
  exact ⟨rfl, rfl, rfl, rfl⟩

theorem select_game_ok (fuel : Nat) (s t : State) (hg : game_ok s)
    (h : select_click_handler fuel s = some t) : game_ok t := by
  by_cases hw : s.win = true
  · rw [select_click_handler_eq] at h
    simp only [hw, if_true, Option.some.injEq] at h
    rw [← h]
    exact hg
  · have hw' : s.win = false := by simpa using hw
    have hcur := hg.2 hw'
    rw [select_click_handler_playing fuel s hw'] at h
    have hsv := source_pile_is_valid_board s
    have hsvw := (same_board_fields hsv).1.trans hw'
    split_ifs at h with h1 h2 h3
    · -- a move begins
      have hb := select_valid_pile_board _ _ _ h
      refine ⟨same_board_board_ok
        (same_board_trans (same_board_trans hsv ⟨1, 8, _, rfl⟩) hb) hg.1, fun _ => ?_⟩
      apply select_valid_pile_cursor fuel _ t h hsvw
      right
      have hsel := source_pile_is_valid_selection s
      rcases hcur with ⟨_, b, c⟩ | ⟨a, _⟩
      · refine ⟨rfl, ?_, ?_, Or.inr rfl⟩
        · show 0 ≤ (source_pile_is_valid s).2.selection
          rw [hsel]; exact b
        · show (source_pile_is_valid s).2.selection ≤ 7
          rw [hsel]; exact c
      · omega
    · simp only [Option.some.injEq] at h
      rw [← h]
      refine ⟨same_board_board_ok hsv hg.1, fun _ => ?_⟩
      rcases hcur with ⟨a, b, c⟩ | ⟨a, _⟩
      · left
        rw [source_pile_is_valid_selection, source_pile_is_valid_mode]
        exact ⟨a, b, c⟩
      · omega
    · -- a foundation move completes
      simp only [Option.some.injEq] at h
      have hmb := move_to_foundation_board s hg.1
      have hsb : same_board (move_to_foundation s).2 t := by
        rw [← h]
        exact same_board_trans (same_board_mode (move_to_foundation s).2 0)
          (select_talon_board { (move_to_foundation s).2 with mode := 0 })
      refine ⟨same_board_board_ok hsb hmb, fun hwt => ?_⟩
      have hwm : (move_to_foundation s).2.win = false := by
        rw [← (same_board_fields hsb).1]
        exact hwt
      rw [← h]
      exact select_talon_cursor _ hwm
    · -- a tableau move completes
      obtain ⟨c1, c2, c3, c4⟩ := move_to_tableau_cursor s
      have hdest : 0 ≤ s.selection ∧ s.selection ≤ 6 ∧ 0 ≤ s.source := by
        rcases hcur with ⟨a, _⟩ | ⟨_, b, _, d⟩
        · exact absurd a h1
        · rcases d with d | d
          · exact ⟨d.1, d.2, b⟩
          · exact absurd d h3
      have hmb := move_to_tableau_board s hg.1 hdest.1 hdest.2.1 hdest.2.2
      have hb := select_valid_pile_board _ _ _ h
      refine ⟨same_board_board_ok (same_board_trans (same_board_mode _ 0) hb) hmb, fun _ => ?_⟩
      apply select_valid_pile_cursor fuel _ t h (c4.trans hw')
      left
      refine ⟨rfl, ?_, ?_⟩
      · show 0 ≤ (move_to_tableau s).selection
        rw [c2]; exact hdest.1
      · show (move_to_tableau s).selection ≤ 8
        rw [c2]; omega

theorem long_down_game_ok (fuel : Nat) (s t : State) (hg : game_ok s)
    (h : long_down_click_handler fuel s = some t) : game_ok t := by
  by_cases hw : s.win = true
  · unfold long_down_click_handler at h
    simp only [hw, if_true, Option.some.injEq] at h
    rw [← h]
    exact hg
  · have hw' : s.win = false := by simpa using hw
    obtain ⟨s1, ha, hv⟩ := long_down_click_handler_some fuel s t hw' h
    have hb1 := auto_move_board fuel s s1 hg.1 ha
    obtain ⟨_, c2⟩ := auto_move_cursor fuel s s1 ha
    have hsb := select_valid_pile_board _ _ _ hv
    refine ⟨same_board_board_ok (same_board_trans (same_board_mode s1 0) hsb) hb1, fun hwt => ?_⟩
    have hw1 : s1.win = false := by
      have := (same_board_fields (same_board_trans (same_board_mode s1 0) hsb)).1
      rw [← this]
      exact hwt
    apply select_valid_pile_cursor fuel _ t hv hw1
    left
    refine ⟨rfl, ?_, ?_⟩
    · show 0 ≤ s1.selection
      rw [c2]
      rcases hg.2 hw' with ⟨_, b, _⟩ | ⟨_, _, _, d⟩ <;> omega
    · show s1.selection ≤ 8
      rw [c2]
      rcases hg.2 hw' with ⟨_, _, c⟩ | ⟨_, _, _, d⟩ <;> omega

/-! ## Shuffle and deal -/

theorem rnd_spec (fuel : Nat) (max : Int) (s : State) (v : Int) (t : State)
    (h : rnd fuel max s = some (v, t)) :
    0 ≤ v ∧ v ≤ max ∧ ∃ sd, t = { s with seed := sd } := by
  induction fuel generalizing s with
  | zero => simp [rnd] at h
  | succ n ih =>
    simp only [rnd] at h
    split_ifs at h with hgt
    · obtain ⟨a, b, sd, hsd⟩ := ih _ h
      exact ⟨a, b, sd, by rw [hsd]⟩
    · simp only [Option.some.injEq, Prod.mk.injEq] at h
      obtain ⟨hv, ht⟩ := h
      refine ⟨?_, by omega, _, ht.symm⟩
      rw [← hv]
      omega

theorem count_live_swap (a : Int → Int) (i j : Int) (n : Nat)
    (hi0 : 0 ≤ i) (hi : i < n) (hj0 : 0 ≤ j) (hj : j < n) (c : Int) :
    (live_cards (setAt (setAt a j (a i)) i (a j)) n).count c = (live_cards a n).count c := by
  have e1 := count_live_setAt a j (a i) n hj0 hj c
  have e2 := count_live_setAt (setAt a j (a i)) i (a j) n hi0 hi c
  have e3 : setAt a j (a i) i = a i := by
    rw [setAt_apply]
    split_ifs <;> rfl
  rw [e3] at e2
  omega

theorem shuffle_loop_spec (fuel : Nat) (n : Nat) (s t : State) (hn : n ≤ 51)
    (h : shuffle_loop fuel n s = some t) :
    (∃ sd dk, t = { s with seed := sd, deck := dk })
      ∧ ∀ c, (live_cards t.deck 52).count c = (live_cards s.deck 52).count c := by
  induction n generalizing s with
  | zero =>
    simp only [shuffle_loop, Option.some.injEq] at h
    rw [← h]
    exact ⟨⟨s.seed, s.deck, rfl⟩, fun c => rfl⟩
  | succ n ih =>
    cases hr : rnd fuel ((n : Int) + 1) s with
    | none => simp [shuffle_loop, hr] at h
    | some p =>
      obtain ⟨j, s1⟩ := p
      simp only [shuffle_loop, hr] at h
      obtain ⟨hj0, hj1, sd, hs1⟩ := rnd_spec fuel _ s j s1 hr
      obtain ⟨⟨sd2, dk2, ht⟩, hcount⟩ := ih _ (by omega) h
      refine ⟨⟨sd2, dk2, by rw [ht, hs1]⟩, fun c => ?_⟩
      rw [hcount c]
      simp only
      have hdeck : s1.deck = s.deck := by rw [hs1]
      rw [hdeck]
      exact count_live_swap s.deck ((n : Int) + 1) j 52 (by omega) (by push_cast; omega) hj0
        (by push_cast; omega) c

theorem count_live_identity (n : Nat) (c : Int) :
    (live_cards (fun k => k) n).count c = if 0 ≤ c ∧ c < n then 1 else 0 := by
  induction n with
  | zero =>
    have : ¬ (0 ≤ c ∧ c < ((0 : Nat) : Int)) := by push_cast; omega
    rw [if_neg this, live_cards_of_nonpos _ _ (by simp)]
    rfl
  | succ n ih =>
    push_cast
    rw [count_live_succ _ _ (by omega), ih]
    by_cases h1 : 0 ≤ c ∧ c < (n : Int)
    · have h2 : 0 ≤ c ∧ c < (n : Int) + 1 := by omega
      have h3 : ¬ ((n : Int) = c) := by omega
      rw [if_pos h1, if_pos h2, if_neg h3]
    · by_cases h3 : (n : Int) = c
      · have h2 : 0 ≤ c ∧ c < (n : Int) + 1 := by omega
        rw [if_neg h1, if_pos h2, if_pos h3]
      · have h2 : ¬ (0 ≤ c ∧ c < (n : Int) + 1) := by omega
        rw [if_neg h1, if_neg h2, if_neg h3]

theorem deck_init_spec (n : Nat) (i0 : Int) (s : State) :
    forRange (fun i (t : State) => { t with deck := setAt t.deck i i }) n i0 s
      = { s with deck := fun k => if i0 ≤ k ∧ k < i0 + n then k else s.deck k } := by
  induction n generalizing i0 s with
  | zero =>
    simp only [forRange]
    have : (fun k => if i0 ≤ k ∧ k < i0 + ((0 : Nat) : Int) then k else s.deck k) = s.deck := by
      funext k
      have : ¬ (i0 ≤ k ∧ k < i0 + ((0 : Nat) : Int)) := by push_cast; omega
      rw [if_neg this]
    rw [this]
  | succ n ih =>
    simp only [forRange]
    rw [ih]
    congr 1
    funext k
    simp only [setAt_apply]
    by_cases h1 : i0 + 1 ≤ k ∧ k < i0 + 1 + (n : Int)
    · have h2 : i0 ≤ k ∧ k < i0 + ((n + 1 : Nat) : Int) := by push_cast; omega
      rw [if_pos h1, if_pos h2]
    · rw [if_neg h1]
      by_cases h3 : k = i0
      · have h2 : i0 ≤ k ∧ k < i0 + ((n + 1 : Nat) : Int) := by push_cast; omega
        rw [if_pos h3, if_pos h2, h3]
      · have h2 : ¬ (i0 ≤ k ∧ k < i0 + ((n + 1 : Nat) : Int)) := by push_cast; omega
        rw [if_neg h3, if_neg h2]

theorem stock_copy_spec (n : Nat) (i0 : Int) (s : State) :
    forRange (fun i (t : State) => { t with stock := setAt t.stock i (t.deck i) }) n i0 s
      = { s with stock := fun k => if i0 ≤ k ∧ k < i0 + n then s.deck k else s.stock k } := by
  induction n generalizing i0 s with
  | zero =>
    simp only [forRange]
    have : (fun k => if i0 ≤ k ∧ k < i0 + ((0 : Nat) : Int) then s.deck k else s.stock k)
        = s.stock := by
      funext k
      have : ¬ (i0 ≤ k ∧ k < i0 + ((0 : Nat) : Int)) := by push_cast; omega
      rw [if_neg this]
    rw [this]
  | succ n ih =>
    simp only [forRange]
    rw [ih]
    congr 1
    funext k
    simp only [setAt_apply]
    by_cases h1 : i0 + 1 ≤ k ∧ k < i0 + 1 + (n : Int)
    · have h2 : i0 ≤ k ∧ k < i0 + ((n + 1 : Nat) : Int) := by push_cast; omega
      rw [if_pos h1, if_pos h2]
    · rw [if_neg h1]
      by_cases h3 : k = i0
      · have h2 : i0 ≤ k ∧ k < i0 + ((n + 1 : Nat) : Int) := by push_cast; omega
        rw [if_pos h3, if_pos h2, h3]
      · have h2 : ¬ (i0 ≤ k ∧ k < i0 + ((n + 1 : Nat) : Int)) := by push_cast; omega
        rw [if_neg h3, if_neg h2]

theorem foundation_reset_spec (n : Nat) (i0 : Int) (s : State) :
    forRange (fun i (t : State) => { t with foundation := setAt t.foundation i (-1) }) n i0 s
      = { s with foundation := fun k => if i0 ≤ k ∧ k < i0 + n then -1 else s.foundation k } := by
  induction n generalizing i0 s with
  | zero =>
    simp only [forRange]
    have : (fun k => if i0 ≤ k ∧ k < i0 + ((0 : Nat) : Int) then -1 else s.foundation k)
        = s.foundation := by
      funext k
      have : ¬ (i0 ≤ k ∧ k < i0 + ((0 : Nat) : Int)) := by push_cast; omega
      rw [if_neg this]
    rw [this]
  | succ n ih =>
    simp only [forRange]
    rw [ih]
    congr 1
    funext k
    simp only [setAt_apply]
    by_cases h1 : i0 + 1 ≤ k ∧ k < i0 + 1 + (n : Int)
    · have h2 : i0 ≤ k ∧ k < i0 + ((n + 1 : Nat) : Int) := by push_cast; omega
      rw [if_pos h1, if_pos h2]
    · rw [if_neg h1]
      by_cases h3 : k = i0
      · have h2 : i0 ≤ k ∧ k < i0 + ((n + 1 : Nat) : Int) := by push_cast; omega
        rw [if_pos h3, if_pos h2]
      · have h2 : ¬ (i0 ≤ k ∧ k < i0 + ((n + 1 : Nat) : Int)) := by push_cast; omega
        rw [if_neg h3, if_neg h2]

theorem deal_cells_spec (i : Int) (n : Nat) (j k : Int) (s : State) :
    deal_cells i n j k s
      = (k + n, { s with tableau := fun p q =>
          if p = i ∧ j ≤ q ∧ q < j + n then s.deck (k + (q - j)) else s.tableau p q }) := by
  induction n generalizing j k s with
  | zero =>
    simp only [deal_cells]
    have : (fun p q => if p = i ∧ j ≤ q ∧ q < j + ((0 : Nat) : Int) then s.deck (k + (q - j))
        else s.tableau p q) = s.tableau := by
      funext p q
      have : ¬ (p = i ∧ j ≤ q ∧ q < j + ((0 : Nat) : Int)) := by push_cast; omega
      rw [if_neg this]
    rw [this]
    simp
  | succ n ih =>
    simp only [deal_cells]
    rw [ih]
    congr 1
    · push_cast; omega
    · congr 1
      funext p q
      simp only [setAt2_apply]
      by_cases h1 : p = i ∧ j + 1 ≤ q ∧ q < j + 1 + (n : Int)
      · have h2 : p = i ∧ j ≤ q ∧ q < j + ((n + 1 : Nat) : Int) :=
          ⟨h1.1, by omega, by push_cast; omega⟩
        rw [if_pos h1, if_pos h2]
        congr 1
        omega
      · rw [if_neg h1]
        by_cases h3 : p = i ∧ q = j
        · have h2 : p = i ∧ j ≤ q ∧ q < j + ((n + 1 : Nat) : Int) :=
            ⟨h3.1, by omega, by push_cast; omega⟩
          rw [if_pos h3, if_pos h2]
          congr 1
          omega
        · have h2 : ¬ (p = i ∧ j ≤ q ∧ q < j + ((n + 1 : Nat) : Int)) := by
            push_cast
            intro hh
            by_cases hq : q = j
            · exact h3 ⟨hh.1, hq⟩
            · exact h1 ⟨hh.1, by omega, by omega⟩
          rw [if_neg h3, if_neg h2]

theorem dealt_before_formula (m : Nat) (i : Int) :
    2 * dealt_before m i = 2 * m * i + m * (m + 1) := by
  induction m generalizing i with
  | zero => simp [dealt_before]
  | succ m ih =>
    simp only [dealt_before]
    have := ih (i + 1)
    push_cast
    linarith

theorem dealt_before_succ (m : Nat) (i : Int) :
    dealt_before (m + 1) i = dealt_before m i + (i + m + 1) := by
  have h1 := dealt_before_formula (m + 1) i
  have h2 := dealt_before_formula m i
  push_cast at h1
  linarith

/-- The tableau after the deal loops, pile by pile. -/
theorem deal_piles_spec (n : Nat) (i k : Int) (s : State) (hi : 0 ≤ i) :
    (∃ tb hc tc, deal_piles n i k s
        = { s with tableau := tb, hidden_count := hc, tableau_count := tc })
      ∧ (∀ m : Nat, m < n →
          (deal_piles n i k s).tableau_count (i + m) = i + m + 1
          ∧ (deal_piles n i k s).hidden_count (i + m) = i + m
          ∧ ∀ q, 0 ≤ q → q ≤ i + m →
              (deal_piles n i k s).tableau (i + m) q = s.deck (k + dealt_before m i + q))
      ∧ (∀ p, (p < i ∨ i + n ≤ p) →
          (deal_piles n i k s).tableau p = s.tableau p
          ∧ (deal_piles n i k s).tableau_count p = s.tableau_count p
          ∧ (deal_piles n i k s).hidden_count p = s.hidden_count p) := by
  induction n generalizing i k s with
  | zero =>
    refine ⟨⟨s.tableau, s.hidden_count, s.tableau_count, rfl⟩, fun m hm => absurd hm (by omega),
      fun p _ => ⟨rfl, rfl, rfl⟩⟩
  | succ n ih =>
    simp only [deal_piles, deal_cells_spec]
    obtain ⟨⟨tb, hc, tc, hfr⟩, hpiles, hframe⟩ := ih (i + 1) (k + ((i + 1).toNat : Int))
      { s with
        tableau := fun p q =>
          if p = i ∧ 0 ≤ q ∧ q < 0 + ((i + 1).toNat : Int) then s.deck (k + (q - 0))
          else s.tableau p q
        hidden_count := setAt s.hidden_count i i
        tableau_count := setAt s.tableau_count i (i + 1) } (by omega)
    refine ⟨⟨tb, hc, tc, by rw [hfr]⟩, ?_, ?_⟩
    · intro m hm
      cases m with
      | zero =>
        obtain ⟨f1, f2, f3⟩ := hframe i (Or.inl (by omega))
        simp only [Nat.cast_zero, add_zero]
        rw [f1, f2, f3]
        refine ⟨by simp, by simp, ?_⟩
        intro q hq0 hq1
        have : i = i ∧ 0 ≤ q ∧ q < 0 + ((i + 1).toNat : Int) := ⟨rfl, hq0, by omega⟩
        simp only [this, and_self, if_true, dealt_before]
        congr 1
        omega
      | succ m =>
        obtain ⟨g1, g2, g3⟩ := hpiles m (by omega)
        have e : i + ((m + 1 : Nat) : Int) = i + 1 + (m : Int) := by push_cast; omega
        rw [e]
        refine ⟨g1, g2, ?_⟩
        intro q hq0 hq1
        rw [g3 q hq0 hq1]
        simp only [dealt_before]
        congr 1
        have : 0 ≤ i + 1 := by omega
        omega
    · intro p hp
      obtain ⟨f1, f2, f3⟩ := hframe p (by push_cast at hp; omega)
      have hpi : p ≠ i := by push_cast at hp; omega
      rw [f1, f2, f3]
      refine ⟨?_, by simp [setAt_other _ _ _ _ hpi], by simp [setAt_other _ _ _ _ hpi]⟩
      funext q
      have : ¬ (p = i ∧ 0 ≤ q ∧ q < 0 + ((i + 1).toNat : Int)) := fun h => hpi h.1
      simp only [this, if_false]

/-! ## The state after a deal -/

/-- The state produced by `shuffle_and_deal`, field by field. -/
theorem shuffle_and_deal_eq (fuel : Nat) (now : Int) (s0 s : State)
    (h : shuffle_and_deal fuel now s0 = some s) :
    ∃ sd dk tb hc tc,
      s = { s0 with
            seed := sd, deck := dk
            stock := fun k => if 0 ≤ k ∧ k < 24 then dk k else s0.stock k
            stock_count := 24, talon := 0
            talon_showing := if s0.draw_setting ≠ 0 then 2 else 0
            foundation := fun k => if 0 ≤ k ∧ k < 4 then -1 else s0.foundation k
            tableau := tb, hidden_count := hc, tableau_count := tc
            win := false, score := s0.score - 52, flips := 0, mode := 0, selection := 7 }
      ∧ (∀ c, (live_cards dk 52).count c = if 0 ≤ c ∧ c ≤ 51 then 1 else 0)
      ∧ (∀ m : Nat, m < 7 → tc (m : Int) = (m : Int) + 1 ∧ hc (m : Int) = (m : Int)
          ∧ ∀ q : Int, 0 ≤ q → q ≤ (m : Int) →
              tb (m : Int) q = dk (24 + dealt_before m 0 + q)) := by
  simp only [shuffle_and_deal, deck_init_spec] at h
  split at h
  · simp at h
  · rename_i s3 hl
    simp only [stock_copy_spec, foundation_reset_spec, Option.some.injEq] at h
    obtain ⟨⟨sd, dk, hs3⟩, hcount⟩ := shuffle_loop_spec fuel 51 _ s3 (le_refl _) hl
    subst hs3
    obtain ⟨⟨tb, hc, tc, hfr⟩, hpiles, -⟩ := deal_piles_spec 7 0 24
      { s0 with
        seed := sd, deck := dk
        stock := fun k => if 0 ≤ k ∧ k < 0 + ((24 : Nat) : Int) then dk k else s0.stock k
        stock_count := 24, talon := 0
        talon_showing := if s0.draw_setting ≠ 0 then 2 else 0
        foundation := fun k =>
          if 0 ≤ k ∧ k < 0 + ((4 : Nat) : Int) then -1 else s0.foundation k } (le_refl _)
    simp only [zero_add, Nat.cast_ofNat] at h hfr hpiles hcount
    rw [hfr] at h hpiles
    refine ⟨sd, dk, tb, hc, tc, ?_, ?_, ?_⟩
    · rw [← h, select_talon_eq]
      simp
    · intro c
      have h1 := hcount c
      rw [h1]
      have e : live_cards (fun k => if 0 ≤ k ∧ k < 52 then k else s0.deck k)
          52 = live_cards (fun k => k) ((52 : Nat) : Int) := by
        apply live_cards_congr
        intro k hk0 hk1
        have : 0 ≤ k ∧ k < 52 := ⟨hk0, by omega⟩
        simp only [this, and_self, if_true]
      rw [e, count_live_identity]
      have : (0 ≤ c ∧ c < ((52 : Nat) : Int)) ↔ (0 ≤ c ∧ c ≤ 51) := by
        push_cast; constructor <;> intro h <;> omega
      simp only [this]
    · intro m hm
      obtain ⟨g1, g2, g3⟩ := hpiles m hm
      exact ⟨g1, g2, g3⟩

theorem deck_split (dk : Int → Int) :
    live_cards dk 52 = live_cards dk 24
      ++ live_cards (fun k => dk (24 + k)) 1 ++ live_cards (fun k => dk (25 + k)) 2
      ++ live_cards (fun k => dk (27 + k)) 3 ++ live_cards (fun k => dk (30 + k)) 4
      ++ live_cards (fun k => dk (34 + k)) 5 ++ live_cards (fun k => dk (39 + k)) 6
      ++ live_cards (fun k => dk (45 + k)) 7 := by
  have e7 := live_cards_add dk 45 7 (by decide)
  have e6 := live_cards_add dk 39 6 (by decide)
  have e5 := live_cards_add dk 34 5 (by decide)
  have e4 := live_cards_add dk 30 4 (by decide)
  have e3 := live_cards_add dk 27 3 (by decide)
  have e2 := live_cards_add dk 25 2 (by decide)
  have e1 := live_cards_add dk 24 1 (by decide)
  norm_num at e1 e2 e3 e4 e5 e6 e7
  rw [e7, e6, e5, e4, e3, e2, e1]

theorem dealt_pile_cards (s : State) (dk : Int → Int) (m : Nat) (off : Int)
    (hoff : 24 + dealt_before m 0 = off)
    (hc : s.tableau_count (m : Int) = (m : Int) + 1)
    (ht : ∀ q : Int, 0 ≤ q → q ≤ (m : Int) →
      s.tableau (m : Int) q = dk (24 + dealt_before m 0 + q)) :
    pile_cards s (m : Int) = live_cards (fun k => dk (off + k)) ((m : Int) + 1) := by
  unfold pile_cards
  rw [hc]
  apply live_cards_congr
  intro k hk0 hk1
  rw [ht k hk0 (by omega), hoff]

/-- A deal establishes the invariant of the game. -/
theorem deal_game_ok (fuel : Nat) (now : Int) (s0 s : State)
    (h : shuffle_and_deal fuel now s0 = some s) : game_ok s := by
  obtain ⟨sd, dk, tb, hc, tc, hs, hperm, hpiles⟩ := shuffle_and_deal_eq fuel now s0 s h
  have hstock : s.stock_count = 24 := by rw [hs]
  have htalon : s.talon = 0 := by rw [hs]
  have hshow : s.talon_showing = if s0.draw_setting ≠ 0 then 2 else 0 := by rw [hs]
  have hdraw : s.draw_setting = s0.draw_setting := by rw [hs]
  have hfl : s.flips = 0 := by rw [hs]
  have hfound : ∀ i, 0 ≤ i → i ≤ 3 → s.foundation i = -1 := by
    intro i h0 h3
    rw [hs]
    have : 0 ≤ i ∧ i < 4 := ⟨h0, by omega⟩
    simp only [this, and_self, if_true]
  have htc : ∀ m : Nat, m < 7 → s.tableau_count (m : Int) = (m : Int) + 1 := by
    intro m hm
    rw [hs]
    exact (hpiles m hm).1
  have hhc : ∀ m : Nat, m < 7 → s.hidden_count (m : Int) = (m : Int) := by
    intro m hm
    rw [hs]
    exact (hpiles m hm).2.1
  have htb : ∀ m : Nat, m < 7 → ∀ q : Int, 0 ≤ q → q ≤ (m : Int) →
      s.tableau (m : Int) q = dk (24 + dealt_before m 0 + q) := by
    intro m hm
    rw [hs]
    exact (hpiles m hm).2.2
  have hsc : stock_cards s = live_cards dk 24 := by
    unfold stock_cards
    rw [hstock]
    apply live_cards_congr
    intro k hk0 hk1
    rw [hs]
    have : 0 ≤ k ∧ k < 24 := ⟨hk0, hk1⟩
    simp only [this, and_self, if_true]
  refine ⟨⟨?_, ?_, ?_, ?_, ?_⟩, ?_⟩
  · refine ⟨by omega, by omega, by omega, ?_, ?_, ?_, ?_⟩
    · rw [hshow]; split_ifs <;> decide
    · rw [hshow]; split_ifs <;> decide
    · left
      rw [hshow, htalon, hstock]; split_ifs <;> decide
    · intro hd
      rw [hshow, ← hdraw]
      simp [hd]
  · intro p hp0 hp6
    obtain ⟨m, rfl⟩ : ∃ m : Nat, p = (m : Int) := ⟨p.toNat, by omega⟩
    have hm : m < 7 := by omega
    refine ⟨⟨?_, ?_, ?_⟩, ?_, ?_⟩
    · rw [hhc m hm]; omega
    · rw [hhc m hm, htc m hm]; omega
    · intro _
      rw [hhc m hm, htc m hm]; omega
    · rw [hhc m hm]; omega
    · intro j hj0 hj1
      rw [hhc m hm] at hj0
      rw [htc m hm] at hj1
      omega
  · intro i h0 h3
    rw [hfound i h0 h3]
  · intro c
    rw [count_all_cards, hsc]
    have hf : foundations_cards s = [] := by
      unfold foundations_cards
      rw [hfound 0 (by decide) (by decide), hfound 1 (by decide) (by decide),
        hfound 2 (by decide) (by decide), hfound 3 (by decide) (by decide),
        foundation_cards_empty]
      rfl
    have hp := fun (m : Nat) (hm : m < 7) (off : Int) (hoff : 24 + dealt_before m 0 = off) =>
      dealt_pile_cards s dk m off hoff (htc m hm) (htb m hm)
    have p0 := hp 0 (by decide) 24 (by simp [dealt_before])
    have p1 := hp 1 (by decide) 25 (by simp [dealt_before])
    have p2 := hp 2 (by decide) 27 (by simp [dealt_before])
    have p3 := hp 3 (by decide) 30 (by simp [dealt_before])
    have p4 := hp 4 (by decide) 34 (by simp [dealt_before])
    have p5 := hp 5 (by decide) 39 (by simp [dealt_before])
    have p6 := hp 6 (by decide) 45 (by simp [dealt_before])
    norm_num at p0 p1 p2 p3 p4 p5 p6
    have ht : tableau_cards s = live_cards (fun k => dk (24 + k)) 1
        ++ live_cards (fun k => dk (25 + k)) 2
        ++ live_cards (fun k => dk (27 + k)) 3 ++ live_cards (fun k => dk (30 + k)) 4
        ++ live_cards (fun k => dk (34 + k)) 5 ++ live_cards (fun k => dk (39 + k)) 6
        ++ live_cards (fun k => dk (45 + k)) 7 := by
      unfold tableau_cards
      rw [p0, p1, p2, p3, p4, p5, p6]
    rw [hf, ht, ← hperm c, deck_split dk]
    simp only [List.count_append, List.count_nil]
    omega
  · rw [hfl]
  · intro _
    left
    rw [hs]
    refine ⟨rfl, ?_, ?_⟩
    · show (0 : Int) ≤ 7
      decide
    · show (7 : Int) ≤ 7
      decide

/-! ## Card conservation in the reachable states -/

theorem reachable_game_ok (s : State) (h : Reachable s) : game_ok s := by
  induction h with
  | deal fuel now s0 s hd => exact deal_game_ok fuel now s0 s hd
  | up fuel s t _ hc ih => exact up_game_ok fuel s t ih hc
  | select fuel s t _ hc ih => exact select_game_ok fuel s t ih hc
  | down s _ ih => exact down_game_ok s ih
  | long_down fuel s t _ hc ih => exact long_down_game_ok fuel s t ih hc

theorem deal_returns : shuffle_and_deal 100 0 zeroState = some dealState := by
  have h : (shuffle_and_deal 100 0 zeroState).isSome = true := by decide
  unfold dealState
  cases hx : shuffle_and_deal 100 0 zeroState with
  | none => rw [hx] at h; exact absurd h (by decide)
  | some v => rfl

theorem dealState_reachable : Reachable dealState :=
  Reachable.deal 100 0 zeroState dealState deal_returns

theorem conserved_nodup (s : State) (h : conserved s) : (all_cards s).Nodup := by
  rw [List.nodup_iff_count_le_one]
  intro c
  rw [h c]
  split_ifs <;> omega

theorem conserved_length (s : State) (h : conserved s) : (all_cards s).length = 52 := by
  have hperm : (all_cards s).Perm (live_cards (fun k => k) 52) := by
    rw [List.perm_iff_count]
    intro c
    rw [h c, show ((52 : Int)) = ((52 : Nat) : Int) by rfl, count_live_identity]
    have : (0 ≤ c ∧ c < ((52 : Nat) : Int)) ↔ (0 ≤ c ∧ c ≤ 51) := by
      push_cast; constructor <;> intro h <;> omega
    simp only [this]
  rw [hperm.length_eq, live_cards_length]
  rfl

/-- Taking the top card off a tableau pile leaves one card short. -/
theorem remove_source_card_loses (s : State) (hc : conserved s) (h0 : 0 ≤ s.source)
    (h6 : s.source ≤ 6) (hpos : 0 < s.tableau_count s.source) :
    ¬ conserved (remove_source_card s) := by
  intro hr
  have hx : s.tableau s.source (s.tableau_count s.source - 1) ∈ all_cards s := by
    apply pile_cards_sublist s s.source h0 h6
    rw [pile_cards, mem_live_cards]
    exact ⟨s.tableau_count s.source - 1, by omega, by omega, rfl⟩
  obtain ⟨hx0, hx1⟩ := card_range_of_conserved s hc _ hx
  have e := remove_source_card_pile s (by omega)
  have h1 := hr (s.tableau s.source (s.tableau_count s.source - 1))
  have h2 := hc (s.tableau s.source (s.tableau_count s.source - 1))
  rw [if_pos ⟨hx0, hx1⟩] at h1 h2
  rw [count_all_cards] at h1 h2
  have hpop := count_tableau_pop s (remove_source_card s) s.source h0 h6 hpos
    (by rw [e]) (by rw [e]) (s.tableau s.source (s.tableau_count s.source - 1))
  rw [if_pos rfl] at hpop
  have hs : stock_cards (remove_source_card s) = stock_cards s :=
    stock_cards_congr s (remove_source_card s) (by rw [e]) (by rw [e])
  have hf : foundations_cards (remove_source_card s) = foundations_cards s :=
    foundations_cards_congr s (remove_source_card s) (by rw [e])
  rw [hs, hf] at h1
  omega

theorem dealState_fields :
    dealState.source = 0 ∧ dealState.tableau_count 0 = 1 ∧ dealState.selection = 7
      ∧ dealState.mode = 0 ∧ dealState.win = false ∧ dealState.stock_count = 24
      ∧ dealState.talon = 0 ∧ dealState.talon_showing = 0 ∧ dealState.flips = 0
      ∧ dealState.draw_setting = 0 ∧ dealState.fliplimit_setting = 0
      ∧ dealState.score_setting = 0 ∧ dealState.score = -52 := by
  obtain ⟨sd, dk, tb, hc, tc, hs, -, hpiles⟩ :=
    shuffle_and_deal_eq 100 0 zeroState dealState deal_returns
  have h0 := (hpiles 0 (by decide)).1
  rw [hs]
  refine ⟨rfl, ?_, rfl, rfl, rfl, rfl, rfl, rfl, rfl, rfl, rfl, rfl, rfl⟩
  simpa using h0

/-- C1, counterexample: the dealt game holds every card exactly once, and
`remove_source_card`, applied to it, does not preserve that. -/
theorem remove_source_card_not_conserving :
    conserved dealState ∧ ¬ conserved (remove_source_card dealState) := by
  have hc : conserved dealState := (reachable_game_ok dealState dealState_reachable).1.2.2.2.1
  obtain ⟨h1, h2, -⟩ := dealState_fields
  exact ⟨hc, remove_source_card_loses dealState hc (by rw [h1]) (by rw [h1]; decide)
    (by rw [h1, h2]; decide)⟩

/-- C1 (amended): in every state reachable from a deal by the four commands, every card
value 0..51 occurs exactly once among the live stock cards, the live tableau cards and
the cards the foundations stand for, with no duplicate and no other value.  On every
state satisfying the board invariant (which includes this conservation, and holds in
every reachable state) `move_to_tableau`, `move_to_foundation`, `deal_card_from_stock`
and `automatically_move_to_foundations` give a state satisfying it again, and
`remove_source_card`, which takes the source card away, restores it in the middle of a
move, when the moved card has been placed and is counted once too often. -/
theorem card_conservation (s : State) (h : Reachable s) :
    (∀ c, 0 ≤ c → c ≤ 51 → (all_cards s).count c = 1)
      ∧ (all_cards s).Nodup ∧ (all_cards s).length = 52
      ∧ (∀ c, c ∈ all_cards s → 0 ≤ c ∧ c ≤ 51)
      ∧ conserved s ∧ board_ok s
      ∧ (∀ t, board_ok t → 0 ≤ t.selection → t.selection ≤ 6 → 0 ≤ t.source →
          board_ok (move_to_tableau t))
      ∧ (∀ t, board_ok t → board_ok (move_to_foundation t).2)
      ∧ (∀ t, board_ok t → board_ok (deal_card_from_stock t))
      ∧ (∀ fuel t u, board_ok t → automatically_move_to_foundations fuel t = some u →
          board_ok u)
      ∧ (∀ t x, board_plus t x → get_source_card t = x → 0 ≤ x →
          board_ok (remove_source_card t)) := by
  have hb : board_ok s := (reachable_game_ok s h).1
  have hc : conserved s := hb.2.2.2.1
  refine ⟨fun c h0 h1 => ?_, conserved_nodup s hc, conserved_length s hc,
    fun c hm => card_range_of_conserved s hc c hm, hc, hb,
    fun t ht a b c => move_to_tableau_board t ht a b c,
    fun t ht => move_to_foundation_board t ht,
    fun t ht => deal_card_from_stock_board t ht,
    fun fuel t u ht hu => auto_move_board fuel t u ht hu,
    fun t x ht hx hx0 => remove_source_card_board t x ht hx hx0⟩
  rw [hc c, if_pos ⟨h0, h1⟩]

theorem card_conservation_witness :
    Reachable dealState ∧ (all_cards dealState).Nodup ∧ (all_cards dealState).length = 52 :=
  ⟨dealState_reachable, (card_conservation dealState dealState_reachable).2.1,
    (card_conservation dealState dealState_reachable).2.2.1⟩

/-! ## The generator visits every seed: `rnd` returns -/

theorem affine_iterate_pow (j : Nat) :
    ∃ u v : Int, ∀ w : Int,
      (fun x : Int => x * 214013 + 2531011)^[2 ^ j] w
        = (1 + 2 ^ (j + 2) * u) * w + 2 ^ j * (2 * v + 1) := by
  induction j with
  | zero =>
    refine ⟨53503, 1265505, fun w => ?_⟩
    simp only [pow_zero, Function.iterate_one]
    ring
  | succ j ih =>
    obtain ⟨u, v, h⟩ := ih
    refine ⟨u + 2 ^ (j + 1) * u * u, v + 2 ^ j * u + 2 ^ (j + 1) * u * v, fun w => ?_⟩
    have e : 2 ^ (j + 1) = 2 ^ j + 2 ^ j := by ring
    rw [e, Function.iterate_add_apply, h, h]
    ring

theorem lcg_iterate_modEq (n : Nat) (w : Int) :
    Int.ModEq 2147483648 (lcg_next^[n] w) ((fun x : Int => x * 214013 + 2531011)^[n] w) := by
  induction n with
  | zero => exact Int.ModEq.refl _
  | succ n ih =>
    rw [Function.iterate_succ_apply', Function.iterate_succ_apply']
    have h1 : Int.ModEq 2147483648 (lcg_next (lcg_next^[n] w))
        (lcg_next^[n] w * 214013 + 2531011) := Int.mod_modEq _ _
    exact h1.trans ((ih.mul_right _).add_right _)

theorem lcg_pow_step (j : Nat) (hj : j + 1 ≤ 31) (w : Int) :
    Int.ModEq (2 ^ (j + 1)) (lcg_next^[2 ^ j] w) (w + 2 ^ j) := by
  obtain ⟨u, v, h⟩ := affine_iterate_pow j
  have h1 := lcg_iterate_modEq (2 ^ j) w
  rw [h] at h1
  have hd : ((2 : Int) ^ (j + 1)) ∣ 2147483648 := by
    have : (2147483648 : Int) = 2 ^ 31 := by norm_num
    rw [this]
    exact pow_dvd_pow 2 hj
  have h2 := Int.ModEq.of_dvd hd h1
  refine h2.trans ?_
  rw [Int.modEq_iff_dvd]
  refine ⟨-(2 * u * w + v), ?_⟩
  ring

theorem lcg_reaches_zero (j : Nat) (hj : j ≤ 31) (z : Int) :
    ∃ k : Nat, k < 2 ^ j ∧ Int.ModEq (2 ^ j) (lcg_next^[k] z) 0 := by
  induction j with
  | zero => exact ⟨0, by norm_num, by simp [Int.ModEq, Int.emod_one]⟩
  | succ j ih =>
    obtain ⟨k, hk, hmod⟩ := ih (by omega)
    rw [Int.modEq_zero_iff_dvd] at hmod
    obtain ⟨q, hq⟩ := hmod
    rcases Int.even_or_odd q with ⟨r, hr⟩ | ⟨r, hr⟩
    · refine ⟨k, by rw [pow_succ]; omega, ?_⟩
      rw [Int.modEq_zero_iff_dvd, hq, hr]
      exact ⟨r, by ring⟩
    · refine ⟨2 ^ j + k, by rw [pow_succ]; omega, ?_⟩
      rw [Function.iterate_add_apply]
      refine (lcg_pow_step j (by omega) _).trans ?_
      rw [Int.modEq_zero_iff_dvd, hq, hr]
      exact ⟨r + 1, by ring⟩

theorem lcg_hits_zero (x : Int) :
    ∃ k : Nat, k < 2147483648 ∧ lcg_next^[k + 1] x = 0 := by
  obtain ⟨k, hk, hmod⟩ := lcg_reaches_zero 31 (le_refl _) (lcg_next x)
  refine ⟨k, by norm_num at hk; exact hk, ?_⟩
  rw [Function.iterate_succ_apply]
  have hz : lcg_next^[k] (lcg_next x) % 2147483648 = 0 := by
    have := hmod
    rw [Int.modEq_zero_iff_dvd] at this
    norm_num at this
    exact Int.emod_eq_zero_of_dvd this
  have hr : lcg_next^[k] (lcg_next x) % 2147483648 = lcg_next^[k] (lcg_next x) := by
    cases k with
    | zero =>
      simp only [Function.iterate_zero, id_eq]
      unfold lcg_next
      exact Int.emod_emod_of_dvd _ (dvd_refl _)
    | succ k =>
      rw [Function.iterate_succ_apply']
      unfold lcg_next
      exact Int.emod_emod_of_dvd _ (dvd_refl _)
  rw [← hr, hz]

theorem rnd_of_hit (max : Int) (n : Nat) (s : State) (k : Nat) (hk : k < n)
    (hit : lcg_next^[k + 1] s.seed / 67108864 ≤ max) :
    ∃ v t, rnd n max s = some (v, t) := by
  induction n generalizing s k with
  | zero => omega
  | succ n ih =>
    simp only [rnd]
    split_ifs with hgt
    · cases k with
      | zero =>
        simp only [zero_add, Function.iterate_one] at hit
        unfold lcg_next at hit
        omega
      | succ k =>
        apply ih _ k (by omega)
        rw [Function.iterate_succ_apply] at hit
        exact hit
    · exact ⟨_, _, rfl⟩

/-- The rejection loop of `rnd` returns: within `2^31` draws the generator passes
through the seed 0, whose top bits are 0. -/
theorem rnd_returns (max : Int) (hmax : 0 ≤ max) (s : State) :
    ∃ v t, rnd 2147483648 max s = some (v, t) := by
  obtain ⟨k, hk, hz⟩ := lcg_hits_zero s.seed
  apply rnd_of_hit max _ s k hk
  rw [hz]
  simpa using hmax

theorem shuffle_loop_returns (n : Nat) (s : State) :
    ∃ t, shuffle_loop 2147483648 n s = some t := by
  induction n generalizing s with
  | zero => exact ⟨s, rfl⟩
  | succ n ih =>
    obtain ⟨v, t, h⟩ := rnd_returns ((n : Int) + 1) (by omega) s
    simp only [shuffle_loop, h]
    exact ih _

/-- With enough fuel `shuffle_and_deal` returns, whatever the time and the globals. -/
theorem shuffle_and_deal_returns (now : Int) (s0 : State) :
    ∃ s, shuffle_and_deal 2147483648 now s0 = some s := by
  unfold shuffle_and_deal
  simp only
  obtain ⟨t, ht⟩ := shuffle_loop_returns 51
    (forRange (fun i (t : State) => { t with deck := setAt t.deck i i }) 52 0
      { s0 with seed := now })
  rw [ht]
  exact ⟨_, rfl⟩

/-! ## Shuffle and deal: permutation and postconditions (C14, C15) -/

theorem count_perm_identity (l : List Int)
    (h : ∀ c, l.count c = if 0 ≤ c ∧ c ≤ 51 then 1 else 0) :
    l.Perm (live_cards (fun k => k) 52) := by
  rw [List.perm_iff_count]
  intro c
  rw [h c, show ((52 : Int)) = ((52 : Nat) : Int) by rfl, count_live_identity]
  have : (0 ≤ c ∧ c < ((52 : Nat) : Int)) ↔ (0 ≤ c ∧ c ≤ 51) := by
    push_cast; constructor <;> intro h <;> omega
  simp only [this]

theorem foundations_cards_of_empty (s : State)
    (hf : ∀ i, 0 ≤ i → i ≤ 3 → s.foundation i = -1) : foundations_cards s = [] := by
  unfold foundations_cards
  rw [hf 0 (by decide) (by decide), hf 1 (by decide) (by decide),
    hf 2 (by decide) (by decide), hf 3 (by decide) (by decide), foundation_cards_empty]
  rfl

theorem tableau_cards_length (s : State) :
    (tableau_cards s).length = (s.tableau_count 0).toNat + (s.tableau_count 1).toNat
      + (s.tableau_count 2).toNat + (s.tableau_count 3).toNat + (s.tableau_count 4).toNat
      + (s.tableau_count 5).toNat + (s.tableau_count 6).toNat := by
  simp only [tableau_cards, pile_cards, List.length_append, live_cards_length]

/-- The deal postconditions, as shared by the claims about a deal. -/
theorem deal_fields (fuel : Nat) (now : Int) (s0 s : State)
    (h : shuffle_and_deal fuel now s0 = some s) :
    s.stock_count = 24 ∧ (∀ i, 0 ≤ i → i < 24 → s.stock i = s.deck i) ∧ s.talon = 0
      ∧ s.talon_showing = (if s0.draw_setting ≠ 0 then 2 else 0)
      ∧ (∀ i, 0 ≤ i → i ≤ 3 → s.foundation i = -1)
      ∧ (∀ i, 0 ≤ i → i ≤ 6 → s.tableau_count i = i + 1 ∧ s.hidden_count i = i
          ∧ ∀ j, 0 ≤ j → j ≤ i → s.tableau i j = s.deck (24 + i * (i + 1) / 2 + j))
      ∧ s.win = false ∧ s.flips = 0 ∧ s.score = s0.score - 52 ∧ s.mode = 0
      ∧ s.selection = 7 ∧ s.source = s0.source ∧ s.draw_setting = s0.draw_setting
      ∧ s.fliplimit_setting = s0.fliplimit_setting ∧ s.score_setting = s0.score_setting
      ∧ (∀ c, (live_cards s.deck 52).count c = if 0 ≤ c ∧ c ≤ 51 then 1 else 0) := by
  obtain ⟨sd, dk, tb, hc, tc, hs, hperm, hpiles⟩ := shuffle_and_deal_eq fuel now s0 s h
  rw [hs]
  refine ⟨rfl, ?_, rfl, rfl, ?_, ?_, rfl, rfl, rfl, rfl, rfl, rfl, rfl, rfl, rfl, hperm⟩
  · intro i h0 h1
    have : 0 ≤ i ∧ i < 24 := ⟨h0, h1⟩
    simp only [this, and_self, if_true]
  · intro i h0 h1
    have : 0 ≤ i ∧ i < 4 := ⟨h0, by omega⟩
    simp only [this, and_self, if_true]
  · intro i h0 h6
    obtain ⟨m, rfl⟩ : ∃ m : Nat, i = (m : Int) := ⟨i.toNat, by omega⟩
    obtain ⟨g1, g2, g3⟩ := hpiles m (by omega)
    refine ⟨g1, g2, fun j hj0 hj1 => ?_⟩
    have e : dealt_before m 0 = (m : Int) * ((m : Int) + 1) / 2 := by
      have := dealt_before_formula m 0
      have e2 : 2 * (m : Int) * 0 + (m : Int) * ((m : Int) + 1) = (m : Int) * ((m : Int) + 1) := by
        ring
      rw [e2] at this
      omega
    show tb (m : Int) j = dk (24 + (m : Int) * ((m : Int) + 1) / 2 + j)
    rw [g3 j hj0 hj1, e]

/-- C14. Shuffle is a permutation: every index drawn by `rnd max` lies in `0..max`, so
each step of the shuffle loop is an in-range swap; the loop returns (with enough fuel,
for every seed and prior state), and after it `deck[0..51]` is a permutation of 0..51;
the deal leaves the deck as the loop made it, and right after the deal the 24 stock
cards and the 28 tableau cards together hold every card 0..51 exactly once. -/
theorem shuffle_permutation (fuel : Nat) (now : Int) (s0 s : State)
    (h : shuffle_and_deal fuel now s0 = some s) :
    (∀ f m st v t, rnd f m st = some (v, t) → 0 ≤ v ∧ v ≤ m)
      ∧ (∃ t, shuffle_loop fuel 51
            (forRange (fun i (u : State) => { u with deck := setAt u.deck i i }) 52 0
              { s0 with seed := now }) = some t
          ∧ (live_cards t.deck 52).Perm (live_cards (fun k => k) 52)
          ∧ s.deck = t.deck)
      ∧ (live_cards s.deck 52).Perm (live_cards (fun k => k) 52)
      ∧ (stock_cards s).length = 24 ∧ (tableau_cards s).length = 28
      ∧ (stock_cards s ++ tableau_cards s).Perm (live_cards (fun k => k) 52)
      ∧ (∀ c, 0 ≤ c → c ≤ 51 → (stock_cards s ++ tableau_cards s).count c = 1)
      ∧ (∃ s1, shuffle_and_deal 2147483648 now s0 = some s1) := by
  obtain ⟨f1, -, -, -, f5, f6, -, -, -, -, -, -, -, -, -, f16⟩ := deal_fields fuel now s0 s h
  have hc : conserved s := (deal_game_ok fuel now s0 s h).1.2.2.2.1
  have hall : all_cards s = stock_cards s ++ tableau_cards s := by
    unfold all_cards
    rw [foundations_cards_of_empty s f5, List.append_nil]
  refine ⟨fun f m st v t hr => ?_, ?_, count_perm_identity _ f16, ?_, ?_, ?_, ?_,
    shuffle_and_deal_returns now s0⟩
  · obtain ⟨a, b, -⟩ := rnd_spec f m st v t hr
    exact ⟨a, b⟩
  · unfold shuffle_and_deal at h
    simp only at h
    split at h
    · simp at h
    · rename_i t ht
      have key : ∀ u : State, (select_talon u).deck = u.deck := fun u => by
        obtain ⟨m, sel, src, hsb⟩ := select_talon_board u
        rw [hsb]
      have key2 : ∀ u : State, (deal_piles 7 0 24 u).deck = u.deck := fun u => by
        obtain ⟨⟨tb, hcn, tc, hfr⟩, -, -⟩ := deal_piles_spec 7 0 24 u (le_refl _)
        rw [hfr]
      have hd : s.deck = t.deck := by
        simp only [Option.some.injEq] at h
        rw [← h, key]
        simp only [key2, foundation_reset_spec, stock_copy_spec]
      refine ⟨t, ht, ?_, hd⟩
      rw [← hd]
      exact count_perm_identity _ f16
  · rw [stock_cards, live_cards_length, f1]
    rfl
  · rw [tableau_cards_length, (f6 0 (by decide) (by decide)).1, (f6 1 (by decide) (by decide)).1,
      (f6 2 (by decide) (by decide)).1, (f6 3 (by decide) (by decide)).1,
      (f6 4 (by decide) (by decide)).1, (f6 5 (by decide) (by decide)).1,
      (f6 6 (by decide) (by decide)).1]
    rfl
  · rw [← hall]
    exact count_perm_identity _ hc
  · intro c h0 h1
    rw [← hall, hc c, if_pos ⟨h0, h1⟩]

theorem shuffle_permutation_witness :
    shuffle_and_deal 100 0 zeroState = some dealState
      ∧ (stock_cards dealState ++ tableau_cards dealState).Perm (live_cards (fun k => k) 52) :=
  ⟨deal_returns, (shuffle_permutation 100 0 zeroState dealState deal_returns).2.2.2.2.2.1⟩

/-- C15. Deal postconditions: `shuffle_and_deal` returns (with enough fuel, for every
prior state and seed), and after it `stock_count = 24` with `stock[i] = deck[i]` for
`i < 24`, `talon = 0`, `talon_showing` is 2 in draw-three mode and 0 in draw-one mode,
the four foundations are -1, pile `i` has `i + 1` cards of which `i` are hidden and
holds `deck[24 + i(i+1)/2 + j]` at index `j`, `win = false`, `flips = 0`, the score is
the previous score minus 52, and the cursor is in source mode on the talon. -/
theorem deal_postconditions (fuel : Nat) (now : Int) (s0 s : State)
    (h : shuffle_and_deal fuel now s0 = some s) :
    s.stock_count = 24 ∧ (∀ i, 0 ≤ i → i < 24 → s.stock i = s.deck i) ∧ s.talon = 0
      ∧ (s.draw_setting ≠ 0 → s.talon_showing = 2)
      ∧ (s.draw_setting = 0 → s.talon_showing = 0)
      ∧ s.draw_setting = s0.draw_setting
      ∧ (∀ i, 0 ≤ i → i ≤ 3 → s.foundation i = -1)
      ∧ (∀ i, 0 ≤ i → i ≤ 6 → s.tableau_count i = i + 1 ∧ s.hidden_count i = i
          ∧ ∀ j, 0 ≤ j → j ≤ i → s.tableau i j = s.deck (24 + i * (i + 1) / 2 + j))
      ∧ s.win = false ∧ s.flips = 0 ∧ s.score = s0.score - 52
      ∧ (s0.score = 0 → s.score = -52)
      ∧ s.mode = 0 ∧ s.selection = 7
      ∧ (∃ s1, shuffle_and_deal 2147483648 now s0 = some s1) := by
  obtain ⟨f1, f2, f3, f4, f5, f6, f7, f8, f9, f10, f11, -, f13, -, -, -⟩ :=
    deal_fields fuel now s0 s h
  refine ⟨f1, f2, f3, ?_, ?_, f13, f5, f6, f7, f8, f9, ?_, f10, f11,
    shuffle_and_deal_returns now s0⟩
  · intro hd
    rw [f13] at hd
    rw [f4, if_pos hd]
  · intro hd
    rw [f13] at hd
    rw [f4, if_neg (by simp [hd])]
  · intro hz
    rw [f9, hz]
    rfl

theorem deal_postconditions_witness :
    shuffle_and_deal 100 0 zeroState = some dealState
      ∧ dealState.stock_count = 24 ∧ dealState.score = -52 ∧ dealState.selection = 7 :=
  ⟨deal_returns, (deal_postconditions 100 0 zeroState dealState deal_returns).1,
    (deal_postconditions 100 0 zeroState dealState deal_returns).2.2.2.2.2.2.2.2.2.2.2.1 rfl,
    (deal_postconditions 100 0 zeroState dealState deal_returns).2.2.2.2.2.2.2.2.2.2.2.2.2.1⟩

/-! ## The persisted layout on game states (C3) -/

theorem counts_sum_seven (s : State) :
    counts_sum s 7 0 = s.tableau_count 0 + s.tableau_count 1 + s.tableau_count 2
      + s.tableau_count 3 + s.tableau_count 4 + s.tableau_count 5 + s.tableau_count 6 := by
  simp only [counts_sum]
  norm_num
  ring

/-- A state satisfying the board invariant meets the preconditions of the layout. -/
theorem board_counts (s : State) (hb : board_ok s) :
    0 ≤ s.stock_count ∧ (∀ p, 0 ≤ p → p ≤ 6 → 0 ≤ s.tableau_count p)
      ∧ s.stock_count + counts_sum s 7 0 ≤ 52 := by
  obtain ⟨hst, hp, -, hc, -⟩ := hb
  have hcnt : ∀ p, 0 ≤ p → p ≤ 6 → 0 ≤ s.tableau_count p := fun p h0 h6 => by
    obtain ⟨⟨a, b, -⟩, -, -⟩ := hp p h0 h6
    omega
  refine ⟨hst.1, hcnt, ?_⟩
  have hl := conserved_length s hc
  unfold all_cards at hl
  rw [List.length_append, List.length_append, tableau_cards_length, stock_cards,
    live_cards_length] at hl
  rw [counts_sum_seven]
  have c0 := hcnt 0 (by decide) (by decide)
  have c1 := hcnt 1 (by decide) (by decide)
  have c2 := hcnt 2 (by decide) (by decide)
  have c3 := hcnt 3 (by decide) (by decide)
  have c4 := hcnt 4 (by decide) (by decide)
  have c5 := hcnt 5 (by decide) (by decide)
  have c6 := hcnt 6 (by decide) (by decide)
  have := hst.1
  omega

/-- C3. Persisted byte layout: for a state with non-negative counts and
`stock_count + Σ tableau_count[i] ≤ 52`, `save_state` produces 82 bytes, the first 82
entries of its buffer, in which byte 0 is `stock_count`, byte 1 `talon`, bytes 2..5 the
foundations (`-1` written as 255), bytes 6..12 the pile counts, bytes 13..19 the hidden
counts, bytes from 20 the stock cards followed by the cards of piles 0..6 bottom to
top, ending at or before offset 72, byte 72 `win`, 73..77 the draw, flip-limit and
score settings, `flips` and `talon_showing`, and bytes 78..81 the four bytes of the
32-bit score, least significant first; every field is stored through the conversion
to `unsigned char`, which is the identity on 0..255. -/
theorem persisted_layout (junk : Int → Int) (s : State)
    (h0 : 0 ≤ s.stock_count)
    (hc : ∀ p, 0 ≤ p → p ≤ 6 → 0 ≤ s.tableau_count p)
    (hsum : s.stock_count + counts_sum s 7 0 ≤ 52) :
    (save_state junk s).length = 82
      ∧ (∀ k : Nat, k < 82 → (save_state junk s)[k]? = some (save_buffer junk s k))
      ∧ save_buffer junk s 0 = s.stock_count
      ∧ save_buffer junk s 1 = toByte s.talon
      ∧ (∀ i, 0 ≤ i → i ≤ 3 → save_buffer junk s (2 + i) = toByte (s.foundation i))
      ∧ toByte (-1) = 255
      ∧ (∀ i, 0 ≤ i → i ≤ 6 → save_buffer junk s (6 + i) = s.tableau_count i)
      ∧ (∀ i, 0 ≤ i → i ≤ 6 → save_buffer junk s (13 + i) = toByte (s.hidden_count i))
      ∧ (∀ i, 0 ≤ i → i < s.stock_count → save_buffer junk s (20 + i) = toByte (s.stock i))
      ∧ (∀ p : Nat, p < 7 → ∀ j, 0 ≤ j → j < s.tableau_count p →
          save_buffer junk s (pile_offset s p + j) = toByte (s.tableau p j))
      ∧ pile_offset s 7 ≤ 72
      ∧ save_buffer junk s 72 = (if s.win then 1 else 0)
      ∧ save_buffer junk s 73 = toByte s.draw_setting
      ∧ save_buffer junk s 74 = toByte s.fliplimit_setting
      ∧ save_buffer junk s 75 = toByte s.score_setting
      ∧ save_buffer junk s 76 = toByte s.flips
      ∧ save_buffer junk s 77 = toByte s.talon_showing
      ∧ save_buffer junk s 78 = s.score % 256
      ∧ save_buffer junk s 79 = s.score / 256 % 256
      ∧ save_buffer junk s 80 = s.score / 65536 % 256
      ∧ save_buffer junk s 81 = s.score / 16777216 % 256
      ∧ (∀ x, 0 ≤ x → x < 256 → toByte x = x) :=
  save_buffer_layout junk s h0 hc hsum

theorem persisted_layout_witness :
    dealState.stock_count + counts_sum dealState 7 0 ≤ 52
      ∧ (save_state (fun _ => 0) dealState).length = 82
      ∧ save_buffer (fun _ => 0) dealState 0 = dealState.stock_count :=
  ⟨(board_counts dealState (reachable_game_ok dealState dealState_reachable).1).2.2,
    (persisted_layout (fun _ => 0) dealState
      (board_counts dealState (reachable_game_ok dealState dealState_reachable).1).1
      (board_counts dealState (reachable_game_ok dealState dealState_reachable).1).2.1
      (board_counts dealState (reachable_game_ok dealState dealState_reachable).1).2.2).1,
    (persisted_layout (fun _ => 0) dealState
      (board_counts dealState (reachable_game_ok dealState dealState_reachable).1).1
      (board_counts dealState (reachable_game_ok dealState dealState_reachable).1).2.1
      (board_counts dealState (reachable_game_ok dealState dealState_reachable).1).2.2).2.2.1⟩

/-! ## The settings mutators keep the invariant of the game -/

theorem settings_cursor (k : Int) (s : State) :
    (settings_menu_select_callback k s).mode = s.mode
      ∧ (settings_menu_select_callback k s).selection = s.selection
      ∧ (settings_menu_select_callback k s).source = s.source
      ∧ (settings_menu_select_callback k s).win = s.win := by
  unfold settings_menu_select_callback
  simp only
  split_ifs <;> exact ⟨rfl, rfl, rfl, rfl⟩

theorem tools_cursor (k : Int) (s : State) :
    (tools_menu_select_callback k s).mode = s.mode
      ∧ (tools_menu_select_callback k s).selection = s.selection
      ∧ (tools_menu_select_callback k s).source = s.source
      ∧ (tools_menu_select_callback k s).win = s.win := by
  unfold tools_menu_select_callback
  split_ifs <;> exact ⟨rfl, rfl, rfl, rfl⟩

theorem cursor_ok_congr (s t : State) (h1 : t.mode = s.mode) (h2 : t.selection = s.selection)
    (h3 : t.source = s.source) (h : cursor_ok s) : cursor_ok t := by
  unfold cursor_ok at h ⊢
  rw [h1, h2, h3]
  exact h

theorem settings_game_ok (k : Int) (s : State) (hg : game_ok s)
    (hguard : k = 0 → 0 < s.stock_count ∨ s.draw_setting ≠ 0) :
    game_ok (settings_menu_select_callback k s) := by
  obtain ⟨c1, c2, c3, c4⟩ := settings_cursor k s
  refine ⟨?_, fun hw => cursor_ok_congr s _ c1 c2 c3 (hg.2 (by rw [← c4]; exact hw))⟩
  by_cases hk : k = 0
  · subst hk
    exact settings_draw_toggle_board s hg.1 (hguard rfl)
  · exact settings_other_board s k hk hg.1

theorem tools_game_ok (k : Int) (s : State) (hg : game_ok s) :
    game_ok (tools_menu_select_callback k s) := by
  obtain ⟨c1, c2, c3, c4⟩ := tools_cursor k s
  exact ⟨tools_board s k hg.1,
    fun hw => cursor_ok_congr s _ c1 c2 c3 (hg.2 (by rw [← c4]; exact hw))⟩

theorem reachable_settings_game_ok (s : State) (h : ReachableWithSettings s) : game_ok s := by
  induction h with
  | deal fuel now s0 s hd => exact deal_game_ok fuel now s0 s hd
  | up fuel s t _ hc ih => exact up_game_ok fuel s t ih hc
  | select fuel s t _ hc ih => exact select_game_ok fuel s t ih hc
  | down s _ ih => exact down_game_ok s ih
  | long_down fuel s t _ hc ih => exact long_down_game_ok fuel s t ih hc
  | draw_toggle s _ hguard ih => exact settings_game_ok 0 s ih (fun _ => hguard)
  | flip_limit s _ ih => exact settings_game_ok 1 s ih (fun h => absurd h (by decide))
  | score_visibility s _ ih => exact settings_game_ok 2 s ih (fun h => absurd h (by decide))
  | score_reset s _ ih => exact tools_game_ok 0 s ih

/-! ## Loading a saved game -/

theorem load_cards_spec (st : Int → Int) (i : Int) (n : Nat) (j b : Int) (s : State) :
    load_cards st i n j b s
      = (b + n, { s with tableau := fun p q =>
          if p = i ∧ j ≤ q ∧ q < j + n then st (b + (q - j)) else s.tableau p q }) := by
  induction n generalizing j b s with
  | zero =>
    simp only [load_cards]
    have : (fun p q => if p = i ∧ j ≤ q ∧ q < j + ((0 : Nat) : Int) then st (b + (q - j))
        else s.tableau p q) = s.tableau := by
      funext p q
      have : ¬ (p = i ∧ j ≤ q ∧ q < j + ((0 : Nat) : Int)) := by push_cast; omega
      rw [if_neg this]
    rw [this]
    simp
  | succ n ih =>
    simp only [load_cards]
    rw [ih]
    congr 1
    · push_cast; omega
    · congr 1
      funext p q
      simp only [setAt2_apply]
      by_cases h1 : p = i ∧ j + 1 ≤ q ∧ q < j + 1 + (n : Int)
      · have h2 : p = i ∧ j ≤ q ∧ q < j + ((n + 1 : Nat) : Int) :=
          ⟨h1.1, by omega, by push_cast; omega⟩
        rw [if_pos h1, if_pos h2]
        congr 1
        omega
      · rw [if_neg h1]
        by_cases h3 : p = i ∧ q = j
        · have h2 : p = i ∧ j ≤ q ∧ q < j + ((n + 1 : Nat) : Int) :=
            ⟨h3.1, by omega, by push_cast; omega⟩
          rw [if_pos h3, if_pos h2]
          congr 1
          omega
        · have h2 : ¬ (p = i ∧ j ≤ q ∧ q < j + ((n + 1 : Nat) : Int)) := by
            push_cast
            intro hh
            by_cases hq : q = j
            · exact h3 ⟨hh.1, hq⟩
            · exact h1 ⟨hh.1, by omega, by omega⟩
          rw [if_neg h3, if_neg h2]

/-- The tableau after the pile loop of `load_state`, when the stored counts are those of
the state `ref`. -/
theorem load_piles_spec (st : Int → Int) (ref : State) (n : Nat) (i b : Int) (s : State)
    (href : ∀ q, i ≤ q → q < i + n →
      st (6 + q) = ref.tableau_count q ∧ 0 ≤ ref.tableau_count q) :
    (∃ tb hc tc, load_piles st n i b s
        = { s with tableau := tb, hidden_count := hc, tableau_count := tc })
      ∧ (∀ m : Nat, m < n →
          (load_piles st n i b s).tableau_count (i + m) = st (6 + (i + m))
          ∧ (load_piles st n i b s).hidden_count (i + m) = st (13 + (i + m))
          ∧ ∀ q, 0 ≤ q → q < ref.tableau_count (i + m) →
              (load_piles st n i b s).tableau (i + m) q = st (b + counts_sum ref m i + q))
      ∧ (∀ p, (p < i ∨ i + n ≤ p) →
          (load_piles st n i b s).tableau p = s.tableau p
          ∧ (load_piles st n i b s).tableau_count p = s.tableau_count p
          ∧ (load_piles st n i b s).hidden_count p = s.hidden_count p) := by
  induction n generalizing i b s with
  | zero =>
    refine ⟨⟨s.tableau, s.hidden_count, s.tableau_count, rfl⟩, fun m hm => absurd hm (by omega),
      fun p _ => ⟨rfl, rfl, rfl⟩⟩
  | succ n ih =>
    obtain ⟨hri, hri0⟩ := href i (le_refl _) (by push_cast; omega)
    have hcn : ((st (6 + i)).toNat : Int) = ref.tableau_count i := by omega
    simp only [load_piles, load_cards_spec, setAt_same, hcn]
    obtain ⟨⟨tb, hc, tc, hfr⟩, hpiles, hframe⟩ := ih (i + 1) (b + ref.tableau_count i)
      { s with
        tableau := fun p q =>
          if p = i ∧ 0 ≤ q ∧ q < 0 + ref.tableau_count i then st (b + (q - 0))
          else s.tableau p q
        hidden_count := setAt s.hidden_count i (st (13 + i))
        tableau_count := setAt s.tableau_count i (st (6 + i)) }
      (fun q h1 h2 => href q (by omega) (by push_cast; omega))
    refine ⟨⟨tb, hc, tc, by rw [hfr]⟩, ?_, ?_⟩
    · intro m hm
      cases m with
      | zero =>
        obtain ⟨f1, f2, f3⟩ := hframe i (Or.inl (by omega))
        simp only [Nat.cast_zero, add_zero]
        rw [f1, f2, f3]
        refine ⟨by simp, by simp, ?_⟩
        intro q hq0 hq1
        have : i = i ∧ 0 ≤ q ∧ q < 0 + ref.tableau_count i := ⟨rfl, hq0, by omega⟩
        simp only [this, and_self, if_true, counts_sum]
        congr 1
        omega
      | succ m =>
        obtain ⟨g1, g2, g3⟩ := hpiles m (by omega)
        have e : i + ((m + 1 : Nat) : Int) = i + 1 + (m : Int) := by push_cast; omega
        rw [e]
        refine ⟨g1, g2, ?_⟩
        intro q hq0 hq1
        rw [g3 q hq0 hq1]
        simp only [counts_sum]
        congr 1
        omega
    · intro p hp
      obtain ⟨f1, f2, f3⟩ := hframe p (by push_cast at hp; omega)
      have hpi : p ≠ i := by push_cast at hp; omega
      rw [f1, f2, f3]
      refine ⟨?_, by simp [setAt_other _ _ _ _ hpi], by simp [setAt_other _ _ _ _ hpi]⟩
      funext q
      have : ¬ (p = i ∧ 0 ≤ q ∧ q < 0 + ref.tableau_count i) := fun h => hpi h.1
      simp only [this, if_false]

theorem load_stock_spec (st : Int → Int) (n : Nat) (i0 : Int) (s : State) :
    forRange (fun i (t : State) => { t with stock := setAt t.stock i (st (20 + i)) }) n i0 s
      = { s with stock := fun k => if i0 ≤ k ∧ k < i0 + n then st (20 + k) else s.stock k } := by
  induction n generalizing i0 s with
  | zero =>
    simp only [forRange]
    have : (fun k => if i0 ≤ k ∧ k < i0 + ((0 : Nat) : Int) then st (20 + k) else s.stock k)
        = s.stock := by
      funext k
      have : ¬ (i0 ≤ k ∧ k < i0 + ((0 : Nat) : Int)) := by push_cast; omega
      rw [if_neg this]
    rw [this]
  | succ n ih =>
    simp only [forRange]
    rw [ih]
    congr 1
    funext k
    simp only [setAt_apply]
    by_cases h1 : i0 + 1 ≤ k ∧ k < i0 + 1 + (n : Int)
    · have h2 : i0 ≤ k ∧ k < i0 + ((n + 1 : Nat) : Int) := by push_cast; omega
      rw [if_pos h1, if_pos h2]
    · rw [if_neg h1]
      by_cases h3 : k = i0
      · have h2 : i0 ≤ k ∧ k < i0 + ((n + 1 : Nat) : Int) := by push_cast; omega
        rw [if_pos h3, if_pos h2, h3]
      · have h2 : ¬ (i0 ≤ k ∧ k < i0 + ((n + 1 : Nat) : Int)) := by push_cast; omega
        rw [if_neg h3, if_neg h2]

theorem load_foundation_eq (st : Int → Int) (i : Int) (s : State) :
    load_foundation st i s
      = { s with foundation :=
            setAt s.foundation i (if st (2 + i) = 255 then -1 else st (2 + i)) } := by
  unfold load_foundation
  simp only [setAt_same]
  split_ifs with h
  · congr 1
    funext k
    simp only [setAt_apply]
    split_ifs <;> rfl
  · rfl

theorem load_foundations_spec (st : Int → Int) (n : Nat) (i0 : Int) (s : State) :
    forRange (load_foundation st) n i0 s
      = { s with foundation := fun k =>
            if i0 ≤ k ∧ k < i0 + n then (if st (2 + k) = 255 then -1 else st (2 + k))
            else s.foundation k } := by
  induction n generalizing i0 s with
  | zero =>
    simp only [forRange]
    have : (fun k => if i0 ≤ k ∧ k < i0 + ((0 : Nat) : Int)
        then (if st (2 + k) = 255 then -1 else st (2 + k)) else s.foundation k)
        = s.foundation := by
      funext k
      have : ¬ (i0 ≤ k ∧ k < i0 + ((0 : Nat) : Int)) := by push_cast; omega
      rw [if_neg this]
    rw [this]
  | succ n ih =>
    simp only [forRange]
    rw [ih, load_foundation_eq]
    congr 1
    funext k
    simp only [setAt_apply]
    by_cases h1 : i0 + 1 ≤ k ∧ k < i0 + 1 + (n : Int)
    · have h2 : i0 ≤ k ∧ k < i0 + ((n + 1 : Nat) : Int) := by push_cast; omega
      rw [if_pos h1, if_pos h2]
    · rw [if_neg h1]
      by_cases h3 : k = i0
      · have h2 : i0 ≤ k ∧ k < i0 + ((n + 1 : Nat) : Int) := by push_cast; omega
        rw [if_pos h3, if_pos h2, h3]
      · have h2 : ¬ (i0 ≤ k ∧ k < i0 + ((n + 1 : Nat) : Int)) := by push_cast; omega
        rw [if_neg h3, if_neg h2]

theorem select_talon_fields (u : State) :
    (select_talon u).score = u.score ∧ (select_talon u).stock_count = u.stock_count
      ∧ (select_talon u).talon = u.talon ∧ (select_talon u).talon_showing = u.talon_showing
      ∧ (select_talon u).flips = u.flips ∧ (select_talon u).stock = u.stock
      ∧ (select_talon u).foundation = u.foundation ∧ (select_talon u).tableau = u.tableau
      ∧ (select_talon u).hidden_count = u.hidden_count
      ∧ (select_talon u).tableau_count = u.tableau_count ∧ (select_talon u).win = u.win
      ∧ (select_talon u).draw_setting = u.draw_setting
      ∧ (select_talon u).fliplimit_setting = u.fliplimit_setting
      ∧ (select_talon u).score_setting = u.score_setting := by
  obtain ⟨m, sel, src, hsb⟩ := select_talon_board u
  rw [hsb]
  exact ⟨rfl, rfl, rfl, rfl, rfl, rfl, rfl, rfl, rfl, rfl, rfl, rfl, rfl, rfl⟩

/-- What `load_state` restores from 82 stored bytes whose pile counts are those of the
state `ref`: each field, in terms of the buffer `st` that `persist_read_data` filled. -/
theorem load_state_spec (bytes : List Int) (junk : Int → Int) (s0 ref : State)
    (hlen : bytes.length = 82)
    (href : ∀ q, 0 ≤ q → q < 7 →
      (persist_read_data (some bytes) junk 82).2 (6 + q) = ref.tableau_count q
        ∧ 0 ≤ ref.tableau_count q)
    (hsc : 0 ≤ (persist_read_data (some bytes) junk 82).2 0) :
    (load_state (some bytes) junk s0).1 = true
      ∧ (load_state (some bytes) junk s0).2.win
          = decide ((persist_read_data (some bytes) junk 82).2 72 ≠ 0)
      ∧ (load_state (some bytes) junk s0).2.draw_setting
          = (persist_read_data (some bytes) junk 82).2 73
      ∧ (load_state (some bytes) junk s0).2.fliplimit_setting
          = (persist_read_data (some bytes) junk 82).2 74
      ∧ (load_state (some bytes) junk s0).2.score_setting
          = (persist_read_data (some bytes) junk 82).2 75
      ∧ (load_state (some bytes) junk s0).2.flips
          = (persist_read_data (some bytes) junk 82).2 76
      ∧ (load_state (some bytes) junk s0).2.talon_showing
          = (persist_read_data (some bytes) junk 82).2 77
      ∧ (load_state (some bytes) junk s0).2.score
          = int_of_bytes ((persist_read_data (some bytes) junk 82).2 78)
              ((persist_read_data (some bytes) junk 82).2 79)
              ((persist_read_data (some bytes) junk 82).2 80)
              ((persist_read_data (some bytes) junk 82).2 81)
      ∧ (load_state (some bytes) junk s0).2.stock_count
          = (persist_read_data (some bytes) junk 82).2 0
      ∧ (load_state (some bytes) junk s0).2.talon
          = (persist_read_data (some bytes) junk 82).2 1
      ∧ (∀ k, 0 ≤ k → k < (persist_read_data (some bytes) junk 82).2 0 →
          (load_state (some bytes) junk s0).2.stock k
            = (persist_read_data (some bytes) junk 82).2 (20 + k))
      ∧ (∀ k, 0 ≤ k → k < 4 →
          (load_state (some bytes) junk s0).2.foundation k
            = if (persist_read_data (some bytes) junk 82).2 (2 + k) = 255 then -1
              else (persist_read_data (some bytes) junk 82).2 (2 + k))
      ∧ (∀ p : Nat, p < 7 →
          (load_state (some bytes) junk s0).2.tableau_count p
              = (persist_read_data (some bytes) junk 82).2 (6 + p)
            ∧ (load_state (some bytes) junk s0).2.hidden_count p
              = (persist_read_data (some bytes) junk 82).2 (13 + p)
            ∧ ∀ q, 0 ≤ q → q < ref.tableau_count p →
              (load_state (some bytes) junk s0).2.tableau p q
                = (persist_read_data (some bytes) junk 82).2
                    (20 + (persist_read_data (some bytes) junk 82).2 0
                      + counts_sum ref p 0 + q)) := by
  generalize hst : (persist_read_data (some bytes) junk 82).2 = st at href hsc ⊢
  have hr1 : (persist_read_data (some bytes) junk 82).1 = 82 := by
    simp [persist_read_data, hlen]
  obtain ⟨f1, f2, f3, f4, f5, f6, f7, f8, f9, f10, f11, f12, f13, f14⟩ :=
    select_talon_fields
      (load_piles st 7 0 (20 + st 0)
        (forRange (load_foundation st) 4 0
          { forRange (fun i (t : State) => { t with stock := setAt t.stock i (st (20 + i)) })
              (st 0).toNat 0
              { s0 with
                win := decide (st 72 ≠ 0), draw_setting := st 73, fliplimit_setting := st 74
                score_setting := st 75, flips := st 76, talon_showing := st 77
                score := int_of_bytes (st 78) (st 79) (st 80) (st 81)
                stock_count := st 0 } with
            talon := st 1 }))
  have hload : load_state (some bytes) junk s0
      = (true, select_talon
        (load_piles st 7 0 (20 + st 0)
          (forRange (load_foundation st) 4 0
            { forRange (fun i (t : State) => { t with stock := setAt t.stock i (st (20 + i)) })
                (st 0).toNat 0
                { s0 with
                  win := decide (st 72 ≠ 0), draw_setting := st 73, fliplimit_setting := st 74
                  score_setting := st 75, flips := st 76, talon_showing := st 77
                  score := int_of_bytes (st 78) (st 79) (st 80) (st 81)
                  stock_count := st 0 } with
              talon := st 1 }))) := by
    unfold load_state
    simp only [hr1, hst, ne_eq, not_true_eq_false, if_false, load_stock_spec,
      load_foundations_spec]
  rw [hload]
  simp only
  rw [f1, f2, f3, f4, f5, f6, f7, f8, f9, f10, f11, f12, f13, f14]
  obtain ⟨⟨tb, hc, tc, hfr⟩, hpiles, -⟩ := load_piles_spec st ref 7 0 (20 + st 0)
    (forRange (load_foundation st) 4 0
          { forRange (fun i (t : State) => { t with stock := setAt t.stock i (st (20 + i)) })
              (st 0).toNat 0
              { s0 with
                win := decide (st 72 ≠ 0), draw_setting := st 73, fliplimit_setting := st 74
                score_setting := st 75, flips := st 76, talon_showing := st 77
                score := int_of_bytes (st 78) (st 79) (st 80) (st 81)
                stock_count := st 0 } with
            talon := st 1 })
    (fun q h1 h2 => href q h1 (by push_cast at h2; omega))
  refine ⟨trivial, ?_, ?_, ?_, ?_, ?_, ?_, ?_, ?_, ?_, ?_, ?_, ?_⟩
  · rw [hfr, load_foundations_spec, load_stock_spec]
  · rw [hfr, load_foundations_spec, load_stock_spec]
  · rw [hfr, load_foundations_spec, load_stock_spec]
  · rw [hfr, load_foundations_spec, load_stock_spec]
  · rw [hfr, load_foundations_spec, load_stock_spec]
  · rw [hfr, load_foundations_spec, load_stock_spec]
  · rw [hfr, load_foundations_spec, load_stock_spec]
  · rw [hfr, load_foundations_spec, load_stock_spec]
  · rw [hfr, load_foundations_spec, load_stock_spec]
  · intro k hk0 hk1
    rw [hfr, load_foundations_spec, load_stock_spec]
    have : 0 ≤ k ∧ k < 0 + (((st 0).toNat : Nat) : Int) := ⟨hk0, by omega⟩
    simp only [this, and_self, if_true]
  · intro k hk0 hk1
    rw [hfr, load_foundations_spec]
    have : 0 ≤ k ∧ k < 0 + ((4 : Nat) : Int) := ⟨hk0, by push_cast; omega⟩
    simp only [this, and_self, if_true]
  · intro p hp
    obtain ⟨g1, g2, g3⟩ := hpiles p hp
    simp only [zero_add] at g1 g2 g3
    exact ⟨g1, g2, g3⟩

/-! ## Persistence round trip (C2) -/

theorem save_state_length (junk : Int → Int) (s : State) : (save_state junk s).length = 82 := by
  simp [save_state]

theorem read_saved (junk junk2 : Int → Int) (s : State) (i : Int) (h0 : 0 ≤ i) (h1 : i < 82) :
    (persist_read_data (some (save_state junk s)) junk2 82).2 i = save_buffer junk s i := by
  obtain ⟨k, rfl⟩ : ∃ k : Nat, i = (k : Int) := ⟨i.toNat, by omega⟩
  have hk : k < 82 := by omega
  simp only [persist_read_data, save_state_length, min_self]
  rw [if_pos ⟨h0, by simpa using hk⟩]
  simp [save_state, List.getD, List.getElem?_map, List.getElem?_range hk]

theorem int_of_bytes_split (x : Int) (h : fits_int32 x) :
    int_of_bytes (toByte x) (toByte (x / 256)) (toByte (x / 65536)) (toByte (x / 16777216))
      = x := by
  unfold fits_int32 at h
  unfold int_of_bytes toByte
  simp only
  split_ifs <;> omega

theorem pile_offset_lt (s : State) (h0 : 0 ≤ s.stock_count)
    (hc : ∀ p, 0 ≤ p → p ≤ 6 → 0 ≤ s.tableau_count p)
    (hsum : s.stock_count + counts_sum s 7 0 ≤ 52)
    (p : Nat) (hp : p < 7) (j : Int) (hj0 : 0 ≤ j) (hj1 : j < s.tableau_count p) :
    20 ≤ pile_offset s p + j ∧ pile_offset s p + j < 72 := by
  have hsplit : counts_sum s 7 0
      = counts_sum s (p + 1) 0 + counts_sum s (7 - (p + 1)) (p + 1) := by
    have : p = 0 ∨ p = 1 ∨ p = 2 ∨ p = 3 ∨ p = 4 ∨ p = 5 ∨ p = 6 := by omega
    rcases this with h | h | h | h | h | h | h <;> subst h <;> simp [counts_sum] <;> ring
  have hrest := counts_sum_nonneg s (7 - (p + 1)) (p + 1)
    (fun q h1 h2 => hc q (by omega) (by
      have : ((7 - (p + 1) : Nat) : Int) = 6 - p := by omega
      omega))
  have hpre := counts_sum_nonneg s p 0 (fun q h1 h2 => hc q (by omega) (by omega))
  have hsucc := counts_sum_succ s p 0
  unfold pile_offset
  simp only [zero_add] at hsucc
  omega

/-- Loading what `save_state` wrote restores every persisted field whose value fits the
byte (or, for the score, the four bytes) it is stored in. -/
theorem load_save_fields (junk junk2 : Int → Int) (s s0 : State)
    (h0 : 0 ≤ s.stock_count)
    (hc : ∀ p, 0 ≤ p → p ≤ 6 → 0 ≤ s.tableau_count p)
    (hsum : s.stock_count + counts_sum s 7 0 ≤ 52)
    (htal : 0 ≤ s.talon ∧ s.talon ≤ 255)
    (hts : 0 ≤ s.talon_showing ∧ s.talon_showing ≤ 255)
    (hfl : 0 ≤ s.flips ∧ s.flips ≤ 255)
    (hds : 0 ≤ s.draw_setting ∧ s.draw_setting ≤ 255)
    (hfs : 0 ≤ s.fliplimit_setting ∧ s.fliplimit_setting ≤ 255)
    (hss : 0 ≤ s.score_setting ∧ s.score_setting ≤ 255)
    (hscore : fits_int32 s.score)
    (hstock : ∀ i, 0 ≤ i → i < s.stock_count → 0 ≤ s.stock i ∧ s.stock i ≤ 255)
    (hfound : ∀ i, 0 ≤ i → i ≤ 3 → -1 ≤ s.foundation i ∧ s.foundation i ≤ 254)
    (hhid : ∀ p, 0 ≤ p → p ≤ 6 → 0 ≤ s.hidden_count p ∧ s.hidden_count p ≤ 255)
    (hcards : ∀ p, 0 ≤ p → p ≤ 6 → ∀ j, 0 ≤ j → j < s.tableau_count p →
      0 ≤ s.tableau p j ∧ s.tableau p j ≤ 255) :
    (load_state (some (save_state junk s)) junk2 s0).1 = true
      ∧ (load_state (some (save_state junk s)) junk2 s0).2.stock_count = s.stock_count
      ∧ (load_state (some (save_state junk s)) junk2 s0).2.talon = s.talon
      ∧ (load_state (some (save_state junk s)) junk2 s0).2.talon_showing = s.talon_showing
      ∧ (∀ i, 0 ≤ i → i < s.stock_count →
          (load_state (some (save_state junk s)) junk2 s0).2.stock i = s.stock i)
      ∧ (∀ i, 0 ≤ i → i ≤ 3 →
          (load_state (some (save_state junk s)) junk2 s0).2.foundation i = s.foundation i)
      ∧ (∀ p, 0 ≤ p → p ≤ 6 →
          (load_state (some (save_state junk s)) junk2 s0).2.tableau_count p
              = s.tableau_count p
            ∧ (load_state (some (save_state junk s)) junk2 s0).2.hidden_count p
              = s.hidden_count p
            ∧ ∀ j, 0 ≤ j → j < s.tableau_count p →
              (load_state (some (save_state junk s)) junk2 s0).2.tableau p j = s.tableau p j)
      ∧ (load_state (some (save_state junk s)) junk2 s0).2.win = s.win
      ∧ (load_state (some (save_state junk s)) junk2 s0).2.draw_setting = s.draw_setting
      ∧ (load_state (some (save_state junk s)) junk2 s0).2.fliplimit_setting
          = s.fliplimit_setting
      ∧ (load_state (some (save_state junk s)) junk2 s0).2.score_setting = s.score_setting
      ∧ (load_state (some (save_state junk s)) junk2 s0).2.flips = s.flips
      ∧ (load_state (some (save_state junk s)) junk2 s0).2.score = s.score := by
  obtain ⟨-, -, b0, b1, b2, -, b6, b13, b20, bp, -, b72, b73, b74, b75, b76, b77, b78, b79,
    b80, b81, -⟩ := save_buffer_layout junk s h0 hc hsum
  have rd := read_saved junk junk2 s
  obtain ⟨l1, l72, l73, l74, l75, l76, l77, l78, l0, l1b, l20, l2, lp⟩ :=
    load_state_spec (save_state junk s) junk2 s0 s (save_state_length junk s)
      (fun q hq0 hq1 => by
        rw [rd _ (by omega) (by omega), b6 q hq0 (by omega)]
        exact ⟨rfl, hc q hq0 (by omega)⟩)
      (by rw [rd 0 (by decide) (by decide), b0]; exact h0)
  have tb := toByte_of_range
  refine ⟨l1, ?_, ?_, ?_, ?_, ?_, ?_, ?_, ?_, ?_, ?_, ?_, ?_⟩
  · rw [l0, rd 0 (by decide) (by decide), b0]
  · rw [l1b, rd 1 (by decide) (by decide), b1, tb _ htal.1 (by omega)]
  · rw [l77, rd 77 (by decide) (by decide), b77, tb _ hts.1 (by omega)]
  · intro i hi0 hi1
    have hi24 : i < 52 := by
      have := counts_sum_nonneg s 7 0 (fun q h1 h2 => hc q h1 (by push_cast at h2; omega))
      omega
    rw [l20 i hi0 (by rw [rd 0 (by decide) (by decide), b0]; exact hi1),
      rd _ (by omega) (by omega), b20 i hi0 hi1,
      tb _ (hstock i hi0 hi1).1 (by have := (hstock i hi0 hi1).2; omega)]
  · intro i hi0 hi3
    obtain ⟨f0, f1⟩ := hfound i hi0 hi3
    rw [l2 i hi0 (by omega), rd _ (by omega) (by omega), b2 i hi0 hi3]
    unfold toByte
    split_ifs <;> omega
  · intro p hp0 hp6
    obtain ⟨m, rfl⟩ : ∃ m : Nat, p = (m : Int) := ⟨p.toNat, by omega⟩
    have hm : m < 7 := by omega
    obtain ⟨g1, g2, g3⟩ := lp m hm
    refine ⟨?_, ?_, ?_⟩
    · rw [g1, rd _ (by omega) (by omega), b6 _ hp0 hp6]
    · rw [g2, rd _ (by omega) (by omega), b13 _ hp0 hp6,
        tb _ (hhid _ hp0 hp6).1 (by have := (hhid _ hp0 hp6).2; omega)]
    · intro j hj0 hj1
      obtain ⟨o1, o2⟩ := pile_offset_lt s h0 hc hsum m hm j hj0 hj1
      have e : 20 + (persist_read_data (some (save_state junk s)) junk2 82).2 0
          + counts_sum s m 0 + j = pile_offset s m + j := by
        rw [rd 0 (by decide) (by decide), b0]
        rfl
      rw [g3 j hj0 hj1, e, rd _ (by omega) (by omega), bp m hm j hj0 hj1,
        tb _ (hcards _ hp0 hp6 j hj0 hj1).1 (by have := (hcards _ hp0 hp6 j hj0 hj1).2; omega)]
  · rw [l72, rd 72 (by decide) (by decide), b72]
    cases s.win <;> simp
  · rw [l73, rd 73 (by decide) (by decide), b73, tb _ hds.1 (by omega)]
  · rw [l74, rd 74 (by decide) (by decide), b74, tb _ hfs.1 (by omega)]
  · rw [l75, rd 75 (by decide) (by decide), b75, tb _ hss.1 (by omega)]
  · rw [l76, rd 76 (by decide) (by decide), b76, tb _ hfl.1 (by omega)]
  · rw [l78, rd 78 (by decide) (by decide), rd 79 (by decide) (by decide),
      rd 80 (by decide) (by decide), rd 81 (by decide) (by decide), b78, b79, b80, b81]
    exact int_of_bytes_split s.score hscore

/-! ## Passing through the stock in draw-one mode -/

theorem down_draw_one (s : State) (hw : s.win = false) (hm : s.mode = 0)
    (hd : s.draw_setting = 0) (hf : s.fliplimit_setting = 0) (hsc : s.stock_count = 24)
    (hts : s.talon_showing = 0) :
    (down_click_handler s).win = false ∧ (down_click_handler s).mode = 0
      ∧ (down_click_handler s).draw_setting = 0
      ∧ (down_click_handler s).fliplimit_setting = 0
      ∧ (down_click_handler s).stock_count = 24
      ∧ (down_click_handler s).talon_showing = 0
      ∧ (down_click_handler s).talon = (if s.talon + 1 = 24 then 0 else s.talon + 1)
      ∧ (down_click_handler s).flips = (if s.talon + 1 = 24 then s.flips + 1 else s.flips) := by
  unfold down_click_handler
  rw [if_neg (by simp [hw]), if_pos hm]
  obtain ⟨f1, f2, f3, f4, f5, f6, f7, f8, f9, f10, f11, f12, f13, f14⟩ :=
    select_talon_fields (deal_card_from_stock s)
  have hmode : (select_talon (deal_card_from_stock s)).mode = 0 :=
    (select_talon_range (deal_card_from_stock s) (by
      obtain ⟨tl, fl, ts, e, -⟩ := deal_card_from_stock_spec s
      rw [e]
      exact hw)).1
  rw [f11, hmode, f12, f13, f2, f4, f3, f5, deal_card_from_stock_eq]
  have c1 : s.stock_count > s.talon_showing + 1 := by omega
  rw [if_pos c1]
  simp only [hw, hd, hf, hsc, hts, true_or, and_true, if_true, ne_eq, not_true_eq_false,
    if_false, add_zero, true_and]
  trivial

theorem press_down_draw_one (n : Nat) (s : State) (hw : s.win = false) (hm : s.mode = 0)
    (hd : s.draw_setting = 0) (hf : s.fliplimit_setting = 0) (hsc : s.stock_count = 24)
    (hts : s.talon_showing = 0) (ht0 : 0 ≤ s.talon) (ht1 : s.talon < 24) :
    (press_down n s).talon = (s.talon + n) % 24
      ∧ (press_down n s).flips = s.flips + (s.talon + n) / 24 := by
  induction n generalizing s with
  | zero =>
    simp only [press_down, Nat.cast_zero, add_zero]
    constructor <;> omega
  | succ n ih =>
    obtain ⟨g1, g2, g3, g4, g5, g6, g7, g8⟩ := down_draw_one s hw hm hd hf hsc hts
    have hrange : 0 ≤ (down_click_handler s).talon ∧ (down_click_handler s).talon < 24 := by
      rw [g7]
      split_ifs <;> omega
    obtain ⟨i1, i2⟩ := ih (down_click_handler s) g1 g2 g3 g4 g5 g6 hrange.1 hrange.2
    simp only [press_down]
    rw [i1, i2, g7, g8]
    push_cast
    split_ifs <;> constructor <;> omega

theorem press_down_reachable (n : Nat) (s : State) (h : Reachable s) :
    Reachable (press_down n s) := by
  induction n generalizing s with
  | zero => exact h
  | succ n ih => exact ih _ (Reachable.down s h)

theorem reachable_with_settings (s : State) (h : Reachable s) : ReachableWithSettings s := by
  induction h with
  | deal fuel now s0 s hd => exact ReachableWithSettings.deal fuel now s0 s hd
  | up fuel s t _ hc ih => exact ReachableWithSettings.up fuel s t ih hc
  | select fuel s t _ hc ih => exact ReachableWithSettings.select fuel s t ih hc
  | down s _ ih => exact ReachableWithSettings.down s ih
  | long_down fuel s t _ hc ih => exact ReachableWithSettings.long_down fuel s t ih hc

theorem flipState_reachable : Reachable flipState :=
  press_down_reachable 6144 dealState dealState_reachable

theorem flipState_flips : flipState.flips = 256 := by
  obtain ⟨-, -, -, h4, h5, h6, h7, h8, h9, h10, h11, -, -⟩ := dealState_fields
  have := (press_down_draw_one 6144 dealState h5 h4 h10 h11 h6 h8 (by rw [h7])
    (by rw [h7]; decide)).2
  rw [h7, h9] at this
  unfold flipState
  rw [this]
  decide

/-! ## The round trip on reachable states (C2) -/

theorem foundation_range (s : State) (hb : board_ok s) (i : Int) (h0 : 0 ≤ i) (h3 : i ≤ 3) :
    -1 ≤ s.foundation i ∧ s.foundation i ≤ 51 := by
  obtain ⟨-, -, hf, hc, -⟩ := hb
  refine ⟨hf i h0 h3, ?_⟩
  by_cases hneg : s.foundation i < 0
  · omega
  · have hmem : s.foundation i ∈ foundation_cards (s.foundation i) := by
      unfold foundation_cards
      rw [List.mem_map]
      refine ⟨0, ?_, by simp⟩
      rw [List.mem_range]
      omega
    have hall : s.foundation i ∈ all_cards s := by
      unfold all_cards foundations_cards
      have : i = 0 ∨ i = 1 ∨ i = 2 ∨ i = 3 := by omega
      rcases this with h | h | h | h <;> subst h <;> simp [hmem]
    exact (card_range_of_conserved s hc _ hall).2

/-- The round trip on a state satisfying the invariant of the game. -/
theorem game_round_trip (junk junk2 : Int → Int) (s s0 : State) (hg : game_ok s)
    (hfl : s.flips ≤ 255)
    (hds : 0 ≤ s.draw_setting ∧ s.draw_setting ≤ 255)
    (hfs : 0 ≤ s.fliplimit_setting ∧ s.fliplimit_setting ≤ 255)
    (hss : 0 ≤ s.score_setting ∧ s.score_setting ≤ 255)
    (hscore : fits_int32 s.score) :
    (load_state (some (save_state junk s)) junk2 s0).1 = true
      ∧ (load_state (some (save_state junk s)) junk2 s0).2.stock_count = s.stock_count
      ∧ (load_state (some (save_state junk s)) junk2 s0).2.talon = s.talon
      ∧ (load_state (some (save_state junk s)) junk2 s0).2.talon_showing = s.talon_showing
      ∧ (∀ i, 0 ≤ i → i < s.stock_count →
          (load_state (some (save_state junk s)) junk2 s0).2.stock i = s.stock i)
      ∧ (∀ i, 0 ≤ i → i ≤ 3 →
          (load_state (some (save_state junk s)) junk2 s0).2.foundation i = s.foundation i)
      ∧ (∀ p, 0 ≤ p → p ≤ 6 →
          (load_state (some (save_state junk s)) junk2 s0).2.tableau_count p
              = s.tableau_count p
            ∧ (load_state (some (save_state junk s)) junk2 s0).2.hidden_count p
              = s.hidden_count p
            ∧ ∀ j, 0 ≤ j → j < s.tableau_count p →
              (load_state (some (save_state junk s)) junk2 s0).2.tableau p j = s.tableau p j)
      ∧ (load_state (some (save_state junk s)) junk2 s0).2.win = s.win
      ∧ (load_state (some (save_state junk s)) junk2 s0).2.draw_setting = s.draw_setting
      ∧ (load_state (some (save_state junk s)) junk2 s0).2.fliplimit_setting
          = s.fliplimit_setting
      ∧ (load_state (some (save_state junk s)) junk2 s0).2.score_setting = s.score_setting
      ∧ (load_state (some (save_state junk s)) junk2 s0).2.flips = s.flips
      ∧ (load_state (some (save_state junk s)) junk2 s0).2.score = s.score := by
  have hb := hg.1
  obtain ⟨h0, hc, hsum⟩ := board_counts s hb
  obtain ⟨hst, hp, -, hcons, hflips⟩ := hb
  obtain ⟨s1, s2, s3, s4, s5, s6, -⟩ := hst
  refine load_save_fields junk junk2 s s0 h0 hc hsum ⟨s3, by omega⟩ ⟨s4, by omega⟩
    ⟨hflips, hfl⟩ hds hfs hss hscore ?_ ?_ ?_ ?_
  · intro i hi0 hi1
    have := stock_card_range s hcons i hi0 hi1
    omega
  · intro i hi0 hi3
    have := foundation_range s hg.1 i hi0 hi3
    omega
  · intro p hp0 hp6
    obtain ⟨⟨a, b, -⟩, c, -⟩ := hp p hp0 hp6
    omega
  · intro p hp0 hp6 j hj0 hj1
    have := pile_cards_valid_of_conserved s hcons p hp0 hp6 j hj0 hj1
    omega

/-- C2, counterexample: the dealt game after 6144 presses of the down button is
reachable and has `flips = 256`; saving writes `flips` into one byte, and loading the
82 saved bytes gives back `flips = 0`. -/
theorem round_trip_truncates_flips :
    ReachableWithSettings flipState ∧ flipState.flips = 256
      ∧ (load_state (some (save_state (fun _ => 0) flipState)) (fun _ => 0) zeroState).2.flips
          = 0
      ∧ (load_state (some (save_state (fun _ => 0) flipState)) (fun _ => 0) zeroState).2.flips
          ≠ flipState.flips := by
  have hr := reachable_with_settings flipState flipState_reachable
  have hb := (reachable_settings_game_ok flipState hr).1
  obtain ⟨h0, hc, hsum⟩ := board_counts flipState hb
  obtain ⟨-, -, b0, -, -, -, b6, -, -, -, -, -, -, -, -, b76, -⟩ :=
    save_buffer_layout (fun _ => 0) flipState h0 hc hsum
  have rd := read_saved (fun _ => 0) (fun _ => 0) flipState
  obtain ⟨-, -, -, -, -, l76, -⟩ :=
    load_state_spec (save_state (fun _ => 0) flipState) (fun _ => 0) zeroState flipState
      (save_state_length _ flipState)
      (fun q hq0 hq1 => by
        rw [rd _ (by omega) (by omega), b6 q hq0 (by omega)]
        exact ⟨rfl, hc q hq0 (by omega)⟩)
      (by rw [rd 0 (by decide) (by decide), b0]; exact h0)
  have hz : (load_state (some (save_state (fun _ => 0) flipState)) (fun _ => 0)
      zeroState).2.flips = 0 := by
    rw [l76, rd 76 (by decide) (by decide), b76, flipState_flips]
    decide
  refine ⟨hr, flipState_flips, hz, ?_⟩
  rw [hz, flipState_flips]
  decide

/-- C2 (amended). Persistence round trip: for every state `s` reachable from a deal by
the four commands and the settings mutators (the draw-mode toggle being applied to a
non-empty stock or towards draw-one) whose `flips` is at most 255, whose three settings
are byte values and whose score fits the 32-bit `int`, `load_state` applied to the 82
bytes that `save_state` produces on `s` returns true and restores every persisted field
to its value in `s`: `stock_count`, `talon`, `talon_showing`, the live stock cards, the
four foundations (empty ones as -1), the pile counts and hidden counts, every live
tableau card, `win`, the three settings, `flips` and `score`. -/
theorem persistence_round_trip (junk junk2 : Int → Int) (s s0 : State)
    (h : ReachableWithSettings s) (hfl : s.flips ≤ 255)
    (hds : 0 ≤ s.draw_setting ∧ s.draw_setting ≤ 255)
    (hfs : 0 ≤ s.fliplimit_setting ∧ s.fliplimit_setting ≤ 255)
    (hss : 0 ≤ s.score_setting ∧ s.score_setting ≤ 255)
    (hscore : fits_int32 s.score) :
    (save_state junk s).length = 82
      ∧ (load_state (some (save_state junk s)) junk2 s0).1 = true
      ∧ (load_state (some (save_state junk s)) junk2 s0).2.stock_count = s.stock_count
      ∧ (load_state (some (save_state junk s)) junk2 s0).2.talon = s.talon
      ∧ (load_state (some (save_state junk s)) junk2 s0).2.talon_showing = s.talon_showing
      ∧ (∀ i, 0 ≤ i → i < s.stock_count →
          (load_state (some (save_state junk s)) junk2 s0).2.stock i = s.stock i)
      ∧ (∀ i, 0 ≤ i → i ≤ 3 →
          (load_state (some (save_state junk s)) junk2 s0).2.foundation i = s.foundation i)
      ∧ (∀ p, 0 ≤ p → p ≤ 6 →
          (load_state (some (save_state junk s)) junk2 s0).2.tableau_count p
              = s.tableau_count p
            ∧ (load_state (some (save_state junk s)) junk2 s0).2.hidden_count p
              = s.hidden_count p
            ∧ ∀ j, 0 ≤ j → j < s.tableau_count p →
              (load_state (some (save_state junk s)) junk2 s0).2.tableau p j = s.tableau p j)
      ∧ (load_state (some (save_state junk s)) junk2 s0).2.win = s.win
      ∧ (load_state (some (save_state junk s)) junk2 s0).2.draw_setting = s.draw_setting
      ∧ (load_state (some (save_state junk s)) junk2 s0).2.fliplimit_setting
          = s.fliplimit_setting
      ∧ (load_state (some (save_state junk s)) junk2 s0).2.score_setting = s.score_setting
      ∧ (load_state (some (save_state junk s)) junk2 s0).2.flips = s.flips
      ∧ (load_state (some (save_state junk s)) junk2 s0).2.score = s.score :=
  ⟨save_state_length junk s,
    game_round_trip junk junk2 s s0 (reachable_settings_game_ok s h) hfl hds hfs hss hscore⟩

theorem dealState_settings :
    ReachableWithSettings dealState ∧ dealState.flips ≤ 255
      ∧ (0 ≤ dealState.draw_setting ∧ dealState.draw_setting ≤ 255)
      ∧ (0 ≤ dealState.fliplimit_setting ∧ dealState.fliplimit_setting ≤ 255)
      ∧ (0 ≤ dealState.score_setting ∧ dealState.score_setting ≤ 255)
      ∧ fits_int32 dealState.score := by
  obtain ⟨-, -, -, -, -, -, -, -, h9, h10, h11, h12, h13⟩ := dealState_fields
  rw [h9, h10, h11, h12, h13]
  exact ⟨reachable_with_settings dealState dealState_reachable, by decide, by decide,
    by decide, by decide, by unfold fits_int32; decide⟩

theorem persistence_round_trip_witness :
    ReachableWithSettings dealState
      ∧ (load_state (some (save_state (fun _ => 0) dealState)) (fun _ => 7) zeroState).1 = true
      ∧ (load_state (some (save_state (fun _ => 0) dealState)) (fun _ => 7) zeroState).2.score
          = dealState.score :=
  ⟨dealState_settings.1,
    (persistence_round_trip (fun _ => 0) (fun _ => 7) dealState zeroState
      dealState_settings.1 dealState_settings.2.1 dealState_settings.2.2.1
      dealState_settings.2.2.2.1 dealState_settings.2.2.2.2.1
      dealState_settings.2.2.2.2.2).2.1,
    (persistence_round_trip (fun _ => 0) (fun _ => 7) dealState zeroState
      dealState_settings.1 dealState_settings.2.1 dealState_settings.2.2.1
      dealState_settings.2.2.2.1 dealState_settings.2.2.2.2.1
      dealState_settings.2.2.2.2.2).2.2.2.2.2.2.2.2.2.2.2.2.2⟩

/-! ## Drawing from the stock (C11, C12, C13) -/

/-- The fields written by a stock draw that is not on the last block. -/
theorem deal_advance (s : State) (h0 : 0 ≤ s.talon)
    (hnl : s.talon + s.talon_showing + 1 < s.stock_count) :
    (deal_card_from_stock s).talon = s.talon + s.talon_showing + 1
      ∧ (deal_card_from_stock s).talon_showing
          = (if s.draw_setting ≠ 0 then
              min 2 (s.stock_count - (s.talon + s.talon_showing + 1) - 1)
             else s.talon_showing)
      ∧ (deal_card_from_stock s).stock = s.stock
      ∧ (deal_card_from_stock s).stock_count = s.stock_count
      ∧ (deal_card_from_stock s).flips = s.flips
      ∧ (deal_card_from_stock s).draw_setting = s.draw_setting
      ∧ (deal_card_from_stock s).fliplimit_setting = s.fliplimit_setting := by
  rw [deal_card_from_stock_eq]
  have c1 : s.stock_count > s.talon_showing + 1 := by omega
  have c2 : ¬ (s.talon + s.talon_showing + 1 = s.stock_count) := by omega
  rw [if_pos c1]
  simp only [c2, if_false, false_and]
  refine ⟨by omega, ?_, trivial, trivial, trivial, trivial, trivial⟩
  split_ifs with hd hgt
  · rw [min_def]
    split_ifs <;> omega
  · rw [min_def]
    split_ifs <;> omega
  · rfl

theorem draw_three_run (u : State) (hd : u.draw_setting ≠ 0) (hsc : u.stock_count = 24)
    (ht : u.talon = 0) (hts : u.talon_showing = 2) (n : Nat) (hn : n ≤ 7) :
    (deal_card_from_stock^[n] u).talon = 3 * n
      ∧ (deal_card_from_stock^[n] u).talon_showing = 2
      ∧ (deal_card_from_stock^[n] u).stock_count = 24
      ∧ (deal_card_from_stock^[n] u).flips = u.flips
      ∧ (deal_card_from_stock^[n] u).draw_setting = u.draw_setting
      ∧ (deal_card_from_stock^[n] u).fliplimit_setting = u.fliplimit_setting := by
  induction n with
  | zero => exact ⟨by rw [Function.iterate_zero, id, ht]; rfl, hts, hsc, rfl, rfl, rfl⟩
  | succ n ih =>
    obtain ⟨i1, i2, i3, i4, i5, i6⟩ := ih (by omega)
    rw [Function.iterate_succ_apply']
    obtain ⟨a1, a2, -, a4, a5, a6, a7⟩ := deal_advance (deal_card_from_stock^[n] u)
      (by omega) (by omega)
    rw [a1, a2, a4, a5, a6, a7, i1, i2, i3, i4, i5, i6, if_pos hd, min_def]
    refine ⟨by push_cast; omega, ?_, rfl, rfl, rfl, rfl⟩
    split_ifs <;> omega

theorem deal_reset (s : State) (hgt : s.stock_count > s.talon_showing + 1)
    (hlast : s.talon + s.talon_showing + 1 = s.stock_count) (hal : flip_allowed s) :
    (deal_card_from_stock s).talon = 0 ∧ (deal_card_from_stock s).flips = s.flips + 1 := by
  rw [deal_card_from_stock_eq, if_pos hgt]
  unfold flip_allowed at hal
  simp only [hlast, hal, if_true, and_self]

/-- C11. Stock draw advance: in a state satisfying the stock/talon invariant (with
`talon_showing` 0 in draw-one mode) whose window is not the last block,
`deal_card_from_stock` sets `talon' = talon + talon_showing + 1`, sets `talon_showing'`
to `min 2 (stock_count - talon' - 1)` in draw-three mode and leaves it at 0 in draw-one
mode, leaves `stock`, `stock_count` and `flips` unchanged, and the invariant holds
again.  In draw-three mode from `stock_count = 24`, `talon = 0`, `talon_showing = 2`,
seven draws give `talon = 21`, `talon_showing = 2`, and without flip limit the eighth
draw gives `talon = 0` and one more flip. -/
theorem stock_draw_advance (s : State) (hinv : talon_window_ok s)
    (hone : s.draw_setting = 0 → s.talon_showing = 0)
    (hnl : s.talon + s.talon_showing + 1 < s.stock_count) :
    (deal_card_from_stock s).talon = s.talon + s.talon_showing + 1
      ∧ (s.draw_setting ≠ 0 → (deal_card_from_stock s).talon_showing
          = min 2 (s.stock_count - (deal_card_from_stock s).talon - 1))
      ∧ (s.draw_setting = 0 → (deal_card_from_stock s).talon_showing = 0)
      ∧ (deal_card_from_stock s).stock = s.stock
      ∧ (deal_card_from_stock s).stock_count = s.stock_count
      ∧ (deal_card_from_stock s).flips = s.flips
      ∧ (deal_card_from_stock s).talon + (deal_card_from_stock s).talon_showing
          < (deal_card_from_stock s).stock_count
      ∧ talon_window_ok (deal_card_from_stock s)
      ∧ (∀ u : State, u.draw_setting ≠ 0 → u.stock_count = 24 → u.talon = 0 →
          u.talon_showing = 2 →
          (deal_card_from_stock^[7] u).talon = 21
            ∧ (deal_card_from_stock^[7] u).talon_showing = 2
            ∧ (u.fliplimit_setting = 0 →
                (deal_card_from_stock^[8] u).talon = 0
                  ∧ (deal_card_from_stock^[8] u).flips = u.flips + 1
                  ∧ (u.flips = 0 → (deal_card_from_stock^[8] u).flips = 1))) := by
  obtain ⟨h0, h1, h2, h3⟩ := hinv
  obtain ⟨a1, a2, a3, a4, a5, -, -⟩ := deal_advance s h0 hnl
  have hts : 0 ≤ (deal_card_from_stock s).talon_showing
      ∧ (deal_card_from_stock s).talon + (deal_card_from_stock s).talon_showing
          < s.stock_count := by
    rw [a1, a2]
    split_ifs with hd
    · rw [min_def]
      split_ifs <;> omega
    · have := hone (by simpa using hd)
      omega
  refine ⟨a1, fun hd => ?_, fun hd => ?_, a3, a4, a5, by rw [a4]; exact hts.2,
    ⟨by omega, hts.1, by rw [a4]; exact hts.2, by rw [a4]; exact h3⟩, ?_⟩
  · rw [a2, if_pos hd, a1]
  · rw [a2, if_neg (by simp [hd]), hone hd]
  · intro u hd hsc ht hs
    obtain ⟨r1, r2, r3, r4, r5, r6⟩ := draw_three_run u hd hsc ht hs 7 (le_refl _)
    refine ⟨by rw [r1]; rfl, r2, fun hfl => ?_⟩
    have hres := deal_reset (deal_card_from_stock^[7] u) (by rw [r3, r2]; decide)
      (by rw [r1, r2, r3]; rfl) (Or.inl (by rw [r6]; exact hfl))
    rw [Function.iterate_succ_apply', hres.1, hres.2, r4]
    exact ⟨rfl, rfl, fun hz => by rw [hz]; rfl⟩

theorem toggle_to_draw_three (s : State) (hd : s.draw_setting = 0) :
    (settings_menu_select_callback 0 s).draw_setting = 1
      ∧ (settings_menu_select_callback 0 s).stock_count = s.stock_count
      ∧ (settings_menu_select_callback 0 s).talon = s.talon
      ∧ (settings_menu_select_callback 0 s).talon_showing
          = (if s.stock_count - s.talon - 1 > 2 then 2 else s.stock_count - s.talon - 1)
      ∧ (settings_menu_select_callback 0 s).flips = s.flips
      ∧ (settings_menu_select_callback 0 s).fliplimit_setting = s.fliplimit_setting := by
  unfold settings_menu_select_callback
  rw [if_pos rfl, if_pos hd]
  simp only
  split_ifs <;> exact ⟨rfl, rfl, rfl, rfl, rfl, rfl⟩

theorem drawThreeState_fields :
    drawThreeState.draw_setting = 1 ∧ drawThreeState.stock_count = 24
      ∧ drawThreeState.talon = 0 ∧ drawThreeState.talon_showing = 2
      ∧ drawThreeState.flips = 0 ∧ drawThreeState.fliplimit_setting = 0 := by
  obtain ⟨-, -, -, -, -, h6, h7, h8, h9, h10, h11, -, -⟩ := dealState_fields
  obtain ⟨e1, e2, e3, e4, e5, e6⟩ := toggle_to_draw_three dealState h10
  unfold drawThreeState
  rw [e1, e2, e3, e4, e5, e6, h6, h7]
  exact ⟨rfl, rfl, rfl, by decide, h9, h11⟩

theorem stock_draw_advance_witness :
    talon_window_ok drawThreeState
      ∧ (deal_card_from_stock drawThreeState).talon = 3
      ∧ (deal_card_from_stock^[7] drawThreeState).talon = 21
      ∧ (deal_card_from_stock^[8] drawThreeState).flips = 1 := by
  obtain ⟨h1, h2, h3, h4, h5, h6⟩ := drawThreeState_fields
  have hw : talon_window_ok drawThreeState := by
    unfold talon_window_ok
    rw [h2, h3, h4]
    decide
  have hcl := stock_draw_advance drawThreeState hw (fun hd => by rw [h1] at hd; exact absurd hd (by decide))
    (by rw [h2, h3, h4]; decide)
  refine ⟨hw, ?_, ?_, ?_⟩
  · rw [hcl.1, h3, h4]
    rfl
  · exact (hcl.2.2.2.2.2.2.2.2 drawThreeState (by rw [h1]; decide) h2 h3 h4).1
  · exact ((hcl.2.2.2.2.2.2.2.2 drawThreeState (by rw [h1]; decide) h2 h3 h4).2.2 h6).2.2 h5

theorem deal_flips (s : State) :
    (deal_card_from_stock s).flips
        = (if s.stock_count > s.talon_showing + 1 ∧ s.talon + s.talon_showing + 1 = s.stock_count
            ∧ flip_allowed s then s.flips + 1 else s.flips)
      ∧ (deal_card_from_stock s).talon
        = (if s.stock_count > s.talon_showing + 1 then
            (if s.talon + s.talon_showing + 1 = s.stock_count then
              (if flip_allowed s then 0 else s.talon)
             else s.talon + (s.talon_showing + 1))
           else s.talon)
      ∧ (deal_card_from_stock s).fliplimit_setting = s.fliplimit_setting := by
  rw [deal_card_from_stock_eq]
  unfold flip_allowed
  by_cases c1 : s.stock_count > s.talon_showing + 1
  · rw [if_pos c1, if_pos c1]
    refine ⟨?_, rfl, rfl⟩
    simp only [c1, true_and]
  · rw [if_neg c1, if_neg c1]
    refine ⟨?_, rfl, rfl⟩
    simp only [c1, false_and, if_false]

theorem deal_showing (s : State) :
    (deal_card_from_stock s).talon_showing
      = (if s.stock_count > s.talon_showing + 1 ∧ s.draw_setting ≠ 0 then
          (if s.stock_count - (deal_card_from_stock s).talon - 1 > 2 then 2
           else s.stock_count - (deal_card_from_stock s).talon - 1)
         else s.talon_showing) := by
  obtain ⟨-, f2, -⟩ := deal_flips s
  rw [f2, deal_card_from_stock_eq]
  unfold flip_allowed
  by_cases c1 : s.stock_count > s.talon_showing + 1
  · by_cases c4 : s.draw_setting ≠ 0
    · simp only [c1, c4, if_true, and_self, ne_eq, not_false_eq_true]
    · simp only [c1, c4, if_true, if_false, and_false]
  · simp only [c1, if_false, false_and]

theorem deal_eq_fields (s : State) :
    deal_card_from_stock s
      = { s with talon := (deal_card_from_stock s).talon
                 flips := (deal_card_from_stock s).flips
                 talon_showing := (deal_card_from_stock s).talon_showing } := by
  obtain ⟨tl, fl, ts, e, -⟩ := deal_card_from_stock_spec s
  rw [e]

theorem deal_flips_zero_limit (s : State) (h : s.fliplimit_setting = 1) (n : Nat) :
    (deal_card_from_stock^[n] s).flips = s.flips
      ∧ (deal_card_from_stock^[n] s).fliplimit_setting = 1 := by
  induction n with
  | zero => exact ⟨rfl, h⟩
  | succ n ih =>
    rw [Function.iterate_succ_apply']
    obtain ⟨f1, -, f3⟩ := deal_flips (deal_card_from_stock^[n] s)
    have hna : ¬ flip_allowed (deal_card_from_stock^[n] s) := by
      unfold flip_allowed
      rw [ih.2]
      omega
    rw [f1, f3]
    simp only [hna, and_false, if_false]
    exact ih

theorem deal_flips_one_limit (s : State) (h : s.fliplimit_setting = 2) (h0 : s.flips = 0)
    (n : Nat) :
    0 ≤ (deal_card_from_stock^[n] s).flips ∧ (deal_card_from_stock^[n] s).flips ≤ 1
      ∧ (deal_card_from_stock^[n] s).fliplimit_setting = 2 := by
  induction n with
  | zero =>
    rw [Function.iterate_zero, id, h0]
    exact ⟨by decide, by decide, h⟩
  | succ n ih =>
    rw [Function.iterate_succ_apply']
    obtain ⟨f1, -, f3⟩ := deal_flips (deal_card_from_stock^[n] s)
    obtain ⟨i0, i1, i2⟩ := ih
    rw [f1, f3]
    refine ⟨?_, ?_, i2⟩
    · split_ifs <;> omega
    · split_ifs with hc
      · obtain ⟨-, -, hal⟩ := hc
        unfold flip_allowed at hal
        rw [i2] at hal
        omega
      · exact i1

/-- C12. Flip-limit enforcement: `deal_card_from_stock` resets `talon` to 0 and
increments `flips` by exactly 1 iff the window is the last block of a stock it does not
fully cover and the limit allows it (no limit, or "one" with `flips < 1`, or "three"
with `flips < 3`); otherwise `flips` is unchanged.  With the limit "zero" no call
changes `flips` or moves `talon` anywhere but forward, over any number of draws; with
"one", starting from `flips = 0`, any number of draws leaves `flips` at most 1, so at
most one reset is performed. -/
theorem flip_limit_enforcement (s : State) :
    (((deal_card_from_stock s).talon = 0 ∧ (deal_card_from_stock s).flips = s.flips + 1)
        ↔ (s.stock_count > s.talon_showing + 1 ∧ s.talon + s.talon_showing + 1 = s.stock_count
            ∧ (s.fliplimit_setting = 0 ∨ (s.fliplimit_setting = 2 ∧ s.flips < 1)
                ∨ (s.fliplimit_setting = 3 ∧ s.flips < 3))))
      ∧ ((deal_card_from_stock s).flips = s.flips
          ∨ (deal_card_from_stock s).flips = s.flips + 1)
      ∧ (s.fliplimit_setting = 1 →
          (deal_card_from_stock s).flips = s.flips
            ∧ ((deal_card_from_stock s).talon = s.talon
                ∨ (deal_card_from_stock s).talon = s.talon + s.talon_showing + 1)
            ∧ (0 ≤ s.talon → 0 ≤ s.talon_showing → (deal_card_from_stock s).talon = 0 →
                s.talon = 0)
            ∧ ∀ n, (deal_card_from_stock^[n] s).flips = s.flips)
      ∧ (s.fliplimit_setting = 2 → s.flips = 0 →
          ∀ n, 0 ≤ (deal_card_from_stock^[n] s).flips
            ∧ (deal_card_from_stock^[n] s).flips ≤ 1) := by
  obtain ⟨f1, f2, f3⟩ := deal_flips s
  refine ⟨?_, ?_, ?_, ?_⟩
  · rw [f1, f2]
    show _ ↔ (s.stock_count > s.talon_showing + 1 ∧ s.talon + s.talon_showing + 1 = s.stock_count
            ∧ flip_allowed s)
    constructor
    · rintro ⟨-, h⟩
      by_contra hc
      rw [if_neg hc] at h
      omega
    · intro hc
      rw [if_pos hc, if_pos hc.1, if_pos hc.2.1, if_pos hc.2.2]
      exact ⟨rfl, rfl⟩
  · rw [f1]
    split_ifs
    · right; rfl
    · left; rfl
  · intro h1
    have hna : ¬ flip_allowed s := by
      unfold flip_allowed
      omega
    have htal : (deal_card_from_stock s).talon = s.talon
        ∨ (deal_card_from_stock s).talon = s.talon + s.talon_showing + 1 := by
      rw [f2]
      simp only [hna, if_false]
      split_ifs
      · left; rfl
      · right; omega
      · left; rfl
    refine ⟨?_, htal, ?_, fun n => (deal_flips_zero_limit s h1 n).1⟩
    · rw [f1]
      simp only [hna, and_false, if_false]
    · intro a b hz
      rcases htal with e | e
      · rw [← e]; exact hz
      · omega
  · intro h2 h0 n
    obtain ⟨a, b, -⟩ := deal_flips_one_limit s h2 h0 n
    exact ⟨a, b⟩

theorem flip_limit_enforcement_witness :
    lastBlockState.fliplimit_setting = 1
      ∧ (deal_card_from_stock lastBlockState).flips = lastBlockState.flips
      ∧ (deal_card_from_stock^[5] lastBlockState).flips = 0 :=
  ⟨rfl, ((flip_limit_enforcement lastBlockState).2.2.1 rfl).1,
    ((flip_limit_enforcement lastBlockState).2.2.1 rfl).2.2.2 5⟩

/-- C13. Declined re-deal leaves the state unchanged: in a state with `talon_showing`
at most 2 (the stock/talon invariant gives this, and 0 in draw-one mode) whose window is
the last block and whose flip limit is exhausted, `deal_card_from_stock` returns the
state as it was: `stock`, `stock_count`, `talon`, `talon_showing`, `flips` and every
other field, in draw-one and in draw-three mode. -/
theorem declined_redeal (s : State) (hts : s.talon_showing ≤ 2)
    (hlast : s.talon + s.talon_showing + 1 = s.stock_count)
    (hex : ¬ (s.fliplimit_setting = 0 ∨ (s.fliplimit_setting = 2 ∧ s.flips < 1)
      ∨ (s.fliplimit_setting = 3 ∧ s.flips < 3))) :
    deal_card_from_stock s = s := by
  obtain ⟨f1, f2, -⟩ := deal_flips s
  have hna : ¬ flip_allowed s := hex
  have e2 : (deal_card_from_stock s).talon = s.talon := by
    rw [f2]
    simp only [hlast, hna, if_true, if_false]
    split_ifs <;> rfl
  have e1 : (deal_card_from_stock s).flips = s.flips := by
    rw [f1]
    simp only [hna, and_false, if_false]
  have e3 : (deal_card_from_stock s).talon_showing = s.talon_showing := by
    rw [deal_showing, e2]
    split_ifs <;> omega
  rw [deal_eq_fields, e1, e2, e3]

theorem declined_redeal_witness :
    talon_window_ok lastBlockState ∧ lastBlockState.draw_setting ≠ 0
      ∧ deal_card_from_stock lastBlockState = lastBlockState :=
  ⟨by unfold talon_window_ok lastBlockState zeroState; decide,
    by unfold lastBlockState zeroState; decide,
    declined_redeal lastBlockState
      (by unfold lastBlockState zeroState; decide)
      (by unfold lastBlockState zeroState; decide)
      (by unfold lastBlockState zeroState; decide)⟩

/-! ## Tableau bounds (C16) -/

theorem run_rank (s : State) (p : Int) (hr : run_ok s p) (k : Nat)
    (hk : s.hidden_count p + k < s.tableau_count p) :
    rank_of (s.tableau p (s.hidden_count p + k)) + k = rank_of (s.tableau p (s.hidden_count p)) := by
  induction k with
  | zero => simp
  | succ k ih =>
    have h1 := ih (by push_cast at hk; omega)
    have h2 := (hr (s.hidden_count p + k) (by omega) (by push_cast at hk; omega)).1
    have e : s.hidden_count p + ((k + 1 : Nat) : Int) = s.hidden_count p + k + 1 := by
      push_cast; omega
    rw [e]
    push_cast
    omega

/-- A pile of a board satisfying the invariant holds at most 19 cards: at most 6 hidden
ones under a run of at most 13. -/
theorem pile_count_le (s : State) (hb : board_ok s) (p : Int) (hp0 : 0 ≤ p) (hp6 : p ≤ 6) :
    0 ≤ s.hidden_count p ∧ s.hidden_count p ≤ s.tableau_count p ∧ s.tableau_count p ≤ 19
      ∧ (0 < s.tableau_count p → s.hidden_count p < s.tableau_count p)
      ∧ s.tableau_count p - s.hidden_count p ≤ 13 := by
  obtain ⟨⟨c1, c2, c3⟩, c4, c5⟩ := hb.2.1 p hp0 hp6
  have hv := pile_cards_valid_of_conserved s hb.2.2.2.1 p hp0 hp6
  have hrun : s.tableau_count p - s.hidden_count p ≤ 13 := by
    by_contra hgt
    have hk : s.hidden_count p + ((13 : Nat) : Int) < s.tableau_count p := by push_cast; omega
    have h1 := run_rank s p c5 13 hk
    have v1 := hv (s.hidden_count p + ((13 : Nat) : Int)) (by omega) hk
    have v2 := hv (s.hidden_count p) c1 (by omega)
    unfold rank_of at h1
    push_cast at h1 v1
    omega
  exact ⟨c1, c2, by omega, c3, hrun⟩

theorem remove_source_card_count_other (u : State) (q : Int) (hq : q ≠ u.source) :
    (remove_source_card u).tableau_count q = u.tableau_count q := by
  by_cases h7 : u.source = 7
  · rw [remove_source_card_talon u h7]
  · rw [remove_source_card_pile u h7]
    simp only [setAt_apply]
    rw [if_neg hq]

theorem move_single_count (s : State) (h : can_move_single_card_to_tableau s = true) :
    (move_to_tableau s).tableau_count s.selection = s.tableau_count s.selection + 1 := by
  obtain ⟨hne, -, -⟩ := can_move_single_spec s h
  rw [move_to_tableau_eq, if_pos h]
  refine (remove_source_card_count_other _ _ ?_).trans ?_
  · exact hne
  · simp only [setAt_apply, if_true]

theorem move_pile_count (s : State) (h1 : can_move_single_card_to_tableau s = false)
    (h2 : can_move_pile_to_tableau s = true) (hh : s.hidden_count s.source ≤ s.tableau_count s.source) :
    (move_to_tableau s).tableau_count s.selection
      = s.tableau_count s.selection + (s.tableau_count s.source - s.hidden_count s.source) := by
  obtain ⟨hne, -, -, -, -⟩ := can_move_pile_spec s h2
  rw [move_to_tableau_eq, if_neg (by simp [h1]), if_pos h2, move_run_eq s hne]
  simp only [setAt_apply]
  rw [if_neg hne]
  simp only [if_true]
  omega

/-- C16. Tableau bounds: in every state reachable from a deal by the four commands,
every pile `i` satisfies `0 ≤ hidden_count[i] ≤ tableau_count[i] ≤ 19`, with
`hidden_count[i] < tableau_count[i]` when the pile is not empty.  Where the select
command calls `move_to_tableau` (the game is not won, the mode is destination and the
selection is not the foundations) the pile written is `selection`, a pile 0..6: a
single card is written at index `tableau_count[selection]`, which is below 19, and a
run of `n` cards at the indices from `tableau_count[selection]` up to
`tableau_count[selection] + n - 1`, all below 19; the state after the move satisfies the
bounds again. -/
theorem tableau_bounds (s : State) (h : Reachable s) :
    (∀ i, 0 ≤ i → i ≤ 6 →
        0 ≤ s.hidden_count i ∧ s.hidden_count i ≤ s.tableau_count i ∧ s.tableau_count i ≤ 19
          ∧ (0 < s.tableau_count i → s.hidden_count i < s.tableau_count i))
      ∧ (s.win = false → s.mode ≠ 0 → s.selection ≠ 8 →
          (0 ≤ s.selection ∧ s.selection ≤ 6)
            ∧ (can_move_single_card_to_tableau s = true →
                s.tableau_count s.selection < 19
                  ∧ (move_to_tableau s).tableau_count s.selection
                      = s.tableau_count s.selection + 1)
            ∧ (can_move_single_card_to_tableau s = false →
                can_move_pile_to_tableau s = true →
                s.tableau_count s.selection
                    + (s.tableau_count s.source - s.hidden_count s.source) ≤ 19
                  ∧ (move_to_tableau s).tableau_count s.selection
                      = s.tableau_count s.selection
                        + (s.tableau_count s.source - s.hidden_count s.source))
            ∧ (∀ i, 0 ≤ i → i ≤ 6 →
                0 ≤ (move_to_tableau s).hidden_count i
                  ∧ (move_to_tableau s).hidden_count i ≤ (move_to_tableau s).tableau_count i
                  ∧ (move_to_tableau s).tableau_count i ≤ 19)) := by
  obtain ⟨hb, hcur⟩ := reachable_game_ok s h
  refine ⟨fun i h0 h6 => ?_, fun hw hm hsel => ?_⟩
  · obtain ⟨a, b, c, d, -⟩ := pile_count_le s hb i h0 h6
    exact ⟨a, b, c, d⟩
  · have hc := hcur hw
    unfold cursor_ok at hc
    have hr : 0 ≤ s.source ∧ s.source ≤ 7 ∧ 0 ≤ s.selection ∧ s.selection ≤ 6 := by
      rcases hc with ⟨c1, -, -⟩ | ⟨-, c2, c3, c4⟩
      · exact absurd c1 hm
      · rcases c4 with c4 | c4
        · exact ⟨c2, c3, c4.1, c4.2⟩
        · exact absurd c4 hsel
    obtain ⟨r1, r2, r3, r4⟩ := hr
    have hmb := move_to_tableau_board s hb r3 r4 r1
    have hpost := pile_count_le (move_to_tableau s) hmb s.selection r3 r4
    refine ⟨⟨r3, r4⟩, fun h1 => ?_, fun h1 h2 => ?_, fun i h0 h6 => ?_⟩
    · have e := move_single_count s h1
      rw [e] at hpost
      exact ⟨by omega, e⟩
    · obtain ⟨-, hs6, -, -, -⟩ := can_move_pile_spec s h2
      obtain ⟨-, q2, -, -, -⟩ := pile_count_le s hb s.source r1 hs6
      have e := move_pile_count s h1 h2 q2
      rw [e] at hpost
      exact ⟨by omega, e⟩
    · obtain ⟨a, b, c, -, -⟩ := pile_count_le (move_to_tableau s) hmb i h0 h6
      exact ⟨a, b, c⟩

theorem tableau_bounds_witness :
    Reachable dealState ∧ dealState.tableau_count 6 ≤ 19 :=
  ⟨dealState_reachable,
    ((tableau_bounds dealState dealState_reachable).1 6 (by decide) (by decide)).2.2.1⟩

/-! ## Illegal moves and load failure (C17, C18) -/

/-- C17. Illegal moves mutate nothing: when neither the single-card nor the full-pile
move is legal, `move_to_tableau` returns the state unchanged; when
`can_move_to_foundations` returns 4, `move_to_foundation` returns false and the state
unchanged.  In both cases every field (stock, talon fields, piles, hidden counts,
foundations, score, flips, win) is as before. -/
theorem illegal_moves_mutate_nothing (s : State) :
    (can_move_single_card_to_tableau s = false → can_move_pile_to_tableau s = false →
        move_to_tableau s = s)
      ∧ (can_move_to_foundations s = 4 →
          (move_to_foundation s).1 = false ∧ (move_to_foundation s).2 = s) := by
  refine ⟨fun h1 h2 => ?_, fun h4 => ?_⟩
  · rw [move_to_tableau_eq, if_neg (by simp [h1]), if_neg (by simp [h2])]
  · unfold move_to_foundation
    simp only [h4]
    exact ⟨rfl, rfl⟩

theorem illegal_moves_mutate_nothing_witness :
    can_move_single_card_to_tableau zeroState = false
      ∧ can_move_pile_to_tableau zeroState = false
      ∧ can_move_to_foundations zeroState = 4
      ∧ move_to_tableau zeroState = zeroState
      ∧ (move_to_foundation zeroState).1 = false :=
  ⟨by decide, by decide, by decide,
    (illegal_moves_mutate_nothing zeroState).1 (by decide) (by decide),
    ((illegal_moves_mutate_nothing zeroState).2 (by decide)).1⟩

theorem read_short (bytes : List Int) (junk : Int → Int) (h : bytes.length < 82) :
    (persist_read_data (some bytes) junk 82).1 ≠ 82 := by
  simp only [persist_read_data]
  have : min bytes.length 82 = bytes.length := by omega
  rw [this]
  omega

/-- C18. Load failure: whenever `persist_read_data` yields anything other than exactly
82 bytes (nothing stored, or fewer than 82 bytes, such as 81), `load_state` returns
false and the state it was given, with no field modified; `init` then sets the score to
0 and runs `shuffle_and_deal`, which returns (with enough fuel), so the game starts from
a fresh deal with score -52. -/
theorem load_failure (stored : Option (List Int)) (junk : Int → Int) (s : State)
    (fuel : Nat) (now : Int) (h : (persist_read_data stored junk 82).1 ≠ 82) :
    (load_state stored junk s).1 = false ∧ (load_state stored junk s).2 = s
      ∧ init fuel now stored junk s = shuffle_and_deal fuel now { s with score := 0 }
      ∧ (∀ t, init fuel now stored junk s = some t →
          t.score = -52 ∧ t.stock_count = 24 ∧ t.talon = 0 ∧ t.flips = 0 ∧ t.win = false
            ∧ t.mode = 0 ∧ t.selection = 7 ∧ game_ok t)
      ∧ (∃ t, init 2147483648 now stored junk s = some t)
      ∧ (persist_read_data none junk 82).1 ≠ 82
      ∧ (∀ bytes : List Int, bytes.length < 82 →
          (persist_read_data (some bytes) junk 82).1 ≠ 82) := by
  have hl : load_state stored junk s = (false, s) := by
    unfold load_state
    simp only [h, ne_eq, not_false_eq_true, if_true]
  have hi : ∀ f, init f now stored junk s = shuffle_and_deal f now { s with score := 0 } := by
    intro f
    unfold init
    simp only [hl]
    rfl
  refine ⟨by rw [hl], by rw [hl], hi fuel, fun t ht => ?_, ?_, ?_, fun bytes hb => read_short bytes junk hb⟩
  · rw [hi fuel] at ht
    obtain ⟨f1, -, f3, -, -, -, f7, f8, f9, f10, f11, -⟩ :=
      deal_fields fuel now _ t ht
    exact ⟨by rw [f9]; rfl, f1, f3, f8, f7, f10, f11, deal_game_ok fuel now _ t ht⟩
  · rw [hi]
    exact shuffle_and_deal_returns now _
  · simp [persist_read_data]

theorem load_failure_witness :
    (persist_read_data (some (List.replicate 81 0)) (fun _ => 0) 82).1 ≠ 82
      ∧ (load_state (some (List.replicate 81 0)) (fun _ => 0) zeroState).1 = false
      ∧ init 100 0 (some (List.replicate 81 0)) (fun _ => 0) zeroState = some dealState :=
  ⟨read_short _ _ (by decide),
    (load_failure (some (List.replicate 81 0)) (fun _ => 0) zeroState 100 0
      (read_short _ _ (by decide))).1,
    ((load_failure (some (List.replicate 81 0)) (fun _ => 0) zeroState 100 0
      (read_short _ _ (by decide))).2.2.1).trans deal_returns⟩

/-! ## Destination-mode advance (C19) -/

theorem first_valid_selection (s : State) (x : Int) (l : List Int) :
    first_valid_destination { s with selection := x } l = first_valid_destination s l := rfl

theorem first_valid_cons_pos (s : State) (d : Int) (l : List Int)
    (h : destination_pile_is_valid { s with selection := d } = true) :
    first_valid_destination s (d :: l) = some d := by
  simp [first_valid_destination, h]

theorem first_valid_cons_neg (s : State) (d : Int) (l : List Int)
    (h : ¬ destination_pile_is_valid { s with selection := d } = true) :
    first_valid_destination s (d :: l) = first_valid_destination s l := by
  simp [first_valid_destination, h]

/-- The loop with the sentinel `w` set: it tries the `n` destinations before `w` and
falls back when it reaches `w`. -/
theorem next_destination_search (n : Nat) (fuel : Nat) (w : Int) (s : State) (hw1 : w ≠ -1)
    (hfuel : n < fuel)
    (hne : ∀ d, d ∈ destination_walk n s.selection → d ≠ w)
    (hend : destination_walk (n + 1) s.selection = destination_walk n s.selection ++ [w]) :
    next_destination fuel w s
      = some (destination_result s w
          (first_valid_destination s (destination_walk n s.selection))) := by
  induction n generalizing fuel s with
  | zero =>
    obtain ⟨f, rfl⟩ : ∃ f, fuel = f + 1 := ⟨fuel - 1, by omega⟩
    simp only [destination_walk, List.nil_append, List.cons.injEq, and_true] at hend
    rw [next_destination_eq, if_pos hend.symm, hend]
    rfl
  | succ n ih =>
    obtain ⟨f, rfl⟩ : ∃ f, fuel = f + 1 := ⟨fuel - 1, by omega⟩
    have hx : next_destination_index s.selection ≠ w :=
      hne _ (by simp [destination_walk])
    have hend2 : destination_walk (n + 1) (next_destination_index s.selection)
        = destination_walk n (next_destination_index s.selection) ++ [w] := by
      have e1 : destination_walk (n + 1 + 1) s.selection
          = next_destination_index s.selection
            :: destination_walk (n + 1) (next_destination_index s.selection) := rfl
      have e2 : destination_walk (n + 1) s.selection
          = next_destination_index s.selection
            :: destination_walk n (next_destination_index s.selection) := rfl
      rw [e1, e2, List.cons_append, List.cons.injEq] at hend
      exact hend.2
    have hne2 : ∀ d, d ∈ destination_walk n (next_destination_index s.selection) → d ≠ w :=
      fun d hd => hne d (by simp [destination_walk, hd])
    rw [next_destination_eq, if_neg (fun h => hx h.symm), if_neg hw1]
    have e2 : destination_walk (n + 1) s.selection
        = next_destination_index s.selection
          :: destination_walk n (next_destination_index s.selection) := rfl
    by_cases hv : destination_pile_is_valid
        { s with selection := next_destination_index s.selection } = true
    · rw [if_pos hv, e2, first_valid_cons_pos s _ _ hv]
      rfl
    · rw [if_neg hv, e2, first_valid_cons_neg s _ _ hv,
        ih f { s with selection := next_destination_index s.selection } (by omega) hne2 hend2]
      rfl

theorem destination_walk_cycle (x : Int) (hsel : (0 ≤ x ∧ x ≤ 6) ∨ x = 8) :
    next_destination_index x ≠ -1
      ∧ (∀ d, d ∈ destination_walk 7 (next_destination_index x) → d ≠ next_destination_index x)
      ∧ destination_walk 8 (next_destination_index x)
          = destination_walk 7 (next_destination_index x) ++ [next_destination_index x]
      ∧ (destination_walk 8 x).getLast? = some x
      ∧ (destination_walk 8 x).Nodup
      ∧ (∀ d, d ∈ destination_walk 8 x ↔ ((0 ≤ d ∧ d ≤ 6) ∨ d = 8)) := by
  have hx : x = 0 ∨ x = 1 ∨ x = 2 ∨ x = 3 ∨ x = 4 ∨ x = 5 ∨ x = 6 ∨ x = 8 := by omega
  have hmem : ∀ d : Int, ((0 ≤ d ∧ d ≤ 6) ∨ d = 8)
      ↔ (d = 0 ∨ d = 1 ∨ d = 2 ∨ d = 3 ∨ d = 4 ∨ d = 5 ∨ d = 6 ∨ d = 8) := by
    intro d; constructor <;> intro h <;> omega
  rcases hx with h | h | h | h | h | h | h | h <;> subst h <;>
    refine ⟨by decide, by decide, by decide, by decide, by decide, fun d => ?_⟩ <;>
    rw [hmem d] <;> simp [destination_walk, next_destination_index] <;> tauto

theorem destination_result_selection (s : State) (x w : Int) (o : Option Int) :
    destination_result { s with selection := x } w o = destination_result s w o := by
  cases o <;> rfl

/-- The destination-mode loop, started with no sentinel, in closed form. -/
theorem next_destination_closed (fuel : Nat) (s : State) (hfuel : 9 ≤ fuel)
    (hsel : (0 ≤ s.selection ∧ s.selection ≤ 6) ∨ s.selection = 8) :
    next_destination fuel (-1) s
      = some (destination_result s (next_destination_index s.selection)
          (first_valid_destination s (destination_walk 8 s.selection))) := by
  obtain ⟨f, rfl⟩ : ∃ f, fuel = f + 1 := ⟨fuel - 1, by omega⟩
  obtain ⟨c1, c2, c3, -, -, -⟩ := destination_walk_cycle s.selection hsel
  have e2 : destination_walk 8 s.selection
      = next_destination_index s.selection
        :: destination_walk 7 (next_destination_index s.selection) := rfl
  rw [next_destination_eq, if_neg (fun h => c1 h.symm), if_pos rfl, e2]
  by_cases hv : destination_pile_is_valid
      { s with selection := next_destination_index s.selection } = true
  · rw [if_pos hv, first_valid_cons_pos s _ _ hv]
    rfl
  · rw [if_neg hv, first_valid_cons_neg s _ _ hv,
      next_destination_search 7 f (next_destination_index s.selection)
        { s with selection := next_destination_index s.selection } c1 (by omega) c2 c3,
      destination_result_selection, first_valid_selection]

/-- C19. Destination-mode advance with fallback: in a state with `win = false`, the
mode destination and the selection in {0..6, 8}, `select_next_valid_pile` returns within
9 loop iterations.  The eight destinations tried are those of {0..6, 8}, each once, in
cyclic order after the starting selection (7 skipped, 8 wrapping to 0), the starting
selection coming last.  If one of them is a valid destination the command ends in
destination mode on the first valid one; it falls back to source mode through
`select_talon` iff none of the eight is valid. -/
theorem destination_advance (s : State) (hw : s.win = false) (hm : s.mode = 1)
    (hsel : (0 ≤ s.selection ∧ s.selection ≤ 6) ∨ s.selection = 8) :
    (∀ fuel, 9 ≤ fuel →
        select_next_valid_pile fuel s
          = some (destination_result s (next_destination_index s.selection)
              (first_valid_destination s (destination_walk 8 s.selection))))
      ∧ (destination_walk 8 s.selection).length = 8
      ∧ (destination_walk 8 s.selection).Nodup
      ∧ (destination_walk 8 s.selection).getLast? = some s.selection
      ∧ (destination_walk 8 s.selection).head? = some (next_destination_index s.selection)
      ∧ (∀ d, d ∈ destination_walk 8 s.selection ↔ ((0 ≤ d ∧ d ≤ 6) ∨ d = 8))
      ∧ (∀ d, first_valid_destination s (destination_walk 8 s.selection) = some d →
          select_next_valid_pile 9 s = some { s with selection := d }
            ∧ destination_pile_is_valid { s with selection := d } = true
            ∧ ∃ before after, destination_walk 8 s.selection = before ++ d :: after
                ∧ ∀ a, a ∈ before → destination_pile_is_valid { s with selection := a } = false)
      ∧ (first_valid_destination s (destination_walk 8 s.selection) = none ↔
          ∀ d, ((0 ≤ d ∧ d ≤ 6) ∨ d = 8) →
            destination_pile_is_valid { s with selection := d } = false)
      ∧ (first_valid_destination s (destination_walk 8 s.selection) = none →
          select_next_valid_pile 9 s
              = some (select_talon
                  { s with selection := next_destination_index s.selection, mode := 0 })
            ∧ (select_talon
                  { s with selection := next_destination_index s.selection, mode := 0 }).mode
                = 0)
      ∧ (∀ t, select_next_valid_pile 9 s = some t →
          ((t.mode = 0 ↔ ∀ d, ((0 ≤ d ∧ d ≤ 6) ∨ d = 8) →
              destination_pile_is_valid { s with selection := d } = false)
            ∧ (t.mode = 0 ∨ t.mode = 1))) := by
  obtain ⟨-, -, -, c4, c5, c6⟩ := destination_walk_cycle s.selection hsel
  have hclosed : ∀ fuel, 9 ≤ fuel →
      select_next_valid_pile fuel s
        = some (destination_result s (next_destination_index s.selection)
            (first_valid_destination s (destination_walk 8 s.selection))) := by
    intro fuel hf
    unfold select_next_valid_pile
    rw [if_neg (by omega)]
    exact next_destination_closed fuel s hf hsel
  have hnone : first_valid_destination s (destination_walk 8 s.selection) = none ↔
      ∀ d, ((0 ≤ d ∧ d ≤ 6) ∨ d = 8) →
        destination_pile_is_valid { s with selection := d } = false := by
    unfold first_valid_destination
    rw [List.find?_eq_none]
    constructor
    · intro h d hd
      have := h d ((c6 d).2 hd)
      simpa using this
    · intro h d hd
      have := h d ((c6 d).1 hd)
      simp [this]
  have hfall : (select_talon
      { s with selection := next_destination_index s.selection, mode := 0 }).mode = 0 :=
    (select_talon_range { s with selection := next_destination_index s.selection, mode := 0 }
      hw).1
  refine ⟨hclosed, rfl, c5, c4, rfl, c6, fun d hd => ?_, hnone, fun hn => ?_, fun t ht => ?_⟩
  · have hsome := hd
    unfold first_valid_destination at hsome
    rw [List.find?_eq_some] at hsome
    obtain ⟨hv, l1, l2, hl, hb⟩ := hsome
    refine ⟨by rw [hclosed 9 (le_refl _), hd]; rfl, hv, l1, l2, hl, fun a ha => ?_⟩
    have := hb a ha
    simpa using this
  · refine ⟨by rw [hclosed 9 (le_refl _), hn]; rfl, hfall⟩
  · rw [hclosed 9 (le_refl _)] at ht
    simp only [Option.some.injEq] at ht
    rw [← ht]
    cases hfv : first_valid_destination s (destination_walk 8 s.selection) with
    | none =>
      have e : destination_result s (next_destination_index s.selection) none
          = select_talon { s with selection := next_destination_index s.selection, mode := 0 } :=
        rfl
      rw [e, hfall]
      exact ⟨⟨fun _ => hnone.1 hfv, fun _ => rfl⟩, Or.inl rfl⟩
    | some d =>
      have e : (destination_result s (next_destination_index s.selection) (some d)).mode = 1 :=
        hm
      rw [e]
      refine ⟨⟨fun h => absurd h (by decide), fun h => ?_⟩, Or.inr rfl⟩
      rw [hnone.2 h] at hfv
      exact absurd hfv (by simp)

theorem destination_advance_witness :
    aceState.win = false ∧ aceState.mode = 1 ∧ aceState.selection = 8
      ∧ first_valid_destination aceState (destination_walk 8 aceState.selection) = some 8
      ∧ select_next_valid_pile 9 aceState = some { aceState with selection := 8 } :=
  ⟨rfl, rfl, rfl, by decide,
    ((destination_advance aceState rfl rfl (Or.inr rfl)).2.2.2.2.2.2.1 8 (by decide)).1⟩

/-! ## Cursor lifecycle (C20) -/

theorem source_pile_is_valid_source_irrelevant (s : State) (x : Int) :
    (source_pile_is_valid { s with source := x }).1 = (source_pile_is_valid s).1 := by
  unfold source_pile_is_valid
  by_cases h7 : s.selection = 7
  · simp only [h7, if_true]
  · simp only [h7, if_false]

theorem source_pile_is_valid_idem (s : State) :
    (source_pile_is_valid (source_pile_is_valid s).2).1 = (source_pile_is_valid s).1 := by
  rw [source_pile_is_valid_state]
  split_ifs
  · rfl
  · exact source_pile_is_valid_source_irrelevant s _

theorem talon_scan_valid (n : Nat) (i : Int) (s : State) :
    (source_pile_is_valid (talon_scan n i s)).1 = true := by
  induction n generalizing i s with
  | zero =>
    simp only [talon_scan]
    unfold source_pile_is_valid
    simp
  | succ n ih =>
    simp only [talon_scan]
    split_ifs with hv
    · rw [source_pile_is_valid_idem]
      exact hv
    · exact ih _ _

theorem select_talon_valid (s : State) (hw : s.win = false) : source_valid (select_talon s) := by
  obtain ⟨a, b, c⟩ := select_talon_range s hw
  refine ⟨a, b, c, ?_⟩
  rw [select_talon_eq, if_neg (by simp [hw])]
  split_ifs
  · exact talon_scan_valid _ _ _
  · unfold source_pile_is_valid
    simp

theorem next_source_valid (fuel : Nat) (s t : State) (h : next_source fuel s = some t)
    (hw : s.win = false) (hm : s.mode = 0) (hsel : -1 ≤ s.selection) : source_valid t := by
  induction fuel generalizing s with
  | zero => simp [next_source] at h
  | succ n ih =>
    rw [next_source_eq] at h
    have hidx := next_source_index_range s.selection hsel
    have hb : same_board s
        (source_pile_is_valid { s with selection := next_source_index s.selection }).2 :=
      same_board_trans (same_board_selection s _) (source_pile_is_valid_board _)
    have hw2 := (same_board_fields hb).1.trans hw
    have hsel2 : (source_pile_is_valid
        { s with selection := next_source_index s.selection }).2.selection
        = next_source_index s.selection :=
      source_pile_is_valid_selection { s with selection := next_source_index s.selection }
    have hmode2 : (source_pile_is_valid
        { s with selection := next_source_index s.selection }).2.mode = s.mode :=
      source_pile_is_valid_mode { s with selection := next_source_index s.selection }
    split_ifs at h with hv h7
    · simp only [Option.some.injEq] at h
      rw [← h]
      exact select_talon_valid _ hw2
    · simp only [Option.some.injEq] at h
      rw [← h]
      refine ⟨hmode2.trans hm, by rw [hsel2]; exact hidx.1, by rw [hsel2]; exact hidx.2, ?_⟩
      rw [source_pile_is_valid_idem]
      exact hv
    · refine ih _ h hw2 (hmode2.trans hm) ?_
      rw [hsel2]
      omega

theorem next_destination_valid (fuel : Nat) (w : Int) (s t : State)
    (h : next_destination fuel w s = some t)
    (hw : s.win = false) (hm : s.mode = 1) (hs0 : 0 ≤ s.source) (hs7 : s.source ≤ 7)
    (hsel : -1 ≤ s.selection) : cursor_valid t := by
  induction fuel generalizing s w with
  | zero => simp [next_destination] at h
  | succ n ih =>
    rw [next_destination_eq] at h
    have hidx := next_destination_index_range s.selection hsel
    split_ifs at h with h1 hv
    · simp only [Option.some.injEq] at h
      rw [← h]
      exact Or.inl (select_talon_valid _ hw)
    · simp only [Option.some.injEq] at h
      rw [← h]
      right
      exact ⟨hm, hs0, hs7, hidx, hv⟩
    · refine ih _ _ h hw hm hs0 hs7 ?_
      show -1 ≤ next_destination_index s.selection
      omega
    · refine ih _ _ h hw hm hs0 hs7 ?_
      show -1 ≤ next_destination_index s.selection
      omega

theorem select_next_valid_pile_valid (fuel : Nat) (s t : State)
    (h : select_next_valid_pile fuel s = some t) (hw : s.win = false)
    (hc : (s.mode = 0 ∧ -1 ≤ s.selection)
      ∨ (s.mode = 1 ∧ 0 ≤ s.source ∧ s.source ≤ 7 ∧ -1 ≤ s.selection)) : cursor_valid t := by
  unfold select_next_valid_pile at h
  rcases hc with ⟨hm, hsel⟩ | ⟨hm, hs0, hs7, hsel⟩
  · rw [if_pos hm] at h
    exact Or.inl (next_source_valid fuel s t h hw hm hsel)
  · rw [if_neg (by omega)] at h
    exact next_destination_valid fuel _ s t h hw hm hs0 hs7 hsel

theorem select_valid_pile_valid (fuel : Nat) (s t : State)
    (h : select_valid_pile fuel s = some t) (hw : s.win = false)
    (hc : (s.mode = 0 ∧ 0 ≤ s.selection ∧ s.selection ≤ 8)
      ∨ (s.mode = 1 ∧ 0 ≤ s.source ∧ s.source ≤ 7
          ∧ ((0 ≤ s.selection ∧ s.selection ≤ 6) ∨ s.selection = 8))) : cursor_valid t := by
  rw [select_valid_pile_eq] at h
  rcases hc with ⟨hm, hs0, hs8⟩ | ⟨hm, hs0, hs7, hsel⟩
  · rw [if_pos hm] at h
    have hsel2 := source_pile_is_valid_selection s
    have hmode2 := source_pile_is_valid_mode s
    have hw2 := (same_board_fields (source_pile_is_valid_board s)).1.trans hw
    split_ifs at h with hv
    · simp only [Option.some.injEq] at h
      rw [← h]
      left
      refine ⟨hmode2.trans hm, by rw [hsel2]; exact hs0, ?_, ?_⟩
      · rw [hsel2]
        by_contra hgt
        have h8 : s.selection = 8 := by omega
        rw [source_pile_is_valid_eight s h8] at hv
        exact absurd hv (by decide)
      · rw [source_pile_is_valid_idem]
        exact hv
    · exact select_next_valid_pile_valid fuel _ t h hw2
        (Or.inl ⟨hmode2.trans hm, by rw [hsel2]; omega⟩)
  · rw [if_neg (by omega)] at h
    split_ifs at h with hv
    · simp only [Option.some.injEq] at h
      rw [← h]
      exact Or.inr ⟨hm, hs0, hs7, hsel, hv⟩
    · exact select_next_valid_pile_valid fuel s t h hw
        (Or.inr ⟨hm, hs0, hs7, by omega⟩)

theorem select_valid_pile_source (fuel : Nat) (s t : State)
    (h : select_valid_pile fuel s = some t) (hw : s.win = false)
    (hm : s.mode = 0) (hs0 : 0 ≤ s.selection) (hs8 : s.selection ≤ 8) : source_valid t := by
  rcases select_valid_pile_valid fuel s t h hw (Or.inl ⟨hm, hs0, hs8⟩) with hv | hv
  · exact hv
  · have hb := select_valid_pile_board fuel s t h
    rw [select_valid_pile_eq, if_pos hm] at h
    have hmode2 := source_pile_is_valid_mode s
    have hw2 := (same_board_fields (source_pile_is_valid_board s)).1.trans hw
    split_ifs at h with hv2
    · simp only [Option.some.injEq] at h
      rw [← h, hmode2] at hv
      omega
    · unfold select_next_valid_pile at h
      rw [if_pos (hmode2.trans hm)] at h
      exact next_source_valid fuel _ t h hw2 (hmode2.trans hm)
        (by rw [source_pile_is_valid_selection]; omega)

theorem up_valid (fuel : Nat) (s t : State) (hg : game_ok s)
    (h : up_click_handler fuel s = some t) (hwt : t.win = false) : cursor_valid t := by
  have hw : s.win = false := by
    by_contra hw
    unfold up_click_handler at h
    have hw1 : s.win = true := by simpa using hw
    simp only [hw1, if_true, Option.some.injEq] at h
    rw [← h, hw1] at hwt
    exact absurd hwt (by decide)
  rw [up_click_handler_playing fuel s hw] at h
  apply select_next_valid_pile_valid fuel s t h hw
  rcases hg.2 hw with ⟨a, b, _⟩ | ⟨a, b, c, d⟩
  · exact Or.inl ⟨a, by omega⟩
  · exact Or.inr ⟨a, b, c, by omega⟩

theorem down_valid (s : State) (hwt : (down_click_handler s).win = false) :
    source_valid (down_click_handler s) := by
  have hw : s.win = false := by
    by_contra hw
    have hw1 : s.win = true := by simpa using hw
    unfold down_click_handler at hwt
    simp only [hw1, if_true] at hwt
    exact absurd hwt (by decide)
  rw [down_click_handler_playing s hw]
  apply select_talon_valid
  split_ifs
  · obtain ⟨tl, fl, ts, e⟩ := deal_card_from_stock_frame s
    rw [e]
    exact hw
  · exact hw

theorem select_valid (fuel : Nat) (s t : State) (hg : game_ok s)
    (hv : s.win = false → cursor_valid s)
    (h : select_click_handler fuel s = some t) (hwt : t.win = false) :
    cursor_valid t ∧ (s.mode ≠ 0 → source_valid t) := by
  have hw : s.win = false := by
    by_contra hw
    have hw1 : s.win = true := by simpa using hw
    rw [select_click_handler_eq] at h
    simp only [hw1, if_true, Option.some.injEq] at h
    rw [← h, hw1] at hwt
    exact absurd hwt (by decide)
  have hcur := hg.2 hw
  rw [select_click_handler_playing fuel s hw] at h
  have hsv := source_pile_is_valid_board s
  have hsvw := (same_board_fields hsv).1.trans hw
  split_ifs at h with h1 h2 h3
  · refine ⟨?_, fun hne => absurd h1 hne⟩
    apply select_valid_pile_valid fuel _ t h hsvw
    right
    have hsel := source_pile_is_valid_selection s
    rcases hcur with ⟨_, b, c⟩ | ⟨a, _⟩
    · refine ⟨rfl, ?_, ?_, Or.inr rfl⟩
      · show 0 ≤ (source_pile_is_valid s).2.selection
        rw [hsel]; exact b
      · show (source_pile_is_valid s).2.selection ≤ 7
        rw [hsel]; exact c
    · omega
  · rcases hv hw with ⟨-, -, -, d⟩ | ⟨a, _⟩
    · exact absurd d h2
    · omega
  · simp only [Option.some.injEq] at h
    have hsb : same_board (move_to_foundation s).2 t := by
      rw [← h]
      exact same_board_trans (same_board_mode (move_to_foundation s).2 0)
        (select_talon_board { (move_to_foundation s).2 with mode := 0 })
    have hwm : (move_to_foundation s).2.win = false := by
      rw [← (same_board_fields hsb).1]
      exact hwt
    rw [← h]
    have := select_talon_valid { (move_to_foundation s).2 with mode := 0 } hwm
    exact ⟨Or.inl this, fun _ => this⟩
  · obtain ⟨c1, c2, c3, c4⟩ := move_to_tableau_cursor s
    have hdest : 0 ≤ s.selection ∧ s.selection ≤ 6 := by
      rcases hcur with ⟨a, _⟩ | ⟨_, b, _, d⟩
      · exact absurd a h1
      · rcases d with d | d
        · exact d
        · exact absurd d h3
    have := select_valid_pile_source fuel _ t h (c4.trans hw) rfl
      (by show 0 ≤ (move_to_tableau s).selection; rw [c2]; exact hdest.1)
      (by show (move_to_tableau s).selection ≤ 8; rw [c2]; omega)
    exact ⟨Or.inl this, fun _ => this⟩

theorem long_down_valid (fuel : Nat) (s t : State) (hg : game_ok s)
    (h : long_down_click_handler fuel s = some t) (hwt : t.win = false)
    (hw : s.win = false) : source_valid t := by
  obtain ⟨s1, ha, hv⟩ := long_down_click_handler_some fuel s t hw h
  obtain ⟨_, c2⟩ := auto_move_cursor fuel s s1 ha
  have hsb := select_valid_pile_board _ _ _ hv
  have hw1 : s1.win = false := by
    have := (same_board_fields (same_board_trans (same_board_mode s1 0) hsb)).1
    rw [← this]
    exact hwt
  apply select_valid_pile_source fuel _ t hv hw1 rfl
  · show 0 ≤ s1.selection
    rw [c2]
    rcases hg.2 hw with ⟨_, b, _⟩ | ⟨_, _, _, d⟩ <;> omega
  · show s1.selection ≤ 8
    rw [c2]
    rcases hg.2 hw with ⟨_, _, c⟩ | ⟨_, _, _, d⟩ <;> omega

theorem deal_source_valid (fuel : Nat) (now : Int) (s0 s : State)
    (h : shuffle_and_deal fuel now s0 = some s) : source_valid s := by
  obtain ⟨-, -, -, -, -, -, -, -, -, f10, f11, -⟩ := deal_fields fuel now s0 s h
  refine ⟨f10, by rw [f11]; decide, by rw [f11], ?_⟩
  unfold source_pile_is_valid
  simp only [f11, if_true]

theorem reachable_cursor_valid (s : State) (h : Reachable s) :
    s.win = false → cursor_valid s := by
  induction h with
  | deal fuel now s0 s hd => exact fun _ => Or.inl (deal_source_valid fuel now s0 s hd)
  | up fuel s t hr hc _ => exact fun hw => up_valid fuel s t (reachable_game_ok s hr) hc hw
  | select fuel s t hr hc ih =>
    exact fun hw => (select_valid fuel s t (reachable_game_ok s hr) ih hc hw).1
  | down s _ _ => exact fun hw => Or.inl (down_valid s hw)
  | long_down fuel s t hr hc ih =>
    intro hw
    by_cases hws : s.win = true
    · unfold long_down_click_handler at hc
      simp only [hws, if_true, Option.some.injEq] at hc
      rw [← hc, hws] at hw
      exact absurd hw (by decide)
    · exact Or.inl (long_down_valid fuel s t (reachable_game_ok s hr) hc hw (by simpa using hws))

/-! ### The selection loops return -/

theorem next_source_returns (k : Nat) (fuel : Nat) (s : State)
    (hidx : next_source_index s.selection = 7 - k) (hf : k + 1 ≤ fuel) :
    ∃ t, next_source fuel s = some t := by
  induction k generalizing fuel s with
  | zero =>
    obtain ⟨f, rfl⟩ : ∃ f, fuel = f + 1 := ⟨fuel - 1, by omega⟩
    rw [next_source_eq]
    have h7 : next_source_index s.selection = 7 := by simpa using hidx
    have hv : (source_pile_is_valid { s with selection := next_source_index s.selection }).1
        = true := by
      unfold source_pile_is_valid
      simp only [h7, if_true]
    rw [if_pos hv]
    split_ifs
    · exact ⟨_, rfl⟩
    · exact ⟨_, rfl⟩
  | succ k ih =>
    obtain ⟨f, rfl⟩ : ∃ f, fuel = f + 1 := ⟨fuel - 1, by omega⟩
    rw [next_source_eq]
    split_ifs
    · exact ⟨_, rfl⟩
    · exact ⟨_, rfl⟩
    · apply ih f _ _ (by omega)
      rw [source_pile_is_valid_selection]
      show next_source_index (next_source_index s.selection) = 7 - (k : Int)
      rw [hidx]
      unfold next_source_index
      push_cast
      split_ifs <;> omega

theorem select_next_valid_pile_returns (fuel : Nat) (s : State) (hf : 9 ≤ fuel)
    (hc : (s.mode = 0 ∧ -1 ≤ s.selection)
      ∨ (s.mode ≠ 0 ∧ ((0 ≤ s.selection ∧ s.selection ≤ 6) ∨ s.selection = 8))) :
    ∃ t, select_next_valid_pile fuel s = some t := by
  unfold select_next_valid_pile
  rcases hc with ⟨hm, hsel⟩ | ⟨hm, hsel⟩
  · rw [if_pos hm]
    obtain ⟨a, b⟩ := next_source_index_range s.selection hsel
    exact next_source_returns (7 - next_source_index s.selection).toNat fuel s (by omega)
      (by omega)
  · rw [if_neg hm, next_destination_closed fuel s hf hsel]
    exact ⟨_, rfl⟩

theorem select_valid_pile_returns (fuel : Nat) (s : State) (hf : 9 ≤ fuel)
    (hc : (s.mode = 0 ∧ -1 ≤ s.selection)
      ∨ (s.mode ≠ 0 ∧ ((0 ≤ s.selection ∧ s.selection ≤ 6) ∨ s.selection = 8))) :
    ∃ t, select_valid_pile fuel s = some t := by
  rw [select_valid_pile_eq]
  rcases hc with ⟨hm, hsel⟩ | ⟨hm, hsel⟩
  · rw [if_pos hm]
    split_ifs
    · exact ⟨_, rfl⟩
    · exact select_next_valid_pile_returns fuel _ hf
        (Or.inl ⟨(source_pile_is_valid_mode s).trans hm,
          by rw [source_pile_is_valid_selection]; exact hsel⟩)
  · rw [if_neg hm]
    split_ifs
    · exact ⟨_, rfl⟩
    · exact select_next_valid_pile_returns fuel s hf (Or.inr ⟨hm, hsel⟩)

theorem up_returns (fuel : Nat) (s : State) (hf : 9 ≤ fuel) (hg : game_ok s) :
    ∃ t, up_click_handler fuel s = some t := by
  by_cases hw : s.win = true
  · unfold up_click_handler
    rw [if_pos hw]
    exact ⟨_, rfl⟩
  · have hw' : s.win = false := by simpa using hw
    rw [up_click_handler_playing fuel s hw']
    apply select_next_valid_pile_returns fuel s hf
    rcases hg.2 hw' with ⟨a, b, _⟩ | ⟨a, _, _, d⟩
    · exact Or.inl ⟨a, by omega⟩
    · exact Or.inr ⟨by omega, d⟩

theorem select_returns (fuel : Nat) (s : State) (hf : 9 ≤ fuel) (hg : game_ok s) :
    ∃ t, select_click_handler fuel s = some t := by
  by_cases hw : s.win = true
  · rw [select_click_handler_eq, if_pos hw]
    exact ⟨_, rfl⟩
  · have hw' : s.win = false := by simpa using hw
    have hcur := hg.2 hw'
    rw [select_click_handler_playing fuel s hw']
    split_ifs with h1 h2 h3
    · exact select_valid_pile_returns fuel _ hf
        (Or.inr ⟨by show (1 : Int) ≠ 0; decide, Or.inr rfl⟩)
    · exact ⟨_, rfl⟩
    · exact ⟨_, rfl⟩
    · obtain ⟨c1, c2, c3, c4⟩ := move_to_tableau_cursor s
      apply select_valid_pile_returns fuel _ hf
      left
      refine ⟨rfl, ?_⟩
      show -1 ≤ (move_to_tableau s).selection
      rw [c2]
      rcases hcur with ⟨_, b, _⟩ | ⟨_, _, _, d⟩ <;> omega

theorem cursor_valid_source (t : State) (h : cursor_valid t) (hm : t.mode = 0) :
    source_valid t := by
  rcases h with h | ⟨a, _⟩
  · exact h
  · omega

/-- C20. Cursor lifecycle: in a state reachable from a deal by the four commands, if
`win` is false the cursor is valid for its mode (source mode: selection in 0..7 and
`source_pile_is_valid`; destination mode: selection in {0..6, 8}, source in 0..7 and
`destination_pile_is_valid`).  After a deal, after a select command issued in
destination mode, after a down command and after the destination-mode fallback (a
command that leaves destination mode for source mode), if `win` is false the cursor is
a valid source-mode cursor; after any of the four commands that leaves `win` false the
cursor is valid for its mode.  The up and select commands return (fuel 9 is enough). -/
theorem cursor_lifecycle (s : State) (h : Reachable s) :
    (s.win = false → cursor_valid s)
      ∧ (∀ fuel now s0 t, shuffle_and_deal fuel now s0 = some t →
          t.win = false ∧ source_valid t)
      ∧ (∀ fuel t, s.mode ≠ 0 → select_click_handler fuel s = some t → t.win = false →
          source_valid t)
      ∧ ((down_click_handler s).win = false → source_valid (down_click_handler s))
      ∧ (∀ fuel t, up_click_handler fuel s = some t → t.win = false →
          cursor_valid t ∧ (t.mode = 0 → source_valid t))
      ∧ (∀ fuel t, select_click_handler fuel s = some t → t.win = false →
          cursor_valid t ∧ (t.mode = 0 → source_valid t))
      ∧ (∀ fuel t, long_down_click_handler fuel s = some t → t.win = false →
          cursor_valid t)
      ∧ (∀ fuel, 9 ≤ fuel →
          (∃ t, up_click_handler fuel s = some t)
            ∧ ∃ t, select_click_handler fuel s = some t) := by
  have hg := reachable_game_ok s h
  have hv := reachable_cursor_valid s h
  refine ⟨hv, fun fuel now s0 t hd => ?_, fun fuel t hm hc hw => ?_, down_valid s,
    fun fuel t hc hw => ?_, fun fuel t hc hw => ?_, fun fuel t hc hw => ?_,
    fun fuel hf => ⟨up_returns fuel s hf hg, select_returns fuel s hf hg⟩⟩
  · obtain ⟨-, -, -, -, -, -, f7, -⟩ := deal_fields fuel now s0 t hd
    exact ⟨f7, deal_source_valid fuel now s0 t hd⟩
  · exact (select_valid fuel s t hg hv hc hw).2 hm
  · have := up_valid fuel s t hg hc hw
    exact ⟨this, cursor_valid_source t this⟩
  · have := (select_valid fuel s t hg hv hc hw).1
    exact ⟨this, cursor_valid_source t this⟩
  · exact reachable_cursor_valid t (Reachable.long_down fuel s t h hc) hw

theorem cursor_lifecycle_witness :
    Reachable dealState ∧ dealState.win = false ∧ cursor_valid dealState
      ∧ source_valid (down_click_handler dealState) := by
  obtain ⟨-, -, -, -, h5, -⟩ := dealState_fields
  have hd : (down_click_handler dealState).win = false := by
    rw [down_click_handler_playing dealState h5]
    rw [(select_talon_fields _).2.2.2.2.2.2.2.2.2.2.1]
    split_ifs
    · obtain ⟨tl, fl, ts, e⟩ := deal_card_from_stock_frame dealState
      rw [e]
      exact h5
    · exact h5
  exact ⟨dealState_reachable, h5, (cursor_lifecycle dealState dealState_reachable).1 h5,
    (cursor_lifecycle dealState dealState_reachable).2.2.2.1 hd⟩

/-! ## The bounded random draw (C23, C24) -/

theorem lcg_next_range (x : Int) : 0 ≤ lcg_next x ∧ lcg_next x < 2147483648 := by
  unfold lcg_next
  omega

/-- The run of the rejection loop: the seed returned is an iterate of the generator, the
value returned is its top bits, and every earlier iterate was rejected. -/
theorem rnd_trace (fuel : Nat) (max : Int) (s : State) (v : Int) (t : State)
    (h : rnd fuel max s = some (v, t)) :
    ∃ k : Nat, k < fuel ∧ t = { s with seed := lcg_next^[k + 1] s.seed }
      ∧ v = lcg_next^[k + 1] s.seed / 67108864 ∧ v ≤ max
      ∧ ∀ j : Nat, j < k → max < lcg_next^[j + 1] s.seed / 67108864 := by
  induction fuel generalizing s with
  | zero => simp [rnd] at h
  | succ n ih =>
    simp only [rnd] at h
    split_ifs at h with hgt
    · obtain ⟨k, hk, ht, hv, hle, hrej⟩ := ih _ h
      refine ⟨k + 1, by omega, ?_, ?_, hle, ?_⟩
      · rw [ht]
        rfl
      · rw [hv]
        rfl
      · intro j hj
        cases j with
        | zero => exact hgt
        | succ j => exact hrej j (by omega)
    · simp only [Option.some.injEq, Prod.mk.injEq] at h
      obtain ⟨hv, ht⟩ := h
      refine ⟨0, by omega, ht.symm, hv.symm, ?_, fun j hj => absurd hj (by omega)⟩
      rw [← hv]
      exact not_lt.mp hgt

theorem rnd_mono (fuel : Nat) (max : Int) (s : State) (r : Int × State)
    (h : rnd fuel max s = some r) (extra : Nat) : rnd (fuel + extra) max s = some r := by
  induction fuel generalizing s with
  | zero => simp [rnd] at h
  | succ n ih =>
    have e : n + 1 + extra = (n + extra) + 1 := by omega
    rw [e]
    simp only [rnd] at h ⊢
    split_ifs at h ⊢ with hgt
    · exact ih _ h
    · exact h

/-- C23. Bounded random draw: when `rnd max` returns, it has run some number `k + 1` of
loop iterations, each of which replaced `seed` by `(seed * 214013 + 2531011) mod 2^31`;
every value but the last was above `max`; the value returned is `seed >> 26` of the
final seed, a 31-bit number, so it is its top 5 bits, and it satisfies `0 ≤ v ≤ max`;
no other global is written.  For every seed and every `max ≥ 0` the call returns. -/
theorem bounded_random_draw (fuel : Nat) (max : Int) (s : State) (v : Int) (t : State)
    (h : rnd fuel max s = some (v, t)) :
    (∀ x, lcg_next x = (x * 214013 + 2531011) % 2 ^ 31)
      ∧ (∃ k : Nat, k < fuel ∧ t.seed = lcg_next^[k + 1] s.seed
          ∧ ∀ j : Nat, j < k → max < lcg_next^[j + 1] s.seed / 2 ^ 26)
      ∧ t = { s with seed := t.seed }
      ∧ 0 ≤ t.seed ∧ t.seed < 2 ^ 31
      ∧ v = t.seed / 2 ^ 26
      ∧ 0 ≤ v ∧ v ≤ max ∧ v < 2 ^ 5
      ∧ (∀ (max1 : Int) (s1 : State), 0 ≤ max1 →
          ∃ v1 t1, rnd 2147483648 max1 s1 = some (v1, t1)) := by
  obtain ⟨k, hk, ht, hv, hle, hrej⟩ := rnd_trace fuel max s v t h
  have hseed : t.seed = lcg_next^[k + 1] s.seed := by rw [ht]
  have hr : 0 ≤ t.seed ∧ t.seed < 2147483648 := by
    rw [hseed, Function.iterate_succ_apply']
    exact lcg_next_range _
  have hv2 : v = t.seed / 67108864 := by rw [hseed]; exact hv
  refine ⟨fun x => ?_, ⟨k, hk, hseed, fun j hj => ?_⟩, ?_, hr.1, ?_, ?_, ?_, hle, ?_,
    fun max1 s1 h1 => rnd_returns max1 h1 s1⟩
  · unfold lcg_next
    norm_num
  · have := hrej j hj
    norm_num
    exact this
  · rw [ht]
  · norm_num
    exact hr.2
  · norm_num
    exact hv2
  · omega
  · norm_num
    omega

theorem bounded_random_draw_witness :
    rnd 100 51 zeroState
        = some (lcg_next zeroState.seed / 67108864,
            { zeroState with seed := lcg_next zeroState.seed })
      ∧ lcg_next zeroState.seed / 67108864 ≤ 51 :=
  ⟨rfl,
    (bounded_random_draw 100 51 zeroState (lcg_next zeroState.seed / 67108864)
      { zeroState with seed := lcg_next zeroState.seed } rfl).2.2.2.2.2.2.2.1⟩

/-- C24. Rejection sampling terminates: for every initial seed and every `max ≥ 0` (in
particular every `max` in 0..63, and every `max` in 1..51 used by the shuffle) the loop
of `rnd max` produces a value in range within `2^31` iterations, with the same result
for any larger number of iterations allowed; so `rnd`, the shuffle loop and
`shuffle_and_deal` return for every seed and every prior state. -/
theorem rejection_sampling_terminates (max : Int) (s : State) (hmax : 0 ≤ max) :
    (∃ v t, rnd 2147483648 max s = some (v, t) ∧ 0 ≤ v ∧ v ≤ max
        ∧ ∀ extra, rnd (2147483648 + extra) max s = some (v, t))
      ∧ (∃ k : Nat, k < 2147483648 ∧ lcg_next^[k + 1] s.seed / 2 ^ 26 ≤ max)
      ∧ (∀ (n : Nat) (u : State), ∃ t, shuffle_loop 2147483648 n u = some t)
      ∧ (∀ (now : Int) (s0 : State), ∃ t, shuffle_and_deal 2147483648 now s0 = some t) := by
  obtain ⟨v, t, h⟩ := rnd_returns max hmax s
  obtain ⟨a, b, -⟩ := rnd_spec _ max s v t h
  obtain ⟨k, hk, -, hv, hle, -⟩ := rnd_trace _ max s v t h
  refine ⟨⟨v, t, h, a, b, fun extra => rnd_mono _ max s _ h extra⟩, ⟨k, hk, ?_⟩,
    shuffle_loop_returns, shuffle_and_deal_returns⟩
  have h2 := hle
  rw [hv] at h2
  norm_num
  exact h2

theorem rejection_sampling_terminates_witness :
    (0 : Int) ≤ 51 ∧ ∃ t, shuffle_and_deal 2147483648 0 zeroState = some t :=
  ⟨by decide, (rejection_sampling_terminates 51 zeroState (by decide)).2.2.2 0 zeroState⟩

/-! ## Shuffle range limitation (C28) -/

theorem rnd_le_31 (fuel : Nat) (max : Int) (s : State) (v : Int) (t : State)
    (h : rnd fuel max s = some (v, t)) : 0 ≤ v ∧ v ≤ 31 ∧ v ≤ max := by
  obtain ⟨k, -, -, hv, hle, -⟩ := rnd_trace fuel max s v t h
  rw [Function.iterate_succ_apply'] at hv
  have := lcg_next_range (lcg_next^[k] s.seed)
  omega

/-- The shuffle loop from position `n` downwards leaves the positions above `n` alone. -/
theorem shuffle_loop_above (fuel : Nat) (n : Nat) (s t : State)
    (h : shuffle_loop fuel n s = some t) (p : Int) (hp : (n : Int) < p) :
    t.deck p = s.deck p := by
  induction n generalizing s with
  | zero =>
    simp only [shuffle_loop, Option.some.injEq] at h
    rw [← h]
  | succ n ih =>
    cases hr : rnd fuel ((n : Int) + 1) s with
    | none => simp [shuffle_loop, hr] at h
    | some r =>
      obtain ⟨j, s1⟩ := r
      simp only [shuffle_loop, hr] at h
      obtain ⟨hj0, hj1, sd, hs1⟩ := rnd_spec fuel _ s j s1 hr
      rw [ih _ h (by push_cast at hp; omega)]
      simp only [setAt_apply]
      push_cast at hp
      rw [if_neg (by omega), if_neg (by omega), hs1]

theorem shuffle_and_deal_loop (fuel : Nat) (now : Int) (s0 s : State)
    (h : shuffle_and_deal fuel now s0 = some s) :
    ∃ t, shuffle_loop fuel 51
        (forRange (fun i (u : State) => { u with deck := setAt u.deck i i }) 52 0
          { s0 with seed := now }) = some t
      ∧ s.deck = t.deck := by
  unfold shuffle_and_deal at h
  simp only at h
  split at h
  · simp at h
  · rename_i t ht
    have key : ∀ u : State, (select_talon u).deck = u.deck := fun u => by
      obtain ⟨m, sel, src, hsb⟩ := select_talon_board u
      rw [hsb]
    have key2 : ∀ u : State, (deal_piles 7 0 24 u).deck = u.deck := fun u => by
      obtain ⟨⟨tb, hcn, tc, hfr⟩, -, -⟩ := deal_piles_spec 7 0 24 u (le_refl _)
      rw [hfr]
    refine ⟨t, ht, ?_⟩
    simp only [Option.some.injEq] at h
    rw [← h, key]
    simp only [key2, foundation_reset_spec, stock_copy_spec]

theorem shuffle_loop_step (fuel : Nat) (n : Nat) (s t : State)
    (h : shuffle_loop fuel (n + 1) s = some t) :
    ∃ j s1, rnd fuel ((n : Int) + 1) s = some (j, s1)
      ∧ shuffle_loop fuel n
          { s1 with
            deck := (setAt (setAt s1.deck j (s1.deck ((n : Int) + 1))) ((n : Int) + 1)
              (s1.deck j)) } = some t := by
  cases hr : rnd fuel ((n : Int) + 1) s with
  | none => simp [shuffle_loop, hr] at h
  | some r =>
    obtain ⟨j, s1⟩ := r
    simp only [shuffle_loop, hr] at h
    exact ⟨j, s1, rfl, h⟩

/-- The last position of the deck after the shuffle holds the first partner drawn. -/
theorem shuffled_last (fuel : Nat) (s t : State)
    (hid : ∀ k, 0 ≤ k → k ≤ 51 → s.deck k = k)
    (h : shuffle_loop fuel 51 s = some t) : 0 ≤ t.deck 51 ∧ t.deck 51 ≤ 31 := by
  obtain ⟨j, s1, hr, hrest⟩ := shuffle_loop_step fuel 50 s t h
  obtain ⟨hj0, hj31, -⟩ := rnd_le_31 fuel _ s j s1 hr
  obtain ⟨-, -, sd, hs1⟩ := rnd_spec fuel _ s j s1 hr
  rw [shuffle_loop_above fuel 50 _ t hrest 51 (by norm_num)]
  simp only [setAt_apply]
  norm_num
  rw [hs1]
  show 0 ≤ s.deck j ∧ s.deck j ≤ 31
  rw [hid j hj0 (by omega)]
  exact ⟨hj0, hj31⟩

/-- C28. Shuffle range limitation: `rnd max` returns a value of at most 31, whatever the
seed and `max` (it is the top 5 bits of a 31-bit seed), so the swap partner of every
position of the Fisher-Yates loop, and in particular of the positions 32..51, is in
0..31; after every `shuffle_and_deal` the card `deck[51]`, which the deal puts at
`tableau[6][6]` as the face-up top card of the seventh pile, has a value of at most 31,
that is a rank of at most 7 (the Eight), for every seed. -/
theorem shuffle_range_limitation (fuel : Nat) (now : Int) (s0 s : State)
    (h : shuffle_and_deal fuel now s0 = some s) :
    (∀ f m st v t, rnd f m st = some (v, t) → 0 ≤ v ∧ v ≤ 31 ∧ v ≤ m)
      ∧ 0 ≤ s.deck 51 ∧ s.deck 51 ≤ 31
      ∧ s.tableau 6 6 = s.deck 51
      ∧ s.tableau_count 6 = 7 ∧ s.hidden_count 6 = 6
      ∧ 0 ≤ s.tableau 6 6 ∧ s.tableau 6 6 ≤ 31
      ∧ rank_of (s.tableau 6 6) ≤ 7
      ∧ get_source_card { s with source := 6 } ≤ 31 := by
  obtain ⟨t, ht, hd⟩ := shuffle_and_deal_loop fuel now s0 s h
  rw [deck_init_spec] at ht
  have hlast := shuffled_last fuel _ t (fun k h0 h1 => by
    have : 0 ≤ k ∧ k < 0 + ((52 : Nat) : Int) := ⟨h0, by push_cast; omega⟩
    simp only [this, and_self, if_true]) ht
  rw [← hd] at hlast
  obtain ⟨-, -, -, -, -, f6, -⟩ := deal_fields fuel now s0 s h
  obtain ⟨g1, g2, g3⟩ := f6 6 (by decide) (by decide)
  have e : s.tableau 6 6 = s.deck 51 := by
    rw [g3 6 (by decide) (by decide)]
    norm_num
  refine ⟨fun f m st v t hr => rnd_le_31 f m st v t hr, hlast.1, hlast.2, e, by rw [g1]; rfl,
    g2, by rw [e]; exact hlast.1, by rw [e]; exact hlast.2, ?_, ?_⟩
  · unfold rank_of
    rw [e]
    omega
  · unfold get_source_card
    simp only [g1]
    norm_num
    rw [e]
    exact hlast.2

theorem shuffle_range_limitation_witness :
    shuffle_and_deal 100 0 zeroState = some dealState ∧ dealState.tableau 6 6 ≤ 31 :=
  ⟨deal_returns,
    (shuffle_range_limitation 100 0 zeroState dealState deal_returns).2.2.2.2.2.2.2.1⟩

/-! ## The automatic sweep to the foundations (C22) -/

theorem move_from_pile (s : State) (h7 : s.source ≠ 7) (h : can_move_to_foundations s ≤ 3) :
    (move_to_foundation s).2.tableau_count
        = setAt s.tableau_count s.source (s.tableau_count s.source - 1)
      ∧ (move_to_foundation s).2.score = s.score + 5 := by
  obtain ⟨w, hw⟩ := move_to_foundation_success s h
  rw [hw]
  have e := remove_source_card_pile
    { s with foundation := setAt s.foundation (can_move_to_foundations s) (get_source_card s) }
    h7
  simp only
  rw [e]
  exact ⟨rfl, rfl⟩

theorem counts_sum_dec (s t : State) (p : Int) (hp0 : 0 ≤ p) (hp6 : p ≤ 6)
    (h : t.tableau_count = setAt s.tableau_count p (s.tableau_count p - 1)) :
    counts_sum t 7 0 = counts_sum s 7 0 - 1 := by
  rw [counts_sum_seven, counts_sum_seven, h]
  simp only [setAt_apply]
  have : p = 0 ∨ p = 1 ∨ p = 2 ∨ p = 3 ∨ p = 4 ∨ p = 5 ∨ p = 6 := by omega
  rcases this with e | e | e | e | e | e | e <;> subst e <;> norm_num <;> omega

theorem can_move_to_foundations_range (s : State) :
    0 ≤ can_move_to_foundations s ∧ can_move_to_foundations s ≤ 4 := by
  refine ⟨can_move_to_foundations_nonneg s, ?_⟩
  unfold can_move_to_foundations
  by_cases hc : get_source_card s < 0
  · simp [hc]
  · simp only [hc, if_false]
    have := (foundation_scan_spec s (get_source_card s / 4) (Int.tmod (get_source_card s) 4)
      4 0)
    omega

theorem counts_sum_source (s : State) (x : Int) (n : Nat) (i : Int) :
    counts_sum { s with source := x } n i = counts_sum s n i := by
  induction n generalizing i with
  | zero => rfl
  | succ n ih =>
    simp only [counts_sum]
    rw [ih]

/-- What one sweep pass does to the number of tableau cards and to the score. -/
theorem sweep_measure (n : Nat) (i : Int) (r : Bool × State) (hi : 0 ≤ i) (hn : i + n ≤ 7)
    (hc : ∀ p, 0 ≤ p → p ≤ 6 → 0 ≤ r.2.tableau_count p) :
    (∀ p, 0 ≤ p → p ≤ 6 → 0 ≤ (sweep_pass n i r).2.tableau_count p)
      ∧ counts_sum (sweep_pass n i r).2 7 0 ≤ counts_sum r.2 7 0
      ∧ (sweep_pass n i r).2.score
          = r.2.score + 5 * (counts_sum r.2 7 0 - counts_sum (sweep_pass n i r).2 7 0)
      ∧ ((sweep_pass n i r).1 = true →
          r.1 = true ∨ counts_sum (sweep_pass n i r).2 7 0 < counts_sum r.2 7 0) := by
  induction n generalizing i r with
  | zero =>
    simp only [sweep_pass]
    exact ⟨hc, le_refl _, by omega, fun h => Or.inl h⟩
  | succ n ih =>
    rw [sweep_pass_eq]
    push_cast at hn
    by_cases h1 : r.2.tableau_count i > 0
    · rw [if_pos h1]
      by_cases hm : can_move_to_foundations { r.2 with source := i } ≤ 3
      · have hflag : (move_to_foundation { r.2 with source := i }).1 = true := by
          rw [move_to_foundation_flag]
          simpa using hm
        rw [if_pos hflag]
        obtain ⟨e1, e2⟩ := move_from_pile { r.2 with source := i }
          (by show i ≠ 7; omega) hm
        have hdec : counts_sum (move_to_foundation { r.2 with source := i }).2 7 0
            = counts_sum r.2 7 0 - 1 := by
          have := counts_sum_dec { r.2 with source := i }
            (move_to_foundation { r.2 with source := i }).2 i hi (by omega) e1
          rw [counts_sum_source] at this
          exact this
        have hc2 : ∀ p, 0 ≤ p → p ≤ 6 →
            0 ≤ (move_to_foundation { r.2 with source := i }).2.tableau_count p := by
          intro p hp0 hp6
          rw [e1]
          simp only [setAt_apply]
          split_ifs with hp
          · show 0 ≤ r.2.tableau_count i - 1
            omega
          · exact hc p hp0 hp6
        have e3 : (move_to_foundation { r.2 with source := i }).2.score = r.2.score + 5 := e2
        generalize (move_to_foundation { r.2 with source := i }).2 = m at hdec hc2 e3 ⊢
        obtain ⟨a1, a2, a3, a4⟩ := ih (i + 1) (true, m) (by omega) (by omega) hc2
        have b2 : counts_sum (sweep_pass n (i + 1) (true, m)).2 7 0 ≤ counts_sum m 7 0 := a2
        have b3 : (sweep_pass n (i + 1) (true, m)).2.score
            = m.score + 5 * (counts_sum m 7 0 - counts_sum (sweep_pass n (i + 1) (true, m)).2 7 0) :=
          a3
        refine ⟨a1, by omega, by omega, fun _ => Or.inr (by omega)⟩
      · have hflag : (move_to_foundation { r.2 with source := i }).1 = false := by
          rw [move_to_foundation_flag]
          simpa using hm
        rw [if_neg (by simp [hflag]), move_to_foundation_fail _ hm]
        obtain ⟨a1, a2, a3, a4⟩ := ih (i + 1) (r.1, { r.2 with source := i }) (by omega)
          (by omega) hc
        simp only [counts_sum_source] at a2 a3 a4
        exact ⟨a1, a2, a3, a4⟩
    · rw [if_neg h1]
      exact ih (i + 1) r (by omega) (by omega) hc

theorem sweep_flag_true (n : Nat) (i : Int) (x : State) : (sweep_pass n i (true, x)).1 = true := by
  induction n generalizing i x with
  | zero => rfl
  | succ n ih =>
    rw [sweep_pass_eq]
    split_ifs
    · exact ih _ _
    · exact ih _ _
    · exact ih _ _

/-- A sweep pass that reports no move has made none: it has only written `source`, and
no non-empty pile it went over had a top card that a foundation accepts. -/
theorem sweep_fail (n : Nat) (i : Int) (r : Bool × State)
    (h : (sweep_pass n i r).1 = false) :
    r.1 = false ∧ (∃ src, (sweep_pass n i r).2 = { r.2 with source := src })
      ∧ ∀ j, i ≤ j → j < i + n → r.2.tableau_count j > 0 →
          ¬ can_move_to_foundations { r.2 with source := j } ≤ 3 := by
  induction n generalizing i r with
  | zero =>
    simp only [sweep_pass] at h ⊢
    exact ⟨h, ⟨r.2.source, rfl⟩, fun j h1 h2 => by push_cast at h2; omega⟩
  | succ n ih =>
    rw [sweep_pass_eq] at h ⊢
    by_cases h1 : r.2.tableau_count i > 0
    · rw [if_pos h1] at h ⊢
      by_cases hm : can_move_to_foundations { r.2 with source := i } ≤ 3
      · have hflag : (move_to_foundation { r.2 with source := i }).1 = true := by
          rw [move_to_foundation_flag]
          simpa using hm
        rw [if_pos hflag, sweep_flag_true] at h
        exact absurd h (by decide)
      · have hflag : (move_to_foundation { r.2 with source := i }).1 = false := by
          rw [move_to_foundation_flag]
          simpa using hm
        rw [if_neg (by simp [hflag]), move_to_foundation_fail _ hm] at h ⊢
        obtain ⟨a1, ⟨src, a2⟩, a3⟩ := ih (i + 1) (r.1, { r.2 with source := i }) h
        refine ⟨a1, ⟨src, by rw [a2]⟩, fun j hj0 hj1 hpos => ?_⟩
        by_cases hji : j = i
        · rw [hji]
          exact hm
        · exact a3 j (by omega) (by push_cast at hj1; omega) hpos
    · rw [if_neg h1] at h ⊢
      obtain ⟨a1, a2, a3⟩ := ih (i + 1) r h
      refine ⟨a1, a2, fun j hj0 hj1 hpos => ?_⟩
      by_cases hji : j = i
      · rw [hji] at hpos
        exact absurd hpos h1
      · exact a3 j (by omega) (by push_cast at hj1; omega) hpos

theorem can_move_to_foundations_empty (u : State) (h0 : 0 ≤ u.source) (h6 : u.source ≤ 6)
    (he : u.tableau_count u.source = 0) : can_move_to_foundations u = 4 := by
  unfold can_move_to_foundations get_source_card
  have h1 : ¬ (u.source < 0 ∨ u.source ≥ 8) := by omega
  have h2 : ¬ u.source = 7 := by omega
  simp [h1, h2, he]

theorem auto_move_mono (fuel : Nat) (s t : State)
    (h : automatically_move_to_foundations fuel s = some t) (extra : Nat) :
    automatically_move_to_foundations (fuel + extra) s = some t := by
  induction fuel generalizing s with
  | zero => simp [automatically_move_to_foundations] at h
  | succ n ih =>
    have e : n + 1 + extra = (n + extra) + 1 := by omega
    rw [e]
    simp only [automatically_move_to_foundations] at h ⊢
    split_ifs at h ⊢ with hs
    · exact ih _ h
    · exact h

/-- The sweep returns within (number of tableau cards + 1) passes, at a state where no
pile has a top card that a foundation accepts. -/
theorem auto_move_returns (fuel : Nat) (s : State)
    (hc : ∀ p, 0 ≤ p → p ≤ 6 → 0 ≤ s.tableau_count p)
    (hfuel : counts_sum s 7 0 < fuel) :
    ∃ t, automatically_move_to_foundations fuel s = some t
      ∧ (∀ p, 0 ≤ p → p ≤ 6 → 0 ≤ t.tableau_count p)
      ∧ counts_sum t 7 0 ≤ counts_sum s 7 0
      ∧ t.score = s.score + 5 * (counts_sum s 7 0 - counts_sum t 7 0)
      ∧ ∀ j, 0 ≤ j → j ≤ 6 → can_move_to_foundations { t with source := j } = 4 := by
  induction fuel generalizing s with
  | zero =>
    have := counts_sum_nonneg s 7 0 (fun q h1 h2 => hc q h1 (by push_cast at h2; omega))
    push_cast at hfuel
    omega
  | succ n ih =>
    obtain ⟨a1, a2, a3, a4⟩ := sweep_measure 7 0 (false, s) (le_refl _) (by norm_num) hc
    simp only [automatically_move_to_foundations]
    by_cases hs : (sweep_pass 7 0 (false, s)).1 = true
    · rw [if_pos hs]
      have hlt : counts_sum (sweep_pass 7 0 (false, s)).2 7 0 < counts_sum s 7 0 := by
        rcases a4 hs with h | h
        · exact absurd h (by simp)
        · exact h
      have b3 : (sweep_pass 7 0 (false, s)).2.score
          = s.score + 5 * (counts_sum s 7 0 - counts_sum (sweep_pass 7 0 (false, s)).2 7 0) := a3
      generalize (sweep_pass 7 0 (false, s)).2 = m at a1 hlt b3 ⊢
      obtain ⟨t, ht, c1, c2, c3, c4⟩ := ih m a1 (by push_cast at hfuel; omega)
      exact ⟨t, ht, c1, by omega, by omega, c4⟩
    · rw [if_neg hs]
      have hs' : (sweep_pass 7 0 (false, s)).1 = false := by simpa using hs
      obtain ⟨-, ⟨src, e⟩, hfail⟩ := sweep_fail 7 0 (false, s) hs'
      refine ⟨_, rfl, a1, a2, a3, fun j hj0 hj6 => ?_⟩
      rw [e]
      show can_move_to_foundations { s with source := j } = 4
      by_cases hpos : s.tableau_count j > 0
      · have := hfail j hj0 (by push_cast; omega) hpos
        have hr := can_move_to_foundations_range { s with source := j }
        simp only at this
        omega
      · exact can_move_to_foundations_empty { s with source := j } hj0 hj6
          (by have := hc j hj0 hj6; show s.tableau_count j = 0; omega)

/-- C22. Auto-sweep terminates at a fixpoint: for every state with non-negative pile
counts (in particular `0 ≤ tableau_count[i] ≤ 19`), `automatically_move_to_foundations`
returns within (total tableau cards + 1) full passes, because every pass but the last
moves at least one card and each successful move takes one card off the tableau; on
return `can_move_to_foundations` gives 4 for every source 0..6, and the score has
grown by exactly 5 per card moved. -/
theorem auto_sweep_terminates (s : State)
    (hc : ∀ p, 0 ≤ p → p ≤ 6 → 0 ≤ s.tableau_count p ∧ s.tableau_count p ≤ 19) :
    ∃ t, automatically_move_to_foundations ((counts_sum s 7 0).toNat + 1) s = some t
      ∧ (∀ fuel, (counts_sum s 7 0).toNat + 1 ≤ fuel →
          automatically_move_to_foundations fuel s = some t)
      ∧ 0 ≤ counts_sum t 7 0 ∧ counts_sum t 7 0 ≤ counts_sum s 7 0
      ∧ t.score = s.score + 5 * (counts_sum s 7 0 - counts_sum t 7 0)
      ∧ (∀ j, 0 ≤ j → j ≤ 6 → can_move_to_foundations { t with source := j } = 4)
      ∧ (∀ (u : State) (i : Int), 0 ≤ i → i ≤ 6 →
          can_move_to_foundations { u with source := i } ≤ 3 →
          (move_to_foundation { u with source := i }).1 = true
            ∧ counts_sum (move_to_foundation { u with source := i }).2 7 0
                = counts_sum u 7 0 - 1
            ∧ (move_to_foundation { u with source := i }).2.score = u.score + 5)
      ∧ (∀ u : State, (sweep_pass 7 0 (false, u)).1 = true →
          (∀ p, 0 ≤ p → p ≤ 6 → 0 ≤ u.tableau_count p) →
          counts_sum (sweep_pass 7 0 (false, u)).2 7 0 < counts_sum u 7 0) := by
  have hc0 : ∀ p, 0 ≤ p → p ≤ 6 → 0 ≤ s.tableau_count p := fun p h0 h6 => (hc p h0 h6).1
  have hnn := counts_sum_nonneg s 7 0 (fun q h1 h2 => hc0 q h1 (by push_cast at h2; omega))
  obtain ⟨t, ht, c1, c2, c3, c4⟩ := auto_move_returns ((counts_sum s 7 0).toNat + 1) s hc0
    (by push_cast; omega)
  have hnt := counts_sum_nonneg t 7 0 (fun q h1 h2 => c1 q h1 (by push_cast at h2; omega))
  refine ⟨t, ht, fun fuel hf => ?_, hnt, c2, c3, c4, fun u i hi0 hi6 hm => ?_,
    fun u hflag hcu => ?_⟩
  · obtain ⟨k, rfl⟩ : ∃ k, fuel = (counts_sum s 7 0).toNat + 1 + k := ⟨fuel - ((counts_sum s 7 0).toNat + 1), by omega⟩
    exact auto_move_mono _ s t ht k
  · obtain ⟨e1, e2⟩ := move_from_pile { u with source := i } (by show i ≠ 7; omega) hm
    refine ⟨by rw [move_to_foundation_flag]; simpa using hm, ?_, e2⟩
    have := counts_sum_dec { u with source := i } (move_to_foundation { u with source := i }).2
      i hi0 hi6 e1
    rw [counts_sum_source] at this
    exact this
  · obtain ⟨-, -, -, a4⟩ := sweep_measure 7 0 (false, u) (le_refl _) (by norm_num) hcu
    rcases a4 hflag with h | h
    · exact absurd h (by simp)
    · exact h

theorem aceState_counts (p : Int) :
    0 ≤ aceState.tableau_count p ∧ aceState.tableau_count p ≤ 19 := by
  show 0 ≤ (if p = 2 then (1 : Int) else 0) ∧ (if p = 2 then (1 : Int) else 0) ≤ 19
  split_ifs <;> omega

theorem auto_sweep_terminates_witness :
    (∀ p, 0 ≤ p → p ≤ 6 → 0 ≤ aceState.tableau_count p ∧ aceState.tableau_count p ≤ 19)
      ∧ ∃ t, automatically_move_to_foundations ((counts_sum aceState 7 0).toNat + 1) aceState
            = some t
          ∧ can_move_to_foundations { t with source := 2 } = 4 := by
  refine ⟨fun p _ _ => aceState_counts p, ?_⟩
  obtain ⟨t, h1, -, -, -, -, h6, -⟩ :=
    auto_sweep_terminates aceState (fun p _ _ => aceState_counts p)
  exact ⟨t, h1, h6 2 (by decide) (by decide)⟩

/-! ## Full-pile move execution and the face-up run invariant (C26, C27) -/

/-- The state after a full-pile move, field by field. -/
theorem move_pile_eq (s : State) (h1 : can_move_single_card_to_tableau s = false)
    (h2 : can_move_pile_to_tableau s = true)
    (hle : s.hidden_count s.source ≤ s.tableau_count s.source) :
    move_to_tableau s
      = { s with
          tableau := fun a q =>
            if a = s.selection ∧ s.tableau_count s.selection ≤ q
                ∧ q < s.tableau_count s.selection
                  + (s.tableau_count s.source - s.hidden_count s.source)
            then s.tableau s.source (s.hidden_count s.source + (q - s.tableau_count s.selection))
            else s.tableau a q
          tableau_count := setAt
            (setAt s.tableau_count s.selection
              (s.tableau_count s.selection
                + (s.tableau_count s.source - s.hidden_count s.source)))
            s.source (s.hidden_count s.source)
          hidden_count :=
            if s.hidden_count s.source > 0
            then setAt s.hidden_count s.source (s.hidden_count s.source - 1)
            else s.hidden_count } := by
  obtain ⟨hne, -, -, -, -⟩ := can_move_pile_spec s h2
  have hn : (((s.tableau_count s.source - s.hidden_count s.source).toNat : Nat) : Int)
      = s.tableau_count s.source - s.hidden_count s.source := by omega
  rw [move_to_tableau_eq, if_neg (by simp [h1]), if_pos h2, move_run_eq s hne, hn]

/-- C26. Full-pile move execution: in a state whose source pile satisfies the tableau
invariant, in which the single-card move is not legal and `can_move_pile_to_tableau`
holds, with `h = hidden_count[source]` and `n = tableau_count[source]`,
`move_to_tableau` appends the face-up cards `tableau[source][h..n-1]` in the same order
on top of pile `selection` (its count grows by `n - h`, its earlier cards and its
`hidden_count` are unchanged), sets `tableau_count[source] = h`, and flips the new top
card of the source: `hidden_count[source]` becomes `h - 1` if `h > 0` and stays 0
otherwise; the other piles, the stock, the talon, the foundations and the score are
unchanged. -/
theorem full_pile_move_execution (s : State) (hinv : pile_counts_ok s s.source)
    (h1 : can_move_single_card_to_tableau s = false)
    (h2 : can_move_pile_to_tableau s = true) :
    s.selection ≠ s.source
      ∧ (move_to_tableau s).tableau_count s.selection
          = s.tableau_count s.selection
            + (s.tableau_count s.source - s.hidden_count s.source)
      ∧ (∀ k, 0 ≤ k → k < s.tableau_count s.source - s.hidden_count s.source →
          (move_to_tableau s).tableau s.selection (s.tableau_count s.selection + k)
            = s.tableau s.source (s.hidden_count s.source + k))
      ∧ (∀ q, q < s.tableau_count s.selection →
          (move_to_tableau s).tableau s.selection q = s.tableau s.selection q)
      ∧ (move_to_tableau s).hidden_count s.selection = s.hidden_count s.selection
      ∧ (move_to_tableau s).tableau_count s.source = s.hidden_count s.source
      ∧ (move_to_tableau s).tableau s.source = s.tableau s.source
      ∧ (0 < s.hidden_count s.source →
          (move_to_tableau s).hidden_count s.source = s.hidden_count s.source - 1)
      ∧ (s.hidden_count s.source = 0 → (move_to_tableau s).hidden_count s.source = 0)
      ∧ (∀ p, p ≠ s.selection → p ≠ s.source →
          (move_to_tableau s).tableau p = s.tableau p
            ∧ (move_to_tableau s).tableau_count p = s.tableau_count p
            ∧ (move_to_tableau s).hidden_count p = s.hidden_count p)
      ∧ (move_to_tableau s).stock = s.stock
      ∧ (move_to_tableau s).stock_count = s.stock_count
      ∧ (move_to_tableau s).talon = s.talon
      ∧ (move_to_tableau s).talon_showing = s.talon_showing
      ∧ (move_to_tableau s).foundation = s.foundation
      ∧ (move_to_tableau s).score = s.score := by
  obtain ⟨c1, c2, c3⟩ := hinv
  obtain ⟨hne, -, -, -, -⟩ := can_move_pile_spec s h2
  rw [move_pile_eq s h1 h2 c2]
  refine ⟨hne, ?_, ?_, ?_, ?_, ?_, ?_, ?_, ?_, ?_, rfl, rfl, rfl, rfl, rfl, rfl⟩
  · simp only [setAt_apply]
    rw [if_neg hne]
    simp only [if_true]
  · intro k hk0 hk1
    simp only
    rw [if_pos ⟨trivial, by omega, by omega⟩]
    congr 1
    omega
  · intro q hq
    simp only
    rw [if_neg (by omega)]
  · simp only
    split_ifs with hh
    · simp only [setAt_apply]
      rw [if_neg hne]
    · rfl
  · simp only [setAt_apply, if_true]
  · funext q
    simp only
    rw [if_neg (fun hh => hne hh.1.symm)]
  · intro hpos
    simp only
    rw [if_pos hpos]
    simp only [setAt_apply, if_true]
  · intro hz
    simp only
    rw [if_neg (by omega)]
    exact hz
  · intro p hp1 hp2
    refine ⟨?_, ?_, ?_⟩
    · funext q
      simp only
      rw [if_neg (fun hh => hp1 hh.1)]
    · simp only [setAt_apply]
      rw [if_neg hp2, if_neg hp1]
    · simp only
      split_ifs with hh
      · simp only [setAt_apply]
        rw [if_neg hp2]
      · rfl

theorem full_pile_move_execution_witness :
    can_move_single_card_to_tableau runState = false
      ∧ can_move_pile_to_tableau runState = true
      ∧ (move_to_tableau runState).tableau_count 0 = 3
      ∧ (move_to_tableau runState).tableau 0 1 = 18
      ∧ (move_to_tableau runState).tableau 0 2 = 13
      ∧ (move_to_tableau runState).tableau_count 2 = 1
      ∧ (move_to_tableau runState).hidden_count 2 = 0 := by
  have hs : can_move_single_card_to_tableau runState = false := by decide
  have hp : can_move_pile_to_tableau runState = true := by decide
  have hinv : pile_counts_ok runState runState.source := by
    unfold pile_counts_ok
    decide
  obtain ⟨-, e1, e2, -, -, e5, -, e7, -⟩ := full_pile_move_execution runState hinv hs hp
  refine ⟨hs, hp, e1, ?_, ?_, e5, e7 (by decide)⟩
  · exact e2 0 (by decide) (by decide)
  · exact e2 1 (by decide) (by decide)

/-- Removing the source card keeps every pile a pile with a face-up run. -/
theorem remove_source_card_piles (t : State) (hp : ∀ p, 0 ≤ p → p ≤ 6 → pile_ok t p)
    (hcard : 0 ≤ get_source_card t) :
    ∀ p, 0 ≤ p → p ≤ 6 → pile_ok (remove_source_card t) p := by
  intro p hp0 hp6
  rcases get_source_card_nonneg t hcard with ⟨h7, -, -⟩ | ⟨h0, h6, hne, -⟩
  · exact pile_ok_frame t _ p (by rw [remove_source_card_talon t h7])
      (by rw [remove_source_card_talon t h7]) (by rw [remove_source_card_talon t h7])
      (hp p hp0 hp6)
  · have h7 : t.source ≠ 7 := by omega
    have e := remove_source_card_pile t h7
    by_cases hps : p = t.source
    · subst hps
      have hpos : 0 < t.tableau_count t.source := by
        obtain ⟨⟨a, b, -⟩, -, -⟩ := hp t.source h0 h6
        omega
      refine pile_ok_pop t _ t.source (by rw [e]) ?_ ?_ hpos (hp t.source h0 h6)
      · rw [e]
        simp only [setAt_apply, if_true]
      · rw [e]
        simp only
        split_ifs with hh
        · simp only [setAt_apply, if_true]
        · rfl
    · refine pile_ok_frame t _ p (by rw [e]) ?_ ?_ (hp p hp0 hp6)
      · rw [e]
        simp only [setAt_apply]
        rw [if_neg hps]
      · rw [e]
        simp only
        split_ifs with hh
        · simp only [setAt_apply]
          rw [if_neg hps]
        · rfl

/-- C27. Face-up run invariant: in every state reachable from a deal by the four
commands, each pile has `0 ≤ hidden_count ≤ 6`, a non-empty pile has at least one
face-up card (`hidden_count < tableau_count`), and the face-up cards
`tableau[i][hidden_count[i]..tableau_count[i]-1]` form a run in which each card has rank
exactly one less than, and colour opposite to, the card beneath it, so a run has at
most 13 cards.  `move_to_tableau`, `move_to_foundation` and `remove_source_card` (when
there is a source card) each preserve this, on a state satisfying the board
invariant. -/
theorem face_up_run_invariant (s : State) (h : Reachable s) :
    (∀ i, 0 ≤ i → i ≤ 6 →
        0 ≤ s.hidden_count i ∧ s.hidden_count i ≤ 6
          ∧ s.hidden_count i ≤ s.tableau_count i
          ∧ (0 < s.tableau_count i → s.hidden_count i < s.tableau_count i)
          ∧ (∀ j, s.hidden_count i ≤ j → j + 1 < s.tableau_count i →
              rank_of (s.tableau i (j + 1)) + 1 = rank_of (s.tableau i j)
                ∧ colour_of (suit_of (s.tableau i (j + 1)))
                    ≠ colour_of (suit_of (s.tableau i j)))
          ∧ s.tableau_count i - s.hidden_count i ≤ 13)
      ∧ (∀ t, board_ok t → 0 ≤ t.selection → t.selection ≤ 6 → 0 ≤ t.source →
          ∀ p, 0 ≤ p → p ≤ 6 → pile_ok (move_to_tableau t) p)
      ∧ (∀ t, board_ok t → ∀ p, 0 ≤ p → p ≤ 6 → pile_ok (move_to_foundation t).2 p)
      ∧ (∀ t, (∀ p, 0 ≤ p → p ≤ 6 → pile_ok t p) → 0 ≤ get_source_card t →
          ∀ p, 0 ≤ p → p ≤ 6 → pile_ok (remove_source_card t) p) := by
  have hb := (reachable_game_ok s h).1
  refine ⟨fun i h0 h6 => ?_, fun t ht a b c => (move_to_tableau_board t ht a b c).2.1,
    fun t ht => (move_to_foundation_board t ht).2.1,
    fun t ht hc => remove_source_card_piles t ht hc⟩
  obtain ⟨⟨c1, c2, c3⟩, c4, c5⟩ := hb.2.1 i h0 h6
  obtain ⟨-, -, -, -, c6⟩ := pile_count_le s hb i h0 h6
  exact ⟨c1, c4, c2, c3, c5, c6⟩

theorem face_up_run_invariant_witness :
    Reachable dealState ∧ dealState.hidden_count 6 ≤ 6
      ∧ dealState.tableau_count 6 - dealState.hidden_count 6 ≤ 13 :=
  ⟨dealState_reachable,
    ((face_up_run_invariant dealState dealState_reachable).1 6 (by decide) (by decide)).2.1,
    ((face_up_run_invariant dealState dealState_reachable).1 6 (by decide)
      (by decide)).2.2.2.2.2⟩

/-! ## Re-validation of the cursor (C21) -/

/-- C21, counterexample: after the Ace has been moved from pile 2 onto pile 0 the
select command calls `select_valid_pile` in source mode with the selection on pile 0,
which is a valid source, and `source` still 2; the call sets `source` to 0, so it does
not leave the state unchanged. -/
theorem select_valid_pile_writes_source :
    landedState.mode = 0 ∧ landedState.selection = 0 ∧ landedState.source = 2
      ∧ (source_pile_is_valid landedState).1 = true
      ∧ (∃ t, select_valid_pile 9 landedState = some t ∧ t.source = 0)
      ∧ select_valid_pile 9 landedState ≠ some landedState := by
  have hv : (source_pile_is_valid landedState).1 = true := by decide
  have hm : landedState.mode = 0 := rfl
  have he : select_valid_pile 9 landedState = some (source_pile_is_valid landedState).2 := by
    rw [select_valid_pile_eq, if_pos hm, if_pos hv]
  have hsrc : (source_pile_is_valid landedState).2.source = 0 := by
    rw [source_pile_is_valid_source]
    decide
  refine ⟨hm, by decide, by decide, hv, ⟨_, he, hsrc⟩, fun hc => ?_⟩
  rw [he] at hc
  simp only [Option.some.injEq] at hc
  rw [hc] at hsrc
  exact absurd hsrc (by decide)

/-- C21 (amended). `select_valid_pile` on a valid cursor: in source mode, when
`source_pile_is_valid` holds, the call leaves every field unchanged except `source`,
which becomes the selection when the selection is a pile (so the whole state is
unchanged when the selection is the talon or `source` already equals the selection);
in destination mode, when `destination_pile_is_valid` holds, it leaves the whole state
unchanged, mode, selection and source included.  Otherwise its result is that of
`select_next_valid_pile`, run in source mode on the state in which `source` has been set
to the selection. -/
theorem select_valid_pile_on_valid_cursor (fuel : Nat) (s : State) :
    (s.mode = 0 → (source_pile_is_valid s).1 = true →
        select_valid_pile fuel s
          = some { s with source := if s.selection = 7 then s.source else s.selection })
      ∧ (s.mode = 0 → (source_pile_is_valid s).1 = true →
          (s.selection = 7 ∨ s.source = s.selection) → select_valid_pile fuel s = some s)
      ∧ (s.mode ≠ 0 → destination_pile_is_valid s = true → select_valid_pile fuel s = some s)
      ∧ (s.mode = 0 → (source_pile_is_valid s).1 = false →
          s.selection ≠ 7
            ∧ select_valid_pile fuel s
              = select_next_valid_pile fuel { s with source := s.selection })
      ∧ (s.mode ≠ 0 → destination_pile_is_valid s = false →
          select_valid_pile fuel s = select_next_valid_pile fuel s) := by
  have hst : (source_pile_is_valid s).2
      = { s with source := if s.selection = 7 then s.source else s.selection } := by
    rw [source_pile_is_valid_state]
    split_ifs <;> rfl
  refine ⟨fun hm hv => ?_, fun hm hv hc => ?_, fun hm hv => ?_, fun hm hv => ?_,
    fun hm hv => ?_⟩
  · rw [select_valid_pile_eq, if_pos hm, if_pos hv, hst]
  · rw [select_valid_pile_eq, if_pos hm, if_pos hv, hst]
    rcases hc with h7 | hs
    · rw [if_pos h7]
    · split_ifs
      · rfl
      · congr 1
        cases s
        simp only at hs
        subst hs
        rfl
  · rw [select_valid_pile_eq, if_neg hm, if_pos hv]
  · have h7 : s.selection ≠ 7 := by
      intro h7
      have : (source_pile_is_valid s).1 = true := by
        unfold source_pile_is_valid
        simp only [h7, if_true]
      rw [this] at hv
      exact absurd hv (by decide)
    refine ⟨h7, ?_⟩
    rw [select_valid_pile_eq, if_pos hm, if_neg (by simp [hv]), hst, if_neg h7]
  · rw [select_valid_pile_eq, if_neg hm, if_neg (by simp [hv])]

theorem select_valid_pile_on_valid_cursor_witness :
    aceState.mode ≠ 0 ∧ destination_pile_is_valid aceState = true
      ∧ select_valid_pile 9 aceState = some aceState
      ∧ select_valid_pile 9 landedState = some { landedState with source := 0 } :=
  ⟨by decide, by decide,
    (select_valid_pile_on_valid_cursor 9 aceState).2.2.1 (by decide) (by decide),
    (select_valid_pile_on_valid_cursor 9 landedState).1 rfl (by decide)⟩

/-! ## The draw-mode toggle on an empty stock (C25) -/

theorem emptyStockState_cards :
    all_cards emptyStockState
      = [48, 44, 40, 36, 32, 28, 24, 20, 16, 12, 8, 4, 0,
         49, 45, 41, 37, 33, 29, 25, 21, 17, 13, 9, 5, 1,
         50, 46, 42, 38, 34, 30, 26, 22, 18, 14, 10, 6, 2,
         51, 47, 43, 39, 35, 31, 27, 23, 19, 15, 11, 7, 3] := by
  decide

theorem emptyStockState_board : board_ok emptyStockState := by
  refine ⟨?_, fun p _ _ => ?_, fun i h0 h3 => ?_, fun c => ?_, ?_⟩
  · unfold stock_ok
    decide
  · have hc : emptyStockState.tableau_count p = 0 := rfl
    have hh : emptyStockState.hidden_count p = 0 := rfl
    unfold pile_ok pile_counts_ok run_ok
    rw [hc, hh]
    refine ⟨⟨le_refl _, le_refl _, fun h => absurd h (by decide)⟩, by decide, ?_⟩
    intro j _ hj
    omega
  · show -1 ≤ 48 + i
    omega
  · rw [emptyStockState_cards]
    by_cases h : 0 ≤ c ∧ c ≤ 51
    · rw [if_pos h]
      obtain ⟨h0, h1⟩ := h
      interval_cases c <;> rfl
    · rw [if_neg h]
      apply List.count_eq_zero_of_not_mem
      intro hm
      simp only [List.mem_cons, List.mem_singleton, List.not_mem_nil, or_false] at hm
      omega
  · decide

/-- C25, failing input: the finished game in draw-one mode satisfies the board
invariant and has an empty stock; switching it to draw-three sets `talon_showing` to
-1, which is outside 0..2, and `get_source_card` on the talon then passes its guard and
reads `stock[-1]`. -/
theorem draw_toggle_on_empty_stock :
    board_ok emptyStockState ∧ emptyStockState.stock_count = 0
      ∧ emptyStockState.draw_setting = 0 ∧ emptyStockState.talon_showing = 0
      ∧ (settings_menu_select_callback 0 emptyStockState).draw_setting = 1
      ∧ (settings_menu_select_callback 0 emptyStockState).talon_showing = -1
      ∧ ¬ (0 ≤ (settings_menu_select_callback 0 emptyStockState).talon_showing)
      ∧ get_source_card { settings_menu_select_callback 0 emptyStockState with source := 7 }
          = (settings_menu_select_callback 0 emptyStockState).stock (-1) :=
  ⟨emptyStockState_board, rfl, rfl, rfl, by decide, by decide, by decide, by decide⟩

end Solitaire
